import Mathlib

/-!
# Keyword and end-of-line translation of `libsvn_subr/subst.c`

A shallow embedding of the keyword rewriter (`translate_keyword_subst`,
`translate_keyword`), the newline translator (`translate_newline`) and the
streaming translator (`svn_subst_translate_stream3`).

Conventions of the embedding.

* A byte is a natural number (`'$'` is 36, `':'` is 58, `' '` is 32, `'#'` is 35,
  CR is 13, LF is 10, NUL is 0).
* A C array together with its length or offset variable (`buf` / `*len`,
  `keyword_buf` / `keyword_off`, `newline_buf` / `newline_off`,
  `src_format` / `src_format_len`) is the list of its valid bytes; the length
  variable is the length of the list.  A read at an index is `List.getD _ _ 0`.
* A counted string `svn_string_t` is the list of its `len` bytes; a C string is
  a list read up to its first NUL (`c_str`).
* `assert` failures are the result `none` of the rewriter and `stop.assertion`
  of the translator.
-/

namespace SvnSubst

/-! ## C library helpers -/

/-- The bytes of a string literal, used to write examples. -/
def bytes (s : String) : List Nat := s.toList.map Char.toNat

/-- The C string held in a char array: the bytes before the first NUL. -/
def c_str (s : List Nat) : List Nat := s.takeWhile (fun b => b ≠ 0)

/-- The function `strlen`. -/
def strlen (s : List Nat) : Nat := (c_str s).length

/-- The function `strncmp (a, b, n)`, as the truth value of its result (`true`
when the result is non-zero, that is when the strings differ within `n`
bytes).  A list is followed by its terminating NUL. -/
def strncmp : List Nat → List Nat → Nat → Bool
  | _, _, 0 => false
  | a, b, n + 1 =>
    if a.headD 0 ≠ b.headD 0 then true
    else if a.headD 0 = 0 then false
    else strncmp a.tail b.tail n

/-- The `n` bytes that `strncpy (dst, src, n)` stores: the bytes of `src` up to
its first NUL, then NUL padding.  `src` is followed by its terminating NUL. -/
def strncpy_bytes : List Nat → Nat → List Nat
  | _, 0 => []
  | [], n + 1 => List.replicate (n + 1) 0
  | c :: cs, n + 1 => if c = 0 then List.replicate (n + 1) 0 else c :: strncpy_bytes cs n

/-- Store the bytes `bs` into the array `buf` from index `off` on.  Bytes of the
array between its valid part and `off` read as NUL. -/
def write_at (buf : List Nat) (off : Nat) (bs : List Nat) : List Nat :=
  buf.take off ++ List.replicate (off - buf.length) 0 ++ bs ++ buf.drop (off + bs.length)

/-- The assignment `buf[i] = b`. -/
def poke (buf : List Nat) (i : Nat) (b : Nat) : List Nat := write_at buf i [b]

/-- The call `strncpy (buf + off, src, n)`. -/
def strncpy (buf : List Nat) (off : Nat) (src : List Nat) (n : Nat) : List Nat :=
  write_at buf off (strncpy_bytes src n)

/-! ## The keyword table -/

/-- Modelled from the spec: the constant `SVN_KEYWORD_MAX_LEN` of `svn_subst.h`,
the maximum length of a keyword token, 255 bytes with the two dollar signs. -/
def SVN_KEYWORD_MAX_LEN : Nat := 255

/-- The hash `apr_hash_t *keywords`, from keyword names (C strings) to values
(`svn_string_t`), as an association list. -/
abbrev apr_hash_t := List (List Nat × List Nat)

/-- The call `apr_hash_get (h, key, APR_HASH_KEY_STRING)`. -/
def apr_hash_get : apr_hash_t → List Nat → Option (List Nat)
  | [], _ => none
  | (k, v) :: rest, key => if k = key then some v else apr_hash_get rest key

/-! ## The keyword rewriter -/

/-- The loop `while (*buf_ptr != '$') *(buf_ptr++) = ' ';` run on the bytes from
`buf_ptr` on. -/
def fill_spaces : List Nat → List Nat
  | [] => []
  | b :: rest => if b = 36 then b :: rest else 32 :: fill_spaces rest

/-- The expansion `"$keyword: value $"` (or `"$keyword: $"`) shared by the
unexpanded and the expanded branch of `translate_keyword_subst`; `p` is the
index `buf_ptr - buf`.  The result is the array cut at the new `*len`. -/
def expand_at (buf : List Nat) (p : Nat) (keyword_len : Nat) (value : List Nat) : List Nat :=
  let buf := poke buf p 58
  let buf := poke buf (p + 1) 32
  if value.length ≠ 0 then
    let vallen := value.length
    let vallen := if vallen > SVN_KEYWORD_MAX_LEN - 5 then SVN_KEYWORD_MAX_LEN - 5 else vallen
    let buf := strncpy buf (p + 2) value vallen
    let buf := poke buf (p + 2 + vallen) 32
    let buf := poke buf (p + 2 + vallen + 1) 36
    buf.take (5 + keyword_len + vallen)
  else
    let buf := poke buf (p + 2) 36
    buf.take (4 + keyword_len)

/-- The function `translate_keyword_subst (buf, len, keyword, keyword_len, value)`.
`buf` is the token (`*len` is its length), `keyword_len` is the length of
`keyword`, `value` is `none` for a NULL value (contract).  The result is `none`
when an assertion fails, else the returned boolean and the array cut at the new
`*len`.  The array is not bounded here: an index from `SVN_KEYWORD_MAX_LEN` on
is outside the C array `keyword_buf`. -/
def translate_keyword_subst (buf : List Nat) (keyword : List Nat)
    (value : Option (List Nat)) : Option (Bool × List Nat) :=
  let len := buf.length
  let keyword_len := keyword.length
  if ¬ len ≤ SVN_KEYWORD_MAX_LEN then none
  else if ¬ (buf.getD 0 0 = 36 ∧ buf.getD (len - 1) 0 = 36) then none
  else if len < keyword_len + 2 then some (false, buf)
  else if strncmp (buf.drop 1) keyword keyword_len then some (false, buf)
  else
    let p := 1 + keyword_len
    if buf.getD p 0 = 58 ∧ buf.getD (p + 1) 0 = 58 ∧ buf.getD (p + 2) 0 = 32
        ∧ (buf.getD (len - 2) 0 = 32 ∨ buf.getD (len - 2) 0 = 35)
        ∧ 6 + keyword_len < len then
      let max_value_len := len - (6 + keyword_len)
      match value with
      | none => some (true, buf.take (p + 2) ++ fill_spaces (buf.drop (p + 2)))
      | some v =>
        if v.length ≤ max_value_len then
          let buf := strncpy buf (p + 3) v v.length
          some (true, buf.take (p + 3 + v.length) ++ fill_spaces (buf.drop (p + 3 + v.length)))
        else
          let buf := strncpy buf (p + 3) v max_value_len
          let buf := poke buf (len - 2) 35
          let buf := poke buf (len - 1) 36
          some (true, buf)
    else if buf.getD p 0 = 36 ∨ (buf.getD p 0 = 58 ∧ buf.getD (p + 1) 0 = 36) then
      match value with
      | some v => some (true, expand_at buf p keyword_len v)
      | none => some (true, buf)
    else if len ≥ 4 + keyword_len ∧ buf.getD p 0 = 58 ∧ buf.getD (p + 1) 0 = 32
        ∧ buf.getD (len - 2) 0 = 32 then
      match value with
      | none => some (true, (poke buf p 36).take (2 + keyword_len))
      | some v => some (true, expand_at buf p keyword_len v)
    else some (false, buf)

/-- The loop of `translate_keyword` that extracts the keyword name: the bytes
`buf[1]`, `buf[2]`, ... while the index stays below `*len - 1` and the byte is
not a colon. -/
def keyword_name (buf : List Nat) : List Nat :=
  ((buf.drop 1).take (buf.length - 2)).takeWhile (fun b => b ≠ 58)

/-- The function `translate_keyword (buf, len, expand, keywords)`.  The result
is `none` when an assertion fails (or, with a table, `*len` is below 2, where
the unsigned `*len - 2` of the loop wraps), else the returned boolean and the
array cut at the new `*len`. -/
def translate_keyword (buf : List Nat) (expand : Bool)
    (keywords : Option apr_hash_t) : Option (Bool × List Nat) :=
  let len := buf.length
  if ¬ len ≤ SVN_KEYWORD_MAX_LEN then none
  else if ¬ (buf.getD 0 0 = 36 ∧ buf.getD (len - 1) 0 = 36) then none
  else
    match keywords with
    | none => some (false, buf)
    | some kw =>
      if len < 2 then none
      else
        let name := c_str (keyword_name buf)
        match apr_hash_get kw name with
        | some value => translate_keyword_subst buf name (if expand then some value else none)
        | none => some (false, buf)


deriving instance DecidableEq for Except

/-! ## The newline translator -/

/-- What stops a translation: the error `SVN_ERR_IO_INCONSISTENT_EOL` (with the
bytes written to the destination stream before it), a failed `assert`, or a
loop of the model out of fuel. -/
inductive stop where
  | inconsistent_eol (dst : List Nat)
  | assertion
  | fuel
  deriving DecidableEq, Repr

/-- The function `translate_write (stream, buf, len)` on a destination stream
that takes every write: `dst` is what the stream holds. -/
def translate_write (dst : List Nat) (buf : List Nat) (len : Nat) : List Nat :=
  dst ++ buf.take len

/-- The function `translate_newline`.  `eol_str` is `none` for NULL (then
`eol_str_len` is 0).  The result is the new `src_format` and destination. -/
def translate_newline (eol_str : Option (List Nat)) (src_format : List Nat)
    (newline_buf : List Nat) (dst : List Nat) (repair : Bool) :
    Except stop (List Nat × List Nat) :=
  let eol := eol_str.getD []
  let eol_str_len := match eol_str with
    | some e => strlen e
    | none => 0
  let newline_len := newline_buf.length
  if src_format.length ≠ 0 then
    if (! repair) && (decide (src_format.length ≠ newline_len)
        || strncmp src_format newline_buf newline_len) then
      Except.error (stop.inconsistent_eol dst)
    else Except.ok (src_format, translate_write dst eol eol_str_len)
  else
    Except.ok (strncpy_bytes newline_buf newline_len, translate_write dst eol eol_str_len)

/-! ## The streaming translator -/

/-- The arguments of `svn_subst_translate_stream3` that stay fixed. -/
structure opts where
  eol_str : Option (List Nat)
  repair : Bool
  keywords : Option apr_hash_t
  expand : Bool

/-- The local state of `svn_subst_translate_stream3`: the destination stream and
the three carry buffers, each the list of its valid bytes (`newline_off`,
`keyword_off` and `src_format_len` are the lengths). -/
structure xlate where
  dst : List Nat
  newline_buf : List Nat
  keyword_buf : List Nat
  src_format : List Nat
  deriving DecidableEq, Repr

/-- The string `interesting`. -/
def interesting (o : opts) : List Nat :=
  if o.eol_str.isSome ∧ o.keywords.isSome then [36, 13, 10]
  else if o.eol_str.isSome then [13, 10]
  else [36]

/-- The function `strcspn (s, reject)`; `s` is followed by a NUL. -/
def strcspn (s reject : List Nat) : Nat :=
  (s.takeWhile (fun b => decide (b ≠ 0) && ! decide (b ∈ reject))).length

/-- The loop that skips a run of boring bytes, NULs included:
`while (1) { len += strcspn (p + len, interesting);
if (p[len] != 0 || p + len == buf + readlen) break; len++; }`.
`p` is the rest of the chunk, up to `buf + readlen`, where the sentinel NUL
stands.  `none` is the loop out of fuel. -/
def boring_len (p reject : List Nat) : Nat → Nat → Option Nat
  | 0, _ => none
  | fuel + 1, len =>
    let len := len + strcspn (p.drop len) reject
    if p.getD len 0 ≠ 0 ∨ len = p.length then some len
    else boring_len p reject fuel (len + 1)

/-- The second half of the body of the inner `for` loop: copy a run of boring
bytes, then set up the state for the interesting byte at `*p`, if any.  The
result is the new `p` and state. -/
def scan (o : opts) (p : List Nat) (st : xlate) : Except stop (List Nat × xlate) :=
  match boring_len p (interesting o) (p.length + 1) 0 with
  | none => Except.error stop.fuel
  | some len =>
    let st := if len ≠ 0 then { st with dst := translate_write st.dst p len } else st
    let p := p.drop len
    match p with
    | 36 :: q => Except.ok (q, { st with keyword_buf := st.keyword_buf ++ [36] })
    | 13 :: q => Except.ok (q, { st with newline_buf := st.newline_buf ++ [13] })
    | 10 :: q =>
      match translate_newline o.eol_str st.src_format (st.newline_buf ++ [10]) st.dst
          o.repair with
      | Except.error e => Except.error e
      | Except.ok (sf, dst) =>
        Except.ok (q, { st with newline_buf := [], src_format := sf, dst := dst })
    | _ => Except.ok (p, st)

/-- One pass through the body of the inner loop
`for (p = buf; p < buf + readlen;)`, at `p` with `p < buf + readlen`.  The
result is the new `p` and state. -/
def iteration (o : opts) (p : List Nat) (st : xlate) : Except stop (List Nat × xlate) :=
  match p with
  | [] => Except.ok (p, st)
  | c :: rest =>
    if st.newline_buf.length ≠ 0 then
      let nb := if c = 10 then st.newline_buf ++ [c] else st.newline_buf
      let p1 := if c = 10 then rest else p
      match translate_newline o.eol_str st.src_format nb st.dst o.repair with
      | Except.error e => Except.error e
      | Except.ok (sf, dst) =>
        scan o p1 { st with newline_buf := [], src_format := sf, dst := dst }
    else if st.keyword_buf.length ≠ 0 ∧ c = 36 then
      match translate_keyword (st.keyword_buf ++ [36]) o.expand o.keywords with
      | none => Except.error stop.assertion
      | some (true, kb) =>
        scan o rest { st with dst := translate_write st.dst kb kb.length, keyword_buf := [] }
      | some (false, kb) =>
        scan o p { st with dst := translate_write st.dst kb (kb.length - 1), keyword_buf := [] }
    else if st.keyword_buf.length = SVN_KEYWORD_MAX_LEN - 1
        ∨ (st.keyword_buf.length ≠ 0 ∧ (c = 13 ∨ c = 10)) then
      scan o p { st with
        dst := translate_write st.dst st.keyword_buf st.keyword_buf.length, keyword_buf := [] }
    else if st.keyword_buf.length ≠ 0 then
      Except.ok (rest, { st with keyword_buf := st.keyword_buf ++ [c] })
    else scan o p st

/-- The inner loop `for (p = buf; p < buf + readlen;)` over one chunk. -/
def chunk_loop (o : opts) : Nat → List Nat → xlate → Except stop xlate
  | 0, p, st => if p = [] then Except.ok st else Except.error stop.fuel
  | fuel + 1, p, st =>
    if p = [] then Except.ok st
    else
      match iteration o p st with
      | Except.error e => Except.error e
      | Except.ok (p1, st1) => chunk_loop o fuel p1 st1

/-- The outer loop `while (readlen == SVN_STREAM_CHUNK_SIZE)`, with `readlen`
first set to the chunk size.  The source stream `src` is in memory: a read
gives `chunk` bytes, or all that is left when less is left.  `chunk` stands
for `SVN_STREAM_CHUNK_SIZE`, a constant of `svn_io.h`. -/
def read_loop (o : opts) (chunk : Nat) : Nat → List Nat → xlate → Except stop xlate
  | 0, _, _ => Except.error stop.fuel
  | fuel + 1, src, st =>
    let buf := src.take chunk
    let readlen := buf.length
    match chunk_loop o readlen buf st with
    | Except.error e => Except.error e
    | Except.ok st1 =>
      if readlen = chunk then read_loop o chunk fuel (src.drop chunk) st1
      else Except.ok st1

/-- What follows the outer loop: a pending newline is translated, a pending
keyword buffer is written out.  The result is the destination stream. -/
def finish (o : opts) (st : xlate) : Except stop (List Nat) :=
  let r :=
    if st.newline_buf.length ≠ 0 then
      match translate_newline o.eol_str st.src_format st.newline_buf st.dst o.repair with
      | Except.error e => Except.error e
      | Except.ok (sf, dst) => Except.ok { st with src_format := sf, dst := dst }
    else Except.ok st
  match r with
  | Except.error e => Except.error e
  | Except.ok st =>
    if st.keyword_buf.length ≠ 0 then
      Except.ok (translate_write st.dst st.keyword_buf st.keyword_buf.length)
    else Except.ok st.dst

/-- The function `svn_subst_translate_stream3 (s, d, eol_str, repair, keywords,
expand, pool)` on in-memory streams: `s` holds the bytes `src`, `d` is empty
at the start, and the result is what `d` holds at the return of
`SVN_NO_ERROR`. -/
def svn_subst_translate_stream3 (chunk : Nat) (src : List Nat) (eol_str : Option (List Nat))
    (repair : Bool) (keywords : Option apr_hash_t) (expand : Bool) : Except stop (List Nat) :=
  let o : opts := { eol_str := eol_str, repair := repair, keywords := keywords, expand := expand }
  if ¬ (eol_str.isSome ∨ keywords.isSome) then Except.error stop.assertion
  else
    match read_loop o chunk (src.length + 1) src
        { dst := [], newline_buf := [], keyword_buf := [], src_format := [] } with
    | Except.error e => Except.error e
    | Except.ok st => finish o st


/-! ## Tokens and reference functions used to state the properties -/

/-- The bare token `$name$`. -/
def tok_bare (n : List Nat) : List Nat := 36 :: n ++ [36]

/-- The token `$name:$`. -/
def tok_colon (n : List Nat) : List Nat := 36 :: n ++ [58, 36]

/-- The empty-expanded token `$name: $`. -/
def tok_empty (n : List Nat) : List Nat := 36 :: n ++ [58, 32, 36]

/-- The expanded token `$name: w $`. -/
def tok_expanded (n w : List Nat) : List Nat := 36 :: n ++ [58, 32] ++ w ++ [32, 36]

/-- The fixed-width token `$name:: body t$`, where `t` is the next-to-last byte
(a space or `#`). -/
def tok_fixed (n body : List Nat) (t : Nat) : List Nat :=
  36 :: n ++ [58, 58, 32] ++ body ++ [t, 36]

/-- The reference end-of-line replacement: each CR LF pair, each other CR and
each other LF of the input becomes `E`, every other byte is copied. -/
def normalize_eol (E : List Nat) : List Nat → List Nat
  | [] => []
  | [c] => if c = 13 ∨ c = 10 then E else [c]
  | c :: d :: rest =>
    if c = 13 ∧ d = 10 then E ++ normalize_eol E rest
    else if c = 13 ∨ c = 10 then E ++ normalize_eol E (d :: rest)
    else c :: normalize_eol E (d :: rest)

/-- The three kinds of line terminator. -/
inductive eol_kind where
  | LF
  | CR
  | CRLF
  deriving DecidableEq, Repr

/-- The line terminators of an input, in order: a CR LF pair is one terminator
of kind CRLF, any other CR is of kind CR, any other LF of kind LF. -/
def eol_kinds : List Nat → List eol_kind
  | [] => []
  | [c] => if c = 13 then [eol_kind.CR] else if c = 10 then [eol_kind.LF] else []
  | c :: d :: rest =>
    if c = 13 ∧ d = 10 then eol_kind.CRLF :: eol_kinds rest
    else if c = 13 then eol_kind.CR :: eol_kinds (d :: rest)
    else if c = 10 then eol_kind.LF :: eol_kinds (d :: rest)
    else eol_kinds (d :: rest)

/-! ## The translator byte by byte

The inner loop, read one input byte at a time.  These functions are not in the
source: `byte_step` is the body of the inner loop on a chunk of one byte, and
the theorems below show that the loops of the source, run on chunks of any
size, compute `run_bytes`. -/

/-- One input byte `c` met in the boring state: the second half of the loop
body (`scan`) on the one byte. -/
def idle_step (o : opts) (st : xlate) (c : Nat) : Except stop xlate :=
  if c ∈ interesting o then
    if c = 36 then Except.ok { st with keyword_buf := st.keyword_buf ++ [36] }
    else if c = 13 then Except.ok { st with newline_buf := st.newline_buf ++ [13] }
    else
      match translate_newline o.eol_str st.src_format (st.newline_buf ++ [10]) st.dst
          o.repair with
      | Except.error e => Except.error e
      | Except.ok (sf, dst) =>
        Except.ok { st with newline_buf := [], src_format := sf, dst := dst }
  else Except.ok { st with dst := st.dst ++ [c] }

/-- One input byte `c` in any state: the loop body (`iteration`) on the one
byte. -/
def byte_step (o : opts) (st : xlate) (c : Nat) : Except stop xlate :=
  if st.newline_buf.length ≠ 0 then
    let nb := if c = 10 then st.newline_buf ++ [c] else st.newline_buf
    match translate_newline o.eol_str st.src_format nb st.dst o.repair with
    | Except.error e => Except.error e
    | Except.ok (sf, dst) =>
      if c = 10 then Except.ok { st with newline_buf := [], src_format := sf, dst := dst }
      else idle_step o { st with newline_buf := [], src_format := sf, dst := dst } c
  else if st.keyword_buf.length ≠ 0 ∧ c = 36 then
    match translate_keyword (st.keyword_buf ++ [36]) o.expand o.keywords with
    | none => Except.error stop.assertion
    | some (true, kb) =>
      Except.ok { st with dst := translate_write st.dst kb kb.length, keyword_buf := [] }
    | some (false, kb) =>
      idle_step o
        { st with dst := translate_write st.dst kb (kb.length - 1), keyword_buf := [] } c
  else if st.keyword_buf.length = SVN_KEYWORD_MAX_LEN - 1
      ∨ (st.keyword_buf.length ≠ 0 ∧ (c = 13 ∨ c = 10)) then
    idle_step o { st with
      dst := translate_write st.dst st.keyword_buf st.keyword_buf.length, keyword_buf := [] } c
  else if st.keyword_buf.length ≠ 0 then
    Except.ok { st with keyword_buf := st.keyword_buf ++ [c] }
  else idle_step o st c

/-- The bytes of `p` taken one at a time. -/
def run_bytes (o : opts) : List Nat → xlate → Except stop xlate
  | [], st => Except.ok st
  | c :: rest, st =>
    match byte_step o st c with
    | Except.error e => Except.error e
    | Except.ok st1 => run_bytes o rest st1

/-- The bytes of `p` taken one at a time from the state `st`, then what follows
the outer loop. -/
def run_finish (o : opts) (p : List Nat) (st : xlate) : Except stop (List Nat) :=
  match run_bytes o p st with
  | Except.error e => Except.error e
  | Except.ok s => finish o s

/-- The translation of the whole input taken one byte at a time. -/
def translate_bytes (src : List Nat) (eol_str : Option (List Nat))
    (repair : Bool) (keywords : Option apr_hash_t) (expand : Bool) : Except stop (List Nat) :=
  let o : opts := { eol_str := eol_str, repair := repair, keywords := keywords, expand := expand }
  if ¬ (eol_str.isSome ∨ keywords.isSome) then Except.error stop.assertion
  else run_finish o src { dst := [], newline_buf := [], keyword_buf := [], src_format := [] }

/-- The invariant of the loop of `svn_subst_translate_stream3` between two input
bytes: `keyword_off ≤ 254`, `newline_off ≤ 1`, not both non-zero; a non-empty
keyword buffer needs a table, starts with `$` and has no `$`, CR or LF after
it; a non-empty newline buffer needs `eol_str` and holds one CR; `src_format`
is empty or one of LF, CR, CR LF. -/
def stream_inv (o : opts) (st : xlate) : Prop :=
  st.keyword_buf.length ≤ 254 ∧ st.newline_buf.length ≤ 1
  ∧ (st.keyword_buf = [] ∨ st.newline_buf = [])
  ∧ (st.keyword_buf ≠ [] → o.keywords.isSome = true ∧ st.keyword_buf.head? = some 36
      ∧ ∀ b ∈ st.keyword_buf.tail, b ≠ 36 ∧ b ≠ 13 ∧ b ≠ 10)
  ∧ (st.newline_buf ≠ [] → o.eol_str.isSome = true ∧ st.newline_buf = [13])
  ∧ (st.src_format = [] ∨ st.src_format = [10] ∨ st.src_format = [13]
      ∨ st.src_format = [13, 10])

/-- The bytes that `translate_newline` writes for a line terminator: the C
string `eol_str`, nothing for NULL. -/
def eol_out (eol_str : Option (List Nat)) : List Nat :=
  (eol_str.getD []).take (match eol_str with
    | some e => strlen e
    | none => 0)

/-- The bytes of a line terminator of each kind. -/
def kind_bytes : eol_kind → List Nat
  | eol_kind.LF => [10]
  | eol_kind.CR => [13]
  | eol_kind.CRLF => [13, 10]

/-- The terminators `ks` agree with the cached first terminator `src_format`
(with the first of them when none is cached yet). -/
def eol_agree (src_format : List Nat) (ks : List eol_kind) : Prop :=
  if src_format = [] then ∀ k ∈ ks, some k = ks.head?
  else ∀ k ∈ ks, kind_bytes k = src_format

/-- No `$`, CR or LF byte: the bytes that may stand inside a keyword token. -/
def clean (bs : List Nat) : Prop := ∀ b ∈ bs, b ≠ 36 ∧ b ≠ 13 ∧ b ≠ 10

instance (bs : List Nat) : Decidable (clean bs) := by
  unfold clean; infer_instance

/-- A keyword name as it stands in a token: no `$`, colon, CR, LF or NUL. -/
def name_ok (n : List Nat) : Prop := ∀ b ∈ n, b ≠ 36 ∧ b ≠ 58 ∧ b ≠ 13 ∧ b ≠ 10 ∧ b ≠ 0

instance (n : List Nat) : Decidable (name_ok n) := by
  unfold name_ok; infer_instance

/-- The parts of an input made of text and well-formed keyword tokens. -/
inductive piece where
  | text (bs : List Nat)
  | bare (n : List Nat)
  | empty (n : List Nat)
  | expanded (n w : List Nat)
  | fixed (n body : List Nat) (t : Nat)
  deriving DecidableEq, Repr

/-- The bytes of a part of the input. -/
def piece.bytes : piece → List Nat
  | piece.text bs => bs
  | piece.bare n => tok_bare n
  | piece.empty n => tok_empty n
  | piece.expanded n w => tok_expanded n w
  | piece.fixed n body t => tok_fixed n body t

/-- The contracted form of a part of the input: text stays, a bare,
empty-expanded or expanded token becomes `$name$`, a fixed-width token keeps its
length and gets spaces for its value. -/
def piece.contracted : piece → List Nat
  | piece.text bs => bs
  | piece.bare n => tok_bare n
  | piece.empty n => tok_bare n
  | piece.expanded n _ => tok_bare n
  | piece.fixed n body _ => tok_fixed n (List.replicate body.length 32) 32

/-- A part of the input is well formed for the table `T`: text has no `$`; the
name of a token is a key of `T`, its value has no `$`, CR or LF; the token has at
most 255 bytes and no `$`, CR or LF inside; for a token that is not of fixed
width the expansion `$name: value $` has at most 255 bytes too. -/
def piece.wf (T : apr_hash_t) : piece → Prop
  | piece.text bs => 36 ∉ bs
  | piece.bare n => name_ok n ∧ ∃ v, apr_hash_get T n = some v ∧ clean v
      ∧ 5 + n.length + v.length ≤ 255
  | piece.empty n => name_ok n ∧ ∃ v, apr_hash_get T n = some v ∧ clean v
      ∧ 5 + n.length + v.length ≤ 255
  | piece.expanded n w => name_ok n ∧ clean w ∧ (tok_expanded n w).length ≤ 255
      ∧ ∃ v, apr_hash_get T n = some v ∧ clean v ∧ 5 + n.length + v.length ≤ 255
  | piece.fixed n body t => name_ok n ∧ clean body ∧ body ≠ [] ∧ (t = 32 ∨ t = 35)
      ∧ (tok_fixed n body t).length ≤ 255 ∧ ∃ v, apr_hash_get T n = some v ∧ clean v

/-- The bytes of an input given by its parts. -/
def pieces_bytes (ps : List piece) : List Nat := (ps.map piece.bytes).flatten

/-- The bytes of the contracted form of an input given by its parts. -/
def pieces_contracted (ps : List piece) : List Nat := (ps.map piece.contracted).flatten

/-! ## The token grammar -/

/-- A byte of a keyword name in the token grammar: a letter, a digit or `_`. -/
def name_byte (b : Nat) : Prop :=
  (65 ≤ b ∧ b ≤ 90) ∨ (97 ≤ b ∧ b ≤ 122) ∨ (48 ≤ b ∧ b ≤ 57) ∨ b = 95

instance (b : Nat) : Decidable (name_byte b) := by
  unfold name_byte; infer_instance

/-- The rule `NAME := 1..247 bytes from [A-Za-z0-9_]` of the token grammar. -/
def NAME (n : List Nat) : Prop := 1 ≤ n.length ∧ n.length ≤ 247 ∧ ∀ b ∈ n, name_byte b

instance (n : List Nat) : Decidable (NAME n) := by
  unfold NAME; infer_instance

/-- The rule `PAD_OR_VAL := VALUE_BYTES? (" "+ | "#")` of the token grammar:
value bytes without `$`, CR or LF (maybe none), then one or more spaces or one
`#`. -/
def PAD_OR_VAL (p : List Nat) : Prop :=
  ∃ vb pad, p = vb ++ pad ∧ clean vb ∧ (pad = [35] ∨ (pad ≠ [] ∧ ∀ b ∈ pad, b = 32))

/-- The rule
`TOKEN := "$" NAME ( "$" | ": " [VALUE " "] "$" | ":: " PAD_OR_VAL "$" )`
of the token grammar, for the name `n`; a `VALUE` has no `$`, CR or LF. -/
def TOKEN (n tok : List Nat) : Prop :=
  NAME n ∧ (tok = 36 :: n ++ [36]
    ∨ tok = 36 :: n ++ [58, 32] ++ [36]
    ∨ (∃ v, clean v ∧ tok = 36 :: n ++ [58, 32] ++ v ++ [32] ++ [36])
    ∨ ∃ p, PAD_OR_VAL p ∧ tok = 36 :: n ++ [58, 58, 32] ++ p ++ [36])

/-! ## The string wrapper -/

/-- The function `svn_subst_translate_cstring2 (src, dst, eol_str, repair,
keywords, expand, pool)`.  `src` is a C string: `svn_stringbuf_create` copies
its bytes up to the first NUL.  The result is the data of `dst_stringbuf`, to
which `*dst` points at the return of `SVN_NO_ERROR`.  `chunk` is the chunk size
of the stream translator. -/
def svn_subst_translate_cstring2 (chunk : Nat) (src : List Nat) (eol_str : Option (List Nat))
    (repair : Bool) (keywords : Option apr_hash_t) (expand : Bool) : Except stop (List Nat) :=
  let src_stringbuf := c_str src
  if ¬ (eol_str.isSome ∨ keywords.isSome) then Except.ok src_stringbuf
  else
    match svn_subst_translate_stream3 chunk src_stringbuf eol_str repair keywords expand with
    | Except.error err => Except.error err
    | Except.ok dst_stringbuf => Except.ok dst_stringbuf

/-! ## The keyword value builder -/

/-- The structure `apr_time_exp_t`, with the fields that `keyword_printf` reads. -/
structure apr_time_exp_t where
  tm_sec : Int
  tm_min : Int
  tm_hour : Int
  tm_mday : Int
  tm_mon : Int
  tm_year : Int

/-- The functions that `keyword_printf` calls and whose code is not in
`subst.c`: `svn_path_basename`, `svn_path_uri_decode`, `apr_time_exp_gmt` and
`svn_time_to_human_cstring`.  They are parameters of the embedding; each string
result is a C string. -/
structure helpers where
  svn_path_basename : List Nat → List Nat
  svn_path_uri_decode : List Nat → List Nat
  apr_time_exp_gmt : Int → apr_time_exp_t
  svn_time_to_human_cstring : Int → List Nat

/-- The decimal digits of `n`, most significant first; `fuel` bounds the number
of digits, and `n + 1` is enough. -/
def dec_digits : Nat → Nat → List Nat
  | 0, _ => []
  | fuel + 1, n => if n < 10 then [48 + n] else dec_digits fuel (n / 10) ++ [48 + n % 10]

/-- The conversion `%0Wd` of `apr_psprintf` for the width `W`: a minus sign for a
negative number, then zeros up to the width, then the decimal digits. -/
def psprintf_0d (width : Nat) (v : Int) : List Nat :=
  let ds := dec_digits (v.natAbs + 1) v.natAbs
  if v < 0 then 45 :: (List.replicate (width - 1 - ds.length) 48 ++ ds)
  else List.replicate (width - ds.length) 48 ++ ds

/-- The string `human` of the case `'d'` of `keyword_printf`:
`apr_psprintf (pool, "%04d-%02d-%02d %02d:%02d:%02dZ", ...)` on the exploded
time. -/
def human_short (t : apr_time_exp_t) : List Nat :=
  psprintf_0d 4 (t.tm_year + 1900) ++ [45] ++ psprintf_0d 2 (t.tm_mon + 1) ++ [45]
    ++ psprintf_0d 2 t.tm_mday ++ [32] ++ psprintf_0d 2 t.tm_hour ++ [58]
    ++ psprintf_0d 2 t.tm_min ++ [58] ++ psprintf_0d 2 t.tm_sec ++ [90]

/-- The loop `for (;;)` of `keyword_printf`: `fmt` is the rest of the format
from the pointer `fmt` on (a NUL follows the list), `value` the string buffer.
A NULL `rev`, `url` or `author` is `none`.  The variable `n` is an `int` of 32
bits: it holds `cur - fmt` reduced to the range from `-2^31` to `2^31 - 1`.  The
result is `none` when the loop is out of fuel. -/
def keyword_printf_loop (L : helpers) (rev url : Option (List Nat)) (date : Int)
    (author : Option (List Nat)) : Nat → List Nat → List Nat → Option (List Nat)
  | 0, _, _ => none
  | fuel + 1, fmt, value =>
    let run := (fmt.takeWhile (fun b => decide (b ≠ 0) && decide (b ≠ 37))).length
    let cur := fmt.drop run
    let n : Int := ((run : Int) + 2147483648) % 4294967296 - 2147483648
    let value := if n > 0 then value ++ fmt.take n.toNat else value
    if cur.getD 0 0 = 0 then some value
    else
      let c := cur.getD 1 0
      let value :=
        if c = 97 then
          match author with
          | some a => value ++ c_str a
          | none => value
        else if c = 98 then
          match url with
          | some u => value ++ c_str (L.svn_path_uri_decode (L.svn_path_basename u))
          | none => value
        else if c = 100 then
          if date ≠ 0 then value ++ c_str (human_short (L.apr_time_exp_gmt date)) else value
        else if c = 68 then
          if date ≠ 0 then value ++ c_str (L.svn_time_to_human_cstring date) else value
        else if c = 114 then
          match rev with
          | some r => value ++ c_str r
          | none => value
        else if c = 117 then
          match url with
          | some u => value ++ c_str u
          | none => value
        else if c = 37 then value ++ cur.take 1
        else if c = 0 then value ++ cur.take 1
        else value ++ cur.take 2
      let fmt := if c = 0 then cur.drop 1 else cur.drop 2
      keyword_printf_loop L rev url date author fuel fmt value

/-- The function `keyword_printf (fmt, rev, url, date, author, pool)`; the result
is the `svn_string_t` made from the string buffer. -/
def keyword_printf (L : helpers) (fmt : List Nat) (rev url : Option (List Nat)) (date : Int)
    (author : Option (List Nat)) : Option (List Nat) :=
  keyword_printf_loop L rev url date author (fmt.length + 1) fmt []

/-! ## The keyword table builder -/

/-- The function `tolower` in the C locale. -/
def tolower (c : Nat) : Nat := if 65 ≤ c ∧ c ≤ 90 then c + 32 else c

/-- The function `strcmp (a, b)`, as the truth value of its result: `true` when
the C strings differ. -/
def strcmp (a b : List Nat) : Bool := decide (c_str a ≠ c_str b)

/-- The function `strcasecmp (a, b)`, as the truth value of its result: `true`
when the C strings differ with the case of the letters ignored. -/
def strcasecmp (a b : List Nat) : Bool :=
  decide ((c_str a).map tolower ≠ (c_str b).map tolower)

/-- Modelled from the spec: the constant `SVN_KEYWORD_REVISION_LONG` of
`svn_subst.h`, the long alias `LastChangedRevision` of the revision keyword (its upstream value). -/
def SVN_KEYWORD_REVISION_LONG : List Nat := bytes "LastChangedRevision"

/-- Modelled from the spec: the constant `SVN_KEYWORD_REVISION_MEDIUM` of
`svn_subst.h`, the medium alias `Revision` of the revision keyword (its upstream value). -/
def SVN_KEYWORD_REVISION_MEDIUM : List Nat := bytes "Revision"

/-- Modelled from the spec: the constant `SVN_KEYWORD_REVISION_SHORT` of
`svn_subst.h`, the short alias `Rev` of the revision keyword (its upstream value). -/
def SVN_KEYWORD_REVISION_SHORT : List Nat := bytes "Rev"

/-- Modelled from the spec: the constant `SVN_KEYWORD_DATE_LONG` of
`svn_subst.h`, the long alias `LastChangedDate` of the date keyword (its upstream value). -/
def SVN_KEYWORD_DATE_LONG : List Nat := bytes "LastChangedDate"

/-- Modelled from the spec: the constant `SVN_KEYWORD_DATE_SHORT` of
`svn_subst.h`, the short alias `Date` of the date keyword (its upstream value). -/
def SVN_KEYWORD_DATE_SHORT : List Nat := bytes "Date"

/-- Modelled from the spec: the constant `SVN_KEYWORD_AUTHOR_LONG` of
`svn_subst.h`, the long alias `LastChangedBy` of the author keyword (its upstream value). -/
def SVN_KEYWORD_AUTHOR_LONG : List Nat := bytes "LastChangedBy"

/-- Modelled from the spec: the constant `SVN_KEYWORD_AUTHOR_SHORT` of
`svn_subst.h`, the short alias `Author` of the author keyword (its upstream value). -/
def SVN_KEYWORD_AUTHOR_SHORT : List Nat := bytes "Author"

/-- Modelled from the spec: the constant `SVN_KEYWORD_URL_LONG` of
`svn_subst.h`, the long alias `HeadURL` of the URL keyword (its upstream value). -/
def SVN_KEYWORD_URL_LONG : List Nat := bytes "HeadURL"

/-- Modelled from the spec: the constant `SVN_KEYWORD_URL_SHORT` of
`svn_subst.h`, the short alias `URL` of the URL keyword (its upstream value). -/
def SVN_KEYWORD_URL_SHORT : List Nat := bytes "URL"

/-- Modelled from the spec: the constant `SVN_KEYWORD_ID` of `svn_subst.h`, the
name `Id` of the id keyword (its upstream value). -/
def SVN_KEYWORD_ID : List Nat := bytes "Id"

/-- The tokens of `input` from the byte list `rest` on, `cur` being the token
under way. -/
def split_loop (sep_chars : List Nat) : List Nat → List Nat → List (List Nat)
  | [], cur => if cur = [] then [] else [cur]
  | c :: rest, cur =>
    if c ∈ sep_chars then
      if cur = [] then split_loop sep_chars rest []
      else cur :: split_loop sep_chars rest []
    else split_loop sep_chars rest (cur ++ [c])

/-- Modelled from the spec: the function `svn_cstring_split (input, sep_chars,
chop_whitespace, pool)` of `svn_string.c`: the C string `input` is split at the
bytes of `sep_chars` and empty tokens are discarded.  With all white space among
the separators, as in the one call here, chopping white space off a token
changes nothing. -/
def svn_cstring_split (input sep_chars : List Nat) : List (List Nat) :=
  split_loop sep_chars (c_str input) []

/-- The call `apr_hash_set (h, key, APR_HASH_KEY_STRING, val)` with a value that
is not NULL: the entry of `key` is replaced or added. -/
def apr_hash_set (h : apr_hash_t) (key val : List Nat) : apr_hash_t :=
  (key, val) :: h.filter (fun e => decide (e.1 ≠ key))

/-- The loop `for (i = 0; i < keyword_tokens->nelts; ++i)` of
`svn_subst_build_keywords2` over the tokens left, `kw` being the hash `*kw`.
The result is `none` when `keyword_printf` is out of fuel. -/
def build_keywords2_loop (L : helpers) (rev url : Option (List Nat)) (date : Int)
    (author : Option (List Nat)) : List (List Nat) → apr_hash_t → Option apr_hash_t
  | [], kw => some kw
  | keyword :: rest, kw =>
    if (! strcmp keyword SVN_KEYWORD_REVISION_LONG)
        || (! strcmp keyword SVN_KEYWORD_REVISION_MEDIUM)
        || (! strcasecmp keyword SVN_KEYWORD_REVISION_SHORT) then
      match keyword_printf L (bytes "%r") rev url date author with
      | none => none
      | some revision_val =>
        let kw := apr_hash_set kw SVN_KEYWORD_REVISION_LONG revision_val
        let kw := apr_hash_set kw SVN_KEYWORD_REVISION_MEDIUM revision_val
        let kw := apr_hash_set kw SVN_KEYWORD_REVISION_SHORT revision_val
        build_keywords2_loop L rev url date author rest kw
    else if (! strcmp keyword SVN_KEYWORD_DATE_LONG)
        || (! strcasecmp keyword SVN_KEYWORD_DATE_SHORT) then
      match keyword_printf L (bytes "%D") rev url date author with
      | none => none
      | some date_val =>
        let kw := apr_hash_set kw SVN_KEYWORD_DATE_LONG date_val
        let kw := apr_hash_set kw SVN_KEYWORD_DATE_SHORT date_val
        build_keywords2_loop L rev url date author rest kw
    else if (! strcmp keyword SVN_KEYWORD_AUTHOR_LONG)
        || (! strcasecmp keyword SVN_KEYWORD_AUTHOR_SHORT) then
      match keyword_printf L (bytes "%a") rev url date author with
      | none => none
      | some author_val =>
        let kw := apr_hash_set kw SVN_KEYWORD_AUTHOR_LONG author_val
        let kw := apr_hash_set kw SVN_KEYWORD_AUTHOR_SHORT author_val
        build_keywords2_loop L rev url date author rest kw
    else if (! strcmp keyword SVN_KEYWORD_URL_LONG)
        || (! strcasecmp keyword SVN_KEYWORD_URL_SHORT) then
      match keyword_printf L (bytes "%u") rev url date author with
      | none => none
      | some url_val =>
        let kw := apr_hash_set kw SVN_KEYWORD_URL_LONG url_val
        let kw := apr_hash_set kw SVN_KEYWORD_URL_SHORT url_val
        build_keywords2_loop L rev url date author rest kw
    else if ! strcasecmp keyword SVN_KEYWORD_ID then
      match keyword_printf L (bytes "%b %r %d %a") rev url date author with
      | none => none
      | some id_val =>
        let kw := apr_hash_set kw SVN_KEYWORD_ID id_val
        build_keywords2_loop L rev url date author rest kw
    else build_keywords2_loop L rev url date author rest kw

/-- The separators `" \t\v\n\b\r\f"` of the keyword list. -/
def keyword_separators : List Nat := [32, 9, 11, 10, 8, 13, 12]

/-- The function `svn_subst_build_keywords2 (kw, keywords_val, rev, url, date,
author, pool)`; the result is the hash `*kw` at the return of `SVN_NO_ERROR`. -/
def svn_subst_build_keywords2 (L : helpers) (keywords_val : List Nat)
    (rev url : Option (List Nat)) (date : Int) (author : Option (List Nat)) :
    Option apr_hash_t :=
  let keyword_tokens := svn_cstring_split keywords_val keyword_separators
  build_keywords2_loop L rev url date author keyword_tokens []

/-! ## Reference functions for the value builder and the table builder

These functions are not in the source; they are used to state and prove the
properties of `keyword_printf` and `svn_subst_build_keywords2`. -/

/-- What the `switch` of `keyword_printf` appends for the two bytes `%c` of the
format, `c` not NUL. -/
def code_value (L : helpers) (rev url : Option (List Nat)) (date : Int)
    (author : Option (List Nat)) (c : Nat) : List Nat :=
  if c = 97 then
    match author with
    | some a => c_str a
    | none => []
  else if c = 98 then
    match url with
    | some u => c_str (L.svn_path_uri_decode (L.svn_path_basename u))
    | none => []
  else if c = 100 then
    if date ≠ 0 then c_str (human_short (L.apr_time_exp_gmt date)) else []
  else if c = 68 then
    if date ≠ 0 then c_str (L.svn_time_to_human_cstring date) else []
  else if c = 114 then
    match rev with
    | some r => c_str r
    | none => []
  else if c = 117 then
    match url with
    | some u => c_str u
    | none => []
  else if c = 37 then [37]
  else [37, c]

/-- A format without NUL rendered from left to right: a `%` with the byte after
it gives `code_value`, any other byte (a `%` at the end too) is copied. -/
def render (L : helpers) (rev url : Option (List Nat)) (date : Int)
    (author : Option (List Nat)) : List Nat → List Nat
  | [] => []
  | [c] => [c]
  | c :: d :: rest =>
    if c = 37 then code_value L rev url date author d ++ render L rev url date author rest
    else c :: render L rev url date author (d :: rest)

/-- A format read from left to right, with every `%a`, `%b`, `%d`, `%D`, `%r`
and `%u` removed and every `%%` reduced to `%`; a `%` with any other byte after
it stays with that byte, any other byte (a `%` at the end too) stays. -/
def strip_codes : List Nat → List Nat
  | [] => []
  | [c] => [c]
  | c :: d :: rest =>
    if c = 37 then
      if d = 97 ∨ d = 98 ∨ d = 100 ∨ d = 68 ∨ d = 114 ∨ d = 117 then strip_codes rest
      else if d = 37 then 37 :: strip_codes rest
      else 37 :: d :: strip_codes rest
    else c :: strip_codes (d :: rest)

/-- The five logical keywords. -/
inductive logical_keyword where
  | revision
  | date
  | author
  | url
  | id
  deriving DecidableEq, Repr

/-- The aliases of a logical keyword: the keys that `svn_subst_build_keywords2`
sets for it. -/
def aliases : logical_keyword → List (List Nat)
  | logical_keyword.revision =>
    [SVN_KEYWORD_REVISION_LONG, SVN_KEYWORD_REVISION_MEDIUM, SVN_KEYWORD_REVISION_SHORT]
  | logical_keyword.date => [SVN_KEYWORD_DATE_LONG, SVN_KEYWORD_DATE_SHORT]
  | logical_keyword.author => [SVN_KEYWORD_AUTHOR_LONG, SVN_KEYWORD_AUTHOR_SHORT]
  | logical_keyword.url => [SVN_KEYWORD_URL_LONG, SVN_KEYWORD_URL_SHORT]
  | logical_keyword.id => [SVN_KEYWORD_ID]

/-- The format that `svn_subst_build_keywords2` passes to `keyword_printf` for a
logical keyword. -/
def keyword_format : logical_keyword → List Nat
  | logical_keyword.revision => bytes "%r"
  | logical_keyword.date => bytes "%D"
  | logical_keyword.author => bytes "%a"
  | logical_keyword.url => bytes "%u"
  | logical_keyword.id => bytes "%b %r %d %a"

/-- The logical keyword that a token of the keyword list matches: the chain of
conditions of the loop body of `svn_subst_build_keywords2`. -/
def token_keyword (keyword : List Nat) : Option logical_keyword :=
  if (! strcmp keyword SVN_KEYWORD_REVISION_LONG)
      || (! strcmp keyword SVN_KEYWORD_REVISION_MEDIUM)
      || (! strcasecmp keyword SVN_KEYWORD_REVISION_SHORT) then some logical_keyword.revision
  else if (! strcmp keyword SVN_KEYWORD_DATE_LONG)
      || (! strcasecmp keyword SVN_KEYWORD_DATE_SHORT) then some logical_keyword.date
  else if (! strcmp keyword SVN_KEYWORD_AUTHOR_LONG)
      || (! strcasecmp keyword SVN_KEYWORD_AUTHOR_SHORT) then some logical_keyword.author
  else if (! strcmp keyword SVN_KEYWORD_URL_LONG)
      || (! strcasecmp keyword SVN_KEYWORD_URL_SHORT) then some logical_keyword.url
  else if ! strcasecmp keyword SVN_KEYWORD_ID then some logical_keyword.id
  else none

/-- The condition under which a token of the keyword list matches a logical
keyword: the condition of the branch of that keyword in the loop body of
`svn_subst_build_keywords2`. -/
def alias_match : logical_keyword → List Nat → Bool
  | logical_keyword.revision, keyword =>
    (! strcmp keyword SVN_KEYWORD_REVISION_LONG)
      || (! strcmp keyword SVN_KEYWORD_REVISION_MEDIUM)
      || (! strcasecmp keyword SVN_KEYWORD_REVISION_SHORT)
  | logical_keyword.date, keyword =>
    (! strcmp keyword SVN_KEYWORD_DATE_LONG) || (! strcasecmp keyword SVN_KEYWORD_DATE_SHORT)
  | logical_keyword.author, keyword =>
    (! strcmp keyword SVN_KEYWORD_AUTHOR_LONG) || (! strcasecmp keyword SVN_KEYWORD_AUTHOR_SHORT)
  | logical_keyword.url, keyword =>
    (! strcmp keyword SVN_KEYWORD_URL_LONG) || (! strcasecmp keyword SVN_KEYWORD_URL_SHORT)
  | logical_keyword.id, keyword => ! strcasecmp keyword SVN_KEYWORD_ID

/-- The calls of `apr_hash_set` for a logical keyword: the value is stored
under each alias. -/
def install (kw : apr_hash_t) (k : logical_keyword) (val : List Nat) : apr_hash_t :=
  (aliases k).foldl (fun h a => apr_hash_set h a val) kw

/-- Helpers for examples in which no helper is called (no URL, date zero) or
its result does not matter: every string is empty and every time field zero. -/
def example_helpers : helpers :=
  helpers.mk (fun _ => []) (fun _ => []) (fun _ => apr_time_exp_t.mk 0 0 0 0 0 0) (fun _ => [])

/-! ## Inputs whose `$` bytes are kept apart by line ends -/

/-- Any two consecutive `$` bytes of the input (no `$` between them) have at
least one CR or LF byte between them. -/
def dollars_apart (S : List Nat) : Prop :=
  ∀ a m b : List Nat, S = a ++ 36 :: (m ++ 36 :: b) → 36 ∉ m → 13 ∈ m ∨ 10 ∈ m

/-- A check of `dollars_apart` from left to right; `seen` says that a `$` was
met and no CR or LF after it. -/
def dollars_apart_from : Bool → List Nat → Bool
  | _, [] => true
  | seen, c :: rest =>
    if c = 36 then (! seen) && dollars_apart_from true rest
    else if c = 13 ∨ c = 10 then dollars_apart_from false rest
    else dollars_apart_from seen rest

/-! ## Keyword equality -/

/-- The structure `svn_subst_keywords_t`, with the fields that `subst.c` reads.
Each field is a `svn_string_t *`, `none` for NULL, given by the bytes of its
`data`. -/
structure svn_subst_keywords_t where
  revision : Option (List Nat)
  date : Option (List Nat)
  author : Option (List Nat)
  url : Option (List Nat)
  id : Option (List Nat)
  deriving DecidableEq, Repr

/-- The record with no keyword: every field is NULL. -/
def no_keywords : svn_subst_keywords_t :=
  svn_subst_keywords_t.mk none none none none none

/-- The function `kwstruct_to_kwhash (kwstruct, pool)`; `none` is NULL. -/
def kwstruct_to_kwhash (kwstruct : Option svn_subst_keywords_t) : Option apr_hash_t :=
  match kwstruct with
  | none => none
  | some kwstruct =>
    let kwhash : apr_hash_t := []
    let kwhash :=
      match kwstruct.revision with
      | some revision =>
        apr_hash_set (apr_hash_set (apr_hash_set kwhash SVN_KEYWORD_REVISION_LONG revision)
          SVN_KEYWORD_REVISION_MEDIUM revision) SVN_KEYWORD_REVISION_SHORT revision
      | none => kwhash
    let kwhash :=
      match kwstruct.date with
      | some date =>
        apr_hash_set (apr_hash_set kwhash SVN_KEYWORD_DATE_LONG date) SVN_KEYWORD_DATE_SHORT date
      | none => kwhash
    let kwhash :=
      match kwstruct.author with
      | some author =>
        apr_hash_set (apr_hash_set kwhash SVN_KEYWORD_AUTHOR_LONG author)
          SVN_KEYWORD_AUTHOR_SHORT author
      | none => kwhash
    let kwhash :=
      match kwstruct.url with
      | some url =>
        apr_hash_set (apr_hash_set kwhash SVN_KEYWORD_URL_LONG url) SVN_KEYWORD_URL_SHORT url
      | none => kwhash
    let kwhash :=
      match kwstruct.id with
      | some id => apr_hash_set kwhash SVN_KEYWORD_ID id
      | none => kwhash
    some kwhash

/-- The test `(compare_values && (a->f != NULL)) && (strcmp (a->f->data,
b->f->data) != 0)` of `svn_subst_keywords_differ` on a field `f` that is NULL
in both records or in none. -/
def field_values_differ (compare_values : Bool) (af bf : Option (List Nat)) : Bool :=
  match af, bf with
  | some av, some bv => compare_values && strcmp av bv
  | _, _ => false

/-- The function `svn_subst_keywords_differ (a, b, compare_values)`; `none` is a
NULL record. -/
def svn_subst_keywords_differ (a b : Option svn_subst_keywords_t) (compare_values : Bool) :
    Bool :=
  match a, b with
  | none, none => false
  | none, some b =>
    if b.revision = none ∧ b.date = none ∧ b.author = none ∧ b.url = none then false else true
  | some a, none =>
    if a.revision = none ∧ a.date = none ∧ a.author = none ∧ a.url = none then false else true
  | some a, some b =>
    if b.revision = none ∧ b.date = none ∧ b.author = none ∧ b.url = none
        ∧ a.revision = none ∧ a.date = none ∧ a.author = none ∧ a.url = none then false
    else if a.revision.isNone ≠ b.revision.isNone then true
    else if field_values_differ compare_values a.revision b.revision then true
    else if a.date.isNone ≠ b.date.isNone then true
    else if field_values_differ compare_values a.date b.date then true
    else if a.author.isNone ≠ b.author.isNone then true
    else if field_values_differ compare_values a.author b.author then true
    else if a.url.isNone ≠ b.url.isNone then true
    else if field_values_differ compare_values a.url b.url then true
    else false

/-- The function `apr_hash_count (h)`. -/
def apr_hash_count (h : apr_hash_t) : Nat := h.length

/-- Modelled from the spec: the function `svn_string_compare (a, b)` of
`svn_string.c`: true when the two strings have the same length and bytes. -/
def svn_string_compare (a b : List Nat) : Bool := decide (a = b)

/-- The loop `for (hi = apr_hash_first (pool, a); hi; hi = apr_hash_next (hi))` of
`svn_subst_keywords_differ2` over the entries of `a` that are left; the result
is `true` when the loop returns `TRUE`. -/
def keywords_differ2_loop (b : apr_hash_t) (compare_values : Bool) :
    List (List Nat × List Nat) → Bool
  | [] => false
  | (key, a_val) :: rest =>
    match apr_hash_get b key with
    | none => true
    | some b_val =>
      if compare_values && ! svn_string_compare a_val b_val then true
      else keywords_differ2_loop b compare_values rest

/-- The function `svn_subst_keywords_differ2 (a, b, compare_values, pool)`;
`none` is a NULL hash. -/
def svn_subst_keywords_differ2 (a b : Option apr_hash_t) (compare_values : Bool) : Bool :=
  let a_count := match a with
    | none => 0
    | some h => apr_hash_count h
  let b_count := match b with
    | none => 0
    | some h => apr_hash_count h
  if a_count ≠ b_count then true
  else if a_count = 0 then false
  else
    match a, b with
    | some ha, some hb => keywords_differ2_loop hb compare_values ha
    | _, _ => false

/-! ## Errors and library calls -/

/-- The library functions that `subst.c` calls on files, streams and strings
and that can return an error. -/
inductive io_call where
  | svn_io_stat
  | svn_io_open_unique_file
  | svn_io_file_open
  | svn_stream_copy
  | svn_io_read_link
  | svn_stream_printf
  | svn_io_file_close
  | svn_io_file_rename
  | svn_io_check_special_path
  | svn_stringbuf_from_file
  | svn_io_remove_file
  | svn_io_create_unique_link
  | svn_io_copy_file
  | svn_stream_read
  | svn_stream_close
  | svn_utf_cstring_to_utf8
  | svn_utf_cstring_to_utf8_ex
  deriving DecidableEq, Repr

/-- An error `svn_error_t *` that is not `SVN_NO_ERROR`, or the end of the
process: the error `SVN_ERR_UNSUPPORTED_FEATURE`; the error of a library call
on a path; the stop of the translator (`stop.inconsistent_eol` is the error
`SVN_ERR_IO_INCONSISTENT_EOL`); the call `abort ()`. -/
inductive svn_error where
  | SVN_ERR_UNSUPPORTED_FEATURE
  | failed (call : io_call) (path : List Nat)
  | translate (s : stop)
  | abort
  deriving DecidableEq, Repr

/-! ## Canonical strings -/

/-- The two transcoding functions of `svn_utf.h` that `svn_subst_translate_string`
calls, on the C string they are given: `svn_utf_cstring_to_utf8 (&dest, src,
pool)` and `svn_utf_cstring_to_utf8_ex (&dest, src, frompage, convset_key,
pool)`. -/
structure utf where
  svn_utf_cstring_to_utf8 : List Nat → Except svn_error (List Nat)
  svn_utf_cstring_to_utf8_ex : List Nat → List Nat → Except svn_error (List Nat)

/-- Transcoders that return the C string they are given. -/
def utf_identity : utf :=
  utf.mk (fun src => Except.ok src) (fun src _ => Except.ok src)

/-- The function `svn_subst_translate_string (new_value, value, encoding,
pool)`; the result is `*new_value`, `none` for NULL.  `value` is the `data` of
the `svn_string_t`, read as a C string by the transcoders; `svn_string_create`
copies the C string `val_utf8_lf`.  `chunk` is the chunk size of the stream
translator. -/
def svn_subst_translate_string (U : utf) (chunk : Nat) (value : Option (List Nat))
    (encoding : Option (List Nat)) : Except svn_error (Option (List Nat)) :=
  match value with
  | none => Except.ok none
  | some value =>
    let r :=
      match encoding with
      | some encoding => U.svn_utf_cstring_to_utf8_ex (c_str value) (c_str encoding)
      | none => U.svn_utf_cstring_to_utf8 (c_str value)
    match r with
    | Except.error err => Except.error err
    | Except.ok val_utf8 =>
      match svn_subst_translate_cstring2 chunk val_utf8 (some [10]) false none false with
      | Except.error err => Except.error (svn_error.translate err)
      | Except.ok val_utf8_lf => Except.ok (some (c_str val_utf8_lf))

/-! ## The file system -/

/-- A node of the file system: a regular file with its contents, a symbolic
link with its target, or anything else (a directory, a device). -/
inductive node where
  | file (contents : List Nat)
  | link (target : List Nat)
  | other
  deriving DecidableEq, Repr

/-- The state of the file system: the nodes by path, the first entry of a path
being the node there. -/
abbrev fs_state := List (List Nat × node)

/-- The node at a path, `none` when nothing is there. -/
def fs_get : fs_state → List Nat → Option node
  | [], _ => none
  | (p, n) :: rest, path => if p = path then some n else fs_get rest path

/-- The file system without the node at a path. -/
def fs_del (fs : fs_state) (path : List Nat) : fs_state :=
  fs.filter (fun e => decide (e.1 ≠ path))

/-- The file system with the node `n` at a path, in place of what was there. -/
def fs_put (fs : fs_state) (path : List Nat) (n : node) : fs_state :=
  (path, n) :: fs_del fs path

/-- The file system after the bytes `buf` are written at the end of the open
file at `path`. -/
def fs_write (fs : fs_state) (path : List Nat) (buf : List Nat) : fs_state :=
  match fs_get fs path with
  | some (node.file contents) => fs_put fs path (node.file (contents ++ buf))
  | _ => fs

/-- The environment of the file functions.  `fails call path` says that the
library call on that path returns an error for a reason outside the model (no
permission, a full disk, a read error); `uniquifier fs path` is what the
library puts between a path and the suffix to make a unique name; `symlinks`
says that the platform has symbolic links; `short` is the number of bytes that
reach the file when a stream operation fails; `chunk` is
`SVN_STREAM_CHUNK_SIZE`. -/
structure io_env where
  fails : io_call → List Nat → Bool
  uniquifier : fs_state → List Nat → List Nat
  symlinks : Bool
  short : Nat
  chunk : Nat

/-- An environment for closed examples: no call fails for an outside reason,
unique names are made with `1`, the platform has symbolic links, the chunk size
is 16. -/
def example_env : io_env :=
  io_env.mk (fun _ _ => false) (fun _ _ => [49]) true 0 16

/-- Modelled from the spec: the macro `SVN_ERR (expr)` of `svn_error.h`,
followed by the rest of the function: an error of `expr` is returned at once,
with the file system as `expr` left it. -/
def SVN_ERR {α β : Type} (expr : Except svn_error α × fs_state)
    (rest : α → fs_state → Except svn_error β × fs_state) : Except svn_error β × fs_state :=
  match expr with
  | (Except.error err, fs) => (Except.error err, fs)
  | (Except.ok a, fs) => rest a fs

/-- The file types of `apr_filetype_e` that `detranslate_special_file` tells
apart: `APR_REG`, `APR_LNK`, and `APR_DIR` for every other type. -/
inductive apr_filetype_e where
  | APR_REG
  | APR_LNK
  | APR_DIR
  deriving DecidableEq, Repr

/-- Modelled from the spec: the function `svn_io_stat (&finfo, path,
APR_FINFO_MIN | APR_FINFO_LINK, pool)` of `svn_io.h`.  The result is
`finfo.filetype` of the node itself (a link is not followed); a path with no
node is an error. -/
def svn_io_stat (E : io_env) (path : List Nat) (fs : fs_state) :
    Except svn_error apr_filetype_e × fs_state :=
  if E.fails io_call.svn_io_stat path then
    (Except.error (svn_error.failed io_call.svn_io_stat path), fs)
  else
    match fs_get fs path with
    | some (node.file _) => (Except.ok apr_filetype_e.APR_REG, fs)
    | some (node.link _) => (Except.ok apr_filetype_e.APR_LNK, fs)
    | some node.other => (Except.ok apr_filetype_e.APR_DIR, fs)
    | none => (Except.error (svn_error.failed io_call.svn_io_stat path), fs)

/-- The name that the library makes from a path and a suffix:
`<path>.<uniquifier><suffix>`. -/
def unique_name (E : io_env) (fs : fs_state) (path suffix : List Nat) : List Nat :=
  path ++ 46 :: (E.uniquifier fs path ++ suffix)

/-- Modelled from the spec: the function `svn_io_open_unique_file (&f,
&unique_name_p, path, suffix, FALSE, pool)` of `svn_io.h`.  It creates an
empty file under a unique name beside `path` and opens it for writing; the
result is the name, which also stands for the open file.  It is an error when
the name is taken. -/
def svn_io_open_unique_file (E : io_env) (path suffix : List Nat) (fs : fs_state) :
    Except svn_error (List Nat) × fs_state :=
  if E.fails io_call.svn_io_open_unique_file path
      ∨ (fs_get fs (unique_name E fs path suffix)).isSome then
    (Except.error (svn_error.failed io_call.svn_io_open_unique_file path), fs)
  else
    (Except.ok (unique_name E fs path suffix),
      fs_put fs (unique_name E fs path suffix) (node.file []))

/-- Modelled from the spec: the function `svn_io_file_open (&f, path, APR_READ
| APR_BUFFERED, APR_OS_DEFAULT, pool)` of `svn_io.h` on a regular file.  The
result stands for the file open for reading: the bytes to read. -/
def svn_io_file_open (E : io_env) (path : List Nat) (fs : fs_state) :
    Except svn_error (List Nat) × fs_state :=
  if E.fails io_call.svn_io_file_open path then
    (Except.error (svn_error.failed io_call.svn_io_file_open path), fs)
  else
    match fs_get fs path with
    | some (node.file contents) => (Except.ok contents, fs)
    | _ => (Except.error (svn_error.failed io_call.svn_io_file_open path), fs)

/-- Modelled from the spec: the function `svn_stream_copy (from, to, pool)` of
`svn_io.h`, from the bytes of a file open for reading to the open file `d`.
When it fails, `short` bytes have reached the file. -/
def svn_stream_copy (E : io_env) (s : List Nat) (d : List Nat) (fs : fs_state) :
    Except svn_error Unit × fs_state :=
  if E.fails io_call.svn_stream_copy d then
    (Except.error (svn_error.failed io_call.svn_stream_copy d), fs_write fs d (s.take E.short))
  else (Except.ok (), fs_write fs d s)

/-- Modelled from the spec: the function `svn_io_read_link (&dest, path, pool)`
of `svn_io.h`; the result is the data of `dest`, the target of the link. -/
def svn_io_read_link (E : io_env) (path : List Nat) (fs : fs_state) :
    Except svn_error (List Nat) × fs_state :=
  if E.fails io_call.svn_io_read_link path then
    (Except.error (svn_error.failed io_call.svn_io_read_link path), fs)
  else
    match fs_get fs path with
    | some (node.link target) => (Except.ok target, fs)
    | _ => (Except.error (svn_error.failed io_call.svn_io_read_link path), fs)

/-- Modelled from the spec: the function `svn_stream_printf (stream, pool, fmt,
...)` of `svn_io.h` on the stream of the open file `d`; `text` is the
formatted string. -/
def svn_stream_printf (E : io_env) (d : List Nat) (text : List Nat) (fs : fs_state) :
    Except svn_error Unit × fs_state :=
  if E.fails io_call.svn_stream_printf d then
    (Except.error (svn_error.failed io_call.svn_stream_printf d),
      fs_write fs d (text.take E.short))
  else (Except.ok (), fs_write fs d text)

/-- Modelled from the spec: the function `svn_io_file_close (file, pool)` of
`svn_io.h`; the file is given by its path. -/
def svn_io_file_close (E : io_env) (file : List Nat) (fs : fs_state) :
    Except svn_error Unit × fs_state :=
  if E.fails io_call.svn_io_file_close file then
    (Except.error (svn_error.failed io_call.svn_io_file_close file), fs)
  else (Except.ok (), fs)

/-- Modelled from the spec: the function `svn_stream_close (stream)` of
`svn_io.h` on the stream of an open file, given by its path. -/
def svn_stream_close (E : io_env) (file : List Nat) (fs : fs_state) :
    Except svn_error Unit × fs_state :=
  if E.fails io_call.svn_stream_close file then
    (Except.error (svn_error.failed io_call.svn_stream_close file), fs)
  else (Except.ok (), fs)

/-- Modelled from the spec: the function `svn_io_file_rename (from_path,
to_path, pool)` of `svn_io.h`: in one step the node at `from_path` takes the
place of what is at `to_path`. -/
def svn_io_file_rename (E : io_env) (from_path to_path : List Nat) (fs : fs_state) :
    Except svn_error Unit × fs_state :=
  if E.fails io_call.svn_io_file_rename from_path then
    (Except.error (svn_error.failed io_call.svn_io_file_rename from_path), fs)
  else
    match fs_get fs from_path with
    | some n => (Except.ok (), fs_put (fs_del fs from_path) to_path n)
    | none => (Except.error (svn_error.failed io_call.svn_io_file_rename from_path), fs)

/-- Modelled from the spec: the function `svn_io_check_special_path (path,
&kind, &is_special, pool)` of `svn_io.h`; the result is `is_special`, true for
a symbolic link (`kind` is not read by the callers).  A path with no node is
not an error. -/
def svn_io_check_special_path (E : io_env) (path : List Nat) (fs : fs_state) :
    Except svn_error Bool × fs_state :=
  if E.fails io_call.svn_io_check_special_path path then
    (Except.error (svn_error.failed io_call.svn_io_check_special_path path), fs)
  else
    match fs_get fs path with
    | some (node.link _) => (Except.ok true, fs)
    | _ => (Except.ok false, fs)

/-- Modelled from the spec: the function `svn_stringbuf_from_file (&result,
filename, pool)` of `svn_io.h` on a regular file; the result is the data of
the string buffer, the contents of the file. -/
def svn_stringbuf_from_file (E : io_env) (filename : List Nat) (fs : fs_state) :
    Except svn_error (List Nat) × fs_state :=
  if E.fails io_call.svn_stringbuf_from_file filename then
    (Except.error (svn_error.failed io_call.svn_stringbuf_from_file filename), fs)
  else
    match fs_get fs filename with
    | some (node.file contents) => (Except.ok contents, fs)
    | _ => (Except.error (svn_error.failed io_call.svn_stringbuf_from_file filename), fs)

/-- Modelled from the spec: the function `svn_io_remove_file (path, pool)` of
`svn_io.h`. -/
def svn_io_remove_file (E : io_env) (path : List Nat) (fs : fs_state) :
    Except svn_error Unit × fs_state :=
  if E.fails io_call.svn_io_remove_file path ∨ (fs_get fs path).isNone then
    (Except.error (svn_error.failed io_call.svn_io_remove_file path), fs)
  else (Except.ok (), fs_del fs path)

/-- Modelled from the spec: the function `svn_io_create_unique_link
(&unique_name_p, path, dest, suffix, pool)` of `svn_io.h`: it makes a symbolic
link to the C string `dest` under a unique name beside `path`; the result is
the name.  On a platform without symbolic links it returns
`SVN_ERR_UNSUPPORTED_FEATURE`.  A link that the system refuses to make (one
with an empty target, for instance) is a call that fails, `E.fails`. -/
def svn_io_create_unique_link (E : io_env) (path dest suffix : List Nat) (fs : fs_state) :
    Except svn_error (List Nat) × fs_state :=
  if ¬ E.symlinks then (Except.error svn_error.SVN_ERR_UNSUPPORTED_FEATURE, fs)
  else if E.fails io_call.svn_io_create_unique_link path
      ∨ (fs_get fs (unique_name E fs path suffix)).isSome then
    (Except.error (svn_error.failed io_call.svn_io_create_unique_link path), fs)
  else
    (Except.ok (unique_name E fs path suffix),
      fs_put fs (unique_name E fs path suffix) (node.link (c_str dest)))

/-- Modelled from the spec: the function `svn_io_copy_file (src, dst,
copy_perms, pool)` of `svn_io.h` on a regular file: in one step `dst` is a
file with the contents of `src`. -/
def svn_io_copy_file (E : io_env) (src dst : List Nat) (fs : fs_state) :
    Except svn_error Unit × fs_state :=
  if E.fails io_call.svn_io_copy_file src then
    (Except.error (svn_error.failed io_call.svn_io_copy_file src), fs)
  else
    match fs_get fs src with
    | some (node.file contents) => (Except.ok (), fs_put fs dst (node.file contents))
    | _ => (Except.error (svn_error.failed io_call.svn_io_copy_file src), fs)

/-! ## Special files -/

/-- The constant `SVN_SUBST__SPECIAL_LINK_STR`. -/
def SVN_SUBST__SPECIAL_LINK_STR : List Nat := bytes "link"

/-- The function `detranslate_special_file (src, dst, pool)`.  The open file
`d` is given by the name `dst_tmp`; `"link %s"` is formatted with the C string
`buf->data`. -/
def detranslate_special_file (E : io_env) (src dst : List Nat) (fs : fs_state) :
    Except svn_error Unit × fs_state :=
  SVN_ERR (svn_io_stat E src fs) fun finfo fs =>
  SVN_ERR (svn_io_open_unique_file E dst (bytes ".tmp") fs) fun dst_tmp fs =>
  let d := dst_tmp
  SVN_ERR
    (match finfo with
     | apr_filetype_e.APR_REG =>
       SVN_ERR (svn_io_file_open E src fs) fun s fs =>
       svn_stream_copy E s d fs
     | apr_filetype_e.APR_LNK =>
       SVN_ERR (svn_io_read_link E src fs) fun buf fs =>
       svn_stream_printf E d (bytes "link " ++ c_str buf) fs
     | apr_filetype_e.APR_DIR => (Except.error svn_error.abort, fs)) fun _ fs =>
  SVN_ERR (svn_io_file_close E d fs) fun _ fs =>
  svn_io_file_rename E dst_tmp dst fs

/-- The loop `for (remainder = identifier; *remainder; remainder++)` of
`create_special_file` on the data of `contents`: the result is the C string
`identifier` and the C string `remainder` after the loop.  The loop ends at
the first NUL, or at the first space, which it overwrites with a NUL. -/
def separate_identifier : List Nat → List Nat × List Nat
  | [] => ([], [])
  | c :: rest =>
    if c = 0 then ([], [])
    else if c = 32 then ([], c_str rest)
    else (c :: (separate_identifier rest).1, (separate_identifier rest).2)

/-- The function `create_special_file (src, dst, pool)`. -/
def create_special_file (E : io_env) (src dst : List Nat) (fs : fs_state) :
    Except svn_error Unit × fs_state :=
  SVN_ERR (svn_io_check_special_path E src fs) fun is_special fs =>
  SVN_ERR
    (if is_special then
       SVN_ERR (svn_io_open_unique_file E dst (bytes ".tmp") fs) fun src_tmp fs =>
       SVN_ERR (svn_io_file_close E src_tmp fs) fun _ fs =>
       SVN_ERR (detranslate_special_file E src src_tmp fs) fun _ fs =>
       (Except.ok (src_tmp, some src_tmp), fs)
     else (Except.ok (src, none), fs)) fun ((src, src_tmp) : List Nat × Option (List Nat)) fs =>
  SVN_ERR (svn_stringbuf_from_file E src fs) fun contents fs =>
  SVN_ERR
    (match src_tmp with
     | some src_tmp => svn_io_remove_file E src_tmp fs
     | none => (Except.ok (), fs)) fun _ fs =>
  let identifier := (separate_identifier contents).1
  let remainder := (separate_identifier contents).2
  if strcmp identifier SVN_SUBST__SPECIAL_LINK_STR = false then
    match svn_io_create_unique_link E dst remainder (bytes ".tmp") fs with
    | (Except.ok dst_tmp, fs) => svn_io_file_rename E dst_tmp dst fs
    | (Except.error svn_error.SVN_ERR_UNSUPPORTED_FEATURE, fs) =>
      SVN_ERR (svn_io_open_unique_file E dst (bytes ".tmp") fs) fun dst_tmp fs =>
      SVN_ERR (svn_io_file_close E dst_tmp fs) fun _ fs =>
      SVN_ERR (svn_io_copy_file E src dst_tmp fs) fun _ fs =>
      svn_io_file_rename E dst_tmp dst fs
    | (Except.error err, fs) => (Except.error err, fs)
  else (Except.error svn_error.SVN_ERR_UNSUPPORTED_FEATURE, fs)

/-! ## The file installer -/

/-- Modelled from the spec: the streams that `svn_stream_from_aprfile` makes
of the file `s` open for reading and of the open file `d`, under the call
`svn_subst_translate_stream3 (src_stream, dst_stream, eol_str, repair,
keywords, expand, pool)` of `svn_subst_copy_and_translate3`.  What the
translator writes before it stops reaches the file; when a read or a write of
the streams fails, `short` bytes of it have reached the file. -/
def translate_file_streams (E : io_env) (s : List Nat) (d : List Nat)
    (eol_str : Option (List Nat)) (repair : Bool) (keywords : Option apr_hash_t)
    (expand : Bool) (fs : fs_state) : Except svn_error Unit × fs_state :=
  let r := svn_subst_translate_stream3 E.chunk s eol_str repair keywords expand
  let written :=
    match r with
    | Except.ok out => out
    | Except.error (stop.inconsistent_eol out) => out
    | Except.error _ => []
  if E.fails io_call.svn_stream_read d then
    (Except.error (svn_error.failed io_call.svn_stream_read d),
      fs_write fs d (written.take E.short))
  else
    match r with
    | Except.ok _ => (Except.ok (), fs_write fs d written)
    | Except.error err => (Except.error (svn_error.translate err), fs_write fs d written)

/-- The code at the label `error:` of `svn_subst_copy_and_translate3`: the
temporary file is removed when `dst_tmp` is set, the error of the removal is
cleared, and `err` is returned. -/
def error_label {α : Type} (E : io_env) (dst_tmp : Option (List Nat)) (err : svn_error)
    (fs : fs_state) : Except svn_error α × fs_state :=
  match dst_tmp with
  | some dst_tmp => (Except.error err, (svn_io_remove_file E dst_tmp fs).2)
  | none => (Except.error err, fs)

/-- The statements `err = expr; if (err) goto error;` of
`svn_subst_copy_and_translate3`, followed by the rest of the function. -/
def goto_error {α β : Type} (E : io_env) (dst_tmp : Option (List Nat))
    (expr : Except svn_error α × fs_state)
    (rest : α → fs_state → Except svn_error β × fs_state) : Except svn_error β × fs_state :=
  match expr with
  | (Except.error err, fs) => error_label E dst_tmp err fs
  | (Except.ok a, fs) => rest a fs

/-- The function `svn_subst_copy_and_translate3 (src, dst, eol_str, repair,
keywords, expand, special, pool)`.  When `svn_io_open_unique_file` fails,
`dst_tmp` is NULL. -/
def svn_subst_copy_and_translate3 (E : io_env) (src dst : List Nat)
    (eol_str : Option (List Nat)) (repair : Bool) (keywords : Option apr_hash_t)
    (expand special : Bool) (fs : fs_state) : Except svn_error Unit × fs_state :=
  SVN_ERR (svn_io_check_special_path E src fs) fun path_special fs =>
  if special ∨ path_special then
    if expand then create_special_file E src dst fs
    else detranslate_special_file E src dst fs
  else if ¬ (eol_str.isSome ∨ keywords.isSome) then svn_io_copy_file E src dst fs
  else
    goto_error E none (svn_io_file_open E src fs) fun s fs =>
    goto_error E none (svn_io_open_unique_file E dst (bytes ".tmp") fs) fun dst_tmp fs =>
    let d := dst_tmp
    goto_error E (some dst_tmp)
      (translate_file_streams E s d eol_str repair keywords expand fs) fun _ fs =>
    goto_error E (some dst_tmp) (svn_stream_close E src fs) fun _ fs =>
    goto_error E (some dst_tmp) (svn_stream_close E d fs) fun _ fs =>
    goto_error E (some dst_tmp) (svn_io_file_close E src fs) fun _ fs =>
    goto_error E (some dst_tmp) (svn_io_file_close E d fs) fun _ fs =>
    goto_error E (some dst_tmp) (svn_io_file_rename E dst_tmp dst fs) fun _ fs =>
    (Except.ok (), fs)

/-- An environment for closed examples in which the library call `call` fails
on every path, for a reason outside the model, and no other call does; for the
rest it is `example_env`, with two bytes reaching the file when a stream
operation fails. -/
def failing_env (call : io_call) : io_env :=
  io_env.mk (fun c _ => decide (c = call)) (fun _ _ => [49]) true 2 16

/-! ## The fixed-field builder -/

/-- The function `svn_subst_build_keywords (kw, keywords_val, rev, url, date,
author, pool)`; the result is the record `*kw` at the return of
`SVN_NO_ERROR`, `none` when `keyword_printf` is out of fuel. -/
def svn_subst_build_keywords (L : helpers) (kw : svn_subst_keywords_t) (keywords_val : List Nat)
    (rev url : Option (List Nat)) (date : Int) (author : Option (List Nat)) :
    Option svn_subst_keywords_t :=
  match svn_subst_build_keywords2 L keywords_val rev url date author with
  | none => none
  | some kwhash =>
    let kw :=
      match apr_hash_get kwhash SVN_KEYWORD_REVISION_LONG with
      | some val => { kw with revision := some val }
      | none => kw
    let kw :=
      match apr_hash_get kwhash SVN_KEYWORD_DATE_LONG with
      | some val => { kw with date := some val }
      | none => kw
    let kw :=
      match apr_hash_get kwhash SVN_KEYWORD_AUTHOR_LONG with
      | some val => { kw with author := some val }
      | none => kw
    let kw :=
      match apr_hash_get kwhash SVN_KEYWORD_URL_LONG with
      | some val => { kw with url := some val }
      | none => kw
    let kw :=
      match apr_hash_get kwhash SVN_KEYWORD_ID with
      | some val => { kw with id := some val }
      | none => kw
    some kw

/-! ## Reference functions for the properties of whole translations

These functions are not in the source; they are used to state properties. -/

/-- The slot of `svn_subst_keywords_t` of a logical keyword. -/
def keyword_field (k : logical_keyword) (kw : svn_subst_keywords_t) : Option (List Nat) :=
  match k with
  | logical_keyword.revision => kw.revision
  | logical_keyword.date => kw.date
  | logical_keyword.author => kw.author
  | logical_keyword.url => kw.url
  | logical_keyword.id => kw.id

/-- A format read from left to right as literal text: every `%%` pair becomes
one `%`, a `%` with any other byte after it stays with that byte, a `%` that is
the last byte stays, every other byte stays. -/
def literal_format : List Nat → List Nat
  | [] => []
  | [c] => [c]
  | c :: d :: rest =>
    if c = 37 then
      if d = 37 then 37 :: literal_format rest else 37 :: d :: literal_format rest
    else c :: literal_format (d :: rest)

/-- No `%` of the format is followed by one of the codes `a`, `b`, `d`, `D`,
`r`, `u`. -/
def no_code (fmt : List Nat) : Prop :=
  ∀ i < fmt.length, fmt.getD i 0 = 37 →
    fmt.getD (i + 1) 0 ∉ [97, 98, 100, 68, 114, 117]

instance (fmt : List Nat) : Decidable (no_code fmt) := by
  unfold no_code; infer_instance

theorem c_str_of_not_mem (n : List Nat) (h : 0 ∉ n) : c_str n = n := by
  unfold c_str
  rw [List.takeWhile_eq_self_iff]
  intro x hx
  simp only [ne_eq, decide_not, Bool.not_eq_true', decide_eq_false_iff_not]
  rintro rfl
  exact h hx

theorem strncmp_prefix (n tail : List Nat) : strncmp (n ++ tail) n n.length = false := by
  induction n with
  | nil => simp [strncmp]
  | cons c cs ih => simp [strncmp, ih]

theorem strncpy_bytes_length (v : List Nat) (k : Nat) : (strncpy_bytes v k).length = k := by
  induction k generalizing v with
  | zero => cases v <;> simp [strncpy_bytes]
  | succ k ih =>
    cases v with
    | nil => simp [strncpy_bytes]
    | cons c cs =>
      simp only [strncpy_bytes]
      split <;> simp [ih]

theorem strncpy_bytes_of_not_mem (v : List Nat) (k : Nat) (h : 0 ∉ v) (hk : k ≤ v.length) :
    strncpy_bytes v k = v.take k := by
  induction k generalizing v with
  | zero => cases v <;> simp [strncpy_bytes]
  | succ k ih =>
    cases v with
    | nil => simp at hk
    | cons c cs =>
      simp only [List.mem_cons, not_or] at h
      have hc : c ≠ 0 := fun e => h.1 e.symm
      simp only [strncpy_bytes, hc, if_false, List.take_succ_cons]
      rw [ih cs h.2 (by simpa using hk)]

theorem write_at_append (a s bs : List Nat) :
    write_at (a ++ s) a.length bs = a ++ bs ++ s.drop bs.length := by
  simp [write_at]

theorem write_at_append' (a s bs : List Nat) (off : Nat) (h : off = a.length) :
    write_at (a ++ s) off bs = a ++ bs ++ s.drop bs.length := by
  subst h; exact write_at_append a s bs

theorem keyword_name_tok (n rest : List Nat) (c : Nat) (h : 58 ∉ n)
    (hc : c = 58 ∨ rest = []) : keyword_name (36 :: (n ++ c :: rest)) = n := by
  unfold keyword_name
  have h1 : (36 :: (n ++ c :: rest)).length - 2 = n.length + rest.length := by
    simp
  rw [h1]
  simp only [List.drop_succ_cons, List.drop_zero]
  rw [List.take_append_eq_append_take]
  have h2 : List.take (n.length + rest.length) n = n := List.take_of_length_le (by omega)
  rw [h2, List.takeWhile_append_of_pos]
  · have : List.takeWhile (fun b => decide (b ≠ 58))
        (List.take (n.length + rest.length - n.length) (c :: rest)) = [] := by
      rcases hc with rfl | rfl
      · cases rest <;> simp
      · simp
    rw [this]; simp
  · intro x hx
    simp only [ne_eq, decide_not, Bool.not_eq_true', decide_eq_false_iff_not]
    rintro rfl; exact h hx

/-! ## Reading a token: the name and the bytes after it -/

theorem getD_tok (n tail : List Nat) (k : Nat) :
    (36 :: (n ++ tail)).getD (1 + n.length + k) 0 = tail.getD k 0 := by
  have : 1 + n.length + k = (n.length + k) + 1 := by omega
  rw [this, List.getD_cons_succ, List.getD_eq_getElem?_getD, List.getD_eq_getElem?_getD,
    List.getElem?_append_right (by omega)]
  simp

theorem getD_last (pre : List Nat) (b : Nat) :
    (pre ++ [b]).getD ((pre ++ [b]).length - 1) 0 = b := by
  simp [List.getD_eq_getElem?_getD]

theorem getD_last2 (pre : List Nat) (a b : Nat) :
    (pre ++ [a, b]).getD ((pre ++ [a, b]).length - 2) 0 = a := by
  have : (pre ++ [a, b]).length - 2 = pre.length := by simp
  rw [this, List.getD_eq_getElem?_getD, List.getElem?_append_right (le_refl _)]
  simp

theorem translate_keyword_tok (kw : apr_hash_t) (n rest v : List Nat) (c : Nat) (expand : Bool)
    (hn58 : 58 ∉ n) (hn0 : 0 ∉ n) (hc : c = 58 ∨ rest = [])
    (hlast : (36 :: (n ++ c :: rest)).getD ((36 :: (n ++ c :: rest)).length - 1) 0 = 36)
    (hlen : (36 :: (n ++ c :: rest)).length ≤ 255)
    (hv : apr_hash_get kw n = some v) :
    translate_keyword (36 :: (n ++ c :: rest)) expand (some kw)
      = translate_keyword_subst (36 :: (n ++ c :: rest)) n (if expand then some v else none) := by
  unfold translate_keyword
  have h2 : ¬ (36 :: (n ++ c :: rest)).length < 2 := by simp; omega
  simp only [SVN_KEYWORD_MAX_LEN, hlen, not_true_eq_false, if_false, hlast, h2,
    List.getD_cons_zero, and_self, keyword_name_tok n rest c hn58 hc, c_str_of_not_mem n hn0, hv]

theorem getD_tok0 (n tail : List Nat) :
    (36 :: (n ++ tail)).getD (1 + n.length) 0 = tail.getD 0 0 := getD_tok n tail 0

theorem subst_pre (n tail : List Nat) (value : Option (List Nat)) (htail : tail ≠ [])
    (hlen : (36 :: (n ++ tail)).length ≤ 255)
    (hlast : (36 :: (n ++ tail)).getD ((36 :: (n ++ tail)).length - 1) 0 = 36) :
    translate_keyword_subst (36 :: (n ++ tail)) n value =
      if tail.getD 0 0 = 58 ∧ tail.getD 1 0 = 58 ∧ tail.getD 2 0 = 32
          ∧ ((36 :: (n ++ tail)).getD ((36 :: (n ++ tail)).length - 2) 0 = 32
            ∨ (36 :: (n ++ tail)).getD ((36 :: (n ++ tail)).length - 2) 0 = 35)
          ∧ 5 < tail.length then
        match value with
        | none => some (true, (36 :: (n ++ tail)).take (1 + n.length + 2)
            ++ fill_spaces ((36 :: (n ++ tail)).drop (1 + n.length + 2)))
        | some v =>
          if v.length ≤ tail.length - 5 then
            some (true, (strncpy (36 :: (n ++ tail)) (1 + n.length + 3) v v.length).take
                (1 + n.length + 3 + v.length)
              ++ fill_spaces ((strncpy (36 :: (n ++ tail)) (1 + n.length + 3) v v.length).drop
                (1 + n.length + 3 + v.length)))
          else
            some (true, poke (poke (strncpy (36 :: (n ++ tail)) (1 + n.length + 3) v
              (tail.length - 5)) ((36 :: (n ++ tail)).length - 2) 35)
              ((36 :: (n ++ tail)).length - 1) 36)
      else if tail.getD 0 0 = 36 ∨ (tail.getD 0 0 = 58 ∧ tail.getD 1 0 = 36) then
        match value with
        | some v => some (true, expand_at (36 :: (n ++ tail)) (1 + n.length) n.length v)
        | none => some (true, 36 :: (n ++ tail))
      else if 3 ≤ tail.length ∧ tail.getD 0 0 = 58 ∧ tail.getD 1 0 = 32
          ∧ (36 :: (n ++ tail)).getD ((36 :: (n ++ tail)).length - 2) 0 = 32 then
        match value with
        | none => some (true, (poke (36 :: (n ++ tail)) (1 + n.length) 36).take (2 + n.length))
        | some v => some (true, expand_at (36 :: (n ++ tail)) (1 + n.length) n.length v)
      else some (false, 36 :: (n ++ tail)) := by
  unfold translate_keyword_subst
  have hpos : 0 < tail.length := List.length_pos.mpr htail
  have hL : (36 :: (n ++ tail)).length = 1 + n.length + tail.length := by
    simp only [List.length_cons, List.length_append]; omega
  have h1 : ¬ (36 :: (n ++ tail)).length < n.length + 2 := by omega
  have h2 : strncmp ((36 :: (n ++ tail)).drop 1) n n.length = false := by
    simpa using strncmp_prefix n tail
  have h3 : (6 + n.length < (36 :: (n ++ tail)).length) = (5 < tail.length) := by
    rw [hL]; apply propext; constructor <;> intro h <;> omega
  have h4 : (36 :: (n ++ tail)).length - (6 + n.length) = tail.length - 5 := by
    omega
  have h5 : ((36 :: (n ++ tail)).length ≥ 4 + n.length) = (3 ≤ tail.length) := by
    rw [hL]; apply propext; constructor <;> intro h <;> omega
  simp only [SVN_KEYWORD_MAX_LEN, hlen, not_true_eq_false, if_false, hlast, h1, h2,
    List.getD_cons_zero, and_self, getD_tok, getD_tok0, h3, h4, h5, Bool.false_eq_true]

/-! ## The expansion `$name: value $` -/

theorem take_append_exact (A B : List Nat) (k : Nat) (h : A.length = k) :
    (A ++ B).take k = A := by
  subst h; simp

theorem drop_append_exact (A B : List Nat) (k : Nat) (h : A.length = k) :
    (A ++ B).drop k = B := by
  subst h; simp

theorem expand_at_eq (pre suf v : List Nat) (kl : Nat) (hp : pre.length = 1 + kl) :
    expand_at (pre ++ suf) (1 + kl) kl v =
      if v = [] then pre ++ [58, 32, 36]
      else pre ++ [58, 32] ++ strncpy_bytes v (if v.length > 250 then 250 else v.length)
        ++ [32, 36] := by
  unfold expand_at poke strncpy
  simp only [SVN_KEYWORD_MAX_LEN]
  rw [write_at_append' pre suf [58] (1 + kl) hp.symm]
  rw [write_at_append' (pre ++ [58]) _ [32] (1 + kl + 1)
    (by simp only [List.length_append, List.length_singleton, hp])]
  by_cases hv : v = []
  · subst hv
    simp only [List.length_nil, ne_eq, not_true_eq_false, if_false, if_true]
    rw [write_at_append' (pre ++ [58] ++ [32]) _ [36] (1 + kl + 2)
      (by simp only [List.length_append, List.length_singleton, hp])]
    rw [take_append_exact _ _ _
      (by simp only [List.length_append, List.length_singleton, hp]; omega)]
    simp
  · have hv' : v.length ≠ 0 := by simpa using hv
    simp only [ne_eq, hv', not_false_eq_true, if_true, hv, if_false]
    generalize hk : (if v.length > 255 - 5 then 255 - 5 else v.length) = k
    have hsb := strncpy_bytes_length v k
    rw [write_at_append' (pre ++ [58] ++ [32]) _ (strncpy_bytes v k) (1 + kl + 2)
      (by simp only [List.length_append, List.length_singleton, hp])]
    rw [write_at_append' (pre ++ [58] ++ [32] ++ strncpy_bytes v k) _ [32] (1 + kl + 2 + k)
      (by simp only [List.length_append, List.length_singleton, hp, hsb])]
    rw [write_at_append' (pre ++ [58] ++ [32] ++ strncpy_bytes v k ++ [32]) _ [36]
      (1 + kl + 2 + k + 1)
      (by simp only [List.length_append, List.length_singleton, hp, hsb])]
    rw [take_append_exact _ _ _
      (by simp only [List.length_append, List.length_singleton, hp, hsb]; omega)]
    simp

/-! ## Bare tokens -/

theorem tok_last (n mid : List Nat) :
    (36 :: (n ++ (mid ++ [36]))).getD ((36 :: (n ++ (mid ++ [36]))).length - 1) 0 = 36 := by
  have e : 36 :: (n ++ (mid ++ [36])) = (36 :: (n ++ mid)) ++ [36] := by simp
  rw [e]; exact getD_last _ _

theorem tok_last2 (n mid : List Nat) (a : Nat) :
    (36 :: (n ++ (mid ++ [a, 36]))).getD ((36 :: (n ++ (mid ++ [a, 36]))).length - 2) 0 = a := by
  have e : 36 :: (n ++ (mid ++ [a, 36])) = (36 :: (n ++ mid)) ++ [a, 36] := by simp
  rw [e]; exact getD_last2 _ _ _

/-- The rewriter on a token whose name is a key of the table: the call of
`translate_keyword_subst` with the branch conditions read on the bytes after the name. -/
theorem translate_keyword_norm (kw : apr_hash_t) (n rest v : List Nat) (c : Nat) (expand : Bool)
    (hn58 : 58 ∉ n) (hn0 : 0 ∉ n) (hc : c = 58 ∨ rest = [])
    (hlast : (36 :: (n ++ c :: rest)).getD ((36 :: (n ++ c :: rest)).length - 1) 0 = 36)
    (hlen : (36 :: (n ++ c :: rest)).length ≤ 255)
    (hv : apr_hash_get kw n = some v) :
    translate_keyword (36 :: (n ++ c :: rest)) expand (some kw)
      = translate_keyword_subst (36 :: (n ++ c :: rest)) n (if expand then some v else none) :=
  translate_keyword_tok kw n rest v c expand hn58 hn0 hc hlast hlen hv

theorem fill_spaces_length (l : List Nat) : (fill_spaces l).length = l.length := by
  induction l with
  | nil => rfl
  | cons b rest ih =>
    simp only [fill_spaces]
    split <;> simp [ih]

theorem fill_spaces_clean (xs ys : List Nat) (h : 36 ∉ xs) :
    fill_spaces (xs ++ 36 :: ys) = List.replicate xs.length 32 ++ 36 :: ys := by
  induction xs with
  | nil => simp [fill_spaces]
  | cons b rest ih =>
    simp only [List.mem_cons, not_or] at h
    have hb : b ≠ 36 := fun e => h.1 e.symm
    simp [fill_spaces, hb, ih h.2, List.replicate_succ]

theorem fill_spaces_snoc (xs : List Nat) :
    ∃ ys, fill_spaces (xs ++ [36]) = ys ++ [36] ∧ ys.length = xs.length := by
  induction xs with
  | nil => exact ⟨[], by simp [fill_spaces]⟩
  | cons b rest ih =>
    obtain ⟨ys, h1, h2⟩ := ih
    by_cases hb : b = 36
    · exact ⟨b :: rest, by simp [fill_spaces, hb], rfl⟩
    · exact ⟨32 :: ys, by simp [fill_spaces, hb, h1], by simp [h2]⟩

/-- Expansion of a bare token `$n$` or of `$n:$`. -/
theorem bare_expand (kw : apr_hash_t) (n v tail : List Nat)
    (hn58 : 58 ∉ n) (hn0 : 0 ∉ n) (hv : apr_hash_get kw n = some v)
    (ht : tail = [36] ∨ tail = [58, 36]) (hlen : (36 :: (n ++ tail)).length ≤ 255) :
    translate_keyword (36 :: (n ++ tail)) true (some kw) = some (true,
      if v = [] then 36 :: n ++ [58, 32, 36]
      else 36 :: n ++ [58, 32] ++ strncpy_bytes v (if v.length > 250 then 250 else v.length)
        ++ [32, 36]) := by
  have hexp := expand_at_eq (36 :: n) tail v n.length (by simp; omega)
  rcases ht with rfl | rfl
  · rw [translate_keyword_norm kw n [] v 36 true hn58 hn0 (Or.inr rfl)
      (tok_last n []) hlen hv]
    rw [subst_pre n [36] _ (by simp) hlen (tok_last n [])]
    simp only [List.getD_cons_zero, if_true]
    rw [if_neg (by simp), if_pos (by simp)]
    simp only [List.cons_append] at hexp
    rw [hexp]
    simp
  · rw [translate_keyword_norm kw n [36] v 58 true hn58 hn0 (Or.inl rfl)
      (tok_last n [58]) hlen hv]
    rw [subst_pre n [58, 36] _ (by simp) hlen (tok_last n [58])]
    simp only [List.getD_cons_zero, if_true]
    rw [if_neg (by simp), if_pos (by simp)]
    simp only [List.cons_append] at hexp
    rw [hexp]
    simp

/-- Contraction of a bare token `$n$` or of `$n:$` changes nothing. -/
theorem bare_contract (kw : apr_hash_t) (n v tail : List Nat)
    (hn58 : 58 ∉ n) (hn0 : 0 ∉ n) (hv : apr_hash_get kw n = some v)
    (ht : tail = [36] ∨ tail = [58, 36]) (hlen : (36 :: (n ++ tail)).length ≤ 255) :
    translate_keyword (36 :: (n ++ tail)) false (some kw) = some (true, 36 :: (n ++ tail)) := by
  rcases ht with rfl | rfl
  · rw [translate_keyword_norm kw n [] v 36 false hn58 hn0 (Or.inr rfl)
      (tok_last n []) hlen hv]
    rw [subst_pre n [36] _ (by simp) hlen (tok_last n [])]
    simp only [List.getD_cons_zero, if_true]
    rw [if_neg (by simp), if_pos (by simp)]
    simp
  · rw [translate_keyword_norm kw n [36] v 58 false hn58 hn0 (Or.inl rfl)
      (tok_last n [58]) hlen hv]
    rw [subst_pre n [58, 36] _ (by simp) hlen (tok_last n [58])]
    simp only [List.getD_cons_zero, if_true]
    rw [if_neg (by simp), if_pos (by simp)]
    simp

/-! ## Expanded tokens -/

theorem poke_take (pre suf : List Nat) (b k : Nat) (hk : pre.length = k) :
    (poke (pre ++ suf) k b).take (k + 1) = pre ++ [b] := by
  unfold poke
  rw [write_at_append' pre suf [b] k hk.symm, List.append_assoc,
    ← List.append_assoc pre, take_append_exact _ _ _ (by simp [hk])]

/-- The branch taken by an expanded token `$n: $` or `$n: w $`. -/
theorem expanded_subst (n m : List Nat) (value : Option (List Nat))
    (hm : m = [] ∨ ∃ w, m = 32 :: w)
    (hlen : (36 :: (n ++ 58 :: (m ++ [32, 36]))).length ≤ 255) :
    translate_keyword_subst (36 :: (n ++ 58 :: (m ++ [32, 36]))) n value =
      match value with
      | none => some (true, 36 :: n ++ [36])
      | some v => some (true, expand_at (36 :: (n ++ 58 :: (m ++ [32, 36])))
          (1 + n.length) n.length v) := by
  have hl1 := tok_last n (58 :: (m ++ [32]))
  have hl2 := tok_last2 n (58 :: m) 32
  simp only [List.cons_append, List.append_assoc, List.singleton_append] at hl1 hl2
  rw [subst_pre n (58 :: (m ++ [32, 36])) _ (by simp) hlen hl1]
  have h1 : (58 :: (m ++ [32, 36])).getD 1 0 = 32 := by
    rcases hm with rfl | ⟨w, rfl⟩ <;> simp
  rw [if_neg (by rw [h1]; simp), if_neg (by rw [h1]; simp),
    if_pos ⟨by simp, by simp, h1, hl2⟩]
  cases value with
  | none =>
    simp only []
    have := poke_take (36 :: n) (58 :: (m ++ [32, 36])) 36 (1 + n.length) (by simp; omega)
    simp only [List.cons_append] at this
    rw [show 2 + n.length = 1 + n.length + 1 by omega, this]
    rfl
  | some v => rfl

/-- Contraction of an expanded token gives the bare token. -/
theorem expanded_contract (kw : apr_hash_t) (n v m : List Nat)
    (hn58 : 58 ∉ n) (hn0 : 0 ∉ n) (hv : apr_hash_get kw n = some v)
    (hm : m = [] ∨ ∃ w, m = 32 :: w)
    (hlen : (36 :: (n ++ 58 :: (m ++ [32, 36]))).length ≤ 255) :
    translate_keyword (36 :: (n ++ 58 :: (m ++ [32, 36]))) false (some kw)
      = some (true, 36 :: n ++ [36]) := by
  have hl1 := tok_last n (58 :: (m ++ [32]))
  simp only [List.cons_append, List.append_assoc, List.singleton_append] at hl1
  rw [translate_keyword_norm kw n (m ++ [32, 36]) v 58 false hn58 hn0 (Or.inl rfl) hl1 hlen hv]
  rw [expanded_subst n m _ hm hlen]
  rfl

/-- Expansion of an expanded token writes the value anew. -/
theorem expanded_expand (kw : apr_hash_t) (n v m : List Nat)
    (hn58 : 58 ∉ n) (hn0 : 0 ∉ n) (hv : apr_hash_get kw n = some v)
    (hm : m = [] ∨ ∃ w, m = 32 :: w)
    (hlen : (36 :: (n ++ 58 :: (m ++ [32, 36]))).length ≤ 255) :
    translate_keyword (36 :: (n ++ 58 :: (m ++ [32, 36]))) true (some kw) = some (true,
      if v = [] then 36 :: n ++ [58, 32, 36]
      else 36 :: n ++ [58, 32] ++ strncpy_bytes v (if v.length > 250 then 250 else v.length)
        ++ [32, 36]) := by
  have hl1 := tok_last n (58 :: (m ++ [32]))
  simp only [List.cons_append, List.append_assoc, List.singleton_append] at hl1
  rw [translate_keyword_norm kw n (m ++ [32, 36]) v 58 true hn58 hn0 (Or.inl rfl) hl1 hlen hv]
  rw [expanded_subst n m _ hm hlen]
  have hexp := expand_at_eq (36 :: n) (58 :: (m ++ [32, 36])) v n.length (by simp; omega)
  simp only [List.cons_append] at hexp
  simp only [if_true]
  rw [hexp]
  simp

/-! ## Fixed-width tokens -/

/-- The branch taken by a fixed-width token `$n:: body t$`. -/
theorem fixed_subst (n body : List Nat) (t : Nat) (value : Option (List Nat))
    (ht : t = 32 ∨ t = 35) (hb : body ≠ [])
    (hlen : (36 :: (n ++ 58 :: 58 :: 32 :: (body ++ [t, 36]))).length ≤ 255) :
    translate_keyword_subst (36 :: (n ++ 58 :: 58 :: 32 :: (body ++ [t, 36]))) n value =
      match value with
      | none => some (true, 36 :: (n ++ 58 :: 58 :: 32 :: fill_spaces (body ++ [t, 36])))
      | some v =>
        if v.length ≤ body.length then
          some (true, 36 :: (n ++ 58 :: 58 :: 32 :: (strncpy_bytes v v.length
            ++ fill_spaces ((body ++ [t, 36]).drop v.length))))
        else
          some (true, 36 :: (n ++ 58 :: 58 :: 32 :: (strncpy_bytes v body.length ++ [35, 36]))) := by
  have hl1 := tok_last n (58 :: 58 :: 32 :: (body ++ [t]))
  have hl2 := tok_last2 n (58 :: 58 :: 32 :: body) t
  simp only [List.cons_append, List.append_assoc, List.singleton_append, List.nil_append]
    at hl1 hl2
  have hbl : 0 < body.length := List.length_pos.mpr hb
  rw [subst_pre n (58 :: 58 :: 32 :: (body ++ [t, 36])) _ (by simp) hlen hl1]
  have hcond : (58 :: 58 :: 32 :: (body ++ [t, 36])).getD 0 0 = 58
      ∧ (58 :: 58 :: 32 :: (body ++ [t, 36])).getD 1 0 = 58
      ∧ (58 :: 58 :: 32 :: (body ++ [t, 36])).getD 2 0 = 32
      ∧ ((36 :: (n ++ 58 :: 58 :: 32 :: (body ++ [t, 36]))).getD
            ((36 :: (n ++ 58 :: 58 :: 32 :: (body ++ [t, 36]))).length - 2) 0 = 32
          ∨ (36 :: (n ++ 58 :: 58 :: 32 :: (body ++ [t, 36]))).getD
            ((36 :: (n ++ 58 :: 58 :: 32 :: (body ++ [t, 36]))).length - 2) 0 = 35)
      ∧ 5 < (58 :: 58 :: 32 :: (body ++ [t, 36])).length := by
    refine ⟨by simp, by simp, by simp, ?_, by simp; omega⟩
    rw [hl2]; exact ht
  rw [if_pos hcond]
  have hm : (58 :: 58 :: 32 :: (body ++ [t, 36])).length - 5 = body.length := by simp
  rw [hm]
  have epre2 : 36 :: (n ++ 58 :: 58 :: 32 :: (body ++ [t, 36]))
      = (36 :: (n ++ [58, 58])) ++ (32 :: (body ++ [t, 36])) := by simp
  have epre3 : 36 :: (n ++ 58 :: 58 :: 32 :: (body ++ [t, 36]))
      = (36 :: (n ++ [58, 58, 32])) ++ (body ++ [t, 36]) := by simp
  have hLen : (36 :: (n ++ 58 :: 58 :: 32 :: (body ++ [t, 36]))).length
      = 1 + n.length + 3 + body.length + 2 := by simp; omega
  cases value with
  | none =>
    simp only []
    rw [epre2, take_append_exact _ _ _ (by simp; omega), drop_append_exact _ _ _ (by simp; omega)]
    simp [fill_spaces]
  | some v =>
    simp only []
    by_cases hfit : v.length ≤ body.length
    · rw [if_pos hfit, if_pos hfit]
      unfold strncpy
      rw [epre3, write_at_append' _ _ _ _ (by simp; omega), strncpy_bytes_length,
        take_append_exact _ _ _ (by simp [strncpy_bytes_length]; omega),
        drop_append_exact _ _ _ (by simp [strncpy_bytes_length]; omega)]
      simp
    · rw [if_neg hfit, if_neg hfit]
      unfold strncpy poke
      rw [hLen, epre3, write_at_append' _ _ _ _ (by simp; omega), strncpy_bytes_length,
        drop_append_exact body _ _ rfl,
        write_at_append' _ _ _ _ (by simp [strncpy_bytes_length]; omega)]
      simp only [List.length_singleton, List.drop_succ_cons, List.drop_zero]
      rw [write_at_append' _ _ _ _ (by simp [strncpy_bytes_length]; omega)]
      simp

theorem fill_spaces_tail (body : List Nat) (t k : Nat) (hb : 36 ∉ body) (ht : t = 32 ∨ t = 35)
    (hk : k ≤ body.length) :
    fill_spaces ((body ++ [t, 36]).drop k) = List.replicate (body.length - k) 32 ++ [32, 36] := by
  have h1 : (body ++ [t, 36]).drop k = (body.drop k ++ [t]) ++ 36 :: [] := by
    rw [List.drop_append_of_le_length hk]; simp
  have h2 : 36 ∉ body.drop k ++ [t] := by
    intro hmem
    rcases List.mem_append.mp hmem with h | h
    · exact hb (List.mem_of_mem_drop h)
    · rcases ht with rfl | rfl <;> simp at h
  rw [h1, fill_spaces_clean _ _ h2]
  simp [List.replicate_succ']

/-- The fixed-width token `$n:: body t$` is rewritten in both directions; the
result is given bytewise. -/
theorem fixed_rewrite (kw : apr_hash_t) (n v body : List Nat) (t : Nat) (expand : Bool)
    (hn58 : 58 ∉ n) (hn0 : 0 ∉ n) (hv : apr_hash_get kw n = some v)
    (ht : t = 32 ∨ t = 35) (hb : body ≠ [])
    (hlen : (tok_fixed n body t).length ≤ 255) :
    translate_keyword (tok_fixed n body t) expand (some kw) = some (true,
      if expand then
        if v.length ≤ body.length then
          36 :: (n ++ 58 :: 58 :: 32 :: (strncpy_bytes v v.length
            ++ fill_spaces ((body ++ [t, 36]).drop v.length)))
        else 36 :: (n ++ 58 :: 58 :: 32 :: (strncpy_bytes v body.length ++ [35, 36]))
      else 36 :: (n ++ 58 :: 58 :: 32 :: fill_spaces (body ++ [t, 36]))) := by
  have e : tok_fixed n body t = 36 :: (n ++ 58 :: 58 :: 32 :: (body ++ [t, 36])) := by
    simp [tok_fixed]
  rw [e] at hlen ⊢
  have hl1 := tok_last n (58 :: 58 :: 32 :: (body ++ [t]))
  simp only [List.cons_append, List.append_assoc, List.singleton_append, List.nil_append] at hl1
  rw [translate_keyword_norm kw n _ v 58 expand hn58 hn0 (Or.inl rfl) hl1 hlen hv,
    fixed_subst n body t _ ht hb hlen]
  cases expand
  · simp
  · simp only [if_true]
    split <;> rfl

theorem tok_fixed_length (n body : List Nat) (t : Nat) :
    (tok_fixed n body t).length = n.length + 6 + body.length := by
  simp [tok_fixed]; omega

/-! ## The loops of the translator

### The run of boring bytes -/

theorem boring_len_spec (rej : List Nat) (h0 : 0 ∉ rej) :
    ∀ (fuel : Nat) (q pre : List Nat), q.length < fuel →
      boring_len (pre ++ q) rej fuel pre.length
        = some (pre.length + (q.takeWhile (fun b => ! decide (b ∈ rej))).length) := by
  intro fuel
  induction fuel with
  | zero => intro q pre h; omega
  | succ fuel ih =>
    intro q pre hq
    unfold boring_len
    simp only [List.drop_left, strcspn]
    have hsplit := List.takeWhile_append_dropWhile
      (fun b => decide (b ≠ 0) && ! decide (b ∈ rej)) q
    generalize ha : List.takeWhile (fun b => decide (b ≠ 0) && ! decide (b ∈ rej)) q = a at hsplit
    have haQ : ∀ x ∈ a, (fun b => ! decide (b ∈ rej)) x = true := by
      intro x hx
      rw [← ha] at hx
      have := List.mem_takeWhile_imp hx
      simp only [Bool.and_eq_true] at this
      exact this.2
    cases hr : List.dropWhile (fun b => decide (b ≠ 0) && ! decide (b ∈ rej)) q with
    | nil =>
      rw [hr, List.append_nil] at hsplit
      subst hsplit
      have e1 : List.takeWhile (fun b => ! decide (b ∈ rej)) a = a :=
        List.takeWhile_eq_self_iff.mpr haQ
      rw [e1]
      simp
    | cons d r' =>
      rw [hr] at hsplit
      have hd : (decide (d ≠ 0) && ! decide (d ∈ rej)) = false := by
        have := List.head_dropWhile_not (fun b => decide (b ≠ 0) && ! decide (b ∈ rej)) q
          (by rw [hr]; simp)
        have e : (List.dropWhile (fun b => decide (b ≠ 0) && ! decide (b ∈ rej)) q).head
            (by rw [hr]; simp) = d := by simp only [hr, List.head_cons]
        rw [e] at this
        exact this
      subst hsplit
      have eget : (pre ++ (a ++ d :: r')).getD (pre.length + a.length) 0 = d := by
        rw [← List.append_assoc, List.getD_eq_getElem?_getD,
          List.getElem?_append_right (by simp)]
        simp
      rw [eget]
      by_cases hd0 : d = 0
      · subst hd0
        have hne : ¬ (pre.length + a.length = (pre ++ (a ++ 0 :: r')).length) := by
          simp
        rw [if_neg (by simp [hne])]
        have e2 : pre ++ (a ++ 0 :: r') = (pre ++ a ++ [0]) ++ r' := by simp
        have e3 : pre.length + a.length + 1 = (pre ++ a ++ [0]).length := by
          simp only [List.length_append, List.length_singleton]
        rw [e2, e3, ih r' (pre ++ a ++ [0]) (by simp at hq; omega)]
        have e4 : List.takeWhile (fun b => ! decide (b ∈ rej)) (a ++ 0 :: r')
            = a ++ 0 :: List.takeWhile (fun b => ! decide (b ∈ rej)) r' := by
          rw [List.takeWhile_append_of_pos haQ, List.takeWhile_cons_of_pos (by simpa using h0)]
        rw [e4]
        simp only [List.length_append, List.length_singleton, List.length_cons, List.length_nil]
        apply congrArg
        omega
      · rw [if_pos (Or.inl hd0)]
        have hdrej : d ∈ rej := by
          simp only [ne_eq, hd0, not_false_eq_true, decide_True, Bool.true_and,
            Bool.not_eq_false', decide_eq_true_eq] at hd
          exact hd
        have e4 : List.takeWhile (fun b => ! decide (b ∈ rej)) (a ++ d :: r') = a := by
          rw [List.takeWhile_append_of_pos haQ, List.takeWhile_cons_of_neg (by simpa using hdrej)]
          simp
        rw [e4]

theorem interesting_sub (o : opts) (c : Nat) (h : c ∈ interesting o) :
    c = 36 ∨ c = 13 ∨ c = 10 := by
  unfold interesting at h
  split at h
  · simpa using h
  · split at h
    · simp at h; omega
    · simp at h; omega

theorem zero_not_interesting (o : opts) : 0 ∉ interesting o := by
  intro h
  have := interesting_sub o 0 h
  omega

theorem chunk_loop_nil (o : opts) (fuel : Nat) (st : xlate) :
    chunk_loop o fuel [] st = Except.ok st := by
  cases fuel <;> simp [chunk_loop]

/-- The second half of the loop body, in terms of the run of boring bytes at `p`. -/
theorem scan_spec (o : opts) (p : List Nat) (st : xlate) :
    scan o p st =
      match p.dropWhile (fun b => ! decide (b ∈ interesting o)) with
      | [] => Except.ok ([], { st with
          dst := st.dst ++ p.takeWhile (fun b => ! decide (b ∈ interesting o)) })
      | c :: q =>
        match idle_step o { st with
          dst := st.dst ++ p.takeWhile (fun b => ! decide (b ∈ interesting o)) } c with
        | Except.error e => Except.error e
        | Except.ok s => Except.ok (q, s) := by
  unfold scan
  have hb := boring_len_spec (interesting o) (zero_not_interesting o) (p.length + 1) p []
    (by omega)
  simp only [List.nil_append, List.length_nil, Nat.zero_add] at hb
  rw [hb]
  simp only []
  have hsplit := List.takeWhile_append_dropWhile (fun b => ! decide (b ∈ interesting o)) p
  generalize hrun : List.takeWhile (fun b => ! decide (b ∈ interesting o)) p = run at hsplit
  have hst : (if run.length ≠ 0 then { st with dst := translate_write st.dst p run.length }
      else st) = { st with dst := st.dst ++ run } := by
    by_cases hl : run.length = 0
    · have : run = [] := List.length_eq_zero.mp hl
      subst this
      simp
    · rw [if_pos hl]
      unfold translate_write
      rw [← hsplit, List.take_left]
  rw [hst]
  have hdrop : List.drop run.length p
      = List.dropWhile (fun b => ! decide (b ∈ interesting o)) p := by
    conv_lhs => rw [← hsplit]
    rw [List.drop_left]
  rw [hdrop]
  cases hr : List.dropWhile (fun b => ! decide (b ∈ interesting o)) p with
  | nil => rfl
  | cons c q =>
    have hc : c ∈ interesting o := by
      have := List.head_dropWhile_not (fun b => ! decide (b ∈ interesting o)) p
        (by rw [hr]; simp)
      have e : (List.dropWhile (fun b => ! decide (b ∈ interesting o)) p).head
          (by rw [hr]; simp) = c := by simp only [hr, List.head_cons]
      rw [e] at this
      simpa using this
    rcases interesting_sub o c hc with rfl | rfl | rfl
    · simp [idle_step, hc]
    · simp [idle_step, hc]
    · simp only [idle_step, hc, if_true]
      cases translate_newline o.eol_str st.src_format (st.newline_buf ++ [10]) (st.dst ++ run)
          o.repair with
      | error e => simp
      | ok r => simp

theorem byte_step_idle (o : opts) (st : xlate) (c : Nat) (h1 : st.newline_buf = [])
    (h2 : st.keyword_buf = []) : byte_step o st c = idle_step o st c := by
  unfold byte_step
  simp [h1, h2, SVN_KEYWORD_MAX_LEN]

theorem run_bytes_boring (o : opts) (run q : List Nat) :
    ∀ st : xlate, st.newline_buf = [] → st.keyword_buf = [] →
      (∀ b ∈ run, b ∉ interesting o) →
      run_bytes o (run ++ q) st = run_bytes o q { st with dst := st.dst ++ run } := by
  induction run with
  | nil => intro st _ _ _; simp
  | cons b bs ih =>
    intro st h1 h2 hb
    have hb1 : b ∉ interesting o := hb b (List.mem_cons_self _ _)
    simp only [List.cons_append, run_bytes]
    rw [byte_step_idle o st b h1 h2]
    unfold idle_step
    rw [if_neg hb1]
    have := ih { st with dst := st.dst ++ [b] } h1 h2
      (fun x hx => hb x (List.mem_cons_of_mem _ hx))
    simp only [List.append_assoc, List.singleton_append] at this
    exact this

/-! ### The cases of `byte_step` -/

theorem byte_step_nl (o : opts) (st : xlate) (c : Nat) (h : st.newline_buf ≠ []) :
    byte_step o st c =
      match translate_newline o.eol_str st.src_format
          (if c = 10 then st.newline_buf ++ [c] else st.newline_buf) st.dst o.repair with
      | Except.error e => Except.error e
      | Except.ok (sf, dst) =>
        if c = 10 then Except.ok { st with newline_buf := [], src_format := sf, dst := dst }
        else idle_step o { st with newline_buf := [], src_format := sf, dst := dst } c := by
  unfold byte_step
  have : st.newline_buf.length ≠ 0 := by simpa using h
  rw [if_pos this]
  try rfl

theorem byte_step_kw_dollar (o : opts) (st : xlate) (h1 : st.newline_buf = [])
    (h2 : st.keyword_buf ≠ []) :
    byte_step o st 36 =
      match translate_keyword (st.keyword_buf ++ [36]) o.expand o.keywords with
      | none => Except.error stop.assertion
      | some (true, kb) =>
        Except.ok { st with dst := translate_write st.dst kb kb.length, keyword_buf := [] }
      | some (false, kb) =>
        idle_step o
          { st with dst := translate_write st.dst kb (kb.length - 1), keyword_buf := [] } 36 := by
  unfold byte_step
  have a : ¬ st.newline_buf.length ≠ 0 := by simp [h1]
  have b : st.keyword_buf.length ≠ 0 ∧ 36 = 36 := ⟨by simpa using h2, rfl⟩
  rw [if_neg a, if_pos b]
  try rfl

theorem byte_step_kw_flush (o : opts) (st : xlate) (c : Nat) (h1 : st.newline_buf = [])
    (h2 : st.keyword_buf ≠ []) (hc : c ≠ 36)
    (hf : st.keyword_buf.length = 254 ∨ c = 13 ∨ c = 10) :
    byte_step o st c = idle_step o { st with
      dst := translate_write st.dst st.keyword_buf st.keyword_buf.length, keyword_buf := [] } c := by
  unfold byte_step
  have a : ¬ st.newline_buf.length ≠ 0 := by simp [h1]
  have b : ¬ (st.keyword_buf.length ≠ 0 ∧ c = 36) := fun h => hc h.2
  have d : st.keyword_buf.length = SVN_KEYWORD_MAX_LEN - 1
      ∨ (st.keyword_buf.length ≠ 0 ∧ (c = 13 ∨ c = 10)) := by
    rcases hf with h | h
    · exact Or.inl h
    · exact Or.inr ⟨by simpa using h2, h⟩
  rw [if_neg a, if_neg b, if_pos d]

theorem byte_step_kw_app (o : opts) (st : xlate) (c : Nat) (h1 : st.newline_buf = [])
    (h2 : st.keyword_buf ≠ []) (hc : c ≠ 36) (hl : st.keyword_buf.length ≠ 254)
    (h13 : c ≠ 13) (h10 : c ≠ 10) :
    byte_step o st c = Except.ok { st with keyword_buf := st.keyword_buf ++ [c] } := by
  unfold byte_step
  have a : ¬ st.newline_buf.length ≠ 0 := by simp [h1]
  have b : ¬ (st.keyword_buf.length ≠ 0 ∧ c = 36) := fun h => hc h.2
  have d : ¬ (st.keyword_buf.length = SVN_KEYWORD_MAX_LEN - 1
      ∨ (st.keyword_buf.length ≠ 0 ∧ (c = 13 ∨ c = 10))) := by
    rintro (h | ⟨_, h | h⟩)
    · exact hl h
    · exact h13 h
    · exact h10 h
  have e : st.keyword_buf.length ≠ 0 := by simpa using h2
  rw [if_neg a, if_neg b, if_neg d, if_pos e]

/-! ### The cases of `iteration` -/

theorem iteration_nl (o : opts) (st : xlate) (c : Nat) (rest : List Nat)
    (h : st.newline_buf ≠ []) :
    iteration o (c :: rest) st =
      match translate_newline o.eol_str st.src_format
          (if c = 10 then st.newline_buf ++ [c] else st.newline_buf) st.dst o.repair with
      | Except.error e => Except.error e
      | Except.ok (sf, dst) =>
        scan o (if c = 10 then rest else c :: rest)
          { st with newline_buf := [], src_format := sf, dst := dst } := by
  unfold iteration
  have : st.newline_buf.length ≠ 0 := by simpa using h
  simp only []
  rw [if_pos this]
  try rfl

theorem iteration_kw_dollar (o : opts) (st : xlate) (rest : List Nat)
    (h1 : st.newline_buf = []) (h2 : st.keyword_buf ≠ []) :
    iteration o (36 :: rest) st =
      match translate_keyword (st.keyword_buf ++ [36]) o.expand o.keywords with
      | none => Except.error stop.assertion
      | some (true, kb) =>
        scan o rest { st with dst := translate_write st.dst kb kb.length, keyword_buf := [] }
      | some (false, kb) =>
        scan o (36 :: rest)
          { st with dst := translate_write st.dst kb (kb.length - 1), keyword_buf := [] } := by
  unfold iteration
  have a : ¬ st.newline_buf.length ≠ 0 := by simp [h1]
  have b : st.keyword_buf.length ≠ 0 ∧ True := ⟨by simpa using h2, trivial⟩
  simp only []
  rw [if_neg a, if_pos b]
  try rfl

theorem iteration_kw_flush (o : opts) (st : xlate) (c : Nat) (rest : List Nat)
    (h1 : st.newline_buf = []) (h2 : st.keyword_buf ≠ []) (hc : c ≠ 36)
    (hf : st.keyword_buf.length = 254 ∨ c = 13 ∨ c = 10) :
    iteration o (c :: rest) st = scan o (c :: rest) { st with
      dst := translate_write st.dst st.keyword_buf st.keyword_buf.length, keyword_buf := [] } := by
  unfold iteration
  have a : ¬ st.newline_buf.length ≠ 0 := by simp [h1]
  have b : ¬ (st.keyword_buf.length ≠ 0 ∧ c = 36) := fun h => hc h.2
  have d : st.keyword_buf.length = SVN_KEYWORD_MAX_LEN - 1
      ∨ (st.keyword_buf.length ≠ 0 ∧ (c = 13 ∨ c = 10)) := by
    rcases hf with h | h
    · exact Or.inl h
    · exact Or.inr ⟨by simpa using h2, h⟩
  simp only []
  rw [if_neg a, if_neg b, if_pos d]

theorem iteration_kw_app (o : opts) (st : xlate) (c : Nat) (rest : List Nat)
    (h1 : st.newline_buf = [])
    (h2 : st.keyword_buf ≠ []) (hc : c ≠ 36) (hl : st.keyword_buf.length ≠ 254)
    (h13 : c ≠ 13) (h10 : c ≠ 10) :
    iteration o (c :: rest) st
      = Except.ok (rest, { st with keyword_buf := st.keyword_buf ++ [c] }) := by
  unfold iteration
  have a : ¬ st.newline_buf.length ≠ 0 := by simp [h1]
  have b : ¬ (st.keyword_buf.length ≠ 0 ∧ c = 36) := fun h => hc h.2
  have d : ¬ (st.keyword_buf.length = SVN_KEYWORD_MAX_LEN - 1
      ∨ (st.keyword_buf.length ≠ 0 ∧ (c = 13 ∨ c = 10))) := by
    rintro (h | ⟨_, h | h⟩)
    · exact hl h
    · exact h13 h
    · exact h10 h
  have e : st.keyword_buf.length ≠ 0 := by simpa using h2
  simp only []
  rw [if_neg a, if_neg b, if_neg d, if_pos e]

theorem iteration_idle (o : opts) (st : xlate) (c : Nat) (rest : List Nat)
    (h1 : st.newline_buf = []) (h2 : st.keyword_buf = []) :
    iteration o (c :: rest) st = scan o (c :: rest) st := by
  unfold iteration
  simp [h1, h2, SVN_KEYWORD_MAX_LEN]

/-! ### The inner loop and the outer loop compute the byte-by-byte run -/

theorem idle_step_inv (o : opts) (st s : xlate) (c : Nat)
    (h : idle_step o st c = Except.ok s) (h1 : st.newline_buf = [])
    (h2 : st.keyword_buf = []) :
    s.newline_buf = [] ∨ s.keyword_buf = [] := by
  unfold idle_step at h
  by_cases hc : c ∈ interesting o
  · rw [if_pos hc] at h
    by_cases h36 : c = 36
    · rw [if_pos h36] at h; cases h; exact Or.inl h1
    · rw [if_neg h36] at h
      by_cases h13 : c = 13
      · rw [if_pos h13] at h; cases h; exact Or.inr h2
      · rw [if_neg h13] at h
        cases hn : translate_newline o.eol_str st.src_format (st.newline_buf ++ [10]) st.dst
            o.repair with
        | error e => rw [hn] at h; cases h
        | ok r => rw [hn] at h; cases h; exact Or.inl rfl
  · rw [if_neg hc] at h; cases h; exact Or.inl h1

theorem byte_step_inv (o : opts) (st s : xlate) (c : Nat)
    (hinv : st.newline_buf = [] ∨ st.keyword_buf = [])
    (h : byte_step o st c = Except.ok s) : s.newline_buf = [] ∨ s.keyword_buf = [] := by
  by_cases hnb : st.newline_buf = []
  · by_cases hkb : st.keyword_buf = []
    · rw [byte_step_idle o st c hnb hkb] at h
      exact idle_step_inv o st s c h hnb hkb
    · by_cases hc : c = 36
      · subst hc
        rw [byte_step_kw_dollar o st hnb hkb] at h
        cases ht : translate_keyword (st.keyword_buf ++ [36]) o.expand o.keywords with
        | none => rw [ht] at h; cases h
        | some r =>
          obtain ⟨b, kb⟩ := r
          rw [ht] at h
          cases b
          · exact idle_step_inv o _ s 36 h hnb rfl
          · cases h; exact Or.inl hnb
      · by_cases hf : st.keyword_buf.length = 254 ∨ c = 13 ∨ c = 10
        · rw [byte_step_kw_flush o st c hnb hkb hc hf] at h
          exact idle_step_inv o _ s c h hnb rfl
        · rw [byte_step_kw_app o st c hnb hkb hc (fun e => hf (Or.inl e))
            (fun e => hf (Or.inr (Or.inl e))) (fun e => hf (Or.inr (Or.inr e)))] at h
          cases h; exact Or.inl hnb
  · have hkb : st.keyword_buf = [] := by
      rcases hinv with h' | h'
      · exact absurd h' hnb
      · exact h'
    rw [byte_step_nl o st c hnb] at h
    cases hn : translate_newline o.eol_str st.src_format
        (if c = 10 then st.newline_buf ++ [c] else st.newline_buf) st.dst o.repair with
    | error e => rw [hn] at h; cases h
    | ok r =>
      rw [hn] at h
      by_cases hc : c = 10
      · simp only [hc, if_true] at h; cases h; exact Or.inl rfl
      · simp only [hc, if_false] at h
        exact idle_step_inv o _ s c h rfl hkb

theorem run_bytes_inv (o : opts) (p : List Nat) :
    ∀ (st s : xlate), (st.newline_buf = [] ∨ st.keyword_buf = []) →
      run_bytes o p st = Except.ok s → s.newline_buf = [] ∨ s.keyword_buf = [] := by
  induction p with
  | nil => intro st s hinv h; simp [run_bytes] at h; subst h; exact hinv
  | cons c rest ih =>
    intro st s hinv h
    simp only [run_bytes] at h
    cases hb : byte_step o st c with
    | error e => rw [hb] at h; cases h
    | ok s1 =>
      rw [hb] at h
      exact ih s1 s (byte_step_inv o st s1 c hinv hb) h

theorem run_bytes_append (o : opts) (a b : List Nat) :
    ∀ st : xlate, run_bytes o (a ++ b) st =
      match run_bytes o a st with
      | Except.error e => Except.error e
      | Except.ok s => run_bytes o b s := by
  induction a with
  | nil => intro st; simp [run_bytes]
  | cons c rest ih =>
    intro st
    simp only [List.cons_append, run_bytes]
    cases byte_step o st c with
    | error e => rfl
    | ok s1 => exact ih s1

/-- The second half of the loop body followed by the rest of the inner loop,
from the boring state. -/
theorem scan_then_loop (o : opts) (q : List Nat) (st : xlate) (f : Nat)
    (h1 : st.newline_buf = []) (h2 : st.keyword_buf = []) (hf : q.length ≤ f + 1)
    (ih : ∀ (q' : List Nat) (s' : xlate), q'.length < q.length → q'.length ≤ f →
      (s'.newline_buf = [] ∨ s'.keyword_buf = []) →
      chunk_loop o f q' s' = run_bytes o q' s') :
    (match scan o q st with
      | Except.error e => Except.error e
      | Except.ok (p1, s) => chunk_loop o f p1 s) = run_bytes o q st := by
  rw [scan_spec]
  have hsplit := List.takeWhile_append_dropWhile (fun b => ! decide (b ∈ interesting o)) q
  have hrun : ∀ b ∈ List.takeWhile (fun b => ! decide (b ∈ interesting o)) q,
      b ∉ interesting o := by
    intro b hb
    have := List.mem_takeWhile_imp hb
    simpa using this
  generalize List.takeWhile (fun b => ! decide (b ∈ interesting o)) q = run at hsplit hrun
  generalize List.dropWhile (fun b => ! decide (b ∈ interesting o)) q = rest at hsplit
  subst hsplit
  rw [run_bytes_boring o run rest st h1 h2 hrun]
  cases rest with
  | nil => simp [chunk_loop_nil, run_bytes]
  | cons c q' =>
    simp only [run_bytes]
    rw [byte_step_idle o { st with dst := st.dst ++ run } c h1 h2]
    cases hs : idle_step o { st with dst := st.dst ++ run } c with
    | error e => rfl
    | ok s =>
      simp only []
      apply ih
      · simp; omega
      · simp at hf; omega
      · exact idle_step_inv o _ s c hs h1 h2

/-- The inner loop over a chunk computes `run_bytes` on the chunk. -/
theorem chunk_loop_eq (o : opts) :
    ∀ (n : Nat) (p : List Nat) (st : xlate) (fuel : Nat), p.length ≤ n → p.length ≤ fuel →
      (st.newline_buf = [] ∨ st.keyword_buf = []) →
      chunk_loop o fuel p st = run_bytes o p st := by
  intro n
  induction n with
  | zero =>
    intro p st fuel hn _ _
    have : p = [] := List.length_eq_zero.mp (by omega)
    subst this
    rw [chunk_loop_nil]; rfl
  | succ n ih =>
    intro p st fuel hn hfuel hinv
    cases p with
    | nil => rw [chunk_loop_nil]; rfl
    | cons c rest =>
      cases fuel with
      | zero => simp at hfuel
      | succ f =>
        have hrl : rest.length ≤ n := by simp at hn; omega
        have hrf : rest.length ≤ f := by simp at hfuel; omega
        have ihs : ∀ (q' : List Nat) (s' : xlate), q'.length < (c :: rest).length →
            q'.length ≤ f → (s'.newline_buf = [] ∨ s'.keyword_buf = []) →
            chunk_loop o f q' s' = run_bytes o q' s' := by
          intro q' s' h1 h2 h3
          exact ih q' s' f (by simp at h1; omega) h2 h3
        have ihr : ∀ (q' : List Nat) (s' : xlate), q'.length < rest.length →
            q'.length ≤ f → (s'.newline_buf = [] ∨ s'.keyword_buf = []) →
            chunk_loop o f q' s' = run_bytes o q' s' := by
          intro q' s' h1 h2 h3
          exact ih q' s' f (by omega) h2 h3
        -- the loop body from an idle state on the whole of `c :: rest`
        have hidle : ∀ s1 : xlate, s1.newline_buf = [] → s1.keyword_buf = [] →
            (match scan o (c :: rest) s1 with
              | Except.error e => Except.error e
              | Except.ok (p1, s) => chunk_loop o f p1 s)
            = match idle_step o s1 c with
              | Except.error e => Except.error e
              | Except.ok s2 => run_bytes o rest s2 := by
          intro s1 a b
          rw [scan_then_loop o (c :: rest) s1 f a b (by simp; omega) ihs]
          simp only [run_bytes]
          rw [byte_step_idle o s1 c a b]
          try rfl
        have hidle' : ∀ s1 : xlate, s1.newline_buf = [] → s1.keyword_buf = [] →
            (match scan o rest s1 with
              | Except.error e => Except.error e
              | Except.ok (p1, s) => chunk_loop o f p1 s)
            = run_bytes o rest s1 := by
          intro s1 a b
          exact scan_then_loop o rest s1 f a b (by omega) ihr
        simp only [chunk_loop, run_bytes]
        rw [if_neg (by simp)]
        by_cases hnb : st.newline_buf = []
        · by_cases hkb : st.keyword_buf = []
          · rw [iteration_idle o st c rest hnb hkb, byte_step_idle o st c hnb hkb]
            exact hidle st hnb hkb
          · by_cases hc : c = 36
            · subst hc
              rw [iteration_kw_dollar o st rest hnb hkb, byte_step_kw_dollar o st hnb hkb]
              cases ht : translate_keyword (st.keyword_buf ++ [36]) o.expand o.keywords with
              | none => rfl
              | some r =>
                obtain ⟨b, kb⟩ := r
                cases b
                · exact hidle _ hnb rfl
                · exact hidle' _ hnb rfl
            · by_cases hf : st.keyword_buf.length = 254 ∨ c = 13 ∨ c = 10
              · rw [iteration_kw_flush o st c rest hnb hkb hc hf,
                  byte_step_kw_flush o st c hnb hkb hc hf]
                exact hidle _ hnb rfl
              · rw [iteration_kw_app o st c rest hnb hkb hc (fun e => hf (Or.inl e))
                    (fun e => hf (Or.inr (Or.inl e))) (fun e => hf (Or.inr (Or.inr e))),
                  byte_step_kw_app o st c hnb hkb hc (fun e => hf (Or.inl e))
                    (fun e => hf (Or.inr (Or.inl e))) (fun e => hf (Or.inr (Or.inr e)))]
                exact ih rest _ f hrl hrf (Or.inl hnb)
        · have hkb : st.keyword_buf = [] := by
            rcases hinv with h' | h'
            · exact absurd h' hnb
            · exact h'
          rw [iteration_nl o st c rest hnb, byte_step_nl o st c hnb]
          cases hn : translate_newline o.eol_str st.src_format
              (if c = 10 then st.newline_buf ++ [c] else st.newline_buf) st.dst o.repair with
          | error e => rfl
          | ok r =>
            obtain ⟨sf, dst⟩ := r
            by_cases hc : c = 10
            · simp only [hc, if_true]
              exact hidle' _ rfl hkb
            · simp only [hc, if_false]
              exact hidle _ rfl hkb

/-- The outer loop over the chunks computes `run_bytes` on the whole input. -/
theorem read_loop_eq (o : opts) (chunk : Nat) (hchunk : 1 ≤ chunk) :
    ∀ (fuel : Nat) (src : List Nat) (st : xlate), src.length < fuel →
      (st.newline_buf = [] ∨ st.keyword_buf = []) →
      read_loop o chunk fuel src st = run_bytes o src st := by
  intro fuel
  induction fuel with
  | zero => intro src st h _; omega
  | succ fuel ih =>
    intro src st hlen hinv
    unfold read_loop
    simp only []
    rw [chunk_loop_eq o (src.take chunk).length (src.take chunk) st (src.take chunk).length
      (le_refl _) (le_refl _) hinv]
    have hsplit : src = src.take chunk ++ src.drop chunk := (List.take_append_drop chunk src).symm
    have hrhs : run_bytes o src st =
        match run_bytes o (src.take chunk) st with
        | Except.error e => Except.error e
        | Except.ok s => run_bytes o (src.drop chunk) s := by
      conv_lhs => rw [hsplit]
      exact run_bytes_append o _ _ st
    rw [hrhs]
    cases hr : run_bytes o (src.take chunk) st with
    | error e => rfl
    | ok st1 =>
      simp only []
      by_cases hfull : (src.take chunk).length = chunk
      · rw [if_pos hfull]
        apply ih
        · rw [List.length_take] at hfull
          rw [List.length_drop]
          omega
        · exact run_bytes_inv o _ st st1 hinv hr
      · rw [if_neg hfull]
        have hshort : src.length < chunk := by
          rw [List.length_take] at hfull
          omega
        rw [List.drop_of_length_le (by omega)]
        rfl

/-- The translator of the source, reading chunks of any size `chunk ≥ 1`,
computes the translation of the input taken one byte at a time. -/
theorem stream3_eq_bytes (chunk : Nat) (hchunk : 1 ≤ chunk) (src : List Nat)
    (eol_str : Option (List Nat)) (repair : Bool) (keywords : Option apr_hash_t)
    (expand : Bool) :
    svn_subst_translate_stream3 chunk src eol_str repair keywords expand
      = translate_bytes src eol_str repair keywords expand := by
  unfold svn_subst_translate_stream3 translate_bytes run_finish
  simp only []
  rw [read_loop_eq _ chunk hchunk (src.length + 1) src _ (by omega) (Or.inl rfl)]

/-! ### The cases of `idle_step` -/

theorem cr_interesting (o : opts) (h : o.eol_str.isSome = true) : 13 ∈ interesting o := by
  unfold interesting
  rw [h]
  split <;> simp

theorem lf_interesting (o : opts) (h : o.eol_str.isSome = true) : 10 ∈ interesting o := by
  unfold interesting
  rw [h]
  split <;> simp

theorem dollar_interesting (o : opts) (h : o.keywords.isSome = true) : 36 ∈ interesting o := by
  unfold interesting
  rw [h]
  split
  · simp
  · rename_i h1
    have : o.eol_str.isSome = false := by simpa using h1
    simp [this]

theorem not_interesting (o : opts) (c : Nat) (h36 : c = 36 → o.keywords.isSome = false)
    (h1 : (c = 13 ∨ c = 10) → o.eol_str.isSome = false)
    (h2 : o.eol_str.isSome = true ∨ o.keywords.isSome = true) : c ∉ interesting o := by
  intro hc
  unfold interesting at hc
  by_cases he : o.eol_str.isSome = true
  · by_cases hk : o.keywords.isSome = true
    · rw [if_pos ⟨he, hk⟩] at hc
      simp only [List.mem_cons, List.mem_singleton, List.not_mem_nil, or_false] at hc
      rcases hc with h | h | h
      · rw [h36 h] at hk; cases hk
      · rw [h1 (Or.inl h)] at he; cases he
      · rw [h1 (Or.inr h)] at he; cases he
    · rw [if_neg (fun h => hk h.2), if_pos he] at hc
      simp only [List.mem_cons, List.mem_singleton, List.not_mem_nil, or_false] at hc
      rcases hc with h | h
      · rw [h1 (Or.inl h)] at he; cases he
      · rw [h1 (Or.inr h)] at he; cases he
  · have hk : o.keywords.isSome = true := by
      rcases h2 with h | h
      · exact absurd h he
      · exact h
    rw [if_neg (fun h => he h.1), if_neg he] at hc
    simp only [List.mem_singleton] at hc
    rw [h36 hc] at hk; cases hk

theorem idle_step_cr (o : opts) (st : xlate) (h : o.eol_str.isSome = true) :
    idle_step o st 13 = Except.ok { st with newline_buf := st.newline_buf ++ [13] } := by
  unfold idle_step
  rw [if_pos (cr_interesting o h), if_neg (by decide), if_pos rfl]

theorem idle_step_lf (o : opts) (st : xlate) (h : o.eol_str.isSome = true) :
    idle_step o st 10 =
      match translate_newline o.eol_str st.src_format (st.newline_buf ++ [10]) st.dst
          o.repair with
      | Except.error e => Except.error e
      | Except.ok (sf, dst) =>
        Except.ok { st with newline_buf := [], src_format := sf, dst := dst } := by
  unfold idle_step
  rw [if_pos (lf_interesting o h), if_neg (by decide), if_neg (by decide)]
  try rfl

theorem idle_step_dollar (o : opts) (st : xlate) (h : o.keywords.isSome = true) :
    idle_step o st 36 = Except.ok { st with keyword_buf := st.keyword_buf ++ [36] } := by
  unfold idle_step
  rw [if_pos (dollar_interesting o h), if_pos rfl]

theorem idle_step_boring (o : opts) (st : xlate) (c : Nat) (h : c ∉ interesting o) :
    idle_step o st c = Except.ok { st with dst := st.dst ++ [c] } := by
  unfold idle_step
  rw [if_neg h]

/-! ## The invariant of the loop -/

/-! ### The assertions of the rewriter -/

theorem translate_keyword_subst_isSome (buf keyword : List Nat) (value : Option (List Nat))
    (hlen : buf.length ≤ 255) (h0 : buf.getD 0 0 = 36)
    (hl : buf.getD (buf.length - 1) 0 = 36) :
    ∃ b out, translate_keyword_subst buf keyword value = some (b, out) := by
  unfold translate_keyword_subst
  simp only [SVN_KEYWORD_MAX_LEN, hlen, h0, hl, and_self, not_true_eq_false, if_false]
  split
  · exact ⟨_, _, rfl⟩
  · split
    · exact ⟨_, _, rfl⟩
    · split
      · cases value with
        | none => exact ⟨_, _, rfl⟩
        | some v =>
          simp only []
          split <;> exact ⟨_, _, rfl⟩
      · split
        · cases value <;> exact ⟨_, _, rfl⟩
        · split
          · cases value <;> exact ⟨_, _, rfl⟩
          · exact ⟨_, _, rfl⟩

theorem translate_keyword_isSome (buf : List Nat) (expand : Bool) (kw : Option apr_hash_t)
    (hlen : buf.length ≤ 255) (h2 : 2 ≤ buf.length) (h0 : buf.getD 0 0 = 36)
    (hl : buf.getD (buf.length - 1) 0 = 36) :
    ∃ b out, translate_keyword buf expand kw = some (b, out) := by
  unfold translate_keyword
  have h2' : ¬ buf.length < 2 := by omega
  simp only [SVN_KEYWORD_MAX_LEN, hlen, h0, hl, and_self, not_true_eq_false, if_false, h2']
  cases kw with
  | none => exact ⟨_, _, rfl⟩
  | some t =>
    simp only []
    cases apr_hash_get t (c_str (keyword_name buf)) with
    | none => exact ⟨_, _, rfl⟩
    | some v => exact translate_keyword_subst_isSome buf _ _ hlen h0 hl

/-- The keyword buffer of a state that satisfies the invariant, closed by a `$`,
passes the assertions of `translate_keyword`. -/
theorem kb_asserts (kb : List Nat) (hne : kb ≠ []) (hlen : kb.length ≤ 254)
    (hhead : kb.head? = some 36) :
    (kb ++ [36]).length ≤ 255 ∧ 2 ≤ (kb ++ [36]).length ∧ (kb ++ [36]).getD 0 0 = 36
      ∧ (kb ++ [36]).getD ((kb ++ [36]).length - 1) 0 = 36 := by
  cases kb with
  | nil => exact absurd rfl hne
  | cons a rest =>
    simp only [List.head?_cons, Option.some.injEq] at hhead
    subst hhead
    refine ⟨by simp at hlen ⊢; omega, by simp, by simp, ?_⟩
    exact getD_last _ _

/-! ### The newline translator -/

theorem strncmp_kinds (sf : List Nat) (k : eol_kind)
    (hsf : sf = [10] ∨ sf = [13] ∨ sf = [13, 10]) :
    (decide (sf.length ≠ (kind_bytes k).length)
      || strncmp sf (kind_bytes k) (kind_bytes k).length) = decide (sf ≠ kind_bytes k) := by
  rcases hsf with rfl | rfl | rfl <;> cases k <;> decide

theorem translate_newline_eq (e : Option (List Nat)) (sf dst : List Nat) (k : eol_kind)
    (r : Bool) (hsf : sf = [] ∨ sf = [10] ∨ sf = [13] ∨ sf = [13, 10]) :
    translate_newline e sf (kind_bytes k) dst r =
      if r = false ∧ sf ≠ [] ∧ sf ≠ kind_bytes k then Except.error (stop.inconsistent_eol dst)
      else Except.ok (if sf = [] then kind_bytes k else sf, dst ++ eol_out e) := by
  unfold translate_newline translate_write eol_out
  rcases hsf with rfl | hsf
  · cases k <;> simp [kind_bytes, strncpy_bytes]
  · have hne : sf ≠ [] := by rcases hsf with rfl | rfl | rfl <;> simp
    have hl : sf.length ≠ 0 := by simpa using hne
    simp only [ne_eq, hl, not_false_eq_true, if_true, strncmp_kinds sf k hsf, hne, if_false]
    cases r
    · by_cases hk : sf = kind_bytes k
      · simp [hk]
      · simp [hk]
    · simp

theorem interesting_dollar_kw (o : opts) (h : 36 ∈ interesting o)
    (hopt : o.eol_str.isSome = true ∨ o.keywords.isSome = true) : o.keywords.isSome = true := by
  unfold interesting at h
  by_cases he : o.eol_str.isSome = true
  · by_cases hk : o.keywords.isSome = true
    · exact hk
    · rw [if_neg (fun h => hk h.2), if_pos he] at h
      simp at h
  · rcases hopt with h' | h'
    · exact absurd h' he
    · exact h'

theorem interesting_eol (o : opts) (c : Nat) (h : c ∈ interesting o) (hc : c = 13 ∨ c = 10) :
    o.eol_str.isSome = true := by
  unfold interesting at h
  by_cases he : o.eol_str.isSome = true
  · exact he
  · rw [if_neg (fun h => he h.1), if_neg he] at h
    simp only [List.mem_singleton] at h
    omega

theorem stream_inv_idle (o : opts) (dst sf : List Nat)
    (hsf : sf = [] ∨ sf = [10] ∨ sf = [13] ∨ sf = [13, 10]) :
    stream_inv o (xlate.mk dst [] [] sf) := by
  refine ⟨by simp, by simp, Or.inl rfl, fun h => absurd rfl h, fun h => absurd rfl h, hsf⟩

theorem kind_bytes_valid (k : eol_kind) (sf : List Nat)
    (hsf : sf = [] ∨ sf = [10] ∨ sf = [13] ∨ sf = [13, 10]) :
    (if sf = [] then kind_bytes k else sf) = [] ∨ (if sf = [] then kind_bytes k else sf) = [10]
      ∨ (if sf = [] then kind_bytes k else sf) = [13]
      ∨ (if sf = [] then kind_bytes k else sf) = [13, 10] := by
  rcases hsf with rfl | rfl | rfl | rfl <;> cases k <;> simp [kind_bytes]

/-- The result of one byte in the boring state: the new state, or the error of
an inconsistent line terminator. -/
theorem idle_step_cases (e : Option (List Nat)) (kw : Option apr_hash_t) (x : Bool)
    (dst sf : List Nat) (c : Nat)
    (hopt : e.isSome = true ∨ kw.isSome = true)
    (hsf : sf = [] ∨ sf = [10] ∨ sf = [13] ∨ sf = [13, 10]) :
    (c = 36 ∧ kw.isSome = true
        ∧ ∀ r, idle_step (opts.mk e r kw x) (xlate.mk dst [] [] sf) c
          = Except.ok (xlate.mk dst [] [36] sf))
    ∨ (c = 13 ∧ e.isSome = true
        ∧ ∀ r, idle_step (opts.mk e r kw x) (xlate.mk dst [] [] sf) c
          = Except.ok (xlate.mk dst [13] [] sf))
    ∨ (c = 10 ∧ e.isSome = true
        ∧ ∀ r, idle_step (opts.mk e r kw x) (xlate.mk dst [] [] sf) c =
          if r = false ∧ sf ≠ [] ∧ sf ≠ [10] then Except.error (stop.inconsistent_eol dst)
          else Except.ok (xlate.mk (dst ++ eol_out e) [] [] (if sf = [] then [10] else sf)))
    ∨ (c ≠ 36 ∧ c ≠ 13 ∧ c ≠ 10
        ∧ ∀ r, idle_step (opts.mk e r kw x) (xlate.mk dst [] [] sf) c
          = Except.ok (xlate.mk (dst ++ [c]) [] [] sf))
    ∨ (c = 36 ∧ kw.isSome = false
        ∧ ∀ r, idle_step (opts.mk e r kw x) (xlate.mk dst [] [] sf) c
          = Except.ok (xlate.mk (dst ++ [c]) [] [] sf))
    ∨ ((c = 13 ∨ c = 10) ∧ e.isSome = false
        ∧ ∀ r, idle_step (opts.mk e r kw x) (xlate.mk dst [] [] sf) c
          = Except.ok (xlate.mk (dst ++ [c]) [] [] sf)) := by
  have hint : ∀ r, interesting (opts.mk e r kw x) = interesting (opts.mk e false kw x) :=
    fun r => rfl
  by_cases hc : c ∈ interesting (opts.mk e false kw x)
  · rcases interesting_sub _ c hc with rfl | rfl | rfl
    · have hk := interesting_dollar_kw _ hc hopt
      exact Or.inl ⟨rfl, hk, fun r => idle_step_dollar (opts.mk e r kw x) _ hk⟩
    · have he := interesting_eol _ 13 hc (Or.inl rfl)
      exact Or.inr (Or.inl ⟨rfl, he, fun r => idle_step_cr (opts.mk e r kw x) _ he⟩)
    · have he := interesting_eol _ 10 hc (Or.inr rfl)
      refine Or.inr (Or.inr (Or.inl ⟨rfl, he, fun r => ?_⟩))
      rw [idle_step_lf (opts.mk e r kw x) _ he]
      have := translate_newline_eq e sf dst eol_kind.LF r hsf
      simp only [kind_bytes] at this
      simp only [List.nil_append]
      rw [this]
      by_cases hcond : r = false ∧ sf ≠ [] ∧ sf ≠ [10]
      · rw [if_pos hcond, if_pos hcond]
      · rw [if_neg hcond, if_neg hcond]
  · have hb : ∀ r, idle_step (opts.mk e r kw x) (xlate.mk dst [] [] sf) c
          = Except.ok (xlate.mk (dst ++ [c]) [] [] sf) :=
      fun r => idle_step_boring (opts.mk e r kw x) _ c hc
    by_cases h36 : c = 36
    · have hk : kw.isSome = false := by
        cases hkk : kw.isSome
        · rfl
        · exact absurd (h36 ▸ dollar_interesting (opts.mk e false kw x) hkk) hc
      exact Or.inr (Or.inr (Or.inr (Or.inr (Or.inl ⟨h36, hk, hb⟩))))
    · by_cases hnl : c = 13 ∨ c = 10
      · have he : e.isSome = false := by
          cases hee : e.isSome
          · rfl
          · rcases hnl with h | h
            · exact absurd (h ▸ cr_interesting (opts.mk e false kw x) hee) hc
            · exact absurd (h ▸ lf_interesting (opts.mk e false kw x) hee) hc
        exact Or.inr (Or.inr (Or.inr (Or.inr (Or.inr ⟨hnl, he, hb⟩))))
      · exact Or.inr (Or.inr (Or.inr (Or.inl
          ⟨h36, fun h => hnl (Or.inl h), fun h => hnl (Or.inr h), hb⟩)))

/-! ### The kinds of the line terminators -/

theorem eol_kinds_other (S : List Nat) (c : Nat) (h13 : c ≠ 13) (h10 : c ≠ 10) :
    eol_kinds (c :: S) = eol_kinds S := by
  cases S <;> simp [eol_kinds, h13, h10]

theorem eol_kinds_lf (S : List Nat) : eol_kinds (10 :: S) = eol_kind.LF :: eol_kinds S := by
  cases S <;> simp [eol_kinds]

theorem eol_kinds_crlf (S : List Nat) :
    eol_kinds (13 :: 10 :: S) = eol_kind.CRLF :: eol_kinds S := by
  simp [eol_kinds]

theorem eol_kinds_cr (S : List Nat) (c : Nat) (h10 : c ≠ 10) :
    eol_kinds (13 :: c :: S) = eol_kind.CR :: eol_kinds (c :: S) := by
  simp [eol_kinds, h10]

theorem eol_kinds_cr_end : eol_kinds [13] = [eol_kind.CR] := by
  simp [eol_kinds]

/-- The three shapes of a state that satisfies the invariant: boring, a CR
pending, or inside a keyword. -/
theorem stream_inv_shape (o : opts) (st : xlate) (h : stream_inv o st) :
    (∃ dst sf, st = xlate.mk dst [] [] sf
        ∧ (sf = [] ∨ sf = [10] ∨ sf = [13] ∨ sf = [13, 10]))
    ∨ (∃ dst sf, st = xlate.mk dst [13] [] sf
        ∧ (sf = [] ∨ sf = [10] ∨ sf = [13] ∨ sf = [13, 10]) ∧ o.eol_str.isSome = true)
    ∨ (∃ dst sf mid, st = xlate.mk dst [] (36 :: mid) sf
        ∧ (sf = [] ∨ sf = [10] ∨ sf = [13] ∨ sf = [13, 10]) ∧ o.keywords.isSome = true
        ∧ clean mid ∧ mid.length ≤ 253) := by
  obtain ⟨dst, nb, kb, sf⟩ := st
  obtain ⟨h1, _, h3, h4, h5, h6⟩ := h
  simp only at h1 h3 h4 h5 h6
  by_cases hnb : nb = []
  · subst hnb
    cases kb with
    | nil => exact Or.inl ⟨dst, sf, rfl, h6⟩
    | cons a mid =>
      obtain ⟨hk, hh, ht⟩ := h4 (by simp)
      simp only [List.head?_cons, Option.some.injEq] at hh
      subst hh
      refine Or.inr (Or.inr ⟨dst, sf, mid, rfl, h6, hk, ?_, ?_⟩)
      · exact fun b hb => ht b (by simpa using hb)
      · simp at h1; omega
  · obtain ⟨he, hn⟩ := h5 hnb
    subst hn
    have : kb = [] := by
      rcases h3 with h | h
      · exact h
      · simp at h
    subst this
    exact Or.inr (Or.inl ⟨dst, sf, rfl, h6, he⟩)

theorem stream_inv_pending (o : opts) (dst sf : List Nat)
    (hsf : sf = [] ∨ sf = [10] ∨ sf = [13] ∨ sf = [13, 10]) (he : o.eol_str.isSome = true) :
    stream_inv o (xlate.mk dst [13] [] sf) := by
  refine ⟨by simp, by simp, Or.inl rfl, fun h => absurd rfl h, fun _ => ⟨he, rfl⟩, hsf⟩

theorem stream_inv_kw (o : opts) (dst sf mid : List Nat)
    (hsf : sf = [] ∨ sf = [10] ∨ sf = [13] ∨ sf = [13, 10]) (hk : o.keywords.isSome = true)
    (hc : clean mid) (hl : mid.length ≤ 253) :
    stream_inv o (xlate.mk dst [] (36 :: mid) sf) := by
  refine ⟨by simp; omega, by simp, Or.inr rfl, fun _ => ⟨hk, rfl, ?_⟩, fun h => absurd rfl h, hsf⟩
  intro b hb
  exact hc b (by simpa using hb)

/-- The rewriter returns on the keyword buffer of a state that satisfies the
invariant, closed by a `$`. -/
theorem translate_keyword_kb (mid : List Nat) (expand : Bool) (kw : Option apr_hash_t)
    (hl : mid.length ≤ 253) :
    ∃ b out, translate_keyword (36 :: mid ++ [36]) expand kw = some (b, out) := by
  have h := kb_asserts (36 :: mid) (by simp) (by simp; omega) rfl
  exact translate_keyword_isSome _ expand kw h.1 h.2.1 h.2.2.1 h.2.2.2

/-- One byte with a CR pending. -/
theorem byte_step_pending (e : Option (List Nat)) (r : Bool) (kw : Option apr_hash_t)
    (x : Bool) (dst sf : List Nat) (c : Nat)
    (hsf : sf = [] ∨ sf = [10] ∨ sf = [13] ∨ sf = [13, 10]) :
    byte_step (opts.mk e r kw x) (xlate.mk dst [13] [] sf) c =
      if c = 10 then
        if r = false ∧ sf ≠ [] ∧ sf ≠ [13, 10] then Except.error (stop.inconsistent_eol dst)
        else Except.ok (xlate.mk (dst ++ eol_out e) [] [] (if sf = [] then [13, 10] else sf))
      else
        if r = false ∧ sf ≠ [] ∧ sf ≠ [13] then Except.error (stop.inconsistent_eol dst)
        else idle_step (opts.mk e r kw x)
          (xlate.mk (dst ++ eol_out e) [] [] (if sf = [] then [13] else sf)) c := by
  rw [byte_step_nl _ _ c (by simp)]
  by_cases hc : c = 10
  · subst hc
    have := translate_newline_eq e sf dst eol_kind.CRLF r hsf
    simp only [kind_bytes] at this
    simp only [if_true, List.cons_append, List.nil_append]
    rw [this]
    by_cases hcond : r = false ∧ sf ≠ [] ∧ sf ≠ [13, 10]
    · rw [if_pos hcond, if_pos hcond]
    · rw [if_neg hcond, if_neg hcond]
  · have := translate_newline_eq e sf dst eol_kind.CR r hsf
    simp only [kind_bytes] at this
    simp only [hc, if_false]
    rw [this]
    by_cases hcond : r = false ∧ sf ≠ [] ∧ sf ≠ [13]
    · rw [if_pos hcond, if_pos hcond]
    · rw [if_neg hcond, if_neg hcond]

/-- One byte inside a keyword: the closing `$`. -/
theorem byte_step_kw_close (o : opts) (dst sf mid : List Nat) :
    byte_step o (xlate.mk dst [] (36 :: mid) sf) 36 =
      match translate_keyword (36 :: mid ++ [36]) o.expand o.keywords with
      | none => Except.error stop.assertion
      | some (true, out) => Except.ok (xlate.mk (dst ++ out) [] [] sf)
      | some (false, out) =>
        idle_step o (xlate.mk (dst ++ out.take (out.length - 1)) [] [] sf) 36 := by
  rw [byte_step_kw_dollar o _ rfl (by simp)]
  simp only [List.cons_append]
  cases translate_keyword (36 :: (mid ++ [36])) o.expand o.keywords with
  | none => rfl
  | some p =>
    obtain ⟨b, out⟩ := p
    cases b
    · rfl
    · simp [translate_write]

/-- One byte inside a keyword: a CR, a LF, or any byte but `$` when the buffer
is full, writes the buffer out. -/
theorem byte_step_kw_abandon (o : opts) (dst sf mid : List Nat) (c : Nat) (hc : c ≠ 36)
    (hf : mid.length = 253 ∨ c = 13 ∨ c = 10) :
    byte_step o (xlate.mk dst [] (36 :: mid) sf) c =
      idle_step o (xlate.mk (dst ++ 36 :: mid) [] [] sf) c := by
  rw [byte_step_kw_flush o _ c rfl (by simp) hc (by
    rcases hf with h | h
    · left; simp [h]
    · right; exact h)]
  simp [translate_write]

/-- One byte inside a keyword: any other byte joins the buffer. -/
theorem byte_step_kw_more (o : opts) (dst sf mid : List Nat) (c : Nat) (hc : c ≠ 36)
    (hl : mid.length ≠ 253) (h13 : c ≠ 13) (h10 : c ≠ 10) :
    byte_step o (xlate.mk dst [] (36 :: mid) sf) c =
      Except.ok (xlate.mk dst [] (36 :: (mid ++ [c])) sf) := by
  rw [byte_step_kw_app o _ c rfl (by simp) hc (by simp; omega) h13 h10]
  rfl

/-- One byte in the boring state, with `eol_str` set: either no line terminator
is completed and the step does not depend on `repair`, or the byte is a LF. -/
theorem idle_step_eol (e : Option (List Nat)) (kw : Option apr_hash_t) (x : Bool)
    (he : e.isSome = true) (dst sf : List Nat) (c : Nat) (S : List Nat)
    (hsf : sf = [] ∨ sf = [10] ∨ sf = [13] ∨ sf = [13, 10]) :
    (c ≠ 10 ∧ ∃ s1, (∀ r, idle_step (opts.mk e r kw x) (xlate.mk dst [] [] sf) c = Except.ok s1)
        ∧ stream_inv (opts.mk e false kw x) s1 ∧ s1.src_format = sf
        ∧ eol_kinds (c :: S) = eol_kinds (s1.newline_buf ++ S))
    ∨ (c = 10 ∧ ∀ r, idle_step (opts.mk e r kw x) (xlate.mk dst [] [] sf) c =
          if r = false ∧ sf ≠ [] ∧ sf ≠ [10] then Except.error (stop.inconsistent_eol dst)
          else Except.ok (xlate.mk (dst ++ eol_out e) [] [] (if sf = [] then [10] else sf))) := by
  rcases idle_step_cases e kw x dst sf c (Or.inl he) hsf with
    ⟨rfl, hk, h⟩ | ⟨rfl, _, h⟩ | ⟨rfl, _, h⟩ | ⟨h36, h13, h10, h⟩ | ⟨rfl, _, h⟩ | ⟨_, he', _⟩
  · refine Or.inl ⟨by decide, _, h, stream_inv_kw _ dst sf [] hsf hk (by simp [clean]) (by simp),
      rfl, ?_⟩
    exact eol_kinds_other S 36 (by decide) (by decide)
  · exact Or.inl ⟨by decide, _, h, stream_inv_pending _ dst sf hsf he, rfl, rfl⟩
  · exact Or.inr ⟨rfl, h⟩
  · exact Or.inl ⟨h10, _, h, stream_inv_idle _ _ sf hsf, rfl, eol_kinds_other S c h13 h10⟩
  · exact Or.inl ⟨by decide, _, h, stream_inv_idle _ _ sf hsf, rfl,
      eol_kinds_other S 36 (by decide) (by decide)⟩
  · rw [he] at he'; cases he'

/-- One byte from a state that satisfies the invariant, with `eol_str` set:
either no line terminator is completed, the step does not depend on `repair`
and keeps `src_format`; or a terminator of kind `k` is completed, and the step
fails exactly when `repair` is off and `k` differs from the cached kind. -/
theorem byte_step_eol (e : Option (List Nat)) (kw : Option apr_hash_t) (x : Bool)
    (he : e.isSome = true) (st : xlate) (c : Nat) (S : List Nat)
    (hinv : stream_inv (opts.mk e false kw x) st) :
    (∃ s1, (∀ r, byte_step (opts.mk e r kw x) st c = Except.ok s1)
        ∧ stream_inv (opts.mk e false kw x) s1 ∧ s1.src_format = st.src_format
        ∧ eol_kinds (st.newline_buf ++ c :: S) = eol_kinds (s1.newline_buf ++ S))
    ∨ (∃ k s1 d, (∀ r, byte_step (opts.mk e r kw x) st c =
          if r = false ∧ st.src_format ≠ [] ∧ st.src_format ≠ kind_bytes k then
            Except.error (stop.inconsistent_eol d)
          else Except.ok s1)
        ∧ stream_inv (opts.mk e false kw x) s1
        ∧ s1.src_format = (if st.src_format = [] then kind_bytes k else st.src_format)
        ∧ eol_kinds (st.newline_buf ++ c :: S) = k :: eol_kinds (s1.newline_buf ++ S)) := by
  rcases stream_inv_shape _ st hinv with ⟨dst, sf, rfl, hsf⟩ | ⟨dst, sf, rfl, hsf, _⟩
    | ⟨dst, sf, mid, rfl, hsf, hk, hclean, hl⟩
  · -- boring
    rcases idle_step_eol e kw x he dst sf c S hsf with ⟨_, s1, h1, h2, h3, h4⟩ | ⟨rfl, h⟩
    · exact Or.inl ⟨s1, fun r => by rw [byte_step_idle _ _ c rfl rfl]; exact h1 r, h2, h3, h4⟩
    · refine Or.inr ⟨eol_kind.LF, xlate.mk (dst ++ eol_out e) [] [] (if sf = [] then [10] else sf),
        dst, fun r => by rw [byte_step_idle _ _ 10 rfl rfl]; exact h r,
        stream_inv_idle _ _ _ (kind_bytes_valid eol_kind.LF sf hsf), rfl, ?_⟩
      exact eol_kinds_lf S
  · -- a CR is pending
    by_cases hc : c = 10
    · subst hc
      refine Or.inr ⟨eol_kind.CRLF,
        xlate.mk (dst ++ eol_out e) [] [] (if sf = [] then [13, 10] else sf), dst, fun r => ?_,
        stream_inv_idle _ _ _ (kind_bytes_valid eol_kind.CRLF sf hsf), rfl, ?_⟩
      · rw [byte_step_pending e r kw x dst sf 10 hsf, if_pos rfl]
        rfl
      · exact eol_kinds_crlf S
    · have hsf' := kind_bytes_valid eol_kind.CR sf hsf
      rcases idle_step_eol e kw x he (dst ++ eol_out e) (if sf = [] then [13] else sf) c S hsf'
        with ⟨_, s1, h1, h2, h3, h4⟩ | ⟨h10, _⟩
      · refine Or.inr ⟨eol_kind.CR, s1, dst, fun r => ?_, h2, h3, ?_⟩
        · rw [byte_step_pending e r kw x dst sf c hsf, if_neg hc, h1 r]
          rfl
        · simp only [List.cons_append, List.nil_append]
          rw [eol_kinds_cr S c hc, h4]
      · exact absurd h10 hc
  · -- inside a keyword
    by_cases hc : c = 36
    · subst hc
      obtain ⟨b, out, ht⟩ := translate_keyword_kb mid x kw hl
      have hstep : ∀ r, byte_step (opts.mk e r kw x) (xlate.mk dst [] (36 :: mid) sf) 36 =
          match b with
          | true => Except.ok (xlate.mk (dst ++ out) [] [] sf)
          | false => idle_step (opts.mk e r kw x)
              (xlate.mk (dst ++ out.take (out.length - 1)) [] [] sf) 36 := by
        intro r
        rw [byte_step_kw_close]
        simp only [ht]
        cases b <;> rfl
      cases b
      · rcases idle_step_eol e kw x he (dst ++ out.take (out.length - 1)) sf 36 S hsf
          with ⟨_, s1, h1, h2, h3, h4⟩ | ⟨h10, _⟩
        · exact Or.inl ⟨s1, fun r => by rw [hstep r]; exact h1 r, h2, h3, h4⟩
        · exact absurd h10 (by decide)
      · exact Or.inl ⟨xlate.mk (dst ++ out) [] [] sf, hstep, stream_inv_idle _ _ sf hsf, rfl,
          eol_kinds_other S 36 (by decide) (by decide)⟩
    · by_cases hf : mid.length = 253 ∨ c = 13 ∨ c = 10
      · rcases idle_step_eol e kw x he (dst ++ 36 :: mid) sf c S hsf
          with ⟨_, s1, h1, h2, h3, h4⟩ | ⟨rfl, h⟩
        · exact Or.inl ⟨s1, fun r => by
            rw [byte_step_kw_abandon _ dst sf mid c hc hf]; exact h1 r, h2, h3, h4⟩
        · refine Or.inr ⟨eol_kind.LF,
            xlate.mk (dst ++ 36 :: mid ++ eol_out e) [] [] (if sf = [] then [10] else sf),
            dst ++ 36 :: mid, fun r => by
            rw [byte_step_kw_abandon _ dst sf mid 10 hc hf]; exact h r,
            stream_inv_idle _ _ _ (kind_bytes_valid eol_kind.LF sf hsf), rfl, ?_⟩
          exact eol_kinds_lf S
      · have h253 : mid.length ≠ 253 := fun h => hf (Or.inl h)
        have h13 : c ≠ 13 := fun h => hf (Or.inr (Or.inl h))
        have h10 : c ≠ 10 := fun h => hf (Or.inr (Or.inr h))
        refine Or.inl ⟨xlate.mk dst [] (36 :: (mid ++ [c])) sf,
          fun r => byte_step_kw_more _ dst sf mid c hc h253 h13 h10,
          stream_inv_kw _ dst sf (mid ++ [c]) hsf hk ?_ (by simp; omega), rfl,
          eol_kinds_other S c h13 h10⟩
        intro b hb
        rcases List.mem_append.mp hb with h | h
        · exact hclean b h
        · simp only [List.mem_singleton] at h
          subst h
          exact ⟨hc, h13, h10⟩

/-! ## End-of-line translation -/

/-! ### The reference replacement -/

theorem normalize_eol_lf (E rest : List Nat) :
    normalize_eol E (10 :: rest) = E ++ normalize_eol E rest := by
  cases rest <;> simp [normalize_eol]

theorem normalize_eol_crlf (E rest : List Nat) :
    normalize_eol E (13 :: 10 :: rest) = E ++ normalize_eol E rest := by
  simp [normalize_eol]

theorem normalize_eol_cr (E rest : List Nat) (c : Nat) (hc : c ≠ 10) :
    normalize_eol E (13 :: c :: rest) = E ++ normalize_eol E (c :: rest) := by
  simp [normalize_eol, hc]

theorem normalize_eol_cr_end (E : List Nat) : normalize_eol E [13] = E := by
  simp [normalize_eol]

theorem normalize_eol_other (E rest : List Nat) (c : Nat) (h13 : c ≠ 13) (h10 : c ≠ 10) :
    normalize_eol E (c :: rest) = c :: normalize_eol E rest := by
  cases rest <;> simp [normalize_eol, h13, h10]

/-! ### The newline translator with `repair` set -/

theorem take_strlen (E : List Nat) (h0 : 0 ∉ E) : E.take (strlen E) = E := by
  unfold strlen
  rw [c_str_of_not_mem E h0, List.take_length]

theorem translate_newline_repair (E sf nb dst : List Nat) (h0 : 0 ∉ E) :
    translate_newline (some E) sf nb dst true
      = Except.ok (if sf.length ≠ 0 then sf else strncpy_bytes nb nb.length, dst ++ E) := by
  unfold translate_newline translate_write
  simp only [Option.getD_some, Bool.not_true, Bool.false_and, Bool.false_eq_true, if_false,
    take_strlen E h0]
  split <;> rfl

/-- With `repair` set and no keywords the bytes from any state of the loop with
an empty keyword buffer and at most a CR pending come out as the reference
replacement says. -/
theorem eol_run (E : List Nat) (h0 : 0 ∉ E) (expand : Bool) :
    ∀ (S dst nb sf : List Nat), (nb = [] ∨ nb = [13]) →
      run_finish (opts.mk (some E) true none expand) S (xlate.mk dst nb [] sf)
        = Except.ok (dst ++ normalize_eol E (nb ++ S)) := by
  unfold run_finish
  intro S
  induction S with
  | nil =>
    intro dst nb sf hnb
    simp only [run_bytes, finish]
    rcases hnb with hnb | hnb
    · simp [hnb, normalize_eol]
    · simp [hnb, translate_newline_repair E _ _ _ h0, normalize_eol]
  | cons c rest ih =>
    intro dst nb sf hnb
    have he : (opts.mk (some E) true none expand).eol_str.isSome = true := rfl
    have hnot : ∀ c : Nat, c ≠ 13 → c ≠ 10 → c ∉ interesting (opts.mk (some E) true none expand) :=
      fun c h13 h10 => not_interesting _ c (fun _ => rfl)
        (fun h => h.elim (fun h => absurd h h13) (fun h => absurd h h10)) (Or.inl rfl)
    simp only [run_bytes]
    rcases hnb with hnb | hnb
    · subst hnb
      rw [byte_step_idle _ _ c rfl rfl]
      by_cases h13 : c = 13
      · subst h13
        rw [idle_step_cr _ _ he]
        refine (ih _ _ _ (Or.inr rfl)).trans ?_
        simp
      · by_cases h10 : c = 10
        · subst h10
          rw [idle_step_lf _ _ he]
          simp only [translate_newline_repair E _ _ _ h0]
          refine (ih _ _ _ (Or.inl rfl)).trans ?_
          simp [normalize_eol_lf]
        · rw [idle_step_boring _ _ c (hnot c h13 h10)]
          refine (ih _ _ _ (Or.inl rfl)).trans ?_
          simp [normalize_eol_other E rest c h13 h10]
    · subst hnb
      rw [byte_step_nl _ _ c (by simp)]
      simp only [translate_newline_repair E _ _ _ h0]
      by_cases h10 : c = 10
      · subst h10
        simp only [if_true]
        refine (ih _ _ _ (Or.inl rfl)).trans ?_
        simp [normalize_eol_crlf]
      · simp only [h10, if_false]
        by_cases h13 : c = 13
        · subst h13
          rw [idle_step_cr _ _ he]
          refine (ih _ _ _ (Or.inr rfl)).trans ?_
          simp [normalize_eol_cr E rest 13 (by decide)]
        · rw [idle_step_boring _ _ c (hnot c h13 h10)]
          refine (ih _ _ _ (Or.inl rfl)).trans ?_
          simp [normalize_eol_cr E rest c h10, normalize_eol_other E rest c h13 h10]

/-- C1: for every input `S` (NUL bytes allowed), every C string `E` as
`eol_str`, no keyword table and `repair` set, `svn_subst_translate_stream3`,
reading chunks of any size `chunk ≥ 1`, returns without error and its output is
`S` with each CR LF pair, each other CR (a last byte CR too) and each other LF
replaced by `E`, every other byte copied in order. -/
theorem C1_eol_normalisation (chunk : Nat) (hchunk : 1 ≤ chunk) (S E : List Nat)
    (h0 : 0 ∉ E) (expand : Bool) :
    svn_subst_translate_stream3 chunk S (some E) true none expand
      = Except.ok (normalize_eol E S) := by
  rw [stream3_eq_bytes chunk hchunk]
  unfold translate_bytes
  simp only [Option.isSome_some, true_or, not_true_eq_false, if_false]
  have := eol_run E h0 expand S [] [] [] (Or.inl rfl)
  simpa using this

/-- C1, witness: an input with a NUL, a CR LF pair, a lone CR, a lone LF and a
last byte CR, read in chunks of 3 bytes, CR LF as `eol_str`. -/
theorem C1_eol_normalisation_witness :
    svn_subst_translate_stream3 3 (bytes "a\r\nb\rc\x00\nd\r") (some (bytes "\r\n")) true none false
      = Except.ok (bytes "a\r\nb\r\nc\x00\r\nd\r\n") :=
  C1_eol_normalisation 3 (by decide) (bytes "a\r\nb\rc\x00\nd\r") (bytes "\r\n") (by decide) false

/-! ### Agreement of the line terminators -/

theorem kind_bytes_ne_nil (k : eol_kind) : kind_bytes k ≠ [] := by
  cases k <;> simp [kind_bytes]

theorem kind_bytes_inj (k1 k2 : eol_kind) (h : kind_bytes k1 = kind_bytes k2) : k1 = k2 := by
  cases k1 <;> cases k2 <;> simp [kind_bytes] at h <;> rfl

theorem eol_agree_nil (sf : List Nat) : eol_agree sf [] := by
  unfold eol_agree
  split <;> simp

theorem eol_agree_cons (sf : List Nat) (k : eol_kind) (ks : List eol_kind) :
    eol_agree sf (k :: ks)
      ↔ (sf = [] ∨ sf = kind_bytes k) ∧ eol_agree (if sf = [] then kind_bytes k else sf) ks := by
  unfold eol_agree
  by_cases hsf : sf = []
  · subst hsf
    simp only [if_true, true_or, true_and, kind_bytes_ne_nil k, if_false, List.head?_cons,
      Option.some.injEq, List.mem_cons, forall_eq_or_imp]
    constructor
    · intro h k' hk'
      rw [h k' hk']
    · intro h k' hk'
      exact kind_bytes_inj _ _ (h k' hk')
  · simp only [hsf, if_false, false_or, List.mem_cons, forall_eq_or_imp]
    constructor
    · intro h
      exact ⟨h.1.symm, h.2⟩
    · intro h
      exact ⟨h.1.symm, h.2⟩

/-! ### The end of the input -/

theorem run_finish_nil (o : opts) (st : xlate) : run_finish o [] st = finish o st := rfl

theorem run_finish_cons (o : opts) (c : Nat) (S : List Nat) (st s1 : xlate)
    (h : byte_step o st c = Except.ok s1) : run_finish o (c :: S) st = run_finish o S s1 := by
  unfold run_finish
  simp only [run_bytes, h]

theorem run_finish_cons_error (o : opts) (c : Nat) (S : List Nat) (st : xlate) (err : stop)
    (h : byte_step o st c = Except.error err) : run_finish o (c :: S) st = Except.error err := by
  unfold run_finish
  simp only [run_bytes, h]

theorem finish_idle (o : opts) (dst sf : List Nat) :
    finish o (xlate.mk dst [] [] sf) = Except.ok dst := by
  simp [finish]

theorem finish_kw (o : opts) (dst sf mid : List Nat) :
    finish o (xlate.mk dst [] (36 :: mid) sf) = Except.ok (dst ++ 36 :: mid) := by
  simp [finish, translate_write]

theorem finish_pending (e : Option (List Nat)) (r : Bool) (kw : Option apr_hash_t) (x : Bool)
    (dst sf : List Nat) (hsf : sf = [] ∨ sf = [10] ∨ sf = [13] ∨ sf = [13, 10]) :
    finish (opts.mk e r kw x) (xlate.mk dst [13] [] sf) =
      if r = false ∧ sf ≠ [] ∧ sf ≠ [13] then Except.error (stop.inconsistent_eol dst)
      else Except.ok (dst ++ eol_out e) := by
  have := translate_newline_eq e sf dst eol_kind.CR r hsf
  simp only [kind_bytes] at this
  unfold finish
  simp only [List.length_singleton, ne_eq, one_ne_zero, not_false_eq_true, if_true, this]
  by_cases hcond : r = false ∧ sf ≠ [] ∧ sf ≠ [13]
  · rw [if_pos hcond, if_pos hcond]
  · rw [if_neg hcond, if_neg hcond]
    simp

/-- With `eol_str` set, from a state that satisfies the invariant: with `repair`
the translation returns; without `repair` it is the same when the terminators
agree, and the error of an inconsistent terminator when they do not. -/
theorem repair_core (e : Option (List Nat)) (kw : Option apr_hash_t) (x : Bool)
    (he : e.isSome = true) :
    ∀ (S : List Nat) (st : xlate), stream_inv (opts.mk e false kw x) st →
      (∃ out, run_finish (opts.mk e true kw x) S st = Except.ok out)
      ∧ (eol_agree st.src_format (eol_kinds (st.newline_buf ++ S)) →
          run_finish (opts.mk e false kw x) S st = run_finish (opts.mk e true kw x) S st)
      ∧ (¬ eol_agree st.src_format (eol_kinds (st.newline_buf ++ S)) →
          ∃ d, run_finish (opts.mk e false kw x) S st = Except.error (stop.inconsistent_eol d)) := by
  intro S
  induction S with
  | nil =>
    intro st hinv
    simp only [run_finish_nil, List.append_nil]
    rcases stream_inv_shape _ st hinv with ⟨dst, sf, rfl, hsf⟩ | ⟨dst, sf, rfl, hsf, _⟩
      | ⟨dst, sf, mid, rfl, hsf, hk, hclean, hl⟩
    · refine ⟨⟨dst, finish_idle _ _ _⟩, fun _ => ?_, fun h => absurd (eol_agree_nil _) h⟩
      rw [finish_idle, finish_idle]
    · have hks : eol_kinds [13] = [eol_kind.CR] := eol_kinds_cr_end
      have hag : eol_agree sf [eol_kind.CR] ↔ (sf = [] ∨ sf = [13]) := by
        rw [eol_agree_cons]
        simp [eol_agree_nil, kind_bytes]
      refine ⟨⟨dst ++ eol_out e, ?_⟩, ?_, ?_⟩
      · rw [finish_pending e true kw x dst sf hsf, if_neg (by simp)]
      · intro h
        rw [hks, hag] at h
        have : ¬ (false = false ∧ sf ≠ [] ∧ sf ≠ [13]) := by
          rintro ⟨_, h1, h2⟩
          rcases h with h | h
          · exact h1 h
          · exact h2 h
        rw [finish_pending e false kw x dst sf hsf, finish_pending e true kw x dst sf hsf,
          if_neg this, if_neg (by simp)]
      · intro h
        rw [hks, hag] at h
        have : (false = false ∧ sf ≠ [] ∧ sf ≠ [13]) :=
          ⟨rfl, fun h1 => h (Or.inl h1), fun h2 => h (Or.inr h2)⟩
        rw [finish_pending e false kw x dst sf hsf, if_pos this]
        exact ⟨dst, rfl⟩
    · refine ⟨⟨_, finish_kw _ _ _ _⟩, fun _ => ?_, fun h => absurd ?_ h⟩
      · rw [finish_kw, finish_kw]
      · simp only [List.nil_append, eol_kinds]
        exact eol_agree_nil _
  | cons c S ih =>
    intro st hinv
    rcases byte_step_eol e kw x he st c S hinv with ⟨s1, hstep, hinv1, hsf1, hk1⟩
      | ⟨k, s1, d, hstep, hinv1, hsf1, hk1⟩
    · obtain ⟨ih1, ih2, ih3⟩ := ih s1 hinv1
      rw [run_finish_cons _ c S st s1 (hstep true), run_finish_cons _ c S st s1 (hstep false),
        hk1, ← hsf1]
      exact ⟨ih1, ih2, ih3⟩
    · obtain ⟨ih1, ih2, ih3⟩ := ih s1 hinv1
      have ht := hstep true
      rw [if_neg (by simp)] at ht
      rw [run_finish_cons _ c S st s1 ht, hk1, eol_agree_cons, ← hsf1]
      refine ⟨ih1, ?_, ?_⟩
      · rintro ⟨h1, h2⟩
        have hf := hstep false
        rw [if_neg (by
          rintro ⟨_, a, b⟩
          rcases h1 with h | h
          · exact a h
          · exact b h)] at hf
        rw [run_finish_cons _ c S st s1 hf]
        exact ih2 h2
      · intro hna
        by_cases hcond : st.src_format ≠ [] ∧ st.src_format ≠ kind_bytes k
        · have hf := hstep false
          rw [if_pos ⟨rfl, hcond⟩] at hf
          exact ⟨d, run_finish_cons_error _ c S st _ hf⟩
        · have hf := hstep false
          rw [if_neg (fun h => hcond h.2)] at hf
          rw [run_finish_cons _ c S st s1 hf]
          apply ih3
          intro h2
          apply hna
          refine ⟨?_, h2⟩
          by_cases h : st.src_format = []
          · exact Or.inl h
          · by_cases h' : st.src_format = kind_bytes k
            · exact Or.inr h'
            · exact absurd ⟨h, h'⟩ hcond

/-- C3, as the claim states it, fails: with the value `a`, NUL, `b` under `Rev`
the hypotheses of the claim hold (the name is a key, `5 + 3 + 3 ≤ 255`), the
rewriter returns true on `$Rev$`, and the buffer holds `$Rev: ` then `a`, NUL,
NUL then ` $`, not `$Rev: ` then the value then ` $`: `strncpy` stops at the
NUL of the value and pads with NULs. -/
theorem C3_counterexample :
    apr_hash_get [(bytes "Rev", [97, 0, 98])] (bytes "Rev") = some [97, 0, 98]
    ∧ 5 + (bytes "Rev").length + [97, 0, 98].length ≤ 255
    ∧ translate_keyword (tok_bare (bytes "Rev")) true (some [(bytes "Rev", [97, 0, 98])])
        = some (true, tok_expanded (bytes "Rev") [97, 0, 0])
    ∧ translate_keyword (tok_bare (bytes "Rev")) true (some [(bytes "Rev", [97, 0, 98])])
        ≠ some (true, tok_expanded (bytes "Rev") [97, 0, 98]) := by
  decide

/-- C3, amended: for a keyword name `n` (no colon, no NUL) that is a key of the
table with a value `v` without NUL byte and `5 + |n| + |v| ≤ 255`, expanding
the token `$n$` or `$n:$` returns true, and the buffer holds `$n: v $`, of
length `5 + |n| + |v|`, when `v` is not empty and `$n: $`, of length
`4 + |n|`, when `v` is empty. -/
theorem C3_expand_bare (kw : apr_hash_t) (n v tok : List Nat)
    (hn58 : 58 ∉ n) (hn0 : 0 ∉ n) (hv0 : 0 ∉ v) (hv : apr_hash_get kw n = some v)
    (hlen : 5 + n.length + v.length ≤ 255) (htok : tok = tok_bare n ∨ tok = tok_colon n) :
    (v ≠ [] → translate_keyword tok true (some kw) = some (true, tok_expanded n v)
        ∧ (tok_expanded n v).length = 5 + n.length + v.length)
    ∧ (v = [] → translate_keyword tok true (some kw) = some (true, tok_empty n)
        ∧ (tok_empty n).length = 4 + n.length) := by
  have ht : ∃ tail, tok = 36 :: (n ++ tail) ∧ (tail = [36] ∨ tail = [58, 36]) := by
    rcases htok with rfl | rfl
    · exact ⟨[36], by simp [tok_bare], Or.inl rfl⟩
    · exact ⟨[58, 36], by simp [tok_colon], Or.inr rfl⟩
  obtain ⟨tail, rfl, ht⟩ := ht
  have hl : (36 :: (n ++ tail)).length ≤ 255 := by
    rcases ht with rfl | rfl <;> simp <;> omega
  have h := bare_expand kw n v tail hn58 hn0 hv ht hl
  have hv250 : ¬ v.length > 250 := by omega
  rw [if_neg hv250, strncpy_bytes_of_not_mem v v.length hv0 (le_refl _), List.take_length] at h
  constructor
  · intro hne
    rw [h, if_neg hne]
    refine ⟨by simp [tok_expanded], ?_⟩
    simp [tok_expanded]; omega
  · intro he
    rw [h, if_pos he]
    refine ⟨by simp [tok_empty], ?_⟩
    simp [tok_empty]; omega

/-- C3, witness: `$Rev$` with Rev -> "42" becomes `$Rev: 42 $`. -/
theorem C3_expand_bare_witness :
    translate_keyword (bytes "$Rev$") true (some [(bytes "Rev", bytes "42")])
      = some (true, bytes "$Rev: 42 $") :=
  ((C3_expand_bare [(bytes "Rev", bytes "42")] (bytes "Rev") (bytes "42") (tok_bare (bytes "Rev"))
    (by decide) (by decide) (by decide) (by decide) (by decide) (Or.inl rfl)).1 (by decide)).1

/-- C4, the failing input: expanding `$Rev$` with a value of 248 bytes under
`Rev` returns true with a token of 256 bytes, one more than
`SVN_KEYWORD_MAX_LEN`: the value is cut at `SVN_KEYWORD_MAX_LEN - 5` bytes
whatever the length of the name. -/
theorem C4_expansion_exceeds_max :
    ∃ out, translate_keyword (tok_bare (bytes "Rev")) true
        (some [(bytes "Rev", List.replicate 248 120)]) = some (true, out)
      ∧ out = tok_expanded (bytes "Rev") (List.replicate 248 120)
      ∧ out.length = 256 ∧ ¬ out.length ≤ SVN_KEYWORD_MAX_LEN := by
  have hvl : (List.replicate 248 120).length = 248 := List.length_replicate _ _
  have hv0 : 0 ∉ List.replicate 248 120 :=
    fun h => absurd (List.eq_of_mem_replicate h) (by decide)
  generalize List.replicate 248 120 = v at hvl hv0 ⊢
  have hr : (bytes "Rev").length = 3 := by decide
  have hl : (tok_expanded (bytes "Rev") v).length = 256 := by
    simp [tok_expanded, hr, hvl]
  refine ⟨_, ?_, rfl, hl, by rw [hl]; decide⟩
  have h := bare_expand [(bytes "Rev", v)] (bytes "Rev") v [36] (by decide) (by decide)
    (by simp [apr_hash_get]) (Or.inl rfl) (by decide)
  have e1 : tok_bare (bytes "Rev") = 36 :: (bytes "Rev" ++ [36]) := rfl
  have hne : v ≠ [] := by intro e; rw [e] at hvl; simp at hvl
  rw [e1, h, if_neg hne, hvl, if_neg (by omega),
    strncpy_bytes_of_not_mem _ _ hv0 (by omega), ← hvl, List.take_length]
  simp [tok_expanded]

/-- C5, as the claim states it, fails on the shape `$n:$`: contracting `$Rev:$`
returns true and leaves the buffer as `$Rev:$` (6 bytes), not `$Rev$`. -/
theorem C5_counterexample :
    translate_keyword (tok_colon (bytes "Rev")) false (some [(bytes "Rev", bytes "42")])
        = some (true, tok_colon (bytes "Rev"))
    ∧ tok_colon (bytes "Rev") ≠ tok_bare (bytes "Rev")
    ∧ (tok_colon (bytes "Rev")).length = 6 := by
  decide

/-- C5, amended: for a keyword name `n` (no colon, no NUL) that is a key of the
table and a token of length at most 255, contracting returns true; the buffer
then holds `$n$`, of length `|n| + 2`, for the shapes `$n$` and `$n: w $`
(any bytes `w`), and is left as it is, `$n:$`, for the shape `$n:$`. -/
theorem C5_contract (kw : apr_hash_t) (n v w : List Nat)
    (hn58 : 58 ∉ n) (hn0 : 0 ∉ n) (hv : apr_hash_get kw n = some v) :
    ((tok_bare n).length ≤ 255 →
        translate_keyword (tok_bare n) false (some kw) = some (true, tok_bare n))
    ∧ ((tok_expanded n w).length ≤ 255 →
        translate_keyword (tok_expanded n w) false (some kw) = some (true, tok_bare n))
    ∧ ((tok_colon n).length ≤ 255 →
        translate_keyword (tok_colon n) false (some kw) = some (true, tok_colon n))
    ∧ (tok_bare n).length = n.length + 2 := by
  have e1 : tok_bare n = 36 :: (n ++ [36]) := by simp [tok_bare]
  have e2 : tok_colon n = 36 :: (n ++ [58, 36]) := by simp [tok_colon]
  have e3 : tok_expanded n w = 36 :: (n ++ 58 :: ((32 :: w) ++ [32, 36])) := by
    simp [tok_expanded]
  refine ⟨?_, ?_, ?_, by simp [tok_bare]⟩
  · intro hl
    rw [e1] at hl ⊢
    exact bare_contract kw n v [36] hn58 hn0 hv (Or.inl rfl) hl
  · intro hl
    rw [e3] at hl
    rw [e3, e1]
    simpa using expanded_contract kw n v (32 :: w) hn58 hn0 hv (Or.inr ⟨w, rfl⟩) hl
  · intro hl
    rw [e2] at hl ⊢
    exact bare_contract kw n v [58, 36] hn58 hn0 hv (Or.inr rfl) hl

/-- C5, witness: contracting `$Rev: 42 $` gives `$Rev$`. -/
theorem C5_contract_witness :
    translate_keyword (bytes "$Rev: 42 $") false (some [(bytes "Rev", bytes "7")])
      = some (true, bytes "$Rev$") :=
  (C5_contract [(bytes "Rev", bytes "7")] (bytes "Rev") (bytes "7") (bytes "42")
    (by decide) (by decide) (by decide)).2.1 (by decide)

/-! ### Keyword translation without `eol_str`, piece by piece -/

theorem interesting_kw_only (r : Bool) (T : apr_hash_t) (x : Bool) :
    interesting (opts.mk none r (some T) x) = [36] := by
  simp [interesting]

/-- Text without `$` is copied. -/
theorem kw_text (r : Bool) (T : apr_hash_t) (x : Bool) (bs dst sf : List Nat) (h : 36 ∉ bs) :
    run_bytes (opts.mk none r (some T) x) bs (xlate.mk dst [] [] sf)
      = Except.ok (xlate.mk (dst ++ bs) [] [] sf) := by
  have := run_bytes_boring (opts.mk none r (some T) x) bs [] (xlate.mk dst [] [] sf) rfl rfl
    (by
      intro b hb
      rw [interesting_kw_only]
      simp only [List.mem_singleton]
      rintro rfl
      exact h hb)
  simp only [List.append_nil] at this
  rw [this]
  rfl

/-- Bytes without `$`, CR or LF join the keyword buffer while it has room. -/
theorem kw_mid (o : opts) (dst sf : List Nat) :
    ∀ (more mid : List Nat), clean more → mid.length + more.length ≤ 253 →
      run_bytes o more (xlate.mk dst [] (36 :: mid) sf)
        = Except.ok (xlate.mk dst [] (36 :: (mid ++ more)) sf) := by
  intro more
  induction more with
  | nil => intro mid _ _; simp [run_bytes]
  | cons c rest ih =>
    intro mid hc hl
    have hcc := hc c (List.mem_cons_self _ _)
    simp only [List.length_cons] at hl
    simp only [run_bytes]
    rw [byte_step_kw_more o dst sf mid c hcc.1 (by omega) hcc.2.1 hcc.2.2]
    simp only []
    rw [ih (mid ++ [c]) (fun b hb => hc b (List.mem_cons_of_mem _ hb))
      (by simp; omega)]
    simp

/-- A token that the rewriter accepts is replaced by what the rewriter leaves in
the buffer. -/
theorem kw_token (r : Bool) (T : apr_hash_t) (x : Bool) (mid out dst sf : List Nat)
    (hc : clean mid) (hl : mid.length ≤ 253)
    (ht : translate_keyword (36 :: mid ++ [36]) x (some T) = some (true, out)) :
    run_bytes (opts.mk none r (some T) x) (36 :: mid ++ [36]) (xlate.mk dst [] [] sf)
      = Except.ok (xlate.mk (dst ++ out) [] [] sf) := by
  have e : (36 :: mid ++ [36]) = 36 :: (mid ++ [36]) := rfl
  rw [e] at ht ⊢
  have h1 : run_bytes (opts.mk none r (some T) x) (36 :: (mid ++ [36])) (xlate.mk dst [] [] sf)
      = run_bytes (opts.mk none r (some T) x) (mid ++ [36]) (xlate.mk dst [] [36] sf) := by
    conv_lhs => rw [run_bytes]
    rw [byte_step_idle _ _ 36 rfl rfl, idle_step_dollar (opts.mk none r (some T) x) _ rfl]
    rfl
  rw [h1, run_bytes_append, kw_mid _ dst sf mid [] hc (by simpa using hl)]
  simp only [List.nil_append, run_bytes]
  rw [byte_step_kw_close]
  simp only [List.cons_append, ht]

theorem name_ok_clean (n : List Nat) (h : name_ok n) : clean n :=
  fun b hb => ⟨(h b hb).1, (h b hb).2.2.1, (h b hb).2.2.2.1⟩

theorem name_ok_colon (n : List Nat) (h : name_ok n) : 58 ∉ n :=
  fun hm => (h 58 hm).2.1 rfl

theorem name_ok_nul (n : List Nat) (h : name_ok n) : 0 ∉ n :=
  fun hm => (h 0 hm).2.2.2.2 rfl

theorem clean_append (a b : List Nat) (ha : clean a) (hb : clean b) : clean (a ++ b) := by
  intro x hx
  rcases List.mem_append.mp hx with h | h
  · exact ha x h
  · exact hb x h

theorem clean_replicate_space (k : Nat) : clean (List.replicate k 32) := by
  intro x hx
  have := List.eq_of_mem_replicate hx
  subst this
  decide

theorem strncpy_bytes_clean (v : List Nat) (hv : clean v) :
    ∀ k, clean (strncpy_bytes v k) := by
  induction v with
  | nil =>
    intro k
    cases k with
    | zero => simp [strncpy_bytes, clean]
    | succ k =>
      intro x hx
      simp only [strncpy_bytes] at hx
      have := List.eq_of_mem_replicate hx
      subst this
      decide
  | cons c cs ih =>
    intro k
    cases k with
    | zero => simp [strncpy_bytes, clean]
    | succ k =>
      intro x hx
      simp only [strncpy_bytes] at hx
      by_cases hc : c = 0
      · rw [if_pos hc] at hx
        have := List.eq_of_mem_replicate hx
        subst this
        decide
      · rw [if_neg hc] at hx
        rcases List.mem_cons.mp hx with h | h
        · subst h; exact hv x (List.mem_cons_self _ _)
        · exact ih (fun b hb => hv b (List.mem_cons_of_mem _ hb)) k x h

/-- The expansion `$n: v $` of a token that is not of fixed width, as the
rewriter writes it. -/
theorem expansion_contract (T : apr_hash_t) (n v : List Nat) (hn : name_ok n)
    (hv : apr_hash_get T n = some v) (hcv : clean v) (hlen : 5 + n.length + v.length ≤ 255) :
    ∃ mid, (if v = [] then 36 :: n ++ [58, 32, 36]
        else 36 :: n ++ [58, 32] ++ strncpy_bytes v (if v.length > 250 then 250 else v.length)
          ++ [32, 36]) = 36 :: mid ++ [36]
      ∧ clean mid ∧ mid.length ≤ 253
      ∧ translate_keyword (36 :: mid ++ [36]) false (some T) = some (true, tok_bare n) := by
  have h58 := name_ok_colon n hn
  have h0 := name_ok_nul n hn
  have hcn := name_ok_clean n hn
  by_cases he : v = []
  · subst he
    refine ⟨n ++ [58, 32], by simp, clean_append _ _ hcn (by simp [clean]), by simp; omega, ?_⟩
    have := expanded_contract T n [] [] h58 h0 hv (Or.inl rfl) (by simp; omega)
    simpa [tok_bare] using this
  · have h250 : ¬ v.length > 250 := by omega
    rw [if_neg he, if_neg h250]
    refine ⟨n ++ [58, 32] ++ strncpy_bytes v v.length ++ [32], by simp, ?_, ?_, ?_⟩
    · exact clean_append _ _ (clean_append _ _ (clean_append _ _ hcn (by simp [clean]))
        (strncpy_bytes_clean v hcv _)) (by simp [clean])
    · simp [strncpy_bytes_length]; omega
    · have := expanded_contract T n v (32 :: strncpy_bytes v v.length) h58 h0 hv
        (Or.inr ⟨_, rfl⟩) (by simp [strncpy_bytes_length]; omega)
      simpa [tok_bare] using this

/-- A token that is not of fixed width, in both passes: expanded to `$n: v $`,
then contracted to `$n$`. -/
theorem nonfixed_pass (T : apr_hash_t) (n v mid : List Nat) (hn : name_ok n)
    (hv : apr_hash_get T n = some v) (hcv : clean v) (hlen : 5 + n.length + v.length ≤ 255)
    (hmid : clean mid) (hml : mid.length ≤ 253)
    (hexp : translate_keyword (36 :: mid ++ [36]) true (some T) = some (true,
      if v = [] then 36 :: n ++ [58, 32, 36]
      else 36 :: n ++ [58, 32] ++ strncpy_bytes v (if v.length > 250 then 250 else v.length)
        ++ [32, 36])) :
    ∃ e, (∀ dst sf r, run_bytes (opts.mk none r (some T) true) (36 :: mid ++ [36])
            (xlate.mk dst [] [] sf) = Except.ok (xlate.mk (dst ++ e) [] [] sf))
      ∧ (∀ dst sf r, run_bytes (opts.mk none r (some T) false) e (xlate.mk dst [] [] sf)
            = Except.ok (xlate.mk (dst ++ tok_bare n) [] [] sf)) := by
  obtain ⟨mid2, e2, hc2, hl2, ht2⟩ := expansion_contract T n v hn hv hcv hlen
  refine ⟨_, fun dst sf r => kw_token r T true mid _ dst sf hmid hml hexp, fun dst sf r => ?_⟩
  rw [e2]
  exact kw_token r T false mid2 _ dst sf hc2 hl2 ht2

/-- A fixed-width token in both passes: expanded in place, then contracted to
`$n:: ` and spaces, with the same length. -/
theorem fixed_pass (T : apr_hash_t) (n v body : List Nat) (t : Nat) (hn : name_ok n)
    (hv : apr_hash_get T n = some v) (hcv : clean v) (hcb : clean body) (hb : body ≠ [])
    (ht : t = 32 ∨ t = 35) (hlen : (tok_fixed n body t).length ≤ 255) :
    ∃ e, (∀ dst sf r, run_bytes (opts.mk none r (some T) true) (tok_fixed n body t)
            (xlate.mk dst [] [] sf) = Except.ok (xlate.mk (dst ++ e) [] [] sf))
      ∧ (∀ dst sf r, run_bytes (opts.mk none r (some T) false) e (xlate.mk dst [] [] sf)
            = Except.ok (xlate.mk (dst ++ tok_fixed n (List.replicate body.length 32) 32)
                [] [] sf)) := by
  have h58 := name_ok_colon n hn
  have h0 := name_ok_nul n hn
  have hcn := name_ok_clean n hn
  have hb36 : 36 ∉ body := fun h => (hcb 36 h).1 rfl
  have hL := tok_fixed_length n body t
  have hct : clean [t] := by
    intro x hx
    simp only [List.mem_singleton] at hx
    subst hx
    rcases ht with rfl | rfl <;> decide
  -- the expanded token is again a fixed-width token `$n:: body2 t2$`
  have hex : ∃ body2 t2, clean body2 ∧ body2.length = body.length ∧ (t2 = 32 ∨ t2 = 35)
      ∧ translate_keyword (tok_fixed n body t) true (some T)
          = some (true, tok_fixed n body2 t2) := by
    have h := fixed_rewrite T n v body t true h58 h0 hv ht hb hlen
    simp only [if_true] at h
    by_cases hfit : v.length ≤ body.length
    · rw [if_pos hfit, fill_spaces_tail body t v.length hb36 ht hfit] at h
      refine ⟨strncpy_bytes v v.length ++ List.replicate (body.length - v.length) 32, 32,
        clean_append _ _ (strncpy_bytes_clean v hcv _) (clean_replicate_space _),
        by simp [strncpy_bytes_length]; omega, Or.inl rfl, ?_⟩
      rw [h]
      simp [tok_fixed]
    · rw [if_neg hfit] at h
      refine ⟨strncpy_bytes v body.length, 35, strncpy_bytes_clean v hcv _,
        strncpy_bytes_length _ _, Or.inr rfl, ?_⟩
      rw [h]
      simp [tok_fixed]
  obtain ⟨body2, t2, hc2, hl2, ht2, hexp⟩ := hex
  have hb2 : body2 ≠ [] := by
    intro h
    rw [h] at hl2
    exact hb (List.length_eq_zero.mp hl2.symm)
  have hb236 : 36 ∉ body2 := fun h => (hc2 36 h).1 rfl
  have hlen2 : (tok_fixed n body2 t2).length ≤ 255 := by
    rw [tok_fixed_length, hl2, ← hL]; exact hlen
  have hcon : translate_keyword (tok_fixed n body2 t2) false (some T)
      = some (true, tok_fixed n (List.replicate body.length 32) 32) := by
    have h := fixed_rewrite T n v body2 t2 false h58 h0 hv ht2 hb2 hlen2
    simp only [Bool.false_eq_true, if_false] at h
    have hf := fill_spaces_tail body2 t2 0 hb236 ht2 (Nat.zero_le _)
    simp only [List.drop_zero, Nat.sub_zero] at hf
    rw [hf, hl2] at h
    rw [h]
    simp [tok_fixed]
  have hct2 : clean [t2] := by
    intro x hx
    simp only [List.mem_singleton] at hx
    subst hx
    rcases ht2 with rfl | rfl <;> decide
  have hshape : ∀ (b : List Nat) (u : Nat),
      tok_fixed n b u = 36 :: (n ++ [58, 58, 32] ++ b ++ [u]) ++ [36] := by
    intro b u; simp [tok_fixed]
  have hmc : ∀ (b : List Nat) (u : Nat), clean b → clean [u] →
      clean (n ++ [58, 58, 32] ++ b ++ [u]) := fun b u h1 h2 =>
    clean_append _ _ (clean_append _ _ (clean_append _ _ hcn (by simp [clean])) h1) h2
  have hml : ∀ (b : List Nat) (u : Nat), (tok_fixed n b u).length ≤ 255 →
      (n ++ [58, 58, 32] ++ b ++ [u]).length ≤ 253 := by
    intro b u h
    rw [tok_fixed_length] at h
    simp; omega
  refine ⟨tok_fixed n body2 t2, fun dst sf r => ?_, fun dst sf r => ?_⟩
  · rw [hshape body t] at hexp ⊢
    exact kw_token r T true _ _ dst sf (hmc body t hcb hct) (hml body t hlen) hexp
  · rw [hshape body2 t2] at hcon ⊢
    exact kw_token r T false _ _ dst sf (hmc body2 t2 hc2 hct2) (hml body2 t2 hlen2) hcon

/-- One part of a well-formed input in both passes. -/
theorem piece_pass (T : apr_hash_t) (p : piece) (hwf : piece.wf T p) :
    ∃ e, (∀ dst sf r, run_bytes (opts.mk none r (some T) true) p.bytes
            (xlate.mk dst [] [] sf) = Except.ok (xlate.mk (dst ++ e) [] [] sf))
      ∧ (∀ dst sf r, run_bytes (opts.mk none r (some T) false) e (xlate.mk dst [] [] sf)
            = Except.ok (xlate.mk (dst ++ p.contracted) [] [] sf)) := by
  cases p with
  | text bs =>
    exact ⟨bs, fun dst sf r => kw_text r T true bs dst sf hwf,
      fun dst sf r => kw_text r T false bs dst sf hwf⟩
  | bare n =>
    obtain ⟨hn, v, hv, hcv, hlen⟩ := hwf
    have h := bare_expand T n v [36] (name_ok_colon n hn) (name_ok_nul n hn) hv (Or.inl rfl)
      (by simp; omega)
    have e : piece.bytes (piece.bare n) = 36 :: n ++ [36] := by simp [piece.bytes, tok_bare]
    rw [e]
    exact nonfixed_pass T n v n hn hv hcv hlen (name_ok_clean n hn) (by omega)
      (by simpa using h)
  | empty n =>
    obtain ⟨hn, v, hv, hcv, hlen⟩ := hwf
    have h := expanded_expand T n v [] (name_ok_colon n hn) (name_ok_nul n hn) hv (Or.inl rfl)
      (by simp; omega)
    have e : piece.bytes (piece.empty n) = 36 :: (n ++ [58, 32]) ++ [36] := by
      simp [piece.bytes, tok_empty]
    rw [e]
    exact nonfixed_pass T n v (n ++ [58, 32]) hn hv hcv hlen
      (clean_append _ _ (name_ok_clean n hn) (by simp [clean])) (by simp; omega)
      (by simpa using h)
  | expanded n w =>
    obtain ⟨hn, hcw, hl, v, hv, hcv, hlen⟩ := hwf
    have hl' : n.length + w.length + 5 ≤ 255 := by
      simp only [tok_expanded, List.length_cons, List.length_append, List.length_nil] at hl
      omega
    have h := expanded_expand T n v (32 :: w) (name_ok_colon n hn) (name_ok_nul n hn) hv
      (Or.inr ⟨w, rfl⟩) (by simp; omega)
    have e : piece.bytes (piece.expanded n w) = 36 :: (n ++ [58, 32] ++ w ++ [32]) ++ [36] := by
      simp [piece.bytes, tok_expanded]
    rw [e]
    exact nonfixed_pass T n v (n ++ [58, 32] ++ w ++ [32]) hn hv hcv hlen
      (clean_append _ _ (clean_append _ _ (clean_append _ _ (name_ok_clean n hn)
        (by simp [clean])) hcw) (by simp [clean])) (by simp; omega)
      (by simpa using h)
  | fixed n body t =>
    obtain ⟨hn, hcb, hb, ht, hl, v, hv, hcv⟩ := hwf
    exact fixed_pass T n v body t hn hv hcv hcb hb ht hl

/-- A well-formed input in both passes. -/
theorem pieces_pass (T : apr_hash_t) :
    ∀ (ps : List piece), (∀ p ∈ ps, piece.wf T p) →
      ∃ e, (∀ dst sf r, run_bytes (opts.mk none r (some T) true) (pieces_bytes ps)
              (xlate.mk dst [] [] sf) = Except.ok (xlate.mk (dst ++ e) [] [] sf))
        ∧ (∀ dst sf r, run_bytes (opts.mk none r (some T) false) e (xlate.mk dst [] [] sf)
              = Except.ok (xlate.mk (dst ++ pieces_contracted ps) [] [] sf)) := by
  intro ps
  induction ps with
  | nil =>
    intro _
    exact ⟨[], fun dst sf r => by simp [pieces_bytes, run_bytes],
      fun dst sf r => by simp [pieces_contracted, run_bytes]⟩
  | cons p rest ih =>
    intro hwf
    obtain ⟨e1, h1, h2⟩ := piece_pass T p (hwf p (List.mem_cons_self _ _))
    obtain ⟨e2, h3, h4⟩ := ih (fun q hq => hwf q (List.mem_cons_of_mem _ hq))
    refine ⟨e1 ++ e2, fun dst sf r => ?_, fun dst sf r => ?_⟩
    · have e : pieces_bytes (p :: rest) = p.bytes ++ pieces_bytes rest := by
        simp [pieces_bytes]
      rw [e, run_bytes_append, h1 dst sf r]
      simp only []
      rw [h3 (dst ++ e1) sf r, List.append_assoc]
    · have e : pieces_contracted (p :: rest) = p.contracted ++ pieces_contracted rest := by
        simp [pieces_contracted]
      rw [e, run_bytes_append, h2 dst sf r]
      simp only []
      rw [h4 (dst ++ p.contracted) sf r, List.append_assoc]

/-- The translation of a well-formed input with a table and no `eol_str`, from
the byte-by-byte run. -/
theorem translate_bytes_kw (T : apr_hash_t) (r x : Bool) (S e : List Nat)
    (h : run_bytes (opts.mk none r (some T) x) S (xlate.mk [] [] [] [])
      = Except.ok (xlate.mk ([] ++ e) [] [] [])) :
    translate_bytes S none r (some T) x = Except.ok e := by
  unfold translate_bytes run_finish
  simp only [Option.isSome_none, Option.isSome_some, Bool.false_eq_true, false_or,
    not_true_eq_false, if_false, h, List.nil_append]
  exact finish_idle _ _ _

/-- C6: for every table whose values contain no `$`, CR or LF byte and satisfy
`5 + |name| + |value| ≤ 255`, and every input made of text without `$` and of
bare tokens `$name$` whose names (keyword names: no `$`, colon, CR, LF, NUL) are
keys of the table, translating with `expand` on and then translating the
result with `expand` off, with the same table, no `eol_str` and chunks of any
sizes, gives back the input. -/
theorem C6_expand_then_contract (c1 c2 : Nat) (h1 : 1 ≤ c1) (h2 : 1 ≤ c2) (T : apr_hash_t)
    (ps : List piece) (r1 r2 : Bool)
    (hT : ∀ n v, apr_hash_get T n = some v → clean v ∧ 5 + n.length + v.length ≤ 255)
    (hps : ∀ p ∈ ps, (∃ bs, p = piece.text bs ∧ 36 ∉ bs)
      ∨ (∃ n, p = piece.bare n ∧ name_ok n ∧ (apr_hash_get T n).isSome = true)) :
    ∃ out, svn_subst_translate_stream3 c1 (pieces_bytes ps) none r1 (some T) true = Except.ok out
      ∧ svn_subst_translate_stream3 c2 out none r2 (some T) false
          = Except.ok (pieces_bytes ps) := by
  have hwf : ∀ p ∈ ps, piece.wf T p := by
    intro p hp
    rcases hps p hp with ⟨bs, rfl, h⟩ | ⟨n, rfl, hn, hk⟩
    · exact h
    · obtain ⟨v, hv⟩ := Option.isSome_iff_exists.mp hk
      exact ⟨hn, v, hv, (hT n v hv).1, (hT n v hv).2⟩
  have hsame : pieces_contracted ps = pieces_bytes ps := by
    unfold pieces_contracted pieces_bytes
    congr 1
    apply List.map_congr_left
    intro p hp
    rcases hps p hp with ⟨bs, rfl, _⟩ | ⟨n, rfl, _, _⟩ <;> rfl
  obtain ⟨e, he1, he2⟩ := pieces_pass T ps hwf
  refine ⟨e, ?_, ?_⟩
  · rw [stream3_eq_bytes c1 h1]
    exact translate_bytes_kw T r1 true _ e (he1 [] [] r1)
  · rw [stream3_eq_bytes c2 h2, ← hsame]
    exact translate_bytes_kw T r2 false _ _ (he2 [] [] r2)

/-- C6, witness: "Rev: $Rev$ done" with Rev -> "42", read in chunks of 7 bytes
and then of 4 bytes. -/
theorem C6_expand_then_contract_witness :
    ∃ out, svn_subst_translate_stream3 7 (bytes "Rev: $Rev$ done") none false
          (some [(bytes "Rev", bytes "42")]) true = Except.ok out
      ∧ svn_subst_translate_stream3 4 out none false (some [(bytes "Rev", bytes "42")]) false
          = Except.ok (bytes "Rev: $Rev$ done") :=
  C6_expand_then_contract 7 4 (by decide) (by decide) [(bytes "Rev", bytes "42")]
    [piece.text (bytes "Rev: "), piece.bare (bytes "Rev"), piece.text (bytes " done")] false false
    (by
      intro n v h
      simp only [apr_hash_get] at h
      split at h
      · rename_i hn
        cases h
        subst hn
        decide
      · cases h)
    (by
      intro p hp
      simp only [List.mem_cons, List.mem_singleton, List.not_mem_nil, or_false] at hp
      rcases hp with rfl | rfl | rfl
      · exact Or.inl ⟨_, rfl, by decide⟩
      · exact Or.inr ⟨_, rfl, by decide, by decide⟩
      · exact Or.inl ⟨_, rfl, by decide⟩)

/-- C7, as the claim states it, fails. A fixed-width token keeps its width:
`$Author::` + 11 spaces + `$` with Author -> "alice" is expanded to
`$Author:: alice     $` and contracted back to `$Author::` + 11 spaces + `$`,
not to `$Author$`. And the table cannot be any table: with Rev -> "a$b" the
token `$Rev$` is expanded to `$Rev: a$b $`, which the contraction leaves as it
is. -/
theorem C7_counterexample :
    svn_subst_translate_stream3 7 (bytes "$Author::           $") none false
        (some [(bytes "Author", bytes "alice")]) true = Except.ok (bytes "$Author:: alice     $")
    ∧ svn_subst_translate_stream3 7 (bytes "$Author:: alice     $") none false
        (some [(bytes "Author", bytes "alice")]) false = Except.ok (bytes "$Author::           $")
    ∧ bytes "$Author::           $" ≠ tok_bare (bytes "Author")
    ∧ svn_subst_translate_stream3 7 (bytes "$Rev$") none false
        (some [(bytes "Rev", bytes "a$b")]) true = Except.ok (bytes "$Rev: a$b $")
    ∧ svn_subst_translate_stream3 7 (bytes "$Rev: a$b $") none false
        (some [(bytes "Rev", bytes "a$b")]) false = Except.ok (bytes "$Rev: a$b $")
    ∧ bytes "$Rev: a$b $" ≠ tok_bare (bytes "Rev") := by
  decide

/-- C7, amended: for every table `T` and every input made of text without `$`
and of well-formed tokens (bare, empty-expanded, expanded, fixed-width) whose
names are keys of `T`, where the values of these names have no `$`, CR or LF
and, for the tokens that are not of fixed width, `5 + |name| + |value| ≤ 255`:
translating with `expand` on and then with `expand` off leaves every bare,
empty-expanded and expanded token in its bare form `$name$`, every fixed-width
token as `$name:: ` and spaces with its length unchanged, and the text as it
is. -/
theorem C7_roundtrip (c1 c2 : Nat) (h1 : 1 ≤ c1) (h2 : 1 ≤ c2) (T : apr_hash_t)
    (ps : List piece) (r1 r2 : Bool) (hwf : ∀ p ∈ ps, piece.wf T p) :
    ∃ out, svn_subst_translate_stream3 c1 (pieces_bytes ps) none r1 (some T) true = Except.ok out
      ∧ svn_subst_translate_stream3 c2 out none r2 (some T) false
          = Except.ok (pieces_contracted ps) := by
  obtain ⟨e, he1, he2⟩ := pieces_pass T ps hwf
  refine ⟨e, ?_, ?_⟩
  · rw [stream3_eq_bytes c1 h1]
    exact translate_bytes_kw T r1 true _ e (he1 [] [] r1)
  · rw [stream3_eq_bytes c2 h2]
    exact translate_bytes_kw T r2 false _ _ (he2 [] [] r2)

/-- C7, witness: an input with an expanded token, a fixed-width token and a
bare token, Rev -> "42" and Author -> "alice". -/
theorem C7_roundtrip_witness :
    ∃ out, svn_subst_translate_stream3 7 (bytes "$Rev: 1 $ by $Author::      $ at $Rev$\n") none
          false (some [(bytes "Rev", bytes "42"), (bytes "Author", bytes "alice")]) true
          = Except.ok out
      ∧ svn_subst_translate_stream3 5 out none false
          (some [(bytes "Rev", bytes "42"), (bytes "Author", bytes "alice")]) false
          = Except.ok (bytes "$Rev$ by $Author::      $ at $Rev$\n") :=
  C7_roundtrip 7 5 (by decide) (by decide)
    [(bytes "Rev", bytes "42"), (bytes "Author", bytes "alice")]
    [piece.expanded (bytes "Rev") (bytes "1"), piece.text (bytes " by "),
      piece.fixed (bytes "Author") (bytes "    ") 32, piece.text (bytes " at "),
      piece.bare (bytes "Rev"), piece.text (bytes "\n")] false false
    (by
      intro p hp
      simp only [List.mem_cons, List.mem_singleton, List.not_mem_nil, or_false] at hp
      rcases hp with rfl | rfl | rfl | rfl | rfl | rfl
      · exact ⟨by decide, by decide, by decide, bytes "42", by decide, by decide, by decide⟩
      · exact (by decide : 36 ∉ bytes " by ")
      · exact ⟨by decide, by decide, by decide, Or.inl rfl, by decide, bytes "alice", by decide,
          by decide⟩
      · exact (by decide : 36 ∉ bytes " at ")
      · exact ⟨by decide, bytes "42", by decide, by decide, by decide⟩
      · exact (by decide : 36 ∉ bytes "\n"))

/-! ## The keyword rewriter on a fixed-width token -/

/-- C8, as the claim states it, fails: on the 21-byte token `$Author::` + 11
spaces + `$` with the value `a`, NUL, `b` under `Author` (3 bytes, `m = 9`) the
rewriter returns true and the buffer holds `$Author:: ` then `a`, NUL, NUL then
7 spaces and `$`, not `$Author:: ` then the value then 7 spaces and `$`. -/
theorem C8_counterexample :
    apr_hash_get [(bytes "Author", [97, 0, 98])] (bytes "Author") = some [97, 0, 98]
    ∧ tok_fixed (bytes "Author") (List.replicate 9 32) 32 = bytes "$Author::           $"
    ∧ translate_keyword (tok_fixed (bytes "Author") (List.replicate 9 32) 32) true
        (some [(bytes "Author", [97, 0, 98])])
        = some (true, bytes "$Author:: " ++ [97, 0, 0] ++ List.replicate 7 32 ++ [36])
    ∧ translate_keyword (tok_fixed (bytes "Author") (List.replicate 9 32) 32) true
        (some [(bytes "Author", [97, 0, 98])])
        ≠ some (true, bytes "$Author:: " ++ [97, 0, 98] ++ List.replicate (9 + 1 - 3) 32 ++ [36]) := by
  decide

/-- C8, amended: for a keyword name `n` (no colon, no NUL) that is a key of the
table with a value `v` without NUL byte, and a fixed-width token
`$n:: body t$` of length `L ≤ 255` (`t` a space or `#`, `body` not empty, that
is `L > |n| + 6`, no `$` in `body`), with `m = L - |n| - 6`, expanding returns
true and the buffer holds `$n:: ` then `v` then `m + 1 - |v|` spaces then `$`
when `|v| ≤ m`, and `$n:: ` then the first `m` bytes of `v` then `#$` when
`|v| > m`. -/
theorem C8_fixed_expand (kw : apr_hash_t) (n v body : List Nat) (t : Nat)
    (hn58 : 58 ∉ n) (hn0 : 0 ∉ n) (hv0 : 0 ∉ v) (hv : apr_hash_get kw n = some v)
    (ht : t = 32 ∨ t = 35) (hb : body ≠ []) (hb36 : 36 ∉ body)
    (hlen : (tok_fixed n body t).length ≤ 255) :
    translate_keyword (tok_fixed n body t) true (some kw) = some (true,
      if v.length ≤ (tok_fixed n body t).length - n.length - 6 then
        36 :: n ++ [58, 58, 32] ++ v
          ++ List.replicate ((tok_fixed n body t).length - n.length - 6 + 1 - v.length) 32 ++ [36]
      else
        36 :: n ++ [58, 58, 32] ++ v.take ((tok_fixed n body t).length - n.length - 6)
          ++ [35, 36]) := by
  have hm : (tok_fixed n body t).length - n.length - 6 = body.length := by
    rw [tok_fixed_length]; omega
  rw [fixed_rewrite kw n v body t true hn58 hn0 hv ht hb hlen, hm]
  simp only [if_true]
  by_cases hfit : v.length ≤ body.length
  · rw [if_pos hfit, if_pos hfit, strncpy_bytes_of_not_mem v _ hv0 (le_refl _), List.take_length,
      fill_spaces_tail body t v.length hb36 ht hfit]
    have : body.length + 1 - v.length = (body.length - v.length) + 1 := by omega
    rw [this, List.replicate_succ']
    simp
  · rw [if_neg hfit, if_neg hfit, strncpy_bytes_of_not_mem v _ hv0 (by omega)]
    simp

/-- C8, witness (S3): the 21-byte input `$Author::` + 11 spaces + `$` with
Author -> "alice" and with Author -> "a-very-long-name-indeed". -/
theorem C8_fixed_expand_witness :
    translate_keyword (bytes "$Author::           $") true (some [(bytes "Author", bytes "alice")])
      = some (true, bytes "$Author:: alice     $")
    ∧ translate_keyword (bytes "$Author::           $") true
        (some [(bytes "Author", bytes "a-very-long-name-indeed")])
      = some (true, bytes "$Author:: a-very-lo#$") :=
  ⟨C8_fixed_expand [(bytes "Author", bytes "alice")] (bytes "Author") (bytes "alice")
      (List.replicate 9 32) 32 (by decide) (by decide) (by decide) (by decide) (Or.inl rfl)
      (by decide) (by decide) (by decide),
   C8_fixed_expand [(bytes "Author", bytes "a-very-long-name-indeed")] (bytes "Author")
      (bytes "a-very-long-name-indeed") (List.replicate 9 32) 32 (by decide) (by decide)
      (by decide) (by decide) (Or.inl rfl) (by decide) (by decide) (by decide)⟩

/-- C9: a fixed-width token `$n:: body t$` of length `L ≤ 255` (`t` a space or
`#`, `body` not empty) whose name `n` (no colon, no NUL, as every name that
`translate_keyword` extracts) is a key of the table is rewritten in either
direction, whatever the value and the bytes of `body`: the rewriter returns true,
the length is still `L`, byte 0 and byte `L - 1` are `$`, and the first
`|n| + 4` bytes are still `$n:: `. -/
theorem C9_fixed_length_preserved (kw : apr_hash_t) (n v body : List Nat) (t : Nat)
    (expand : Bool) (hn58 : 58 ∉ n) (hn0 : 0 ∉ n) (hv : apr_hash_get kw n = some v)
    (ht : t = 32 ∨ t = 35) (hb : body ≠ []) (hlen : (tok_fixed n body t).length ≤ 255) :
    ∃ out, translate_keyword (tok_fixed n body t) expand (some kw) = some (true, out)
      ∧ out.length = (tok_fixed n body t).length
      ∧ out.getD 0 0 = 36
      ∧ out.getD ((tok_fixed n body t).length - 1) 0 = 36
      ∧ out.take (n.length + 4) = 36 :: n ++ [58, 58, 32]
      ∧ (tok_fixed n body t).take (n.length + 4) = 36 :: n ++ [58, 58, 32] := by
  have hL := tok_fixed_length n body t
  have hpre : ∀ X : List Nat, (36 :: (n ++ 58 :: 58 :: 32 :: X)).take (n.length + 4)
      = 36 :: n ++ [58, 58, 32] := by
    intro X
    have e : 36 :: (n ++ 58 :: 58 :: 32 :: X) = (36 :: n ++ [58, 58, 32]) ++ X := by simp
    rw [e, take_append_exact _ _ _ (by simp)]
  have hlast : ∀ Y : List Nat, Y.length = body.length + 1 →
      (36 :: (n ++ 58 :: 58 :: 32 :: (Y ++ [36]))).getD ((tok_fixed n body t).length - 1) 0
        = 36 := by
    intro Y hY
    have := tok_last n (58 :: 58 :: 32 :: Y)
    simp only [List.cons_append] at this
    have e : (36 :: (n ++ 58 :: 58 :: 32 :: (Y ++ [36]))).length = (tok_fixed n body t).length := by
      rw [hL]; simp [hY]; omega
    rw [← e]; exact this
  have hlenY : ∀ Y : List Nat, Y.length = body.length + 1 →
      (36 :: (n ++ 58 :: 58 :: 32 :: (Y ++ [36]))).length = (tok_fixed n body t).length := by
    intro Y hY
    rw [hL]; simp [hY]; omega
  have key : ∀ out : List Nat, (∃ Y : List Nat, Y.length = body.length + 1
      ∧ out = 36 :: (n ++ 58 :: 58 :: 32 :: (Y ++ [36]))) →
      out.length = (tok_fixed n body t).length ∧ out.getD 0 0 = 36
      ∧ out.getD ((tok_fixed n body t).length - 1) 0 = 36
      ∧ out.take (n.length + 4) = 36 :: n ++ [58, 58, 32] := by
    rintro out ⟨Y, hY, rfl⟩
    exact ⟨hlenY Y hY, rfl, hlast Y hY, hpre _⟩
  have htok : (tok_fixed n body t).take (n.length + 4) = 36 :: n ++ [58, 58, 32] := by
    have e : tok_fixed n body t = 36 :: (n ++ 58 :: 58 :: 32 :: (body ++ [t, 36])) := by
      simp [tok_fixed]
    rw [e]; exact hpre _
  refine ⟨_, fixed_rewrite kw n v body t expand hn58 hn0 hv ht hb hlen, ?_⟩
  suffices h : ∃ Y : List Nat, Y.length = body.length + 1 ∧
      (if expand = true then
        if v.length ≤ body.length then
          36 :: (n ++ 58 :: 58 :: 32 :: (strncpy_bytes v v.length
            ++ fill_spaces ((body ++ [t, 36]).drop v.length)))
        else 36 :: (n ++ 58 :: 58 :: 32 :: (strncpy_bytes v body.length ++ [35, 36]))
      else 36 :: (n ++ 58 :: 58 :: 32 :: fill_spaces (body ++ [t, 36])))
      = 36 :: (n ++ 58 :: 58 :: 32 :: (Y ++ [36])) by
    obtain ⟨h1, h2, h3, h4⟩ := key _ h
    exact ⟨h1, h2, h3, h4, htok⟩
  cases expand
  · obtain ⟨ys, h1, h2⟩ := fill_spaces_snoc (body ++ [t])
    refine ⟨ys, by simpa using h2, ?_⟩
    simp only [Bool.false_eq_true, if_false]
    have e : body ++ [t, 36] = (body ++ [t]) ++ [36] := by simp
    rw [e, h1]
  · simp only [if_true]
    by_cases hfit : v.length ≤ body.length
    · rw [if_pos hfit]
      have e : (body ++ [t, 36]).drop v.length = (body.drop v.length ++ [t]) ++ [36] := by
        rw [List.drop_append_of_le_length hfit]; simp
      obtain ⟨ys, h1, h2⟩ := fill_spaces_snoc (body.drop v.length ++ [t])
      refine ⟨strncpy_bytes v v.length ++ ys, ?_, ?_⟩
      · simp [strncpy_bytes_length, h2]; omega
      · rw [e, h1]; simp
    · rw [if_neg hfit]
      exact ⟨strncpy_bytes v body.length ++ [35], by simp [strncpy_bytes_length], by simp⟩

/-- C9, witness: the 21-byte token of S3 contracted with Author -> "alice". -/
theorem C9_fixed_length_preserved_witness :
    ∃ out, translate_keyword (tok_fixed (bytes "Author") (bytes "alice    ") 32) false
        (some [(bytes "Author", bytes "alice")]) = some (true, out)
      ∧ out.length = (tok_fixed (bytes "Author") (bytes "alice    ") 32).length
      ∧ out.getD 0 0 = 36
      ∧ out.getD ((tok_fixed (bytes "Author") (bytes "alice    ") 32).length - 1) 0 = 36
      ∧ out.take ((bytes "Author").length + 4) = 36 :: bytes "Author" ++ [58, 58, 32]
      ∧ (tok_fixed (bytes "Author") (bytes "alice    ") 32).take ((bytes "Author").length + 4)
          = 36 :: bytes "Author" ++ [58, 58, 32] :=
  C9_fixed_length_preserved [(bytes "Author", bytes "alice")] (bytes "Author") (bytes "alice")
    (bytes "alice    ") 32 false (by decide) (by decide) (by decide) (Or.inl rfl) (by decide)
    (by decide)

/-- C10: for a fixed-width token `$n:: body t$` of length `L ≤ 255` (`t` a
space or `#`, `body` not empty and without `$`) whose name `n` (no colon, no
NUL) is a key of the table with value `v`, after the expansion the byte
`buf[L-2]` is `#` if and only if `|v| > L - |n| - 6`, and is a space
otherwise. -/
theorem C10_truncation_marker (kw : apr_hash_t) (n v body : List Nat) (t : Nat)
    (hn58 : 58 ∉ n) (hn0 : 0 ∉ n) (hv : apr_hash_get kw n = some v)
    (ht : t = 32 ∨ t = 35) (hb : body ≠ []) (hb36 : 36 ∉ body)
    (hlen : (tok_fixed n body t).length ≤ 255) :
    ∃ out, translate_keyword (tok_fixed n body t) true (some kw) = some (true, out)
      ∧ (out.getD ((tok_fixed n body t).length - 2) 0 = 35
          ↔ v.length > (tok_fixed n body t).length - n.length - 6)
      ∧ (¬ v.length > (tok_fixed n body t).length - n.length - 6 →
          out.getD ((tok_fixed n body t).length - 2) 0 = 32) := by
  have hL := tok_fixed_length n body t
  have hm : (tok_fixed n body t).length - n.length - 6 = body.length := by
    rw [hL]; omega
  refine ⟨_, fixed_rewrite kw n v body t true hn58 hn0 hv ht hb hlen, ?_⟩
  simp only [if_true]
  rw [hm]
  have hget : ∀ (Y : List Nat) (a : Nat), Y.length = body.length →
      (36 :: (n ++ 58 :: 58 :: 32 :: (Y ++ [a, 36]))).getD ((tok_fixed n body t).length - 2) 0
        = a := by
    intro Y a hY
    have := tok_last2 n (58 :: 58 :: 32 :: Y) a
    simp only [List.cons_append] at this
    have e : (36 :: (n ++ 58 :: 58 :: 32 :: (Y ++ [a, 36]))).length
        = (tok_fixed n body t).length := by
      rw [hL]; simp [hY]; omega
    rw [← e]; exact this
  by_cases hfit : v.length ≤ body.length
  · rw [if_pos hfit, fill_spaces_tail body t v.length hb36 ht hfit]
    have e : strncpy_bytes v v.length ++ (List.replicate (body.length - v.length) 32 ++ [32, 36])
        = (strncpy_bytes v v.length ++ List.replicate (body.length - v.length) 32) ++ [32, 36] := by
      simp
    rw [e, hget _ 32 (by simp [strncpy_bytes_length]; omega)]
    constructor
    · constructor
      · intro h; exact absurd h (by decide)
      · intro h; omega
    · intro _; rfl
  · rw [if_neg hfit, hget _ 35 (by simp [strncpy_bytes_length])]
    constructor
    · constructor
      · intro _; omega
      · intro _; rfl
    · intro h; omega

/-- C10, witness (S3): with Author -> "a-very-long-name-indeed" the 21-byte
token gets the marker `#`. -/
theorem C10_truncation_marker_witness :
    ∃ out, translate_keyword (tok_fixed (bytes "Author") (List.replicate 9 32) 32) true
        (some [(bytes "Author", bytes "a-very-long-name-indeed")]) = some (true, out)
      ∧ (out.getD ((tok_fixed (bytes "Author") (List.replicate 9 32) 32).length - 2) 0 = 35
          ↔ (bytes "a-very-long-name-indeed").length
            > (tok_fixed (bytes "Author") (List.replicate 9 32) 32).length
              - (bytes "Author").length - 6)
      ∧ (¬ (bytes "a-very-long-name-indeed").length
            > (tok_fixed (bytes "Author") (List.replicate 9 32) 32).length
              - (bytes "Author").length - 6 →
          out.getD ((tok_fixed (bytes "Author") (List.replicate 9 32) 32).length - 2) 0 = 32) :=
  C10_truncation_marker [(bytes "Author", bytes "a-very-long-name-indeed")] (bytes "Author")
    (bytes "a-very-long-name-indeed") (List.replicate 9 32) 32 (by decide) (by decide)
    (by decide) (Or.inl rfl) (by decide) (by decide) (by decide)

/-! ## Independence of the chunk size -/

/-- With an empty table the rewriter leaves every candidate token as it is and
returns false. -/
theorem translate_keyword_empty (mid : List Nat) (x : Bool) (hl : mid.length ≤ 253) :
    translate_keyword (36 :: mid ++ [36]) x (some []) = some (false, 36 :: mid ++ [36]) := by
  have h := kb_asserts (36 :: mid) (by simp) (by simp; omega) rfl
  obtain ⟨h1, h2, h3, h4⟩ := h
  simp only [List.cons_append] at h1 h2 h3 h4
  unfold translate_keyword
  simp only [SVN_KEYWORD_MAX_LEN, List.cons_append]
  rw [if_neg (by simpa using h1), if_neg (by simp [h3, h4])]
  have h5 : ¬ (mid ++ [36]).length + 1 < 2 := by simp
  simp [h5, apr_hash_get]

/-- One byte of the input, with a table for which the rewriter returns false on
every candidate token and without `eol_str`: the byte is added to what is
written or held in the keyword buffer. -/
theorem byte_step_unmatched (r : Bool) (T : apr_hash_t) (x : Bool)
    (hfalse : ∀ mid : List Nat, mid.length ≤ 253 →
      translate_keyword (36 :: mid ++ [36]) x (some T) = some (false, 36 :: mid ++ [36]))
    (st : xlate) (c : Nat) (hnb : st.newline_buf = [])
    (hkb : st.keyword_buf = [] ∨ ∃ mid, st.keyword_buf = 36 :: mid ∧ mid.length ≤ 253) :
    ∃ s1, byte_step (opts.mk none r (some T) x) st c = Except.ok s1
      ∧ s1.newline_buf = []
      ∧ (s1.keyword_buf = [] ∨ ∃ mid, s1.keyword_buf = 36 :: mid ∧ mid.length ≤ 253)
      ∧ s1.dst ++ s1.keyword_buf = st.dst ++ st.keyword_buf ++ [c]
      ∧ s1.src_format = st.src_format := by
  obtain ⟨dst, nb, kb, sf⟩ := st
  simp only at hnb hkb
  subst hnb
  have hidle : ∀ d : List Nat, ∃ s1,
      idle_step (opts.mk none r (some T) x) (xlate.mk d [] [] sf) c = Except.ok s1
        ∧ s1.newline_buf = []
        ∧ (s1.keyword_buf = [] ∨ ∃ mid, s1.keyword_buf = 36 :: mid ∧ mid.length ≤ 253)
        ∧ s1.dst ++ s1.keyword_buf = d ++ [c] ∧ s1.src_format = sf := by
    intro d
    by_cases hc : c = 36
    · subst hc
      refine ⟨xlate.mk d [] [36] sf, ?_, rfl, Or.inr ⟨[], rfl, by simp⟩, rfl, rfl⟩
      rw [idle_step_dollar (opts.mk none r (some T) x) _ rfl]
      rfl
    · refine ⟨xlate.mk (d ++ [c]) [] [] sf, ?_, rfl, Or.inl rfl, by simp, rfl⟩
      rw [idle_step_boring]
      rw [interesting_kw_only]
      simpa using hc
  rcases hkb with hkb | ⟨mid, hkb, hl⟩
  · subst hkb
    rw [byte_step_idle _ _ _ rfl rfl]
    simpa using hidle dst
  · subst hkb
    by_cases hc : c = 36
    · subst hc
      rw [byte_step_kw_close]
      simp only [hfalse mid hl]
      obtain ⟨s1, h1, h2, h3, h4, h5⟩ := hidle (dst ++ (36 :: mid ++ [36]).take
        ((36 :: mid ++ [36]).length - 1))
      refine ⟨s1, h1, h2, h3, ?_, h5⟩
      rw [h4]
      have e : (36 :: mid ++ [36]).take ((36 :: mid ++ [36]).length - 1) = 36 :: mid := by
        have : (36 :: mid ++ [36]) = (36 :: mid) ++ [36] := by simp
        rw [this]
        exact take_append_exact _ _ _ (by simp)
      rw [e]
      try simp
    · by_cases hf : mid.length = 253 ∨ c = 13 ∨ c = 10
      · rw [byte_step_kw_abandon _ _ _ _ _ hc hf]
        obtain ⟨s1, h1, h2, h3, h4, h5⟩ := hidle (dst ++ 36 :: mid)
        exact ⟨s1, h1, h2, h3, by rw [h4], h5⟩
      · have hf1 : mid.length ≠ 253 := fun h => hf (Or.inl h)
        have hf2 : c ≠ 13 := fun h => hf (Or.inr (Or.inl h))
        have hf3 : c ≠ 10 := fun h => hf (Or.inr (Or.inr h))
        rw [byte_step_kw_more _ _ _ _ _ hc hf1 hf2 hf3]
        refine ⟨_, rfl, rfl, Or.inr ⟨mid ++ [c], rfl, ?_⟩, by simp, rfl⟩
        simp only [List.length_append, List.length_singleton]
        omega

/-- The whole input, with a table for which the rewriter returns false on every
candidate token and without `eol_str`: the output is the input. -/
theorem run_finish_unmatched (r : Bool) (T : apr_hash_t) (x : Bool)
    (hfalse : ∀ mid : List Nat, mid.length ≤ 253 →
      translate_keyword (36 :: mid ++ [36]) x (some T) = some (false, 36 :: mid ++ [36])) :
    ∀ (S : List Nat) (st : xlate), st.newline_buf = [] →
      (st.keyword_buf = [] ∨ ∃ mid, st.keyword_buf = 36 :: mid ∧ mid.length ≤ 253) →
      run_finish (opts.mk none r (some T) x) S st = Except.ok (st.dst ++ st.keyword_buf ++ S) := by
  intro S
  induction S with
  | nil =>
    intro st hnb hkb
    obtain ⟨dst, nb, kb, sf⟩ := st
    simp only at hnb hkb
    subst hnb
    rw [run_finish_nil]
    rcases hkb with hkb | ⟨mid, hkb, _⟩
    · subst hkb
      simp [finish_idle]
    · subst hkb
      simp [finish_kw]
  | cons c S ih =>
    intro st hnb hkb
    obtain ⟨s1, h1, h2, h3, h4, _⟩ := byte_step_unmatched r T x hfalse st c hnb hkb
    rw [run_finish_cons _ _ _ _ _ h1, ih s1 h2 h3, h4]
    simp

/-- Claim C13.  Unknown keywords pass through: for every input `S` (with any
number of `$`, CR, LF and NUL bytes), the translation with a present but empty
keyword table and no `eol_str`, in either direction, returns exactly `S`. -/
theorem C13_empty_table (chunk : Nat) (hchunk : 1 ≤ chunk) (S : List Nat) (r x : Bool) :
    svn_subst_translate_stream3 chunk S none r (some []) x = Except.ok S := by
  rw [stream3_eq_bytes chunk hchunk]
  unfold translate_bytes
  simp only [Option.isSome_none, Option.isSome_some, or_true, not_true_eq_false, if_false]
  rw [run_finish_unmatched r [] x (fun mid hl => translate_keyword_empty mid x hl) S _ rfl
    (Or.inl rfl)]
  simp

/-- The example S5 of claim C13: `$Foo$` with an empty table gives `$Foo$`; so
does an input with `$`, CR, LF and NUL bytes. -/
theorem C13_empty_table_witness :
    svn_subst_translate_stream3 16 (bytes "$Foo$") none false (some []) true
        = Except.ok (bytes "$Foo$")
    ∧ svn_subst_translate_stream3 3 (bytes "$a\r$b\n$$\x00$Rev: 1 $") none false (some []) false
        = Except.ok (bytes "$a\r$b\n$$\x00$Rev: 1 $") :=
  ⟨C13_empty_table 16 (by decide) (bytes "$Foo$") false true,
    C13_empty_table 3 (by decide) (bytes "$a\r$b\n$$\x00$Rev: 1 $") false false⟩

/-! ## Repair on: no end-of-line error -/

/-- The reference replacement with LF leaves no CR. -/
theorem normalize_eol_no_cr : ∀ (n : Nat) (S : List Nat), S.length ≤ n →
    13 ∉ normalize_eol [10] S := by
  intro n
  induction n with
  | zero =>
    intro S hS
    have : S = [] := List.eq_nil_of_length_eq_zero (by omega)
    subst this
    simp [normalize_eol]
  | succ n ih =>
    intro S hS
    match S, hS with
    | [], _ => simp [normalize_eol]
    | c :: rest, hS =>
      have hr : rest.length ≤ n := by simp only [List.length_cons] at hS; omega
      by_cases h10 : c = 10
      · subst h10
        rw [normalize_eol_lf]
        simpa using ih rest hr
      · by_cases h13 : c = 13
        · subst h13
          match rest, hr with
          | [], _ => rw [normalize_eol_cr_end]; simp
          | d :: r2, hr =>
            have hr2 : r2.length ≤ n := by simp only [List.length_cons] at hr; omega
            by_cases hd : d = 10
            · subst hd
              rw [normalize_eol_crlf]
              simpa using ih r2 hr2
            · rw [normalize_eol_cr _ _ _ hd]
              simpa using ih (d :: r2) hr
        · rw [normalize_eol_other _ _ _ h13 h10]
          intro hm
          rcases List.mem_cons.mp hm with h | h
          · exact h13 h.symm
          · exact ih rest hr h

/-- The reference replacement with LF changes nothing in a text without CR. -/
theorem normalize_eol_fixed : ∀ (T : List Nat), 13 ∉ T → normalize_eol [10] T = T := by
  intro T
  induction T with
  | nil => intro _; simp [normalize_eol]
  | cons c rest ih =>
    intro h
    have h13 : c ≠ 13 := fun e => h (by simp [e])
    have hr : 13 ∉ rest := fun e => h (List.mem_cons_of_mem _ e)
    by_cases h10 : c = 10
    · subst h10
      rw [normalize_eol_lf, ih hr]
      rfl
    · rw [normalize_eol_other _ _ _ h13 h10, ih hr]

/-- The terminators of a text without CR are all of kind LF. -/
theorem eol_kinds_no_cr : ∀ (T : List Nat), 13 ∉ T → ∀ k ∈ eol_kinds T, k = eol_kind.LF := by
  intro T
  induction T with
  | nil => intro _ k hk; simp [eol_kinds] at hk
  | cons c rest ih =>
    intro h k hk
    have h13 : c ≠ 13 := fun e => h (by simp [e])
    have hr : 13 ∉ rest := fun e => h (List.mem_cons_of_mem _ e)
    by_cases h10 : c = 10
    · subst h10
      rw [eol_kinds_lf] at hk
      rcases List.mem_cons.mp hk with hk | hk
      · exact hk
      · exact ih hr k hk
    · rw [eol_kinds_other _ _ h13 h10] at hk
      exact ih hr k hk

/-- Terminators that are all of kind LF agree with each other. -/
theorem eol_agree_all_lf (ks : List eol_kind) (h : ∀ k ∈ ks, k = eol_kind.LF) :
    eol_agree [] ks := by
  unfold eol_agree
  rw [if_pos rfl]
  intro k hk
  match ks, h, hk with
  | k0 :: rest, h, hk =>
    rw [h k hk, h k0 (List.mem_cons_self _ _)]
    rfl

/-- The translation to LF without a table, for either repair setting: when it
returns an output, the output is the reference replacement. -/
theorem translate_bytes_lf (S O : List Nat) (r x : Bool)
    (h : translate_bytes S (some [10]) r none x = Except.ok O) : O = normalize_eol [10] S := by
  have hrun := eol_run [10] (by decide) x S [] [] [] (Or.inl rfl)
  simp only [List.nil_append] at hrun
  unfold translate_bytes at h
  rw [if_neg (by simp)] at h
  cases r with
  | true =>
    rw [hrun] at h
    injection h with h
    exact h.symm
  | false =>
    obtain ⟨_, h2, h3⟩ := repair_core (some [10]) none x rfl S (xlate.mk [] [] [] [])
      (stream_inv_idle _ [] [] (Or.inl rfl))
    by_cases ha : eol_agree [] (eol_kinds ([] ++ S))
    · rw [h2 ha, hrun] at h
      injection h with h
      exact h.symm
    · obtain ⟨d, hd⟩ := h3 ha
      rw [hd] at h
      cases h

/-- The translation to LF of a text without CR, without a table, for either
repair setting, returns the text. -/
theorem translate_bytes_lf_fixed (T : List Nat) (r x : Bool) (hT : 13 ∉ T) :
    translate_bytes T (some [10]) r none x = Except.ok T := by
  have hrun := eol_run [10] (by decide) x T [] [] [] (Or.inl rfl)
  simp only [List.nil_append] at hrun
  rw [normalize_eol_fixed T hT] at hrun
  unfold translate_bytes
  rw [if_neg (by simp)]
  cases r with
  | true => exact hrun
  | false =>
    obtain ⟨_, h2, _⟩ := repair_core (some [10]) none x rfl T (xlate.mk [] [] [] [])
      (stream_inv_idle _ [] [] (Or.inl rfl))
    rw [h2 (eol_agree_all_lf _ (eol_kinds_no_cr _ (by simpa using hT))), hrun]

/-- Claim C16.  End-of-line idempotence: for every input `S` and either repair
setting, if the translation of `S` with `eol_str` = LF and no keyword table
returns the output `O`, then the translation of `O` with the same options
returns `O` again. -/
theorem C16_eol_idempotence (c1 c2 : Nat) (h1 : 1 ≤ c1) (h2 : 1 ≤ c2) (S O : List Nat)
    (r x : Bool)
    (h : svn_subst_translate_stream3 c1 S (some [10]) r none x = Except.ok O) :
    svn_subst_translate_stream3 c2 O (some [10]) r none x = Except.ok O := by
  rw [stream3_eq_bytes c1 h1] at h
  rw [stream3_eq_bytes c2 h2]
  have hO := translate_bytes_lf S O r x h
  apply translate_bytes_lf_fixed
  rw [hO]
  exact normalize_eol_no_cr S.length S (le_refl _)

/-- An example of claim C16: `a CR LF b CR LF c` gives `a LF b LF c` with repair
off, and that output is translated to itself. -/
theorem C16_eol_idempotence_witness :
    svn_subst_translate_stream3 4 (bytes "a\r\nb\r\nc") (some [10]) false none false
        = Except.ok (bytes "a\nb\nc")
    ∧ svn_subst_translate_stream3 3 (bytes "a\nb\nc") (some [10]) false none false
        = Except.ok (bytes "a\nb\nc") :=
  ⟨by decide, C16_eol_idempotence 4 3 (by decide) (by decide) (bytes "a\r\nb\r\nc")
    (bytes "a\nb\nc") false false (by decide)⟩

/-! ## The token grammar and the rewriter -/

/-- A name of the token grammar has no `$`, colon, CR, LF or NUL. -/
theorem NAME_name_ok (n : List Nat) (h : NAME n) : name_ok n := by
  intro b hb
  have hb1 := h.2.2 b hb
  unfold name_byte at hb1
  omega

/-- The bytes of `PAD_OR_VAL` end with a space or with `#`. -/
theorem PAD_OR_VAL_last (p : List Nat) (h : PAD_OR_VAL p) :
    ∃ body t, p = body ++ [t] ∧ (t = 32 ∨ t = 35) := by
  obtain ⟨vb, pad, rfl, _, hp | ⟨hne, hsp⟩⟩ := h
  · subst hp
    exact ⟨vb, 35, rfl, Or.inr rfl⟩
  · refine ⟨vb ++ pad.dropLast, pad.getLast hne, ?_, Or.inl (hsp _ (List.getLast_mem hne))⟩
    rw [List.append_assoc, List.dropLast_append_getLast hne]

/-- The token `$name:: t$`, with one byte between the space and the closing `$`,
is too short for the fixed-width form and has no other form: the rewriter
returns false and leaves it as it is. -/
theorem short_fixed_rejected (T : apr_hash_t) (n v : List Nat) (t : Nat) (x : Bool)
    (hn : name_ok n) (hv : apr_hash_get T n = some v)
    (hlen : (36 :: n ++ [58, 58, 32, t, 36]).length ≤ 255) :
    translate_keyword (36 :: n ++ [58, 58, 32, t, 36]) x (some T)
      = some (false, 36 :: n ++ [58, 58, 32, t, 36]) := by
  have e : (36 :: n ++ [58, 58, 32, t, 36]) = 36 :: (n ++ 58 :: [58, 32, t, 36]) := by simp
  rw [e] at hlen ⊢
  have hlast : (36 :: (n ++ 58 :: [58, 32, t, 36])).getD
      ((36 :: (n ++ 58 :: [58, 32, t, 36])).length - 1) 0 = 36 :=
    tok_last n [58, 58, 32, t]
  rw [translate_keyword_norm T n [58, 32, t, 36] v 58 x (name_ok_colon n hn) (name_ok_nul n hn)
    (Or.inl rfl) hlast hlen hv]
  rw [subst_pre n (58 :: [58, 32, t, 36]) _ (by simp) hlen hlast]
  simp

/-- Every token of the grammar but `$name:: t$` is matched by the rewriter. -/
theorem grammar_match (T : apr_hash_t) (n v tok : List Nat) (x : Bool) (hg : TOKEN n tok)
    (hv : apr_hash_get T n = some v) (hlen : tok.length ≤ 255)
    (hne : ∀ t, tok ≠ 36 :: n ++ [58, 58, 32, t, 36]) :
    ∃ out, translate_keyword tok x (some T) = some (true, out) := by
  obtain ⟨hN, hcases⟩ := hg
  have hn := NAME_name_ok n hN
  have h58 := name_ok_colon n hn
  have h0 := name_ok_nul n hn
  rcases hcases with rfl | rfl | ⟨w, _, rfl⟩ | ⟨p, hp, rfl⟩
  · have e : (36 :: n ++ [36]) = 36 :: (n ++ [36]) := by simp
    rw [e] at hlen ⊢
    cases x with
    | true => exact ⟨_, bare_expand T n v [36] h58 h0 hv (Or.inl rfl) hlen⟩
    | false => exact ⟨_, bare_contract T n v [36] h58 h0 hv (Or.inl rfl) hlen⟩
  · have e : (36 :: n ++ [58, 32] ++ [36]) = 36 :: (n ++ 58 :: ([] ++ [32, 36])) := by simp
    rw [e] at hlen ⊢
    cases x with
    | true => exact ⟨_, expanded_expand T n v [] h58 h0 hv (Or.inl rfl) hlen⟩
    | false => exact ⟨_, expanded_contract T n v [] h58 h0 hv (Or.inl rfl) hlen⟩
  · have e : (36 :: n ++ [58, 32] ++ w ++ [32] ++ [36])
        = 36 :: (n ++ 58 :: ((32 :: w) ++ [32, 36])) := by simp
    rw [e] at hlen ⊢
    cases x with
    | true => exact ⟨_, expanded_expand T n v (32 :: w) h58 h0 hv (Or.inr ⟨w, rfl⟩) hlen⟩
    | false => exact ⟨_, expanded_contract T n v (32 :: w) h58 h0 hv (Or.inr ⟨w, rfl⟩) hlen⟩
  · obtain ⟨body, t, rfl, ht⟩ := PAD_OR_VAL_last p hp
    have hb : body ≠ [] := by
      intro hb
      subst hb
      exact hne t (by simp)
    have e : (36 :: n ++ [58, 58, 32] ++ (body ++ [t]) ++ [36]) = tok_fixed n body t := by
      simp [tok_fixed]
    rw [e] at hlen ⊢
    exact ⟨_, fixed_rewrite T n v body t x h58 h0 hv ht hb hlen⟩

/-- Claim C14, as the code has it.  The rewriter accepts the token grammar but
for the shortest fixed-width form: every token of at most 255 bytes generated
by `TOKEN` whose name is a key of the table is matched by `translate_keyword`
(it returns true) in both directions, unless it is `$NAME::` followed by a
space, one more byte and `$` (only `$NAME::  $` and `$NAME:: #$` are in the
grammar), which is 6 bytes longer than the name, too short for the fixed-width
form: for that token the rewriter returns false and leaves it as it is. -/
theorem C14_grammar_accepted (T : apr_hash_t) (n tok : List Nat) (x : Bool) (hg : TOKEN n tok)
    (hk : (apr_hash_get T n).isSome = true) (hlen : tok.length ≤ 255) :
    ((∀ t, tok ≠ 36 :: n ++ [58, 58, 32, t, 36]) →
        ∃ out, translate_keyword tok x (some T) = some (true, out))
    ∧ ((∃ t, tok = 36 :: n ++ [58, 58, 32, t, 36]) →
        translate_keyword tok x (some T) = some (false, tok)) := by
  obtain ⟨v, hv⟩ := Option.isSome_iff_exists.mp hk
  constructor
  · exact grammar_match T n v tok x hg hv hlen
  · rintro ⟨t, rfl⟩
    exact short_fixed_rejected T n v t x (NAME_name_ok n hg.1) hv hlen

/-- The counterexample to claim C14 as stated: `$Rev:: #$` and `$Rev::  $` are
tokens of the grammar, of 9 bytes, with the name `Rev` a key of the table, and the
rewriter returns false on them in both directions. -/
theorem C14_counterexample :
    TOKEN (bytes "Rev") (bytes "$Rev:: #$") ∧ TOKEN (bytes "Rev") (bytes "$Rev::  $")
    ∧ (bytes "$Rev:: #$").length ≤ 255
    ∧ apr_hash_get [(bytes "Rev", bytes "42")] (bytes "Rev") = some (bytes "42")
    ∧ translate_keyword (bytes "$Rev:: #$") true (some [(bytes "Rev", bytes "42")])
        = some (false, bytes "$Rev:: #$")
    ∧ translate_keyword (bytes "$Rev:: #$") false (some [(bytes "Rev", bytes "42")])
        = some (false, bytes "$Rev:: #$")
    ∧ translate_keyword (bytes "$Rev::  $") true (some [(bytes "Rev", bytes "42")])
        = some (false, bytes "$Rev::  $")
    ∧ translate_keyword (bytes "$Rev::  $") false (some [(bytes "Rev", bytes "42")])
        = some (false, bytes "$Rev::  $") := by
  refine ⟨⟨by decide, Or.inr (Or.inr (Or.inr ⟨[35], ⟨[], [35], rfl, by decide, Or.inl rfl⟩, ?_⟩))⟩,
    ⟨by decide, Or.inr (Or.inr (Or.inr ⟨[32], ⟨[], [32], rfl, by decide, Or.inr ?_⟩, ?_⟩))⟩,
    by decide, by decide, by decide, by decide, by decide, by decide⟩
  · decide
  · decide
  · decide

/-- Examples of claim C14: the fixed-width token `$Rev:: ab#$` of the grammar is
matched in both directions. -/
theorem C14_grammar_accepted_witness :
    TOKEN (bytes "Rev") (bytes "$Rev:: ab#$")
    ∧ (∃ out, translate_keyword (bytes "$Rev:: ab#$") true (some [(bytes "Rev", bytes "42")])
        = some (true, out))
    ∧ translate_keyword (bytes "$Rev:: ab#$") true (some [(bytes "Rev", bytes "42")])
        = some (true, bytes "$Rev:: 42 $")
    ∧ translate_keyword (bytes "$Rev:: ab#$") false (some [(bytes "Rev", bytes "42")])
        = some (true, bytes "$Rev::    $") :=
  ⟨⟨by decide, Or.inr (Or.inr (Or.inr ⟨bytes "ab#", ⟨bytes "ab", [35], by decide, by decide,
      Or.inl rfl⟩, by decide⟩))⟩,
    (C14_grammar_accepted [(bytes "Rev", bytes "42")] (bytes "Rev") (bytes "$Rev:: ab#$") true
      ⟨by decide, Or.inr (Or.inr (Or.inr ⟨bytes "ab#", ⟨bytes "ab", [35], by decide, by decide,
        Or.inl rfl⟩, by decide⟩))⟩ (by decide) (by decide)).1
      (fun t h => absurd (congrArg List.length h) (by simp [bytes])),
    by decide, by decide⟩

/-! ## The string wrapper without translation -/

/-- Claim C17.  No-op options conserve bytes: for every C string `src`,
`svn_subst_translate_cstring2` with `eol_str` and `keywords` both absent returns,
for either value of `repair` and `expand`, a string equal to `src` (its bytes up
to the first NUL, all of `src` when it holds no NUL).  The stream translator is
not run: with these options it would stop on its assertion. -/
theorem C17_noop_fast_path (chunk : Nat) (src : List Nat) (repair expand : Bool) :
    svn_subst_translate_cstring2 chunk src none repair none expand = Except.ok (c_str src)
    ∧ svn_subst_translate_stream3 chunk (c_str src) none repair none expand
        = Except.error stop.assertion
    ∧ (0 ∉ src → svn_subst_translate_cstring2 chunk src none repair none expand
        = Except.ok src) := by
  have h1 : svn_subst_translate_cstring2 chunk src none repair none expand
      = Except.ok (c_str src) := by
    unfold svn_subst_translate_cstring2
    simp
  refine ⟨h1, ?_, ?_⟩
  · unfold svn_subst_translate_stream3
    simp
  · intro h0
    rw [h1, c_str_of_not_mem src h0]

/-- An example of claim C17: a string with keywords and mixed line ends is
returned as it is. -/
theorem C17_noop_fast_path_witness :
    0 ∉ bytes "$Rev$ a\r\nb\n"
    ∧ svn_subst_translate_cstring2 16 (bytes "$Rev$ a\r\nb\n") none true none true
        = Except.ok (bytes "$Rev$ a\r\nb\n") :=
  ⟨by decide, (C17_noop_fast_path 16 (bytes "$Rev$ a\r\nb\n") true true).2.2 (by decide)⟩

/-! ## The value builder -/

/-- A format is a run of bytes that are neither NUL nor `%`, then nothing or a
rest that starts with NUL or `%`. -/
theorem plain_split (fmt : List Nat) :
    ∃ pre cur, fmt = pre ++ cur ∧ (∀ b ∈ pre, b ≠ 0 ∧ b ≠ 37)
      ∧ (cur = [] ∨ ∃ c tl, cur = c :: tl ∧ (c = 0 ∨ c = 37))
      ∧ fmt.takeWhile (fun b => decide (b ≠ 0) && decide (b ≠ 37)) = pre := by
  induction fmt with
  | nil => exact ⟨[], [], rfl, by simp, Or.inl rfl, rfl⟩
  | cons c rest ih =>
    by_cases hc : c ≠ 0 ∧ c ≠ 37
    · obtain ⟨pre, cur, h1, h2, h3, h4⟩ := ih
      refine ⟨c :: pre, cur, by rw [h1]; rfl, ?_, h3, ?_⟩
      · intro b hb
        rcases List.mem_cons.mp hb with h | h
        · rw [h]; exact hc
        · exact h2 b h
      · rw [List.takeWhile_cons_of_pos (by simpa using hc), h4]
    · refine ⟨[], c :: rest, rfl, by simp, Or.inr ⟨c, rest, rfl, by omega⟩, ?_⟩
      rw [List.takeWhile_cons_of_neg (by simpa using hc)]

/-- The C string of a list that starts with bytes other than NUL. -/
theorem c_str_append (pre cur : List Nat) (h : ∀ b ∈ pre, b ≠ 0) :
    c_str (pre ++ cur) = pre ++ c_str cur := by
  unfold c_str
  rw [List.takeWhile_append_of_pos (by simpa using h)]

/-- The C string holds no NUL. -/
theorem c_str_no_nul (s : List Nat) : 0 ∉ c_str s := by
  intro h
  have := List.mem_takeWhile_imp h
  simp at this

/-- A byte other than `%` is copied by `render`. -/
theorem render_cons (L : helpers) (rev url : Option (List Nat)) (date : Int)
    (author : Option (List Nat)) (c : Nat) (X : List Nat) (hc : c ≠ 37) :
    render L rev url date author (c :: X) = c :: render L rev url date author X := by
  cases X with
  | nil => simp [render]
  | cons d rest => simp [render, hc]

/-- A run of bytes other than `%` is copied by `render`. -/
theorem render_append (L : helpers) (rev url : Option (List Nat)) (date : Int)
    (author : Option (List Nat)) (pre X : List Nat) (h : ∀ b ∈ pre, b ≠ 37) :
    render L rev url date author (pre ++ X) = pre ++ render L rev url date author X := by
  induction pre with
  | nil => rfl
  | cons c rest ih =>
    rw [List.cons_append, render_cons _ _ _ _ _ _ _ (h c (List.mem_cons_self _ _)),
      ih (fun b hb => h b (List.mem_cons_of_mem _ hb))]
    rfl

/-- The loop of `keyword_printf` with enough fuel returns the buffer with the
rendered format added. -/
theorem keyword_printf_loop_eq (L : helpers) (rev url : Option (List Nat)) (date : Int)
    (author : Option (List Nat)) :
    ∀ (fuel : Nat) (fmt value : List Nat), fmt.length < fuel → fmt.length < 2147483648 →
      keyword_printf_loop L rev url date author fuel fmt value
        = some (value ++ render L rev url date author (c_str fmt)) := by
  intro fuel
  induction fuel with
  | zero => intro fmt value h _; omega
  | succ fuel ih =>
    intro fmt value hlen hmax
    obtain ⟨pre, cur, rfl, hpre, hcur, htw⟩ := plain_split fmt
    simp only [List.length_append] at hlen hmax
    have hn : ((pre.length : Int) + 2147483648) % 4294967296 - 2147483648 = (pre.length : Int) := by
      omega
    have hv : (if (pre.length : Int) > 0 then value ++ (pre ++ cur).take (pre.length : Int).toNat
        else value) = value ++ pre := by
      by_cases h : (pre.length : Int) > 0
      · rw [if_pos h, Int.toNat_ofNat, List.take_left]
      · have : pre = [] := List.eq_nil_of_length_eq_zero (by omega)
        subst this
        simp
    rw [c_str_append pre cur (fun b hb => (hpre b hb).1),
      render_append _ _ _ _ _ _ _ (fun b hb => (hpre b hb).2)]
    unfold keyword_printf_loop
    simp only [htw, hn, List.drop_left, hv]
    rcases hcur with rfl | ⟨c, tl, rfl, hc | hc⟩
    · simp [c_str, render]
    · subst hc
      simp [c_str, render]
    · subst hc
      cases tl with
      | nil =>
        have h1 := ih [] (value ++ pre ++ [37])
          (by simp only [List.length_cons, List.length_nil] at hlen ⊢; omega) (by simp)
        simp [c_str, render] at h1 ⊢
        exact h1
      | cons d tl2 =>
        simp only [List.length_cons] at hlen hmax
        by_cases hd : d = 0
        · subst hd
          have h1 := ih (0 :: tl2) (value ++ pre ++ [37]) (by simp; omega) (by simp; omega)
          simp [c_str, render] at h1 ⊢
          exact h1
        · have hcs : c_str (37 :: d :: tl2) = 37 :: d :: c_str tl2 := by
            simp [c_str, hd]
          have hr : render L rev url date author (37 :: d :: c_str tl2)
              = code_value L rev url date author d ++ render L rev url date author (c_str tl2) := by
            simp [render]
          rw [hcs, hr]
          have h1 := fun v => ih tl2 v (by omega) (by omega)
          simp only [List.getD_cons_zero, List.getD_cons_succ, List.drop_succ_cons, List.drop_zero,
            if_neg hd, h1]
          simp only [show (37 : Nat) ≠ 0 by decide, if_false, Option.some.injEq]
          unfold code_value
          split_ifs <;> cases author <;> cases url <;> cases rev <;> simp

/-- The function `keyword_printf` returns the rendered format, for every format
of less than `2^31` bytes (the run length `n` is an `int`) and all inputs. -/
theorem keyword_printf_eq (L : helpers) (fmt : List Nat) (rev url : Option (List Nat))
    (date : Int) (author : Option (List Nat)) (hfmt : fmt.length < 2147483648) :
    keyword_printf L fmt rev url date author
      = some (render L rev url date author (c_str fmt)) := by
  unfold keyword_printf
  rw [keyword_printf_loop_eq L rev url date author (fmt.length + 1) fmt [] (by omega) hfmt]
  simp

/-- With every input absent each of the six codes renders to nothing. -/
theorem code_value_absent (L : helpers) (d : Nat) :
    code_value L none none 0 none d
      = if d = 97 ∨ d = 98 ∨ d = 100 ∨ d = 68 ∨ d = 114 ∨ d = 117 then []
        else if d = 37 then [37] else [37, d] := by
  unfold code_value
  split_ifs <;> simp_all

/-- With every input absent the rendered format is the format without its
codes. -/
theorem render_absent (L : helpers) : ∀ (n : Nat) (X : List Nat), X.length ≤ n →
    render L none none 0 none X = strip_codes X := by
  intro n
  induction n with
  | zero =>
    intro X hX
    have : X = [] := List.eq_nil_of_length_eq_zero (by omega)
    subst this
    rfl
  | succ n ih =>
    intro X hX
    match X, hX with
    | [], _ => rfl
    | [c], _ => rfl
    | c :: d :: rest, hX =>
      simp only [List.length_cons] at hX
      by_cases hc : c = 37
      · subst hc
        have h1 := ih rest (by omega)
        simp only [render, strip_codes, if_true, code_value_absent, h1]
        split_ifs <;> simp
      · have h1 := ih (d :: rest) (by simp only [List.length_cons]; omega)
        simp only [render, strip_codes, if_neg hc, h1]

/-- Claim C20.  Tolerance of the value builder: for every format `fmt`,
`keyword_printf` with `rev` absent, `url` absent, `date` zero and `author`
absent returns `fmt` with every `%a`, `%b`, `%d`, `%D`, `%r`, `%u` removed and
`%%` reduced to `%`; the format of `Id`, `%b %r %d %a`, gives three spaces; and
each code alone gives the empty string when only its own input is missing,
whatever the other inputs are.  The format has less than `2^31` bytes: the
function counts a run of plain bytes in an `int`. -/
theorem C20_tolerance (L : helpers) (fmt : List Nat) (hfmt : fmt.length < 2147483648) :
    keyword_printf L fmt none none 0 none = some (strip_codes (c_str fmt))
    ∧ keyword_printf L (bytes "%b %r %d %a") none none 0 none = some (bytes "   ")
    ∧ (∀ rev url date, keyword_printf L (bytes "%a") rev url date none = some [])
    ∧ (∀ url date author, keyword_printf L (bytes "%r") none url date author = some [])
    ∧ (∀ rev date author, keyword_printf L (bytes "%u") rev none date author = some [])
    ∧ (∀ rev date author, keyword_printf L (bytes "%b") rev none date author = some [])
    ∧ (∀ rev url author, keyword_printf L (bytes "%d") rev url 0 author = some [])
    ∧ (∀ rev url author, keyword_printf L (bytes "%D") rev url 0 author = some []) := by
  have ea : bytes "%a" = [37, 97] := by decide
  have er : bytes "%r" = [37, 114] := by decide
  have eu : bytes "%u" = [37, 117] := by decide
  have eb : bytes "%b" = [37, 98] := by decide
  have ed : bytes "%d" = [37, 100] := by decide
  have eD : bytes "%D" = [37, 68] := by decide
  have eid : bytes "%b %r %d %a" = [37, 98, 32, 37, 114, 32, 37, 100, 32, 37, 97] := by decide
  have e3 : bytes "   " = [32, 32, 32] := by decide
  refine ⟨?_, ?_, ?_, ?_, ?_, ?_, ?_, ?_⟩
  · rw [keyword_printf_eq _ _ _ _ _ _ hfmt, render_absent L _ _ (le_refl _)]
  · rw [keyword_printf_eq _ _ _ _ _ _ (by decide), eid, e3]
    simp [c_str, render, code_value]
  · intro rev url date
    rw [keyword_printf_eq _ _ _ _ _ _ (by decide), ea]
    simp [c_str, render, code_value]
  · intro url date author
    rw [keyword_printf_eq _ _ _ _ _ _ (by decide), er]
    simp [c_str, render, code_value]
  · intro rev date author
    rw [keyword_printf_eq _ _ _ _ _ _ (by decide), eu]
    simp [c_str, render, code_value]
  · intro rev date author
    rw [keyword_printf_eq _ _ _ _ _ _ (by decide), eb]
    simp [c_str, render, code_value]
  · intro rev url author
    rw [keyword_printf_eq _ _ _ _ _ _ (by decide), ed]
    simp [c_str, render, code_value]
  · intro rev url author
    rw [keyword_printf_eq _ _ _ _ _ _ (by decide), eD]
    simp [c_str, render, code_value]

/-- An example of claim C20: a format with every code, an unknown code, `%%` and
a `%` at the end, rendered with all inputs absent. -/
theorem C20_tolerance_witness :
    (bytes "a%%b%xc%r%D%d.%u%b%a%").length < 2147483648
    ∧ keyword_printf example_helpers (bytes "a%%b%xc%r%D%d.%u%b%a%") none none 0 none
        = some (bytes "a%b%xc.%") :=
  ⟨by decide, ((C20_tolerance example_helpers (bytes "a%%b%xc%r%D%d.%u%b%a%") (by decide)).1).trans
    (by decide)⟩

/-! ## The keyword table builder -/

/-- A lookup after `apr_hash_set`. -/
theorem apr_hash_get_set (h : apr_hash_t) (k v key : List Nat) :
    apr_hash_get (apr_hash_set h k v) key = if key = k then some v else apr_hash_get h key := by
  unfold apr_hash_set
  by_cases hk : key = k
  · subst hk
    simp [apr_hash_get]
  · have hk2 : ¬ k = key := fun e => hk e.symm
    simp only [apr_hash_get, if_neg hk, if_neg hk2]
    induction h with
    | nil => rfl
    | cons e rest ih =>
      obtain ⟨k1, v1⟩ := e
      by_cases h1 : k1 = k
      · subst h1
        simpa [List.filter, apr_hash_get, hk2] using ih
      · by_cases h2 : k1 = key
        · subst h2
          simp [List.filter, apr_hash_get, h1]
        · simpa [List.filter, apr_hash_get, h1, h2] using ih

/-- The keys of a table are the names that a lookup finds. -/
theorem mem_keys_iff (h : apr_hash_t) (key : List Nat) :
    key ∈ h.map Prod.fst ↔ (apr_hash_get h key).isSome = true := by
  induction h with
  | nil => simp [apr_hash_get]
  | cons e rest ih =>
    obtain ⟨k1, v1⟩ := e
    by_cases h1 : k1 = key
    · subst h1
      simp [apr_hash_get]
    · have h2 : ¬ key = k1 := fun e => h1 e.symm
      simp [apr_hash_get, h1, h2, ih]

/-- A table in which no lookup finds anything is empty. -/
theorem table_empty (h : apr_hash_t) (hn : ∀ key, apr_hash_get h key = none) : h = [] := by
  cases h with
  | nil => rfl
  | cons e rest =>
    obtain ⟨k1, v1⟩ := e
    have := hn k1
    simp [apr_hash_get] at this

/-- A lookup after the calls of `apr_hash_set` for a logical keyword. -/
theorem apr_hash_get_install (kw : apr_hash_t) (k : logical_keyword) (v key : List Nat) :
    apr_hash_get (install kw k v) key
      = if key ∈ aliases k then some v else apr_hash_get kw key := by
  cases k <;> simp only [install, aliases, List.foldl, apr_hash_get_set, List.mem_cons,
    List.mem_singleton, List.not_mem_nil, or_false] <;> split_ifs <;> simp_all

/-- The alias sets of two different logical keywords have no name in common. -/
theorem aliases_disjoint (k k1 : logical_keyword) (hne : k ≠ k1) :
    ∀ a ∈ aliases k, a ∉ aliases k1 := by
  revert hne
  cases k <;> cases k1 <;> first | (intro h; exact absurd rfl h) | (intro _; decide)

/-- One pass through the loop body of `svn_subst_build_keywords2`: the value of
the matched logical keyword is stored under its aliases. -/
theorem build_keywords2_loop_cons (L : helpers) (rev url : Option (List Nat)) (date : Int)
    (author : Option (List Nat)) (keyword : List Nat) (rest : List (List Nat))
    (kw : apr_hash_t) :
    build_keywords2_loop L rev url date author (keyword :: rest) kw
      = match token_keyword keyword with
        | none => build_keywords2_loop L rev url date author rest kw
        | some k => build_keywords2_loop L rev url date author rest
            (install kw k (render L rev url date author (c_str (keyword_format k)))) := by
  have hf : ∀ fmt : List Nat, fmt.length < 2147483648 →
      keyword_printf L fmt rev url date author
        = some (render L rev url date author (c_str fmt)) :=
    fun fmt h => keyword_printf_eq L fmt rev url date author h
  conv_lhs => unfold build_keywords2_loop
  unfold token_keyword
  split_ifs <;> simp only [hf _ (by decide : (bytes "%r").length < 2147483648),
    hf _ (by decide : (bytes "%D").length < 2147483648),
    hf _ (by decide : (bytes "%a").length < 2147483648),
    hf _ (by decide : (bytes "%u").length < 2147483648),
    hf _ (by decide : (bytes "%b %r %d %a").length < 2147483648)] <;> rfl

/-- The loop of `svn_subst_build_keywords2` returns a table, and a lookup in it
is described by the logical keywords enabled before (`E`) and those that the
tokens match: the aliases of such a keyword have its rendered value, and no
other name is in the table. -/
theorem build_keywords2_loop_spec (L : helpers) (rev url : Option (List Nat)) (date : Int)
    (author : Option (List Nat)) :
    ∀ (toks : List (List Nat)) (kw : apr_hash_t) (E : logical_keyword → Bool),
      (∀ k, ∀ a ∈ aliases k, apr_hash_get kw a
        = if E k = true then some (render L rev url date author (c_str (keyword_format k)))
          else none) →
      (∀ key, (∀ k, key ∉ aliases k) → apr_hash_get kw key = none) →
      ∃ T, build_keywords2_loop L rev url date author toks kw = some T
        ∧ (∀ k, ∀ a ∈ aliases k, apr_hash_get T a
            = if (E k || toks.any (fun t => decide (token_keyword t = some k))) = true then
                some (render L rev url date author (c_str (keyword_format k)))
              else none)
        ∧ (∀ key, (∀ k, key ∉ aliases k) → apr_hash_get T key = none) := by
  intro toks
  induction toks with
  | nil =>
    intro kw E h1 h2
    refine ⟨kw, rfl, ?_, h2⟩
    intro k a ha
    rw [h1 k a ha]
    simp
  | cons t rest ih =>
    intro kw E h1 h2
    rw [build_keywords2_loop_cons]
    cases ht : token_keyword t with
    | none =>
      obtain ⟨T, hT, h3, h4⟩ := ih kw E h1 h2
      refine ⟨T, hT, ?_, h4⟩
      intro k a ha
      rw [h3 k a ha]
      simp [ht]
    | some k0 =>
      have h1n : ∀ k, ∀ a ∈ aliases k,
          apr_hash_get (install kw k0 (render L rev url date author (c_str (keyword_format k0)))) a
            = if (E k || decide (k0 = k)) = true then
                some (render L rev url date author (c_str (keyword_format k)))
              else none := by
        intro k a ha
        rw [apr_hash_get_install]
        by_cases hk : k0 = k
        · subst hk
          rw [if_pos ha]
          simp
        · have hna : a ∉ aliases k0 := aliases_disjoint k k0 (fun e => hk e.symm) a ha
          rw [if_neg hna, h1 k a ha]
          simp [hk]
      have h2n : ∀ key, (∀ k, key ∉ aliases k) →
          apr_hash_get (install kw k0 (render L rev url date author (c_str (keyword_format k0))))
            key = none := by
        intro key hkey
        rw [apr_hash_get_install, if_neg (hkey k0)]
        exact h2 key hkey
      obtain ⟨T, hT, h3, h4⟩ := ih _ (fun k => E k || decide (k0 = k)) h1n h2n
      refine ⟨T, hT, ?_, h4⟩
      intro k a ha
      rw [h3 k a ha]
      simp [ht, Bool.or_assoc]

/-- A keyword list of separators only has no token. -/
theorem split_loop_separators (seps : List Nat) :
    ∀ rest : List Nat, (∀ b ∈ rest, b ∈ seps) → split_loop seps rest [] = [] := by
  intro rest
  induction rest with
  | nil => intro _; rfl
  | cons c rest ih =>
    intro h
    unfold split_loop
    rw [if_pos (h c (List.mem_cons_self _ _))]
    simp only [if_true]
    exact ih (fun b hb => h b (List.mem_cons_of_mem _ hb))

/-- The table that `svn_subst_build_keywords2` returns: the aliases of a logical
keyword that a token of the list matches have the rendered value of the
keyword, and no other name is in the table. -/
theorem build_keywords2_spec (L : helpers) (keywords_val : List Nat)
    (rev url : Option (List Nat)) (date : Int) (author : Option (List Nat)) :
    ∃ T, svn_subst_build_keywords2 L keywords_val rev url date author = some T
      ∧ (∀ k, ∀ a ∈ aliases k, apr_hash_get T a
          = if ∃ tok ∈ svn_cstring_split keywords_val keyword_separators,
                token_keyword tok = some k then
              some (render L rev url date author (c_str (keyword_format k)))
            else none)
      ∧ (∀ key, (∀ k, key ∉ aliases k) → apr_hash_get T key = none) := by
  obtain ⟨T, hT, h3, h4⟩ := build_keywords2_loop_spec L rev url date author
    (svn_cstring_split keywords_val keyword_separators) [] (fun _ => false)
    (fun k a _ => by simp [apr_hash_get]) (fun key _ => rfl)
  refine ⟨T, hT, ?_, h4⟩
  intro k a ha
  rw [h3 k a ha]
  simp only [Bool.false_or, List.any_eq_true, decide_eq_true_eq]

/-! ## The aliases and their case -/

/-- A token that matches a logical keyword is, with the case of its letters
ignored, one of the aliases of the keyword. -/
theorem alias_match_lower (k : logical_keyword) (t : List Nat) (h : alias_match k t = true) :
    (c_str t).map tolower ∈ (aliases k).map (fun a => (c_str a).map tolower) := by
  cases k <;>
    simp only [alias_match, strcmp, strcasecmp, Bool.or_eq_true, Bool.not_eq_true',
      decide_eq_false_iff_not, ne_eq, not_not] at h <;>
    simp only [aliases, List.map_cons, List.map_nil, List.mem_cons, List.mem_singleton,
      List.not_mem_nil, or_false]
  · rcases h with (h | h) | h
    · exact Or.inl (by rw [h])
    · exact Or.inr (Or.inl (by rw [h]))
    · exact Or.inr (Or.inr h)
  · rcases h with h | h
    · exact Or.inl (by rw [h])
    · exact Or.inr h
  · rcases h with h | h
    · exact Or.inl (by rw [h])
    · exact Or.inr h
  · rcases h with h | h
    · exact Or.inl (by rw [h])
    · exact Or.inr h
  · exact h

/-- The aliases of two different logical keywords differ even with the case of
the letters ignored. -/
theorem aliases_lower_disjoint (k k1 : logical_keyword) (hne : k ≠ k1) :
    ∀ x ∈ (aliases k).map (fun a => (c_str a).map tolower),
      x ∉ (aliases k1).map (fun a => (c_str a).map tolower) := by
  revert hne
  cases k <;> cases k1 <;> first | (intro h; exact absurd rfl h) | (intro _; decide)

/-- A token matches at most one logical keyword. -/
theorem alias_match_exclusive (k k1 : logical_keyword) (t : List Nat)
    (h : alias_match k t = true) (h1 : alias_match k1 t = true) : k = k1 := by
  by_contra hne
  exact aliases_lower_disjoint k k1 hne _ (alias_match_lower k t h) (alias_match_lower k1 t h1)

/-- The chain of conditions of the loop body finds the logical keyword that the
token matches. -/
theorem token_keyword_iff (k : logical_keyword) (t : List Nat) :
    token_keyword t = some k ↔ alias_match k t = true := by
  have hfirst : ∀ k0, token_keyword t = some k0 → alias_match k0 t = true := by
    intro k0
    unfold token_keyword
    split_ifs with h1 h2 h3 h4 h5 <;> intro e <;> cases e <;> assumption
  constructor
  · exact hfirst k
  · intro h
    cases ht : token_keyword t with
    | some k0 => rw [alias_match_exclusive k k0 t h (hfirst k0 ht)]
    | none =>
      exfalso
      unfold token_keyword at ht
      split_ifs at ht with h1 h2 h3 h4 h5
      cases k
      · exact h1 h
      · exact h2 h
      · exact h3 h
      · exact h4 h
      · exact h5 h

/-- The tokens of a list without NUL hold no NUL. -/
theorem split_loop_no_nul (seps : List Nat) :
    ∀ (rest cur : List Nat), 0 ∉ rest → 0 ∉ cur →
      ∀ t ∈ split_loop seps rest cur, 0 ∉ t := by
  intro rest
  induction rest with
  | nil =>
    intro cur _ hcur t ht
    unfold split_loop at ht
    by_cases hc : cur = []
    · rw [if_pos hc] at ht; cases ht
    · rw [if_neg hc] at ht
      rw [List.mem_singleton.mp ht]
      exact hcur
  | cons c rest ih =>
    intro cur hrest hcur t ht
    have hr : 0 ∉ rest := fun e => hrest (List.mem_cons_of_mem _ e)
    have hc0 : c ≠ 0 := fun e => hrest (by rw [e]; exact List.mem_cons_self _ _)
    unfold split_loop at ht
    by_cases hs : c ∈ seps
    · rw [if_pos hs] at ht
      by_cases hc : cur = []
      · rw [if_pos hc] at ht
        exact ih [] hr (by simp) t ht
      · rw [if_neg hc] at ht
        rcases List.mem_cons.mp ht with h | h
        · rw [h]; exact hcur
        · exact ih [] hr (by simp) t h
    · rw [if_neg hs] at ht
      refine ih (cur ++ [c]) hr ?_ t ht
      intro hm
      rcases List.mem_append.mp hm with h | h
      · exact hcur h
      · exact hc0 (List.mem_singleton.mp h).symm

/-- A token of the keyword list is a C string without NUL. -/
theorem token_no_nul (keywords_val t : List Nat)
    (ht : t ∈ svn_cstring_split keywords_val keyword_separators) : 0 ∉ t :=
  split_loop_no_nul _ _ [] (c_str_no_nul keywords_val) (by simp) t ht

/-- Claim C18.  The key set of the keyword table: for every keyword list, the
table built by `svn_subst_build_keywords2` has as its keys exactly the aliases
of the logical keywords (revision, date, author, url, id) that at least one
token of the list matches; all the aliases of one logical keyword map to the
same value; a list whose tokens match nothing, an empty list and a list of
white space only give the empty table. -/
theorem C18_key_set (L : helpers) (keywords_val : List Nat) (rev url : Option (List Nat))
    (date : Int) (author : Option (List Nat)) :
    ∃ T, svn_subst_build_keywords2 L keywords_val rev url date author = some T
      ∧ (∀ key, key ∈ T.map Prod.fst ↔ ∃ k, key ∈ aliases k
          ∧ ∃ tok ∈ svn_cstring_split keywords_val keyword_separators, alias_match k tok = true)
      ∧ (∀ k, ∀ a1 ∈ aliases k, ∀ a2 ∈ aliases k, apr_hash_get T a1 = apr_hash_get T a2)
      ∧ ((∀ tok ∈ svn_cstring_split keywords_val keyword_separators,
            ∀ k, alias_match k tok = false) → T = [])
      ∧ ((∀ b ∈ c_str keywords_val, b ∈ keyword_separators) → T = []) := by
  obtain ⟨T, hT, h1, h2⟩ := build_keywords2_spec L keywords_val rev url date author
  simp only [token_keyword_iff] at h1
  have hnone : (∀ tok ∈ svn_cstring_split keywords_val keyword_separators,
      ∀ k, alias_match k tok = false) → T = [] := by
    intro hno
    apply table_empty
    intro key
    by_cases hkey : ∃ k, key ∈ aliases k
    · obtain ⟨k, hk⟩ := hkey
      rw [h1 k key hk, if_neg]
      rintro ⟨tok, htok, hm⟩
      rw [hno tok htok k] at hm
      cases hm
    · exact h2 key (fun k hk => hkey ⟨k, hk⟩)
  refine ⟨T, hT, ?_, ?_, hnone, ?_⟩
  · intro key
    rw [mem_keys_iff]
    constructor
    · intro hsome
      by_cases hkey : ∃ k, key ∈ aliases k
      · obtain ⟨k, hk⟩ := hkey
        refine ⟨k, hk, ?_⟩
        by_contra hno
        rw [h1 k key hk, if_neg hno] at hsome
        cases hsome
      · rw [h2 key (fun k hk => hkey ⟨k, hk⟩)] at hsome
        cases hsome
    · rintro ⟨k, hk, hex⟩
      rw [h1 k key hk, if_pos hex]
      rfl
  · intro k a1 ha1 a2 ha2
    rw [h1 k a1 ha1, h1 k a2 ha2]
  · intro hsep
    apply hnone
    intro tok htok k
    unfold svn_cstring_split at htok
    rw [split_loop_separators _ _ hsep] at htok
    cases htok

/-- An example of claim C18: the list `Id  Foo<TAB>date` gives the keys `Id`,
`Date` and `LastChangedDate`; the token `Foo` adds nothing. -/
theorem C18_key_set_witness :
    svn_subst_build_keywords2 example_helpers (bytes "Id  Foo\tdate") none none 0 none
        = some [(bytes "Date", []), (bytes "LastChangedDate", []), (bytes "Id", bytes "   ")]
    ∧ ∃ T, svn_subst_build_keywords2 example_helpers (bytes "Id  Foo\tdate") none none 0 none
          = some T
        ∧ bytes "Date" ∈ T.map Prod.fst ∧ bytes "LastChangedDate" ∈ T.map Prod.fst
        ∧ bytes "Id" ∈ T.map Prod.fst ∧ bytes "Foo" ∉ T.map Prod.fst := by
  refine ⟨by decide, ?_⟩
  obtain ⟨T, hT, hk, _⟩ := C18_key_set example_helpers (bytes "Id  Foo\tdate") none none 0 none
  refine ⟨T, hT, ?_, ?_, ?_, ?_⟩
  · exact (hk _).mpr ⟨logical_keyword.date, by decide, bytes "date", by decide, by decide⟩
  · exact (hk _).mpr ⟨logical_keyword.date, by decide, bytes "date", by decide, by decide⟩
  · exact (hk _).mpr ⟨logical_keyword.id, by decide, bytes "Id", by decide, by decide⟩
  · intro h
    obtain ⟨k, hk1, _⟩ := (hk _).mp h
    cases k <;> revert hk1 <;> decide

/-! ## Which tokens enable which keyword -/

/-- The condition of each branch of the loop body on a token without NUL, with
the alias constants spelled out: the long aliases are compared as they are,
the short ones with the case of the letters ignored. -/
theorem alias_match_explicit (t : List Nat) (h0 : 0 ∉ t) :
    (alias_match logical_keyword.revision t = true ↔
        t = bytes "LastChangedRevision" ∨ t = bytes "Revision"
          ∨ t.map tolower = (bytes "Rev").map tolower)
    ∧ (alias_match logical_keyword.date t = true ↔
        t = bytes "LastChangedDate" ∨ t.map tolower = (bytes "Date").map tolower)
    ∧ (alias_match logical_keyword.author t = true ↔
        t = bytes "LastChangedBy" ∨ t.map tolower = (bytes "Author").map tolower)
    ∧ (alias_match logical_keyword.url t = true ↔
        t = bytes "HeadURL" ∨ t.map tolower = (bytes "URL").map tolower)
    ∧ (alias_match logical_keyword.id t = true ↔ t.map tolower = (bytes "Id").map tolower) := by
  have e1 : c_str SVN_KEYWORD_REVISION_LONG = bytes "LastChangedRevision" := by decide
  have e2 : c_str SVN_KEYWORD_REVISION_MEDIUM = bytes "Revision" := by decide
  have e3 : c_str SVN_KEYWORD_REVISION_SHORT = bytes "Rev" := by decide
  have e4 : c_str SVN_KEYWORD_DATE_LONG = bytes "LastChangedDate" := by decide
  have e5 : c_str SVN_KEYWORD_DATE_SHORT = bytes "Date" := by decide
  have e6 : c_str SVN_KEYWORD_AUTHOR_LONG = bytes "LastChangedBy" := by decide
  have e7 : c_str SVN_KEYWORD_AUTHOR_SHORT = bytes "Author" := by decide
  have e8 : c_str SVN_KEYWORD_URL_LONG = bytes "HeadURL" := by decide
  have e9 : c_str SVN_KEYWORD_URL_SHORT = bytes "URL" := by decide
  have e10 : c_str SVN_KEYWORD_ID = bytes "Id" := by decide
  simp only [alias_match, strcmp, strcasecmp, c_str_of_not_mem t h0, e1, e2, e3, e4, e5, e6, e7,
    e8, e9, e10, Bool.or_eq_true, Bool.not_eq_true', decide_eq_false_iff_not, ne_eq, not_not,
    or_assoc]
  exact ⟨trivial, trivial, trivial, trivial, trivial⟩

/-- Claim C19, as the code has it.  The case of the aliases in the keyword list
(alias constants at their upstream values): a token of the list enables
revision iff it is `LastChangedRevision` or `Revision` exactly or `Rev` with the
case ignored; date iff it is `LastChangedDate` exactly or `Date` with the case
ignored; author iff it is `LastChangedBy` exactly or `Author` with the case
ignored; url iff it is `HeadURL` exactly or `URL` with the case ignored; id iff
it is `Id` with the case ignored.  The long aliases are case-sensitive, the
short ones are not.  A keyword is enabled when its aliases are keys of the table
built from the list, and that is so iff some token of the list is as said. -/
theorem C19_alias_matching (L : helpers) (keywords_val : List Nat)
    (rev url : Option (List Nat)) (date : Int) (author : Option (List Nat)) :
    ∃ T, svn_subst_build_keywords2 L keywords_val rev url date author = some T
      ∧ (∀ a ∈ aliases logical_keyword.revision, a ∈ T.map Prod.fst ↔
          ∃ t ∈ svn_cstring_split keywords_val keyword_separators,
            t = bytes "LastChangedRevision" ∨ t = bytes "Revision"
              ∨ t.map tolower = (bytes "Rev").map tolower)
      ∧ (∀ a ∈ aliases logical_keyword.date, a ∈ T.map Prod.fst ↔
          ∃ t ∈ svn_cstring_split keywords_val keyword_separators,
            t = bytes "LastChangedDate" ∨ t.map tolower = (bytes "Date").map tolower)
      ∧ (∀ a ∈ aliases logical_keyword.author, a ∈ T.map Prod.fst ↔
          ∃ t ∈ svn_cstring_split keywords_val keyword_separators,
            t = bytes "LastChangedBy" ∨ t.map tolower = (bytes "Author").map tolower)
      ∧ (∀ a ∈ aliases logical_keyword.url, a ∈ T.map Prod.fst ↔
          ∃ t ∈ svn_cstring_split keywords_val keyword_separators,
            t = bytes "HeadURL" ∨ t.map tolower = (bytes "URL").map tolower)
      ∧ (∀ a ∈ aliases logical_keyword.id, a ∈ T.map Prod.fst ↔
          ∃ t ∈ svn_cstring_split keywords_val keyword_separators,
            t.map tolower = (bytes "Id").map tolower)
      ∧ aliases logical_keyword.revision
          = [bytes "LastChangedRevision", bytes "Revision", bytes "Rev"]
      ∧ aliases logical_keyword.date = [bytes "LastChangedDate", bytes "Date"]
      ∧ aliases logical_keyword.author = [bytes "LastChangedBy", bytes "Author"]
      ∧ aliases logical_keyword.url = [bytes "HeadURL", bytes "URL"]
      ∧ aliases logical_keyword.id = [bytes "Id"] := by
  obtain ⟨T, hT, h1, _⟩ := build_keywords2_spec L keywords_val rev url date author
  have hkey : ∀ k, ∀ a ∈ aliases k, (a ∈ T.map Prod.fst ↔
      ∃ t ∈ svn_cstring_split keywords_val keyword_separators, alias_match k t = true) := by
    intro k a ha
    rw [mem_keys_iff, h1 k a ha]
    simp only [token_keyword_iff]
    by_cases hm : ∃ t ∈ svn_cstring_split keywords_val keyword_separators,
        alias_match k t = true
    · simp [hm]
    · simp [hm]
  have hx := fun t (ht : t ∈ svn_cstring_split keywords_val keyword_separators) =>
    alias_match_explicit t (token_no_nul keywords_val t ht)
  refine ⟨T, hT, ?_, ?_, ?_, ?_, ?_, rfl, rfl, rfl, rfl, rfl⟩
  · intro a ha
    rw [hkey _ a ha]
    exact ⟨fun ⟨t, ht, h⟩ => ⟨t, ht, (hx t ht).1.mp h⟩,
      fun ⟨t, ht, h⟩ => ⟨t, ht, (hx t ht).1.mpr h⟩⟩
  · intro a ha
    rw [hkey _ a ha]
    exact ⟨fun ⟨t, ht, h⟩ => ⟨t, ht, (hx t ht).2.1.mp h⟩,
      fun ⟨t, ht, h⟩ => ⟨t, ht, (hx t ht).2.1.mpr h⟩⟩
  · intro a ha
    rw [hkey _ a ha]
    exact ⟨fun ⟨t, ht, h⟩ => ⟨t, ht, (hx t ht).2.2.1.mp h⟩,
      fun ⟨t, ht, h⟩ => ⟨t, ht, (hx t ht).2.2.1.mpr h⟩⟩
  · intro a ha
    rw [hkey _ a ha]
    exact ⟨fun ⟨t, ht, h⟩ => ⟨t, ht, (hx t ht).2.2.2.1.mp h⟩,
      fun ⟨t, ht, h⟩ => ⟨t, ht, (hx t ht).2.2.2.1.mpr h⟩⟩
  · intro a ha
    rw [hkey _ a ha]
    exact ⟨fun ⟨t, ht, h⟩ => ⟨t, ht, (hx t ht).2.2.2.2.mp h⟩,
      fun ⟨t, ht, h⟩ => ⟨t, ht, (hx t ht).2.2.2.2.mpr h⟩⟩

/-- The counterexample to claim C19 as stated: the token `lastchangeddate` does
not enable date (the table stays empty) and the token `date` does; the token
`lastchangedby` does not enable author and the token `author` does. -/
theorem C19_counterexample :
    svn_subst_build_keywords2 example_helpers (bytes "lastchangeddate") none none 0 none = some []
    ∧ svn_subst_build_keywords2 example_helpers (bytes "date") none none 0 none
        = some [(bytes "Date", []), (bytes "LastChangedDate", [])]
    ∧ svn_subst_build_keywords2 example_helpers (bytes "lastchangedby") none none 0 none = some []
    ∧ svn_subst_build_keywords2 example_helpers (bytes "author") none none 0 none
        = some [(bytes "Author", []), (bytes "LastChangedBy", [])] := by
  decide

/-- An example of claim C19: the list `date` enables the date keyword, the list
`lastchangeddate` does not. -/
theorem C19_alias_matching_witness :
    (∃ T, svn_subst_build_keywords2 example_helpers (bytes "date") none none 0 none = some T
        ∧ bytes "LastChangedDate" ∈ T.map Prod.fst)
    ∧ (∃ T, svn_subst_build_keywords2 example_helpers (bytes "lastchangeddate") none none 0 none
          = some T
        ∧ bytes "LastChangedDate" ∉ T.map Prod.fst) := by
  constructor
  · obtain ⟨T, hT, _, hd, _⟩ := C19_alias_matching example_helpers (bytes "date") none none 0 none
    exact ⟨T, hT, (hd (bytes "LastChangedDate") (by decide)).mpr
      ⟨bytes "date", by decide, Or.inr (by decide)⟩⟩
  · obtain ⟨T, hT, _, hd, _⟩ := C19_alias_matching example_helpers (bytes "lastchangeddate")
      none none 0 none
    refine ⟨T, hT, fun h => ?_⟩
    obtain ⟨t, ht, hc⟩ := (hd (bytes "LastChangedDate") (by decide)).mp h
    have e : svn_cstring_split (bytes "lastchangeddate") keyword_separators
        = [bytes "lastchangeddate"] := by decide
    rw [e] at ht
    rw [List.mem_singleton.mp ht] at hc
    revert hc
    decide

/-! ## A keyword token does not extend across a line end -/

/-- The check from left to right is sound: a `$` after a `$` seen before has a
CR or LF before it. -/
theorem dollars_apart_from_sound : ∀ (S : List Nat) (seen : Bool),
    dollars_apart_from seen S = true →
      dollars_apart S
      ∧ (seen = true → ∀ m b : List Nat, S = m ++ 36 :: b → 36 ∉ m → 13 ∈ m ∨ 10 ∈ m) := by
  intro S
  induction S with
  | nil =>
    intro seen _
    constructor
    · intro a m b h
      simp at h
    · intro _ m b h
      simp at h
  | cons c rest ih =>
    intro seen h
    unfold dollars_apart_from at h
    by_cases hc : c = 36
    · subst hc
      simp only [if_true, Bool.and_eq_true, Bool.not_eq_true'] at h
      obtain ⟨hseen, hrest⟩ := h
      obtain ⟨ih1, ih2⟩ := ih true hrest
      constructor
      · intro a m b hS hm
        cases a with
        | nil =>
          simp only [List.nil_append, List.cons.injEq, true_and] at hS
          exact ih2 rfl m b hS hm
        | cons a0 a1 =>
          simp only [List.cons_append, List.cons.injEq] at hS
          exact ih1 a1 m b hS.2 hm
      · intro hs
        rw [hseen] at hs
        cases hs
    · rw [if_neg hc] at h
      have hstep : ∀ seen1, dollars_apart_from seen1 rest = true →
          (seen1 = true ∨ c = 13 ∨ c = 10) →
          dollars_apart (c :: rest)
          ∧ (seen = true → (seen1 = true ∨ c = 13 ∨ c = 10) →
              ∀ m b : List Nat, c :: rest = m ++ 36 :: b → 36 ∉ m → 13 ∈ m ∨ 10 ∈ m) := by
        intro seen1 hr _
        obtain ⟨ih1, ih2⟩ := ih seen1 hr
        constructor
        · intro a m b hS hm
          cases a with
          | nil =>
            simp only [List.nil_append, List.cons.injEq] at hS
            exact absurd hS.1 hc
          | cons a0 a1 =>
            simp only [List.cons_append, List.cons.injEq] at hS
            exact ih1 a1 m b hS.2 hm
        · intro _ hor m b hS hm
          cases m with
          | nil =>
            simp only [List.nil_append, List.cons.injEq] at hS
            exact absurd hS.1 hc
          | cons m0 m1 =>
            simp only [List.cons_append, List.cons.injEq] at hS
            obtain ⟨rfl, hS2⟩ := hS
            rcases hor with h1 | h1 | h1
            · have := ih2 h1 m1 b hS2 (fun e => hm (List.mem_cons_of_mem _ e))
              rcases this with t | t
              · exact Or.inl (List.mem_cons_of_mem _ t)
              · exact Or.inr (List.mem_cons_of_mem _ t)
            · exact Or.inl (by rw [h1]; exact List.mem_cons_self _ _)
            · exact Or.inr (by rw [h1]; exact List.mem_cons_self _ _)
      by_cases he : c = 13 ∨ c = 10
      · rw [if_pos he] at h
        obtain ⟨r1, r2⟩ := hstep false h (Or.inr he)
        exact ⟨r1, fun hs => r2 hs (Or.inr he)⟩
      · rw [if_neg he] at h
        cases seen with
        | false =>
          obtain ⟨ih1, _⟩ := ih false h
          constructor
          · intro a m b hS hm
            cases a with
            | nil =>
              simp only [List.nil_append, List.cons.injEq] at hS
              exact absurd hS.1 hc
            | cons a0 a1 =>
              simp only [List.cons_append, List.cons.injEq] at hS
              exact ih1 a1 m b hS.2 hm
          · intro hs; cases hs
        | true =>
          obtain ⟨r1, r2⟩ := hstep true h (Or.inl rfl)
          exact ⟨r1, fun hs => r2 hs (Or.inl rfl)⟩

/-- The input from a state of the translator, with a table and without
`eol_str`, when the `$` bytes of the keyword buffer and of the input are kept
apart by line ends: the rewriter is never called and every byte is written as it
is. -/
theorem run_finish_apart (r : Bool) (T : apr_hash_t) (x : Bool) :
    ∀ (S : List Nat) (st : xlate), st.newline_buf = [] →
      (st.keyword_buf = [] ∨ ∃ mid, st.keyword_buf = 36 :: mid ∧ clean mid ∧ mid.length ≤ 253) →
      dollars_apart (st.keyword_buf ++ S) →
      run_finish (opts.mk none r (some T) x) S st = Except.ok (st.dst ++ st.keyword_buf ++ S) := by
  intro S
  induction S with
  | nil =>
    intro st hnb hkb _
    obtain ⟨dst, nb, kb, sf⟩ := st
    simp only at hnb hkb
    subst hnb
    rw [run_finish_nil]
    rcases hkb with hkb | ⟨mid, hkb, _⟩
    · subst hkb
      simp [finish_idle]
    · subst hkb
      simp [finish_kw]
  | cons c S ih =>
    intro st hnb hkb hP
    obtain ⟨dst, nb, kb, sf⟩ := st
    simp only at hnb hkb hP
    subst hnb
    have hidle : ∀ d : List Nat, c ≠ 36 →
        idle_step (opts.mk none r (some T) x) (xlate.mk d [] [] sf) c
          = Except.ok (xlate.mk (d ++ [c]) [] [] sf) := by
      intro d hc
      rw [idle_step_boring]
      rw [interesting_kw_only]
      simpa using hc
    rcases hkb with hkb | ⟨mid, hkb, hcl, hl⟩
    · subst hkb
      simp only [List.nil_append] at hP
      by_cases hc : c = 36
      · subst hc
        have h1 : byte_step (opts.mk none r (some T) x) (xlate.mk dst [] [] sf) 36
            = Except.ok (xlate.mk dst [] [36] sf) := by
          rw [byte_step_idle _ _ _ rfl rfl,
            idle_step_dollar (opts.mk none r (some T) x) (xlate.mk dst [] [] sf) rfl]
          rfl
        rw [run_finish_cons _ _ _ _ _ h1,
          ih (xlate.mk dst [] [36] sf) rfl (Or.inr ⟨[], rfl, by simp [clean], by simp⟩) hP]
        simp
      · have h1 : byte_step (opts.mk none r (some T) x) (xlate.mk dst [] [] sf) c
            = Except.ok (xlate.mk (dst ++ [c]) [] [] sf) := by
          rw [byte_step_idle _ _ _ rfl rfl, hidle dst hc]
        have hP1 : dollars_apart ([] ++ S) := by
          intro a m b hS hm
          exact hP (c :: a) m b (by simp at hS; simp [hS]) hm
        rw [run_finish_cons _ _ _ _ _ h1, ih (xlate.mk (dst ++ [c]) [] [] sf) rfl (Or.inl rfl) hP1]
        simp
    · subst hkb
      by_cases hc : c = 36
      · subst hc
        exfalso
        have := hP [] mid S (by simp) (fun e => (hcl 36 e).1 rfl)
        rcases this with t | t
        · exact (hcl 13 t).2.1 rfl
        · exact (hcl 10 t).2.2 rfl
      · by_cases hf : mid.length = 253 ∨ c = 13 ∨ c = 10
        · have h1 : byte_step (opts.mk none r (some T) x) (xlate.mk dst [] (36 :: mid) sf) c
              = Except.ok (xlate.mk (dst ++ 36 :: mid ++ [c]) [] [] sf) := by
            rw [byte_step_kw_abandon _ _ _ _ _ hc hf, hidle _ hc]
          have hP1 : dollars_apart ([] ++ S) := by
            intro a m b hS hm
            exact hP (36 :: mid ++ c :: a) m b (by simp at hS; simp [hS]) hm
          rw [run_finish_cons _ _ _ _ _ h1,
            ih (xlate.mk (dst ++ 36 :: mid ++ [c]) [] [] sf) rfl (Or.inl rfl) hP1]
          simp
        · have hf1 : mid.length ≠ 253 := fun h => hf (Or.inl h)
          have hf2 : c ≠ 13 := fun h => hf (Or.inr (Or.inl h))
          have hf3 : c ≠ 10 := fun h => hf (Or.inr (Or.inr h))
          have h1 := byte_step_kw_more (opts.mk none r (some T) x) dst sf mid c hc hf1 hf2 hf3
          have hcl1 : clean (mid ++ [c]) :=
            clean_append _ _ hcl (by simp [clean]; exact ⟨hc, hf2, hf3⟩)
          have hP1 : dollars_apart (36 :: (mid ++ [c]) ++ S) := by
            have e : 36 :: (mid ++ [c]) ++ S = 36 :: mid ++ c :: S := by simp
            rw [e]; exact hP
          rw [run_finish_cons _ _ _ _ _ h1,
            ih (xlate.mk dst [] (36 :: (mid ++ [c])) sf) rfl
              (Or.inr ⟨mid ++ [c], rfl, hcl1, by simp; omega⟩) hP1]
          simp

/-- Claim C30.  A keyword token never extends across a line end, whether or not
the end-of-line translation is on: for every table, either direction and every
input `S` in which any two consecutive `$` bytes have a CR or LF between them,
the translation with a table and without `eol_str` returns exactly `S`.  For any
options, a CR or LF met while the keyword buffer is open is handled by writing
the buffer as it is and then taking the byte in the scanning state. -/
theorem C30_token_not_across_newline (chunk : Nat) (hchunk : 1 ≤ chunk) (S : List Nat)
    (T : apr_hash_t) (r x : Bool) (hS : dollars_apart S) :
    svn_subst_translate_stream3 chunk S none r (some T) x = Except.ok S
    ∧ ∀ (o : opts) (dst mid sf : List Nat) (c : Nat), c = 13 ∨ c = 10 →
        byte_step o (xlate.mk dst [] (36 :: mid) sf) c
          = idle_step o (xlate.mk (dst ++ 36 :: mid) [] [] sf) c := by
  constructor
  · rw [stream3_eq_bytes chunk hchunk]
    unfold translate_bytes
    simp only [Option.isSome_none, Option.isSome_some, or_true, not_true_eq_false, if_false]
    rw [run_finish_apart r T x S _ rfl (Or.inl rfl) (by simpa using hS)]
    simp
  · intro o dst mid sf c hc
    have h36 : c ≠ 36 := by
      rcases hc with h | h <;> rw [h] <;> decide
    exact byte_step_kw_abandon o dst sf mid c h36 (Or.inr hc)

/-- An example of claim C30: `$Rev` and `$` on two lines, with `Rev` in the
table, are not taken for a token. -/
theorem C30_token_not_across_newline_witness :
    dollars_apart (bytes "a $Rev\n$ b\n$Rev: 1\r $")
    ∧ svn_subst_translate_stream3 5 (bytes "a $Rev\n$ b\n$Rev: 1\r $") none false
        (some [(bytes "Rev", bytes "42")]) true = Except.ok (bytes "a $Rev\n$ b\n$Rev: 1\r $") :=
  ⟨(dollars_apart_from_sound _ false (by decide)).1,
    (C30_token_not_across_newline 5 (by decide) (bytes "a $Rev\n$ b\n$Rev: 1\r $")
      [(bytes "Rev", bytes "42")] false true
      (dollars_apart_from_sound _ false (by decide)).1).1⟩

/-! ## An expanded form without the space before the closing `$` -/

/-- The token `$n: w$` in which the last byte of `w` is not a space has none of
the forms that the rewriter takes: it returns false and leaves the token. -/
theorem unspaced_rejected (T : apr_hash_t) (n v w : List Nat) (z : Nat) (x : Bool)
    (hn : name_ok n) (hv : apr_hash_get T n = some v) (hz : z ≠ 32)
    (hlen : (36 :: n ++ [58, 32] ++ (w ++ [z]) ++ [36]).length ≤ 255) :
    translate_keyword (36 :: n ++ [58, 32] ++ (w ++ [z]) ++ [36]) x (some T)
      = some (false, 36 :: n ++ [58, 32] ++ (w ++ [z]) ++ [36]) := by
  have e : (36 :: n ++ [58, 32] ++ (w ++ [z]) ++ [36])
      = 36 :: (n ++ 58 :: (32 :: w ++ [z, 36])) := by simp
  rw [e] at hlen ⊢
  have hlast : (36 :: (n ++ 58 :: (32 :: w ++ [z, 36]))).getD
      ((36 :: (n ++ 58 :: (32 :: w ++ [z, 36]))).length - 1) 0 = 36 := by
    have := tok_last n (58 :: 32 :: w ++ [z])
    simpa using this
  have hlast2 : (36 :: (n ++ 58 :: (32 :: w ++ [z, 36]))).getD
      ((36 :: (n ++ 58 :: (32 :: w ++ [z, 36]))).length - 2) 0 = z := by
    have := tok_last2 n (58 :: 32 :: w) z
    simpa using this
  rw [translate_keyword_norm T n (32 :: w ++ [z, 36]) v 58 x (name_ok_colon n hn)
    (name_ok_nul n hn) (Or.inl rfl) hlast hlen hv]
  rw [subst_pre n (58 :: (32 :: w ++ [z, 36])) _ (by simp) hlen hlast, hlast2]
  simp [hz]

/-- A run over the first part of an input that returns a state is followed by
the run over the rest. -/
theorem run_finish_append (o : opts) (A B : List Nat) (st s : xlate)
    (h : run_bytes o A st = Except.ok s) :
    run_finish o (A ++ B) st = run_finish o B s := by
  unfold run_finish
  rw [run_bytes_append, h]

/-- A candidate token on which the rewriter returns false, between a text
without `$` and a text without `$`, with a table and without `eol_str`: every
byte is written as it is. -/
theorem kw_token_rejected (r : Bool) (T : apr_hash_t) (x : Bool) (pre mid post : List Nat)
    (hpre : 36 ∉ pre) (hpost : 36 ∉ post) (hc : clean mid) (hl : mid.length ≤ 253)
    (ht : translate_keyword (36 :: mid ++ [36]) x (some T) = some (false, 36 :: mid ++ [36])) :
    translate_bytes (pre ++ (36 :: mid ++ [36]) ++ post) none r (some T) x
      = Except.ok (pre ++ (36 :: mid ++ [36]) ++ post) := by
  unfold translate_bytes
  simp only [Option.isSome_none, Option.isSome_some, or_true, not_true_eq_false, if_false]
  have h1 := kw_text r T x pre [] [] hpre
  simp only [List.nil_append] at h1
  have h2 : byte_step (opts.mk none r (some T) x) (xlate.mk pre [] [] []) 36
      = Except.ok (xlate.mk pre [] [36] []) := by
    rw [byte_step_idle _ _ _ rfl rfl,
      idle_step_dollar (opts.mk none r (some T) x) (xlate.mk pre [] [] []) rfl]
    rfl
  have h3 := kw_mid (opts.mk none r (some T) x) pre [] mid [] hc (by simpa using hl)
  simp only [List.nil_append] at h3
  have h4 : byte_step (opts.mk none r (some T) x) (xlate.mk pre [] (36 :: mid) []) 36
      = Except.ok (xlate.mk (pre ++ 36 :: mid) [] [36] []) := by
    rw [byte_step_kw_close]
    simp only [ht]
    rw [idle_step_dollar (opts.mk none r (some T) x) _ rfl]
    have e : (36 :: mid ++ [36]).take ((36 :: mid ++ [36]).length - 1) = 36 :: mid := by
      have : (36 :: mid ++ [36]) = (36 :: mid) ++ [36] := by simp
      rw [this]
      exact take_append_exact _ _ _ (by simp)
    rw [e]
    rfl
  have hrun : run_bytes (opts.mk none r (some T) x) (pre ++ (36 :: mid ++ [36]))
      (xlate.mk [] [] [] []) = Except.ok (xlate.mk (pre ++ 36 :: mid) [] [36] []) := by
    have e : pre ++ (36 :: mid ++ [36]) = pre ++ ([36] ++ (mid ++ [36])) := by simp
    rw [e, run_bytes_append, h1]
    simp only []
    rw [run_bytes_append]
    simp only [run_bytes, h2]
    rw [run_bytes_append, h3]
    simp only [run_bytes, h4]
  rw [run_finish_append _ _ post _ _ hrun]
  have hP : dollars_apart ([36] ++ post) := by
    intro a m b hS hm
    exfalso
    cases a with
    | nil =>
      have h5 : post = m ++ 36 :: b := by simpa using hS
      exact hpost (by rw [h5]; simp)
    | cons a0 a1 =>
      have h5 : post = a1 ++ 36 :: (m ++ 36 :: b) := by
        have h6 := hS
        simp only [List.singleton_append, List.cons_append, List.cons.injEq] at h6
        exact h6.2
      exact hpost (by rw [h5]; simp)
  rw [run_finish_apart r T x post _ rfl (Or.inr ⟨[], rfl, by simp [clean], by simp⟩) hP]
  simp

/-- Claim C29.  An expanded form without the space before the closing `$` does
not match: for every name `n` that is a key of the table and every token
`$n: w$` of at most 255 bytes whose `w` is not empty and does not end with a
space (`w` is `w1` and a last byte `z`), the rewriter returns false in both
directions and leaves the token; and the stream translator writes the token as
it is, alone or between texts without `$`, when the token has no `$`, CR or LF
inside. -/
theorem C29_unspaced_expanded (chunk : Nat) (hchunk : 1 ≤ chunk) (T : apr_hash_t)
    (n w1 : List Nat) (z : Nat) (r x : Bool) (hn : name_ok n)
    (hk : (apr_hash_get T n).isSome = true) (hz : z ≠ 32)
    (hlen : (36 :: n ++ [58, 32] ++ (w1 ++ [z]) ++ [36]).length ≤ 255) :
    translate_keyword (36 :: n ++ [58, 32] ++ (w1 ++ [z]) ++ [36]) x (some T)
      = some (false, 36 :: n ++ [58, 32] ++ (w1 ++ [z]) ++ [36])
    ∧ (clean (w1 ++ [z]) → ∀ pre post : List Nat, 36 ∉ pre → 36 ∉ post →
        svn_subst_translate_stream3 chunk
            (pre ++ (36 :: n ++ [58, 32] ++ (w1 ++ [z]) ++ [36]) ++ post) none r (some T) x
          = Except.ok (pre ++ (36 :: n ++ [58, 32] ++ (w1 ++ [z]) ++ [36]) ++ post)) := by
  obtain ⟨v, hv⟩ := Option.isSome_iff_exists.mp hk
  have h1 := unspaced_rejected T n v w1 z x hn hv hz hlen
  refine ⟨h1, ?_⟩
  intro hw pre post hpre hpost
  rw [stream3_eq_bytes chunk hchunk]
  have e : (36 :: n ++ [58, 32] ++ (w1 ++ [z]) ++ [36])
      = 36 :: (n ++ [58, 32] ++ (w1 ++ [z])) ++ [36] := by simp
  rw [e] at h1 hlen ⊢
  have hmid : clean (n ++ [58, 32] ++ (w1 ++ [z])) :=
    clean_append _ _ (clean_append _ _ (name_ok_clean n hn) (by simp [clean])) hw
  have hl : (n ++ [58, 32] ++ (w1 ++ [z])).length ≤ 253 := by
    simp only [List.length_cons, List.length_append, List.length_singleton] at hlen ⊢
    omega
  exact kw_token_rejected r T x pre _ post hpre hpost hmid hl h1

/-- An example of claim C29: `$Rev: 42$`, with `Rev` in the table, is not
rewritten in either direction and is written as it is. -/
theorem C29_unspaced_expanded_witness :
    translate_keyword (bytes "$Rev: 42$") true (some [(bytes "Rev", bytes "7")])
        = some (false, bytes "$Rev: 42$")
    ∧ translate_keyword (bytes "$Rev: 42$") false (some [(bytes "Rev", bytes "7")])
        = some (false, bytes "$Rev: 42$")
    ∧ svn_subst_translate_stream3 4 (bytes "a $Rev: 42$ b") none false
        (some [(bytes "Rev", bytes "7")]) false = Except.ok (bytes "a $Rev: 42$ b") :=
  ⟨(C29_unspaced_expanded 4 (by decide) [(bytes "Rev", bytes "7")] (bytes "Rev") (bytes "4") 50
      false true (by decide) (by decide) (by decide) (by decide)).1,
    (C29_unspaced_expanded 4 (by decide) [(bytes "Rev", bytes "7")] (bytes "Rev") (bytes "4") 50
      false false (by decide) (by decide) (by decide) (by decide)).1,
    (C29_unspaced_expanded 4 (by decide) [(bytes "Rev", bytes "7")] (bytes "Rev") (bytes "4") 50
      false false (by decide) (by decide) (by decide) (by decide)).2 (by decide) (bytes "a ")
      (bytes " b") (by decide) (by decide)⟩

/-! ## A rewrite that fails, and the contraction of a fixed-width token -/

/-- When `translate_keyword_subst` returns false the buffer is as it was. -/
theorem translate_keyword_subst_false (buf keyword : List Nat) (value : Option (List Nat))
    (out : List Nat) (h : translate_keyword_subst buf keyword value = some (false, out)) :
    out = buf := by
  unfold translate_keyword_subst at h
  simp only [] at h
  repeat' (split at h)
  all_goals first
    | (cases h; rfl)
    | (simp at h)

/-- When `translate_keyword` returns false the buffer is as it was. -/
theorem translate_keyword_false (buf : List Nat) (x : Bool) (kw : Option apr_hash_t)
    (out : List Nat) (h : translate_keyword buf x kw = some (false, out)) : out = buf := by
  unfold translate_keyword at h
  simp only [] at h
  repeat' (split at h)
  all_goals first
    | (cases h; rfl)
    | (simp at h)
    | exact translate_keyword_subst_false _ _ _ _ h

/-- The result of `translate_keyword` with a table on a candidate token, by the
lookup of the C string of the extracted name. -/
theorem translate_keyword_lookup (buf : List Nat) (x : Bool) (T : apr_hash_t)
    (hlen : buf.length ≤ 255) (h2 : 2 ≤ buf.length) (h0 : buf.getD 0 0 = 36)
    (hl : buf.getD (buf.length - 1) 0 = 36) :
    translate_keyword buf x (some T)
      = match apr_hash_get T (c_str (keyword_name buf)) with
        | some value =>
          translate_keyword_subst buf (c_str (keyword_name buf)) (if x then some value else none)
        | none => some (false, buf) := by
  unfold translate_keyword
  simp only [SVN_KEYWORD_MAX_LEN]
  rw [if_neg (by omega), if_neg (not_not.mpr ⟨h0, hl⟩)]
  try simp only []
  rw [if_neg (by omega)]
  try rfl

/-- A token whose extracted name holds a NUL is not rewritten, whatever the
table: after the bytes before the NUL the token has a NUL, not a colon or `$`. -/
theorem translate_keyword_nul_name (buf : List Nat) (x : Bool) (T : apr_hash_t)
    (hlen : buf.length ≤ 255) (h2 : 2 ≤ buf.length) (h0 : buf.getD 0 0 = 36)
    (hl : buf.getD (buf.length - 1) 0 = 36) (hz : 0 ∈ keyword_name buf) :
    translate_keyword buf x (some T) = some (false, buf) := by
  rw [translate_keyword_lookup buf x T hlen h2 h0 hl]
  cases hget : apr_hash_get T (c_str (keyword_name buf)) with
  | none => rfl
  | some v =>
    simp only []
    obtain ⟨rest, hbuf⟩ : ∃ rest, buf = 36 :: rest := by
      cases buf with
      | nil => simp at h2
      | cons b rest => exact ⟨rest, by simp at h0; rw [h0]⟩
    have hpre : keyword_name buf <+: rest := by
      unfold keyword_name
      rw [hbuf]
      exact (List.takeWhile_prefix _).trans (List.take_prefix _ _)
    obtain ⟨rest2, hrest⟩ := hpre
    have hsplit := List.takeWhile_append_dropWhile (fun b => decide (b ≠ 0)) (keyword_name buf)
    have hk : c_str (keyword_name buf)
        = List.takeWhile (fun b => decide (b ≠ 0)) (keyword_name buf) := rfl
    obtain ⟨name2, hdrop⟩ : ∃ name2,
        List.dropWhile (fun b => decide (b ≠ 0)) (keyword_name buf) = 0 :: name2 := by
      cases hd : List.dropWhile (fun b => decide (b ≠ 0)) (keyword_name buf) with
      | nil =>
        exfalso
        rw [hd, List.append_nil] at hsplit
        have := List.mem_takeWhile_imp (hsplit ▸ hz)
        simp at this
      | cons d name2 =>
        have hh := List.head_dropWhile_not (fun b => decide (b ≠ 0)) (keyword_name buf)
          (by rw [hd]; simp)
        simp only [hd, List.head_cons] at hh
        have : d = 0 := by simpa using hh
        exact ⟨name2, by rw [this]⟩
    generalize hkk : c_str (keyword_name buf) = k at hget ⊢
    rw [← hk, hkk, hdrop] at hsplit
    have hb2 : buf = 36 :: (k ++ 0 :: (name2 ++ rest2)) := by
      rw [hbuf, ← hrest, ← hsplit]
      simp
    rw [hb2] at hlen hl ⊢
    rw [subst_pre k (0 :: (name2 ++ rest2)) _ (by simp) hlen hl]
    simp

/-- A token whose extracted name is not a key of the table is not rewritten. -/
theorem translate_keyword_unknown (buf : List Nat) (x : Bool) (T : apr_hash_t)
    (hlen : buf.length ≤ 255) (h2 : 2 ≤ buf.length) (h0 : buf.getD 0 0 = 36)
    (hl : buf.getD (buf.length - 1) 0 = 36)
    (hnone : apr_hash_get T (keyword_name buf) = none) :
    translate_keyword buf x (some T) = some (false, buf) := by
  by_cases hz : 0 ∈ keyword_name buf
  · exact translate_keyword_nul_name buf x T hlen h2 h0 hl hz
  · rw [translate_keyword_lookup buf x T hlen h2 h0 hl, c_str_of_not_mem _ hz, hnone]

/-- Claim C27.  A rewrite that fails leaves the token untouched: for every
buffer that holds a candidate token (the first and the last byte are `$`, 2 to
255 bytes), every table and direction, `translate_keyword` returns, and
whenever it returns false the buffer and its length are what they were; it
returns false when the table is absent and when the extracted name (the bytes
after the first `$` up to the first colon or to the closing `$`) is not a key of
the table. -/
theorem C27_failed_rewrite (buf : List Nat) (x : Bool) (kw : Option apr_hash_t)
    (hlen : buf.length ≤ 255) (h2 : 2 ≤ buf.length) (h0 : buf.getD 0 0 = 36)
    (hl : buf.getD (buf.length - 1) 0 = 36) :
    (∃ b out, translate_keyword buf x kw = some (b, out))
    ∧ (∀ out, translate_keyword buf x kw = some (false, out) → out = buf)
    ∧ (kw = none → translate_keyword buf x kw = some (false, buf))
    ∧ (∀ T, kw = some T → apr_hash_get T (keyword_name buf) = none →
        translate_keyword buf x kw = some (false, buf)) := by
  refine ⟨translate_keyword_isSome buf x kw hlen h2 h0 hl,
    fun out h => translate_keyword_false buf x kw out h, ?_, ?_⟩
  · intro hk
    subst hk
    unfold translate_keyword
    simp only [SVN_KEYWORD_MAX_LEN]
    rw [if_neg (by omega), if_neg (not_not.mpr ⟨h0, hl⟩)]
  · intro T hk hnone
    subst hk
    exact translate_keyword_unknown buf x T hlen h2 h0 hl hnone

/-- Examples of claim C27: `$Foo: 1 $` with a table without `Foo`, and any token
without a table, are returned as they are with the result false. -/
theorem C27_failed_rewrite_witness :
    translate_keyword (bytes "$Foo: 1 $") false (some [(bytes "Rev", bytes "42")])
        = some (false, bytes "$Foo: 1 $")
    ∧ translate_keyword (bytes "$Rev$") true none = some (false, bytes "$Rev$")
    ∧ keyword_name (bytes "$Foo: 1 $") = bytes "Foo" :=
  ⟨(C27_failed_rewrite (bytes "$Foo: 1 $") false (some [(bytes "Rev", bytes "42")]) (by decide)
      (by decide) (by decide) (by decide)).2.2.2 _ rfl (by decide),
    (C27_failed_rewrite (bytes "$Rev$") true none (by decide) (by decide) (by decide)
      (by decide)).2.2.1 rfl,
    by decide⟩

/-- Claim C28.  The contraction of a fixed-width token blanks its value region:
for every fixed-width token `$n:: body t$` of length `L ≤ 255` (`t` a space or
`#`, `body` not empty and without `$`: expanded, padded or cut with `#`) whose
name `n` is a key of the table, `translate_keyword` with `expand` false returns
true and the buffer holds `$n::`, then `L - |n| - 4` spaces, then `$`; its length
is still `L`. -/
theorem C28_contract_fixed (kw : apr_hash_t) (n v body : List Nat) (t : Nat)
    (hn58 : 58 ∉ n) (hn0 : 0 ∉ n) (hv : apr_hash_get kw n = some v)
    (ht : t = 32 ∨ t = 35) (hb : body ≠ []) (hb36 : 36 ∉ body)
    (hlen : (tok_fixed n body t).length ≤ 255) :
    translate_keyword (tok_fixed n body t) false (some kw) = some (true,
      36 :: n ++ [58, 58] ++ List.replicate ((tok_fixed n body t).length - n.length - 4) 32
        ++ [36])
    ∧ (36 :: n ++ [58, 58] ++ List.replicate ((tok_fixed n body t).length - n.length - 4) 32
        ++ [36]).length = (tok_fixed n body t).length := by
  have hL := tok_fixed_length n body t
  have hm : (tok_fixed n body t).length - n.length - 4 = body.length + 2 := by
    rw [hL]; omega
  constructor
  · rw [fixed_rewrite kw n v body t false hn58 hn0 hv ht hb hlen, hm]
    have hf := fill_spaces_tail body t 0 hb36 ht (Nat.zero_le _)
    simp only [List.drop_zero, Nat.sub_zero] at hf
    simp only [Bool.false_eq_true, if_false, hf]
    have e : List.replicate (body.length + 2) 32
        = 32 :: (List.replicate body.length 32 ++ [32]) := by
      rw [List.replicate_succ, List.replicate_succ']
    rw [e]
    simp
  · rw [hm, hL]
    simp only [List.length_cons, List.length_append, List.length_replicate,
      List.length_singleton, List.length_nil]
    omega

/-- An example of claim C28: the 21-byte token `$Author:: a-very-lo#$` is
contracted to `$Author::`, 11 spaces and `$`. -/
theorem C28_contract_fixed_witness :
    translate_keyword (bytes "$Author:: a-very-lo#$") false
        (some [(bytes "Author", bytes "alice")]) = some (true, bytes "$Author::           $")
    ∧ (bytes "$Author::           $").length = (bytes "$Author:: a-very-lo#$").length :=
  C28_contract_fixed [(bytes "Author", bytes "alice")] (bytes "Author") (bytes "alice")
    (bytes "a-very-lo") 35 (by decide) (by decide) (by decide) (Or.inr rfl) (by decide)
    (by decide) (by decide)

/-! ## Keyword equality on the record -/

/-- What `svn_subst_keywords_differ` compares: it returns false exactly when the
four fields revision, date, author and url are present in the same records (a
missing record has none) and, with `compare_values`, hold the same C strings.
The field `id` is not looked at. -/
theorem keywords_differ_four (a b : Option svn_subst_keywords_t) (cv : Bool) :
    svn_subst_keywords_differ a b cv = false ↔
      ((a.getD no_keywords).revision.isSome = (b.getD no_keywords).revision.isSome
        ∧ (a.getD no_keywords).date.isSome = (b.getD no_keywords).date.isSome
        ∧ (a.getD no_keywords).author.isSome = (b.getD no_keywords).author.isSome
        ∧ (a.getD no_keywords).url.isSome = (b.getD no_keywords).url.isSome)
      ∧ (cv = true →
          (a.getD no_keywords).revision.map c_str = (b.getD no_keywords).revision.map c_str
          ∧ (a.getD no_keywords).date.map c_str = (b.getD no_keywords).date.map c_str
          ∧ (a.getD no_keywords).author.map c_str = (b.getD no_keywords).author.map c_str
          ∧ (a.getD no_keywords).url.map c_str = (b.getD no_keywords).url.map c_str) := by
  cases a with
  | none =>
    cases b with
    | none => simp [svn_subst_keywords_differ, no_keywords]
    | some b =>
      obtain ⟨r2, d2, a2, u2, i2⟩ := b
      cases r2 <;> cases d2 <;> cases a2 <;> cases u2 <;>
        simp [svn_subst_keywords_differ, no_keywords]
  | some a =>
    obtain ⟨r1, d1, a1, u1, i1⟩ := a
    cases b with
    | none =>
      cases r1 <;> cases d1 <;> cases a1 <;> cases u1 <;>
        simp [svn_subst_keywords_differ, no_keywords]
    | some b =>
      obtain ⟨r2, d2, a2, u2, i2⟩ := b
      cases cv <;> cases r1 <;> cases r2 <;> cases d1 <;> cases d2 <;> cases a1 <;> cases a2 <;>
        cases u1 <;> cases u2 <;>
        simp [svn_subst_keywords_differ, field_values_differ, strcmp]

/-- The evaluation for claim C21: `svn_subst_keywords_differ` does not look at the
field `id`.  A record with only `id` present and a record with no field, or no
record at all, are reported equal, and so are two records whose `id` values
differ; `svn_subst_keywords_differ2` on the hashes made from the same records
reports the difference. -/
theorem C21_id_ignored :
    svn_subst_keywords_differ
        (some (svn_subst_keywords_t.mk none none none none (some (bytes "x"))))
        (some no_keywords) true = false
    ∧ svn_subst_keywords_differ
        (some (svn_subst_keywords_t.mk none none none none (some (bytes "x")))) none true = false
    ∧ svn_subst_keywords_differ
        (some (svn_subst_keywords_t.mk (some (bytes "1")) none none none (some (bytes "x"))))
        (some (svn_subst_keywords_t.mk (some (bytes "1")) none none none (some (bytes "y"))))
        true = false
    ∧ svn_subst_keywords_differ2
        (kwstruct_to_kwhash
          (some (svn_subst_keywords_t.mk none none none none (some (bytes "x")))))
        (kwstruct_to_kwhash (some no_keywords)) true = true
    ∧ svn_subst_keywords_differ2
        (kwstruct_to_kwhash
          (some (svn_subst_keywords_t.mk (some (bytes "1")) none none none (some (bytes "x")))))
        (kwstruct_to_kwhash
          (some (svn_subst_keywords_t.mk (some (bytes "1")) none none none (some (bytes "y")))))
        true = true := by
  decide

/-! ## Keyword equality on the hash -/

/-- The loop of `svn_subst_keywords_differ2` returns false exactly when every
entry of `a` has its key in `b`, with the same value when values are compared. -/
theorem keywords_differ2_loop_false (b : apr_hash_t) (cv : Bool) :
    ∀ A : List (List Nat × List Nat), keywords_differ2_loop b cv A = false ↔
      ∀ e ∈ A, ∃ bv, apr_hash_get b e.1 = some bv ∧ (cv = true → e.2 = bv) := by
  intro A
  induction A with
  | nil => simp [keywords_differ2_loop]
  | cons e rest ih =>
    obtain ⟨k, v⟩ := e
    unfold keywords_differ2_loop
    cases hg : apr_hash_get b k with
    | none =>
      simp only [Bool.true_eq_false, false_iff]
      intro h
      obtain ⟨bv, h1, _⟩ := h (k, v) (List.mem_cons_self _ _)
      rw [hg] at h1
      cases h1
    | some bv =>
      simp only []
      by_cases hc : (cv && ! svn_string_compare v bv) = true
      · rw [if_pos hc]
        simp only [Bool.true_eq_false, false_iff]
        intro h
        obtain ⟨bv1, h1, h2⟩ := h (k, v) (List.mem_cons_self _ _)
        rw [hg] at h1
        cases h1
        simp only [Bool.and_eq_true, Bool.not_eq_true', svn_string_compare,
          decide_eq_false_iff_not] at hc
        exact hc.2 (h2 hc.1)
      · rw [if_neg hc, ih]
        constructor
        · intro h e he
          rcases List.mem_cons.mp he with h1 | h1
          · subst h1
            refine ⟨bv, hg, fun hcv => ?_⟩
            by_contra hne
            exact hc (by simp [svn_string_compare, hcv, hne])
          · exact h e h1
        · intro h e he
          exact h e (List.mem_cons_of_mem _ he)

/-- In a table without a repeated key a lookup finds the value of each entry. -/
theorem apr_hash_get_of_mem : ∀ (A : apr_hash_t), (A.map Prod.fst).Nodup →
    ∀ k v, (k, v) ∈ A → apr_hash_get A k = some v := by
  intro A
  induction A with
  | nil => intro _ k v h; cases h
  | cons e rest ih =>
    intro hnd k v h
    obtain ⟨k1, v1⟩ := e
    simp only [List.map_cons, List.nodup_cons] at hnd
    rcases List.mem_cons.mp h with h1 | h1
    · cases h1
      simp [apr_hash_get]
    · have hne : k1 ≠ k := by
        intro e
        subst e
        exact hnd.1 (List.mem_map_of_mem Prod.fst h1)
      simp only [apr_hash_get, if_neg hne]
      exact ih hnd.2 k v h1

/-- The function `svn_subst_keywords_differ2` by the entries of the two tables, a
missing table being empty. -/
theorem keywords_differ2_eq (a b : Option apr_hash_t) (cv : Bool) :
    svn_subst_keywords_differ2 a b cv
      = if (a.getD []).length ≠ (b.getD []).length then true
        else keywords_differ2_loop (b.getD []) cv (a.getD []) := by
  cases a with
  | none =>
    cases b with
    | none => simp [svn_subst_keywords_differ2, keywords_differ2_loop]
    | some hb =>
      by_cases h : hb.length = 0
      · simp [svn_subst_keywords_differ2, keywords_differ2_loop, apr_hash_count, h]
      · have h1 : ¬ 0 = hb.length := fun e => h e.symm
        simp [svn_subst_keywords_differ2, apr_hash_count, h1]
  | some ha =>
    cases b with
    | none =>
      by_cases h : ha.length = 0
      · have : ha = [] := List.eq_nil_of_length_eq_zero h
        subst this
        simp [svn_subst_keywords_differ2, keywords_differ2_loop, apr_hash_count]
      · simp [svn_subst_keywords_differ2, apr_hash_count, h]
    | some hb =>
      unfold svn_subst_keywords_differ2
      simp only [apr_hash_count, Option.getD_some]
      by_cases h : ha.length ≠ hb.length
      · rw [if_pos h, if_pos h]
      · rw [if_neg h, if_neg h]
        by_cases h0 : ha.length = 0
        · have : ha = [] := List.eq_nil_of_length_eq_zero h0
          subst this
          simp [keywords_differ2_loop]
        · rw [if_neg h0]

/-- Two lists without repetition and with the same members have the same
length. -/
theorem nodup_same_length (l1 l2 : List (List Nat)) (h1 : l1.Nodup) (h2 : l2.Nodup)
    (h : ∀ k, k ∈ l1 ↔ k ∈ l2) : l1.length = l2.length := by
  have a := (List.subperm_of_subset h1 (fun k hk => (h k).mp hk)).length_le
  have b := (List.subperm_of_subset h2 (fun k hk => (h k).mpr hk)).length_le
  omega

/-- A list without repetition inside a list of the same length has all its
members. -/
theorem nodup_subset_same_length (l1 l2 : List (List Nat)) (h1 : l1.Nodup)
    (hsub : ∀ k, k ∈ l1 → k ∈ l2) (hlen : l1.length = l2.length) : ∀ k, k ∈ l2 → k ∈ l1 := by
  have hp := (List.subperm_of_subset h1 hsub).perm_of_length_le (by omega)
  intro k hk
  exact hp.mem_iff.mpr hk

/-- Claim C22.  Keyword equality on the hash: `svn_subst_keywords_differ2`
takes a missing table for the empty table and returns false if and only if `a`
and `b` have the same set of keys and, when `compare_values` is set, the same
value (length and bytes) under each key; in every other case it returns true.
Looking up only the keys of `a` in `b` is enough because the counts are compared
first.  The keys of a hash are distinct. -/
theorem C22_keywords_differ2 (a b : Option apr_hash_t) (cv : Bool)
    (ha : ((a.getD []).map Prod.fst).Nodup) (hb : ((b.getD []).map Prod.fst).Nodup) :
    (svn_subst_keywords_differ2 a b cv = false ↔
      (∀ key, key ∈ (a.getD []).map Prod.fst ↔ key ∈ (b.getD []).map Prod.fst)
      ∧ (cv = true → ∀ key, apr_hash_get (a.getD []) key = apr_hash_get (b.getD []) key))
    ∧ (svn_subst_keywords_differ2 a b cv = true ↔
      ¬ ((∀ key, key ∈ (a.getD []).map Prod.fst ↔ key ∈ (b.getD []).map Prod.fst)
        ∧ (cv = true → ∀ key, apr_hash_get (a.getD []) key = apr_hash_get (b.getD []) key))) := by
  have main : svn_subst_keywords_differ2 a b cv = false ↔
      (∀ key, key ∈ (a.getD []).map Prod.fst ↔ key ∈ (b.getD []).map Prod.fst)
      ∧ (cv = true → ∀ key, apr_hash_get (a.getD []) key = apr_hash_get (b.getD []) key) := by
    rw [keywords_differ2_eq]
    generalize a.getD [] = A at ha ⊢
    generalize b.getD [] = B at hb ⊢
    constructor
    · intro h
      by_cases hl : A.length ≠ B.length
      · rw [if_pos hl] at h
        cases h
      · rw [if_neg hl] at h
        have hl2 : A.length = B.length := not_not.mp hl
        rw [keywords_differ2_loop_false] at h
        have hsub : ∀ k, k ∈ A.map Prod.fst → k ∈ B.map Prod.fst := by
          intro k hk
          obtain ⟨e, he, rfl⟩ := List.mem_map.mp hk
          obtain ⟨bv, h1, _⟩ := h e he
          rw [mem_keys_iff, h1]
          rfl
        have hsup := nodup_subset_same_length _ _ ha hsub (by simpa using hl2)
        refine ⟨fun k => ⟨hsub k, hsup k⟩, ?_⟩
        intro hcv key
        by_cases hk : key ∈ A.map Prod.fst
        · obtain ⟨e, he, rfl⟩ := List.mem_map.mp hk
          obtain ⟨bv, h1, h2⟩ := h e he
          rw [apr_hash_get_of_mem A ha e.1 e.2 he, h1, h2 hcv]
        · have hk2 : key ∉ B.map Prod.fst := fun e => hk (hsup key e)
          rw [mem_keys_iff] at hk hk2
          cases h1 : apr_hash_get A key with
          | some v => rw [h1] at hk; exact absurd rfl hk
          | none =>
            cases h2 : apr_hash_get B key with
            | some v => rw [h2] at hk2; exact absurd rfl hk2
            | none => rfl
    · rintro ⟨hkeys, hvals⟩
      have hl : A.length = B.length := by
        have := nodup_same_length _ _ ha hb hkeys
        simpa using this
      rw [if_neg (not_not.mpr hl), keywords_differ2_loop_false]
      intro e he
      have hk : e.1 ∈ B.map Prod.fst := (hkeys e.1).mp (List.mem_map_of_mem Prod.fst he)
      rw [mem_keys_iff] at hk
      obtain ⟨bv, hbv⟩ := Option.isSome_iff_exists.mp hk
      refine ⟨bv, hbv, fun hcv => ?_⟩
      have := hvals hcv e.1
      rw [apr_hash_get_of_mem A ha e.1 e.2 he, hbv] at this
      exact Option.some.inj this
  refine ⟨main, ?_⟩
  rw [← main]
  cases svn_subst_keywords_differ2 a b cv <;> simp

/-- Examples of claim C22: two tables with the same entries in another order are
equal, so they have the same keys; with one value changed they differ when
values are compared and are equal when they are not; an empty table equals a
missing one. -/
theorem C22_keywords_differ2_witness :
    svn_subst_keywords_differ2 (some [(bytes "Rev", bytes "1"), (bytes "Id", bytes "2")])
        (some [(bytes "Id", bytes "2"), (bytes "Rev", bytes "1")]) true = false
    ∧ (∀ key, key ∈ [bytes "Rev", bytes "Id"] ↔ key ∈ [bytes "Id", bytes "Rev"])
    ∧ svn_subst_keywords_differ2 (some [(bytes "Rev", bytes "1"), (bytes "Id", bytes "2")])
        (some [(bytes "Id", bytes "3"), (bytes "Rev", bytes "1")]) true = true
    ∧ svn_subst_keywords_differ2 (some [(bytes "Rev", bytes "1"), (bytes "Id", bytes "2")])
        (some [(bytes "Id", bytes "3"), (bytes "Rev", bytes "1")]) false = false
    ∧ svn_subst_keywords_differ2 (some []) none true = false :=
  ⟨by decide,
    ((C22_keywords_differ2 (some [(bytes "Rev", bytes "1"), (bytes "Id", bytes "2")])
      (some [(bytes "Id", bytes "2"), (bytes "Rev", bytes "1")]) true (by decide)
      (by decide)).1.mp (by decide)).1,
    by decide, by decide, by decide⟩

/-! ## Canonical strings -/

/-- Every byte of the reference replacement is a byte of `E` or of the input. -/
theorem normalize_eol_mem (E : List Nat) : ∀ (n : Nat) (S : List Nat), S.length ≤ n →
    ∀ b ∈ normalize_eol E S, b ∈ E ∨ b ∈ S := by
  intro n
  induction n with
  | zero =>
    intro S hS b hb
    have : S = [] := List.eq_nil_of_length_eq_zero (by omega)
    subst this
    simp [normalize_eol] at hb
  | succ n ih =>
    intro S hS b hb
    match S, hS, hb with
    | [], _, hb => simp [normalize_eol] at hb
    | [c], _, hb =>
      simp only [normalize_eol] at hb
      split_ifs at hb
      · exact Or.inl hb
      · exact Or.inr hb
    | c :: d :: rest, hS, hb =>
      simp only [normalize_eol] at hb
      simp only [List.length_cons] at hS
      split_ifs at hb
      · rcases List.mem_append.mp hb with h | h
        · exact Or.inl h
        · rcases ih rest (by omega) b h with h | h
          · exact Or.inl h
          · exact Or.inr (by simp [h])
      · rcases List.mem_append.mp hb with h | h
        · exact Or.inl h
        · rcases ih (d :: rest) (by simp; omega) b h with h | h
          · exact Or.inl h
          · exact Or.inr (List.mem_cons_of_mem _ h)
      · rcases List.mem_cons.mp hb with h | h
        · exact Or.inr (by simp [h])
        · rcases ih (d :: rest) (by simp; omega) b h with h | h
          · exact Or.inl h
          · exact Or.inr (List.mem_cons_of_mem _ h)

/-- The translation without a table and without `repair`: the reference
replacement when the terminators of the input are of one kind, the error of an
inconsistent terminator when two of them differ. -/
theorem translate_bytes_norepair (S E : List Nat) (h0 : 0 ∉ E) (x : Bool) :
    ((¬ ∃ k ∈ eol_kinds S, some k ≠ (eol_kinds S).head?) →
        translate_bytes S (some E) false none x = Except.ok (normalize_eol E S))
    ∧ ((∃ k ∈ eol_kinds S, some k ≠ (eol_kinds S).head?) →
        ∃ d, translate_bytes S (some E) false none x = Except.error (stop.inconsistent_eol d)) := by
  have hrun := eol_run E h0 x S [] [] [] (Or.inl rfl)
  simp only [List.nil_append] at hrun
  obtain ⟨_, h2, h3⟩ := repair_core (some E) none x rfl S (xlate.mk [] [] [] [])
    (stream_inv_idle _ [] [] (Or.inl rfl))
  simp only [List.nil_append] at h2 h3
  have hag : eol_agree [] (eol_kinds S) ↔ ¬ ∃ k ∈ eol_kinds S, some k ≠ (eol_kinds S).head? := by
    unfold eol_agree
    simp only [if_true]
    constructor
    · rintro h ⟨k, hk, hne⟩
      exact hne (h k hk)
    · intro h k hk
      by_contra hne
      exact h ⟨k, hk, hne⟩
  unfold translate_bytes
  rw [if_neg (by simp)]
  constructor
  · intro h
    rw [h2 (hag.mpr h), hrun]
  · intro h
    exact h3 (fun ha => (hag.mp ha) h)

/-- Claim C23 (as the code has it).  For every non-null value, read as a C
string (up to its first NUL byte), with transcoders that return this text
unchanged: when all the line terminators of the text are of one kind (LF, lone
CR, CR LF), `svn_subst_translate_string` returns the text with each CR LF pair,
each other CR and each other LF replaced by one LF, every other byte copied
(no keyword is translated); when two terminators differ in kind it returns the
inconsistent-eol error, since it translates without `repair`; a null value
gives null. -/
theorem C23_translate_string (U : utf) (chunk : Nat) (hchunk : 1 ≤ chunk) (value : List Nat)
    (encoding : Option (List Nat))
    (hU : encoding = none → U.svn_utf_cstring_to_utf8 (c_str value) = Except.ok (c_str value))
    (hUex : ∀ enc, encoding = some enc →
      U.svn_utf_cstring_to_utf8_ex (c_str value) (c_str enc) = Except.ok (c_str value)) :
    ((¬ ∃ k ∈ eol_kinds (c_str value), some k ≠ (eol_kinds (c_str value)).head?) →
        svn_subst_translate_string U chunk (some value) encoding
          = Except.ok (some (normalize_eol [10] (c_str value))))
    ∧ ((∃ k ∈ eol_kinds (c_str value), some k ≠ (eol_kinds (c_str value)).head?) →
        ∃ d, svn_subst_translate_string U chunk (some value) encoding
          = Except.error (svn_error.translate (stop.inconsistent_eol d)))
    ∧ svn_subst_translate_string U chunk none encoding = Except.ok none := by
  have hc : svn_subst_translate_cstring2 chunk (c_str value) (some [10]) false none false
      = translate_bytes (c_str value) (some [10]) false none false := by
    unfold svn_subst_translate_cstring2
    simp only [Option.isSome_some, true_or, not_true_eq_false, if_false]
    rw [c_str_of_not_mem _ (c_str_no_nul value), stream3_eq_bytes chunk hchunk]
    cases translate_bytes (c_str value) (some [10]) false none false <;> rfl
  obtain ⟨h1, h2⟩ := translate_bytes_norepair (c_str value) [10] (by decide) false
  have h0 : 0 ∉ normalize_eol [10] (c_str value) := by
    intro hmem
    rcases normalize_eol_mem [10] _ _ (le_refl _) 0 hmem with h | h
    · simp at h
    · exact c_str_no_nul value h
  refine ⟨fun h => ?_, fun h => ?_, rfl⟩
  · unfold svn_subst_translate_string
    cases encoding with
    | none => simp only [hU rfl, hc, h1 h, c_str_of_not_mem _ h0]
    | some enc => simp only [hUex enc rfl, hc, h1 h, c_str_of_not_mem _ h0]
  · obtain ⟨d, hd⟩ := h2 h
    refine ⟨d, ?_⟩
    unfold svn_subst_translate_string
    cases encoding with
    | none => simp only [hU rfl, hc, hd]
    | some enc => simp only [hUex enc rfl, hc, hd]

/-- C23, witness: the value "a\r\nb\r\nc", whose terminators are all CR LF,
gives "a\nb\nc". -/
theorem C23_translate_string_witness :
    svn_subst_translate_string utf_identity 4 (some (bytes "a\r\nb\r\nc")) none
      = Except.ok (some (normalize_eol [10] (c_str (bytes "a\r\nb\r\nc")))) :=
  (C23_translate_string utf_identity 4 (by decide) (bytes "a\r\nb\r\nc") none
    (fun _ => rfl) (fun _ h => by cases h)).1 (by decide)

/-- C23, counterexample: the value "a\nb\r\nc", which mixes LF and CR LF, is
not normalised: the function returns the inconsistent-eol error; and of the
value "a\r\nb", NUL, "c" only the text before the NUL is returned. -/
theorem C23_translate_string_counterexample :
    svn_subst_translate_string utf_identity 4 (some (bytes "a\nb\r\nc")) none
      = Except.error (svn_error.translate (stop.inconsistent_eol (bytes "a\nb")))
    ∧ svn_subst_translate_string utf_identity 4 (some (bytes "a\r\nb\x00c")) none
      = Except.ok (some (bytes "a\nb")) := by
  decide

/-! ## The file system -/

theorem fs_get_del_same (fs : fs_state) (p : List Nat) : fs_get (fs_del fs p) p = none := by
  induction fs with
  | nil => rfl
  | cons e rest ih =>
    obtain ⟨q, n⟩ := e
    unfold fs_del at ih ⊢
    by_cases h : q = p
    · simpa [List.filter_cons, h] using ih
    · simpa [List.filter_cons, h, fs_get] using ih

theorem fs_get_del_other (fs : fs_state) (p q : List Nat) (h : q ≠ p) :
    fs_get (fs_del fs p) q = fs_get fs q := by
  induction fs with
  | nil => rfl
  | cons e rest ih =>
    obtain ⟨r, n⟩ := e
    unfold fs_del at ih ⊢
    by_cases hr : r = p
    · have hrq : r ≠ q := fun e => h (e.symm.trans hr)
      simpa [List.filter_cons, hr, fs_get, hrq, hr ▸ hrq] using ih
    · by_cases hq : r = q
      · subst hq
        simp [List.filter_cons, hr, fs_get]
      · simpa [List.filter_cons, hr, fs_get, hq] using ih

theorem fs_get_put_same (fs : fs_state) (p : List Nat) (n : node) :
    fs_get (fs_put fs p n) p = some n := by
  simp [fs_put, fs_get]

theorem fs_get_put_other (fs : fs_state) (p q : List Nat) (n : node) (h : q ≠ p) :
    fs_get (fs_put fs p n) q = fs_get fs q := by
  unfold fs_put
  simp only [fs_get, if_neg (Ne.symm h)]
  exact fs_get_del_other fs p q h

/-- A unique name is not the path it is made from. -/
theorem unique_name_ne (E : io_env) (fs : fs_state) (path suffix : List Nat) :
    unique_name E fs path suffix ≠ path := by
  intro h
  have := congrArg List.length h
  simp [unique_name] at this

/-- Writing to an empty file that was just made. -/
theorem fs_write_new (fs : fs_state) (p : List Nat) (buf : List Nat) :
    fs_write (fs_put fs p (node.file [])) p buf = fs_put (fs_put fs p (node.file [])) p (node.file buf) := by
  unfold fs_write
  rw [fs_get_put_same]
  try rfl

/-! ## Special files -/

/-- The loop that separates the identifier, on the contents read as a C
string: the identifier is what stands before the first space, the remainder
what stands after it. -/
theorem separate_identifier_eq (contents : List Nat) :
    separate_identifier contents
      = ((c_str contents).takeWhile (fun b => decide (b ≠ 32)),
         ((c_str contents).dropWhile (fun b => decide (b ≠ 32))).drop 1) := by
  induction contents with
  | nil => rfl
  | cons c rest ih =>
    unfold separate_identifier
    by_cases h0 : c = 0
    · subst h0
      simp [c_str]
    · rw [if_neg h0]
      by_cases h32 : c = 32
      · subst h32
        simp [c_str]
      · rw [if_neg h32, ih]
        simp [c_str, h0, h32]

/-- The identifier is compared as it is: it holds no NUL. -/
theorem strcmp_identifier (contents : List Nat) :
    strcmp (separate_identifier contents).1 SVN_SUBST__SPECIAL_LINK_STR = false
      ↔ (c_str contents).takeWhile (fun b => decide (b ≠ 32)) = bytes "link" := by
  rw [separate_identifier_eq]
  have h0 : 0 ∉ (c_str contents).takeWhile (fun b => decide (b ≠ 32)) :=
    fun h => c_str_no_nul contents ((List.takeWhile_sublist _).subset h)
  unfold strcmp
  rw [c_str_of_not_mem _ h0]
  have : c_str SVN_SUBST__SPECIAL_LINK_STR = bytes "link" := by decide
  rw [this]
  simp

/-- The function `create_special_file` on a regular file that can be read: what
it does is decided by the identifier of the contents. -/
theorem create_special_file_regular (E : io_env) (src dst contents : List Nat) (fs : fs_state)
    (hsrc : fs_get fs src = some (node.file contents))
    (h1 : E.fails io_call.svn_io_check_special_path src = false)
    (h2 : E.fails io_call.svn_stringbuf_from_file src = false) :
    create_special_file E src dst fs
      = if strcmp (separate_identifier contents).1 SVN_SUBST__SPECIAL_LINK_STR = false then
          match svn_io_create_unique_link E dst (separate_identifier contents).2 (bytes ".tmp") fs with
          | (Except.ok dst_tmp, fs) => svn_io_file_rename E dst_tmp dst fs
          | (Except.error svn_error.SVN_ERR_UNSUPPORTED_FEATURE, fs) =>
            SVN_ERR (svn_io_open_unique_file E dst (bytes ".tmp") fs) fun dst_tmp fs =>
            SVN_ERR (svn_io_file_close E dst_tmp fs) fun _ fs =>
            SVN_ERR (svn_io_copy_file E src dst_tmp fs) fun _ fs =>
            svn_io_file_rename E dst_tmp dst fs
          | (Except.error err, fs) => (Except.error err, fs)
        else (Except.error svn_error.SVN_ERR_UNSUPPORTED_FEATURE, fs) := by
  unfold create_special_file
  simp only [svn_io_check_special_path, h1, hsrc, SVN_ERR, svn_stringbuf_from_file, h2,
    Bool.false_eq_true, if_false]
  try rfl

/-- The remainder after the first space of a C string holds no NUL. -/
theorem remainder_no_nul (contents : List Nat) :
    0 ∉ ((c_str contents).dropWhile (fun b => decide (b ≠ 32))).drop 1 := fun h =>
  c_str_no_nul contents
    ((List.dropWhile_sublist _).subset ((List.drop_sublist 1 _).subset h))

/-- The link is made when the platform has links, the call does not fail and
the unique name is free. -/
theorem create_unique_link_ok (E : io_env) (path dest suffix : List Nat) (fs : fs_state)
    (hE : E.fails io_call.svn_io_create_unique_link path = false) (hsym : E.symlinks = true)
    (hfree : fs_get fs (unique_name E fs path suffix) = none) :
    svn_io_create_unique_link E path dest suffix fs
      = (Except.ok (unique_name E fs path suffix),
          fs_put fs (unique_name E fs path suffix) (node.link (c_str dest))) := by
  unfold svn_io_create_unique_link
  simp [hE, hsym, hfree]

/-- The temporary file is made when the call does not fail and the unique name
is free. -/
theorem open_unique_file_ok (E : io_env) (path suffix : List Nat) (fs : fs_state)
    (hE : E.fails io_call.svn_io_open_unique_file path = false)
    (hfree : fs_get fs (unique_name E fs path suffix) = none) :
    svn_io_open_unique_file E path suffix fs
      = (Except.ok (unique_name E fs path suffix),
          fs_put fs (unique_name E fs path suffix) (node.file [])) := by
  unfold svn_io_open_unique_file
  simp [hE, hfree]

/-- The rename of a node that is there. -/
theorem file_rename_ok (E : io_env) (t dst : List Nat) (n : node) (fs : fs_state)
    (hE : E.fails io_call.svn_io_file_rename t = false) (h : fs_get fs t = some n) :
    svn_io_file_rename E t dst fs = (Except.ok (), fs_put (fs_del fs t) dst n) := by
  unfold svn_io_file_rename
  simp [hE, h]

/-- After a node was put under a free name `t` and renamed to `dst`, the node
is at `dst` and every other path is as before. -/
theorem installed_get (fs : fs_state) (t dst : List Nat) (m n : node) (hfree : fs_get fs t = none) :
    fs_get (fs_put (fs_del (fs_put (fs_put fs t m) t n) t) dst n) dst = some n
    ∧ ∀ p, p ≠ dst → fs_get (fs_put (fs_del (fs_put (fs_put fs t m) t n) t) dst n) p = fs_get fs p := by
  refine ⟨fs_get_put_same _ _ _, fun p hp => ?_⟩
  rw [fs_get_put_other _ _ _ _ hp]
  by_cases hpt : p = t
  · subst hpt
    rw [fs_get_del_same, hfree]
  · rw [fs_get_del_other _ _ _ hpt, fs_get_put_other _ _ _ _ hpt, fs_get_put_other _ _ _ _ hpt]

/-- After a node was put under a free name `t` and renamed to `dst`, the node
is at `dst` and every other path is as before. -/
theorem installed_get_one (fs : fs_state) (t dst : List Nat) (n : node) (hfree : fs_get fs t = none) :
    fs_get (fs_put (fs_del (fs_put fs t n) t) dst n) dst = some n
    ∧ ∀ p, p ≠ dst → fs_get (fs_put (fs_del (fs_put fs t n) t) dst n) p = fs_get fs p := by
  refine ⟨fs_get_put_same _ _ _, fun p hp => ?_⟩
  rw [fs_get_put_other _ _ _ _ hp]
  by_cases hpt : p = t
  · subst hpt
    rw [fs_get_del_same, hfree]
  · rw [fs_get_del_other _ _ _ hpt, fs_get_put_other _ _ _ _ hpt]

/-- The function `create_special_file` on a descriptor file whose identifier is
"link", on a platform with symbolic links, with no call failing and the unique
name free: `dst` is a link to the remainder and no other path has changed. -/
theorem create_special_file_link (E : io_env) (src dst contents : List Nat) (fs : fs_state)
    (hsrc : fs_get fs src = some (node.file contents))
    (hid : (c_str contents).takeWhile (fun b => decide (b ≠ 32)) = bytes "link")
    (hE : ∀ c p, E.fails c p = false) (hsym : E.symlinks = true)
    (hfree : fs_get fs (unique_name E fs dst (bytes ".tmp")) = none) :
    ∃ fs2, create_special_file E src dst fs = (Except.ok (), fs2)
      ∧ fs_get fs2 dst
          = some (node.link (((c_str contents).dropWhile (fun b => decide (b ≠ 32))).drop 1))
      ∧ ∀ p, p ≠ dst → fs_get fs2 p = fs_get fs p := by
  rw [create_special_file_regular E src dst contents fs hsrc (hE _ _) (hE _ _),
    if_pos ((strcmp_identifier contents).mpr hid),
    create_unique_link_ok E dst _ _ fs (hE _ _) hsym hfree]
  simp only []
  rw [file_rename_ok E _ dst _ _ (hE _ _) (fs_get_put_same _ _ _)]
  refine ⟨_, rfl, ?_⟩
  have hrem : c_str (separate_identifier contents).2
      = ((c_str contents).dropWhile (fun b => decide (b ≠ 32))).drop 1 := by
    rw [separate_identifier_eq]
    exact c_str_of_not_mem _ (remainder_no_nul contents)
  rw [hrem]
  exact installed_get_one fs _ dst _ hfree

/-- Claim C24 (as the code has it).  For a descriptor file `src` with any
contents, read as a C string (up to the first NUL byte), the identifier being
the bytes before its first space (all of it when it has no space) and the
remainder the bytes after that space: when the identifier is not exactly
"link", `create_special_file` returns an error and leaves the file system as it
was, and the error is the unsupported-feature error when the two reads of
`src` succeed; when the identifier is exactly "link" and the two reads of `src`
succeed, it calls `svn_io_create_unique_link` with the remainder as the target,
and what it returns is decided by that call; when moreover the remainder is
not empty, on a platform with symbolic links, with no call failing and the
unique name free, it returns without error, `dst` is a symbolic link whose
target is the remainder, and no other path has changed. -/
theorem C24_special_identifier (E : io_env) (src dst contents : List Nat) (fs : fs_state)
    (hsrc : fs_get fs src = some (node.file contents)) :
    ((c_str contents).takeWhile (fun b => decide (b ≠ 32)) ≠ bytes "link" →
      ∃ err, create_special_file E src dst fs = (Except.error err, fs)
        ∧ (E.fails io_call.svn_io_check_special_path src = false →
            E.fails io_call.svn_stringbuf_from_file src = false →
            err = svn_error.SVN_ERR_UNSUPPORTED_FEATURE))
    ∧ ((c_str contents).takeWhile (fun b => decide (b ≠ 32)) = bytes "link" →
        E.fails io_call.svn_io_check_special_path src = false →
        E.fails io_call.svn_stringbuf_from_file src = false →
        create_special_file E src dst fs
          = match svn_io_create_unique_link E dst
              (((c_str contents).dropWhile (fun b => decide (b ≠ 32))).drop 1) (bytes ".tmp") fs with
            | (Except.ok dst_tmp, fs) => svn_io_file_rename E dst_tmp dst fs
            | (Except.error svn_error.SVN_ERR_UNSUPPORTED_FEATURE, fs) =>
              SVN_ERR (svn_io_open_unique_file E dst (bytes ".tmp") fs) fun dst_tmp fs =>
              SVN_ERR (svn_io_file_close E dst_tmp fs) fun _ fs =>
              SVN_ERR (svn_io_copy_file E src dst_tmp fs) fun _ fs =>
              svn_io_file_rename E dst_tmp dst fs
            | (Except.error err, fs) => (Except.error err, fs))
    ∧ ((c_str contents).takeWhile (fun b => decide (b ≠ 32)) = bytes "link" →
        ((c_str contents).dropWhile (fun b => decide (b ≠ 32))).drop 1 ≠ [] →
        (∀ c p, E.fails c p = false) → E.symlinks = true →
        fs_get fs (unique_name E fs dst (bytes ".tmp")) = none →
        ∃ fs2, create_special_file E src dst fs = (Except.ok (), fs2)
          ∧ fs_get fs2 dst
              = some (node.link (((c_str contents).dropWhile (fun b => decide (b ≠ 32))).drop 1))
          ∧ ∀ p, p ≠ dst → fs_get fs2 p = fs_get fs p) := by
  refine ⟨?_, ?_, ?_⟩
  · intro hid
    by_cases h1 : E.fails io_call.svn_io_check_special_path src = false
    · by_cases h2 : E.fails io_call.svn_stringbuf_from_file src = false
      · refine ⟨svn_error.SVN_ERR_UNSUPPORTED_FEATURE, ?_, fun _ _ => rfl⟩
        rw [create_special_file_regular E src dst contents fs hsrc h1 h2,
          if_neg (fun h => hid ((strcmp_identifier contents).mp h))]
      · refine ⟨svn_error.failed io_call.svn_stringbuf_from_file src, ?_, fun _ h => absurd h h2⟩
        simp only [Bool.not_eq_false] at h2
        unfold create_special_file
        simp only [svn_io_check_special_path, h1, hsrc, SVN_ERR, svn_stringbuf_from_file, h2,
          Bool.false_eq_true, if_false, if_true]
    · refine ⟨svn_error.failed io_call.svn_io_check_special_path src, ?_, fun h _ => absurd h h1⟩
      simp only [Bool.not_eq_false] at h1
      unfold create_special_file
      simp only [svn_io_check_special_path, h1, SVN_ERR, if_true]
  · intro hid h1 h2
    have hrem : (separate_identifier contents).2
        = ((c_str contents).dropWhile (fun b => decide (b ≠ 32))).drop 1 := by
      rw [separate_identifier_eq]
    rw [create_special_file_regular E src dst contents fs hsrc h1 h2,
      if_pos ((strcmp_identifier contents).mpr hid), hrem]
    try rfl
  · intro hid _ hE hsym hfree
    exact create_special_file_link E src dst contents fs hsrc hid hE hsym hfree

/-- C24, witness: the descriptor "link /etc" makes a link to "/etc" at the
destination. -/
theorem C24_special_identifier_witness :
    ∃ fs2, create_special_file example_env (bytes "D") (bytes "M")
          [(bytes "D", node.file (bytes "link /etc"))] = (Except.ok (), fs2)
      ∧ fs_get fs2 (bytes "M")
          = some (node.link (((c_str (bytes "link /etc")).dropWhile
              (fun b => decide (b ≠ 32))).drop 1))
      ∧ ∀ p, p ≠ bytes "M" → fs_get fs2 p = fs_get [(bytes "D", node.file (bytes "link /etc"))] p :=
  (C24_special_identifier example_env (bytes "D") (bytes "M") (bytes "link /etc")
    [(bytes "D", node.file (bytes "link /etc"))] (by decide)).2.2 (by decide) (by decide)
    (fun _ _ => rfl) rfl (by decide)

/-- C24, counterexample.  The descriptor "link x", NUL, "y" has the identifier
"link" and the bytes "x", NUL, "y" after its first space, yet the link that
`create_special_file` makes has the target "x".  The descriptor "link", NUL,
"x" has no space and is not the four bytes "link", yet `create_special_file`
takes the identifier "link" from it and calls `svn_io_create_unique_link` with
an empty target; the system refuses such a link, and the function returns the
error of that call, which is not the unsupported-feature error. -/
theorem C24_special_identifier_counterexample :
    create_special_file example_env (bytes "D") (bytes "M")
        [(bytes "D", node.file (bytes "link x\x00y"))]
      = (Except.ok (),
          [(bytes "M", node.link (bytes "x")), (bytes "D", node.file (bytes "link x\x00y"))])
    ∧ create_special_file (failing_env io_call.svn_io_create_unique_link) (bytes "D") (bytes "M")
        [(bytes "D", node.file (bytes "link\x00x"))]
      = (Except.error (svn_error.failed io_call.svn_io_create_unique_link (bytes "M")),
          [(bytes "D", node.file (bytes "link\x00x"))]) := by
  decide

/-- The function `detranslate_special_file` on a symbolic link, with no call
failing and the unique name free: it returns without error and the state is the
one where the descriptor was written under the unique name and renamed. -/
theorem detranslate_link_ok (E : io_env) (src dst T : List Nat) (fs : fs_state)
    (hsrc : fs_get fs src = some (node.link T))
    (hE : ∀ c p, E.fails c p = false)
    (hfree : fs_get fs (unique_name E fs dst (bytes ".tmp")) = none) :
    detranslate_special_file E src dst fs
      = (Except.ok (),
          fs_put (fs_del (fs_put (fs_put fs (unique_name E fs dst (bytes ".tmp")) (node.file []))
              (unique_name E fs dst (bytes ".tmp")) (node.file (bytes "link " ++ c_str T)))
            (unique_name E fs dst (bytes ".tmp"))) dst (node.file (bytes "link " ++ c_str T))) := by
  have hne : src ≠ unique_name E fs dst (bytes ".tmp") := by
    intro h
    rw [← h, hsrc] at hfree
    cases hfree
  unfold detranslate_special_file
  simp only [svn_io_stat, hE, hsrc, SVN_ERR, Bool.false_eq_true, if_false,
    open_unique_file_ok E dst (bytes ".tmp") fs (hE _ _) hfree, svn_io_read_link,
    fs_get_put_other _ _ _ _ hne, svn_stream_printf, fs_write_new, svn_io_file_close]
  rw [file_rename_ok E _ dst _ _ (hE _ _) (fs_get_put_same _ _ _)]

/-- The descriptor of a link splits into "link" and the target. -/
theorem separate_identifier_link (T : List Nat) (hT : 0 ∉ T) :
    separate_identifier (bytes "link " ++ T) = (bytes "link", T) := by
  show separate_identifier (108 :: 105 :: 110 :: 107 :: 32 :: T) = ([108, 105, 110, 107], T)
  simp [separate_identifier, c_str_of_not_mem T hT]

/-- Claim C25.  Special-link round trip: for every link target `T` without a
NUL byte (spaces allowed) of a symbolic link `L`, on a platform with symbolic
links, with no call failing and the unique names free,
`detranslate_special_file` writes the descriptor "link " followed by `T` to
`D`; the loop of `create_special_file` splits this descriptor into the
identifier "link" and the remainder `T`; and `create_special_file` from `D`
makes a symbolic link with target `T`. -/
theorem C25_special_round_trip (E : io_env) (L D L2 T : List Nat) (fs : fs_state)
    (hT : 0 ∉ T) (hL : fs_get fs L = some (node.link T))
    (hE : ∀ c p, E.fails c p = false) (hsym : E.symlinks = true)
    (hfree1 : fs_get fs (unique_name E fs D (bytes ".tmp")) = none)
    (hfree2 : fs_get (detranslate_special_file E L D fs).2
      (unique_name E (detranslate_special_file E L D fs).2 L2 (bytes ".tmp")) = none) :
    ∃ fs1 fs2, detranslate_special_file E L D fs = (Except.ok (), fs1)
      ∧ fs_get fs1 D = some (node.file (bytes "link " ++ T))
      ∧ separate_identifier (bytes "link " ++ T) = (bytes "link", T)
      ∧ create_special_file E D L2 fs1 = (Except.ok (), fs2)
      ∧ fs_get fs2 L2 = some (node.link T) := by
  have h1 := detranslate_link_ok E L D T fs hL hE hfree1
  rw [c_str_of_not_mem T hT] at h1
  rw [h1] at hfree2
  have hD := (installed_get fs (unique_name E fs D (bytes ".tmp")) D (node.file [])
    (node.file (bytes "link " ++ T)) hfree1).1
  have hsplit := separate_identifier_link T hT
  have hc : c_str (bytes "link " ++ T) = bytes "link " ++ T :=
    c_str_of_not_mem _ (by
      intro h
      rcases List.mem_append.mp h with h | h
      · revert h; decide
      · exact hT h)
  have hid : (c_str (bytes "link " ++ T)).takeWhile (fun b => decide (b ≠ 32)) = bytes "link" := by
    have := separate_identifier_eq (bytes "link " ++ T)
    rw [hsplit] at this
    exact (congrArg Prod.fst this).symm
  have hrem : ((c_str (bytes "link " ++ T)).dropWhile (fun b => decide (b ≠ 32))).drop 1 = T := by
    have := separate_identifier_eq (bytes "link " ++ T)
    rw [hsplit] at this
    exact (congrArg Prod.snd this).symm
  obtain ⟨fs2, h2, h3, _⟩ := create_special_file_link E D L2 (bytes "link " ++ T) _ hD hid hE hsym
    hfree2
  rw [hrem] at h3
  exact ⟨_, fs2, h1, hD, hsplit, h2, h3⟩

/-- C25, witness (S6): a link `L` to "/etc" is written to `D` as "link /etc",
and from `D` a link `M` to "/etc" is made. -/
theorem C25_special_round_trip_witness :
    ∃ fs1 fs2, detranslate_special_file example_env (bytes "L") (bytes "D")
          [(bytes "L", node.link (bytes "/etc"))] = (Except.ok (), fs1)
      ∧ fs_get fs1 (bytes "D") = some (node.file (bytes "link " ++ bytes "/etc"))
      ∧ separate_identifier (bytes "link " ++ bytes "/etc") = (bytes "link", bytes "/etc")
      ∧ create_special_file example_env (bytes "D") (bytes "M") fs1 = (Except.ok (), fs2)
      ∧ fs_get fs2 (bytes "M") = some (node.link (bytes "/etc")) :=
  C25_special_round_trip example_env (bytes "L") (bytes "D") (bytes "M") (bytes "/etc")
    [(bytes "L", node.link (bytes "/etc"))] (by decide) (by decide) (fun _ _ => rfl) rfl
    (by decide) (by decide)

/-! ## The file installer -/

/-- After a file was made under a free name `t`, written and removed, every
path is as before. -/
theorem removed_get (fs : fs_state) (t : List Nat) (m n : node) (hfree : fs_get fs t = none) :
    ∀ p, fs_get (fs_del (fs_put (fs_put fs t m) t n) t) p = fs_get fs p := by
  intro p
  by_cases hpt : p = t
  · subst hpt
    rw [fs_get_del_same, hfree]
  · rw [fs_get_del_other _ _ _ hpt, fs_get_put_other _ _ _ _ hpt, fs_get_put_other _ _ _ _ hpt]

/-- The translation on the streams of the files writes to the temporary file
only, and when it returns without error the file holds the output of the
translator. -/
theorem translate_file_streams_new (E : io_env) (s t : List Nat) (eol_str : Option (List Nat))
    (repair : Bool) (keywords : Option apr_hash_t) (expand : Bool) (fs : fs_state) :
    ∃ w, (translate_file_streams E s t eol_str repair keywords expand
            (fs_put fs t (node.file []))).2
          = fs_put (fs_put fs t (node.file [])) t (node.file w)
      ∧ ((translate_file_streams E s t eol_str repair keywords expand
            (fs_put fs t (node.file []))).1 = Except.ok () →
          svn_subst_translate_stream3 E.chunk s eol_str repair keywords expand = Except.ok w) := by
  unfold translate_file_streams
  simp only [fs_write_new]
  by_cases hf : E.fails io_call.svn_stream_read t = true
  · simp only [hf, if_true]
    exact ⟨_, rfl, fun h => by cases h⟩
  · simp only [hf, if_false]
    cases h : svn_subst_translate_stream3 E.chunk s eol_str repair keywords expand with
    | ok out => exact ⟨out, rfl, fun _ => rfl⟩
    | error err => exact ⟨_, rfl, fun h => by cases h⟩

/-- The code at the label `error:` removes the temporary file. -/
theorem error_label_some (E : io_env) (t : List Nat) (err : svn_error) (fs : fs_state) (n : node)
    (hrm : E.fails io_call.svn_io_remove_file t = false) (h : fs_get fs t = some n) :
    (error_label E (some t) err fs : Except svn_error Unit × fs_state)
      = (Except.error err, fs_del fs t) := by
  unfold error_label svn_io_remove_file
  simp [hrm, h]

/-- The steps of `svn_subst_copy_and_translate3` after the translation, on a
state where the temporary file `t` holds `w`: an error removes the temporary
file, a return without error has renamed it to `dst`. -/
theorem install_steps (E : io_env) (src dst t w : List Nat) (fs : fs_state)
    (hrm : E.fails io_call.svn_io_remove_file t = false)
    (ht : fs_get fs t = some (node.file w)) :
    (∃ err, (goto_error E (some t) (svn_stream_close E src fs) fun _ fs =>
        goto_error E (some t) (svn_stream_close E t fs) fun _ fs =>
        goto_error E (some t) (svn_io_file_close E src fs) fun _ fs =>
        goto_error E (some t) (svn_io_file_close E t fs) fun _ fs =>
        goto_error E (some t) (svn_io_file_rename E t dst fs) fun _ fs =>
        ((Except.ok (), fs) : Except svn_error Unit × fs_state))
          = (Except.error err, fs_del fs t))
    ∨ (goto_error E (some t) (svn_stream_close E src fs) fun _ fs =>
        goto_error E (some t) (svn_stream_close E t fs) fun _ fs =>
        goto_error E (some t) (svn_io_file_close E src fs) fun _ fs =>
        goto_error E (some t) (svn_io_file_close E t fs) fun _ fs =>
        goto_error E (some t) (svn_io_file_rename E t dst fs) fun _ fs =>
        ((Except.ok (), fs) : Except svn_error Unit × fs_state))
          = (Except.ok (), fs_put (fs_del fs t) dst (node.file w)) := by
  have hl := fun err => error_label_some E t err fs (node.file w) hrm ht
  simp only [goto_error, svn_stream_close, svn_io_file_close, svn_io_file_rename, ht]
  split_ifs
  all_goals try simp only [ht]
  all_goals first
    | exact Or.inl ⟨_, hl _⟩
    | exact Or.inr rfl
    | exact Or.inr trivial

theorem goto_error_ok {α β : Type} (E : io_env) (d : Option (List Nat)) (a : α) (fs : fs_state)
    (rest : α → fs_state → Except svn_error β × fs_state) :
    goto_error E d (Except.ok a, fs) rest = rest a fs := rfl

theorem goto_error_error {α β : Type} (E : io_env) (d : Option (List Nat)) (err : svn_error)
    (fs : fs_state) (rest : α → fs_state → Except svn_error β × fs_state) :
    goto_error E d (Except.error err, fs) rest = error_label E d err fs := rfl

/-- The function `svn_subst_copy_and_translate3` on a regular file, not
flagged special, with the unique name free and the removal of the temporary
file not failing: either it returns an error and every path is as before (the
temporary file is gone, `dst` is as it was), or it returns without error, `dst`
holds the whole output and every other path is as before. -/
theorem copy_and_translate3_atomic (E : io_env) (src dst contents : List Nat)
    (eol_str : Option (List Nat)) (repair : Bool) (keywords : Option apr_hash_t) (expand : Bool)
    (fs : fs_state)
    (hsrc : fs_get fs src = some (node.file contents))
    (hfree : fs_get fs (unique_name E fs dst (bytes ".tmp")) = none)
    (hrm : E.fails io_call.svn_io_remove_file (unique_name E fs dst (bytes ".tmp")) = false) :
    (∃ err fs2, svn_subst_copy_and_translate3 E src dst eol_str repair keywords expand false fs
          = (Except.error err, fs2) ∧ ∀ p, fs_get fs2 p = fs_get fs p)
    ∨ (∃ out fs2, svn_subst_copy_and_translate3 E src dst eol_str repair keywords expand false fs
          = (Except.ok (), fs2)
        ∧ fs_get fs2 dst = some (node.file out) ∧ (∀ p, p ≠ dst → fs_get fs2 p = fs_get fs p)
        ∧ (eol_str.isSome ∨ keywords.isSome →
            svn_subst_translate_stream3 E.chunk contents eol_str repair keywords expand
              = Except.ok out)
        ∧ (¬ (eol_str.isSome ∨ keywords.isSome) → out = contents)) := by
  unfold svn_subst_copy_and_translate3
  by_cases h1 : E.fails io_call.svn_io_check_special_path src = true
  · left
    simp only [svn_io_check_special_path, h1, SVN_ERR, if_true]
    exact ⟨_, fs, rfl, fun _ => rfl⟩
  · simp only [svn_io_check_special_path, h1, hsrc, SVN_ERR, Bool.false_eq_true, false_or,
      if_false]
    by_cases hopt : eol_str.isSome ∨ keywords.isSome
    · rw [if_neg (not_not.mpr hopt)]
      by_cases h2 : E.fails io_call.svn_io_file_open src = true
      · left
        have ho : svn_io_file_open E src fs
            = (Except.error (svn_error.failed io_call.svn_io_file_open src), fs) := by
          simp [svn_io_file_open, h2]
        rw [ho, goto_error_error]
        exact ⟨_, fs, rfl, fun _ => rfl⟩
      · have ho : svn_io_file_open E src fs = (Except.ok contents, fs) := by
          simp [svn_io_file_open, h2, hsrc]
        rw [ho, goto_error_ok]
        by_cases h3 : E.fails io_call.svn_io_open_unique_file dst = true
        · left
          have hu : svn_io_open_unique_file E dst (bytes ".tmp") fs
              = (Except.error (svn_error.failed io_call.svn_io_open_unique_file dst), fs) := by
            simp [svn_io_open_unique_file, h3]
          rw [hu, goto_error_error]
          exact ⟨_, fs, rfl, fun _ => rfl⟩
        · simp only [Bool.not_eq_true] at h3
          rw [open_unique_file_ok E dst (bytes ".tmp") fs h3 hfree, goto_error_ok]
          obtain ⟨w, hw2, hw1⟩ := translate_file_streams_new E contents
            (unique_name E fs dst (bytes ".tmp")) eol_str repair keywords expand fs
          rcases hr : translate_file_streams E contents (unique_name E fs dst (bytes ".tmp"))
            eol_str repair keywords expand
            (fs_put fs (unique_name E fs dst (bytes ".tmp")) (node.file [])) with ⟨r1, fsB⟩
          rw [hr] at hw2 hw1
          simp only at hw2 hw1
          subst hw2
          try simp only [hr]
          cases r1 with
          | error err =>
            left
            rw [goto_error_error,
              error_label_some E _ err _ (node.file w) hrm (fs_get_put_same _ _ _)]
            exact ⟨err, _, rfl, removed_get fs _ _ _ hfree⟩
          | ok u =>
            rw [goto_error_ok]
            rcases install_steps E src dst (unique_name E fs dst (bytes ".tmp")) w _ hrm
              (fs_get_put_same _ _ _) with ⟨err, h⟩ | h
            · left
              exact ⟨err, _, h, removed_get fs _ _ _ hfree⟩
            · right
              exact ⟨w, _, h, (installed_get fs _ dst _ _ hfree).1,
                (installed_get fs _ dst _ _ hfree).2, fun _ => hw1 rfl, fun h => absurd hopt h⟩
    · rw [if_pos hopt]
      by_cases h2 : E.fails io_call.svn_io_copy_file src = true
      · left
        simp only [svn_io_copy_file, h2, if_true]
        exact ⟨_, fs, rfl, fun _ => rfl⟩
      · right
        simp only [svn_io_copy_file, h2, hsrc, if_false]
        exact ⟨contents, _, rfl, fs_get_put_same _ _ _,
          fun p hp => fs_get_put_other _ _ _ _ hp, fun h => absurd h hopt, fun _ => rfl⟩

/-- Claim C26, on the code: `detranslate_special_file` leaves its temporary
file behind when a step before the rename fails.  With a regular file `f`
holding "abc" and a failing `svn_stream_copy`, it returns the error and the
temporary file `g.1.tmp` is still there, with the two bytes that were written;
with a link `L` and a failing `svn_io_read_link`, the empty temporary file is
still there; the same happens through `svn_subst_copy_and_translate3` with
`special` set.  On a file not flagged special, `svn_subst_copy_and_translate3`
with a failing stream removes the temporary file before it returns the
error. -/
theorem C26_temporary_left_behind :
    detranslate_special_file (failing_env io_call.svn_stream_copy) (bytes "f") (bytes "g")
        [(bytes "f", node.file (bytes "abc"))]
      = (Except.error (svn_error.failed io_call.svn_stream_copy (bytes "g.1.tmp")),
          [(bytes "g.1.tmp", node.file (bytes "ab")), (bytes "f", node.file (bytes "abc"))])
    ∧ detranslate_special_file (failing_env io_call.svn_io_read_link) (bytes "L") (bytes "g")
        [(bytes "L", node.link (bytes "/etc"))]
      = (Except.error (svn_error.failed io_call.svn_io_read_link (bytes "L")),
          [(bytes "g.1.tmp", node.file []), (bytes "L", node.link (bytes "/etc"))])
    ∧ svn_subst_copy_and_translate3 (failing_env io_call.svn_stream_copy) (bytes "f") (bytes "g")
        none false none false true [(bytes "f", node.file (bytes "abc"))]
      = (Except.error (svn_error.failed io_call.svn_stream_copy (bytes "g.1.tmp")),
          [(bytes "g.1.tmp", node.file (bytes "ab")), (bytes "f", node.file (bytes "abc"))])
    ∧ svn_subst_copy_and_translate3 (failing_env io_call.svn_stream_read) (bytes "f") (bytes "g")
        (some [10]) false none false false [(bytes "f", node.file (bytes "abc"))]
      = (Except.error (svn_error.failed io_call.svn_stream_read (bytes "g.1.tmp")),
          [(bytes "f", node.file (bytes "abc"))]) := by
  decide

/-! ## Values of the table builder -/

/-- Claim C31.  Values installed by the table builder: for every `rev`, `url`,
`date`, `author` and every keyword list, `svn_subst_build_keywords2` returns a
hash in which each alias of the revision keyword holds `keyword_printf ("%r")`,
each alias of the date keyword `keyword_printf ("%D")`, each alias of the author
keyword `keyword_printf ("%a")`, each alias of the URL keyword
`keyword_printf ("%u")` and `Id` holds `keyword_printf ("%b %r %d %a")`,
whenever a token of the list matches the keyword (the alias is absent
otherwise); and the value of `Id` is the base name, the revision, the short date
and the author, each empty when its input is missing, with one space between
them. -/
theorem C31_installed_values (L : helpers) (keywords_val : List Nat)
    (rev url : Option (List Nat)) (date : Int) (author : Option (List Nat)) :
    ∃ T, svn_subst_build_keywords2 L keywords_val rev url date author = some T
      ∧ (∀ a ∈ [SVN_KEYWORD_REVISION_LONG, SVN_KEYWORD_REVISION_MEDIUM,
            SVN_KEYWORD_REVISION_SHORT], apr_hash_get T a
          = if ∃ tok ∈ svn_cstring_split keywords_val keyword_separators,
                token_keyword tok = some logical_keyword.revision then
              keyword_printf L (bytes "%r") rev url date author
            else none)
      ∧ (∀ a ∈ [SVN_KEYWORD_DATE_LONG, SVN_KEYWORD_DATE_SHORT], apr_hash_get T a
          = if ∃ tok ∈ svn_cstring_split keywords_val keyword_separators,
                token_keyword tok = some logical_keyword.date then
              keyword_printf L (bytes "%D") rev url date author
            else none)
      ∧ (∀ a ∈ [SVN_KEYWORD_AUTHOR_LONG, SVN_KEYWORD_AUTHOR_SHORT], apr_hash_get T a
          = if ∃ tok ∈ svn_cstring_split keywords_val keyword_separators,
                token_keyword tok = some logical_keyword.author then
              keyword_printf L (bytes "%a") rev url date author
            else none)
      ∧ (∀ a ∈ [SVN_KEYWORD_URL_LONG, SVN_KEYWORD_URL_SHORT], apr_hash_get T a
          = if ∃ tok ∈ svn_cstring_split keywords_val keyword_separators,
                token_keyword tok = some logical_keyword.url then
              keyword_printf L (bytes "%u") rev url date author
            else none)
      ∧ (apr_hash_get T SVN_KEYWORD_ID
          = if ∃ tok ∈ svn_cstring_split keywords_val keyword_separators,
                token_keyword tok = some logical_keyword.id then
              keyword_printf L (bytes "%b %r %d %a") rev url date author
            else none)
      ∧ keyword_printf L (bytes "%b %r %d %a") rev url date author
          = some ((match url with
              | some u => c_str (L.svn_path_uri_decode (L.svn_path_basename u))
              | none => []) ++ [32]
            ++ (match rev with
              | some r => c_str r
              | none => []) ++ [32]
            ++ (if date ≠ 0 then c_str (human_short (L.apr_time_exp_gmt date)) else []) ++ [32]
            ++ (match author with
              | some a => c_str a
              | none => [])) := by
  obtain ⟨T, hT, hal, _⟩ := build_keywords2_spec L keywords_val rev url date author
  have hp : ∀ k, keyword_printf L (keyword_format k) rev url date author
      = some (render L rev url date author (c_str (keyword_format k))) := by
    intro k
    exact keyword_printf_eq L _ rev url date author (by cases k <;> decide)
  refine ⟨T, hT, ?_, ?_, ?_, ?_, ?_, ?_⟩
  · intro a ha
    have := hal logical_keyword.revision a ha
    rw [this]
    split_ifs
    · exact (hp logical_keyword.revision).symm
    · rfl
  · intro a ha
    have := hal logical_keyword.date a ha
    rw [this]
    split_ifs
    · exact (hp logical_keyword.date).symm
    · rfl
  · intro a ha
    have := hal logical_keyword.author a ha
    rw [this]
    split_ifs
    · exact (hp logical_keyword.author).symm
    · rfl
  · intro a ha
    have := hal logical_keyword.url a ha
    rw [this]
    split_ifs
    · exact (hp logical_keyword.url).symm
    · rfl
  · have := hal logical_keyword.id SVN_KEYWORD_ID (by simp [aliases])
    rw [this]
    split_ifs
    · exact (hp logical_keyword.id).symm
    · rfl
  · have eid : bytes "%b %r %d %a" = [37, 98, 32, 37, 114, 32, 37, 100, 32, 37, 97] := by decide
    rw [keyword_printf_eq _ _ _ _ _ _ (by decide), eid]
    cases author <;> cases url <;> cases rev <;> simp [c_str, render, code_value]

/-- C31, example: the list "Id Rev" with revision "42", author "al", no URL
and no date. -/
theorem C31_installed_values_example :
    svn_subst_build_keywords2 example_helpers (bytes "Id Rev") (some (bytes "42")) none 0
        (some (bytes "al"))
      = some [(bytes "Rev", bytes "42"), (bytes "Revision", bytes "42"),
          (bytes "LastChangedRevision", bytes "42"), (bytes "Id", bytes " 42  al")]
    ∧ keyword_printf example_helpers (bytes "%r") (some (bytes "42")) none 0 (some (bytes "al"))
      = some (bytes "42")
    ∧ keyword_printf example_helpers (bytes "%b %r %d %a") (some (bytes "42")) none 0
        (some (bytes "al")) = some (bytes " 42  al") := by
  decide

/-! ## Literal text in a format -/

/-- The bytes after the first one have no code after a `%` either. -/
theorem no_code_tail (c : Nat) (X : List Nat) (h : no_code (c :: X)) : no_code X := by
  intro i hi h37
  have := h (i + 1) (by simp; omega) (by simpa using h37)
  simpa using this

/-- A format without a code after a `%` renders, for all inputs, as literal
text. -/
theorem render_literal (L : helpers) (rev url : Option (List Nat)) (date : Int)
    (author : Option (List Nat)) : ∀ (n : Nat) (X : List Nat), X.length ≤ n → no_code X →
    render L rev url date author X = literal_format X := by
  intro n
  induction n with
  | zero =>
    intro X hX _
    have : X = [] := List.eq_nil_of_length_eq_zero (by omega)
    subst this
    rfl
  | succ n ih =>
    intro X hX hno
    match X, hX, hno with
    | [], _, _ => rfl
    | [c], _, _ => rfl
    | c :: d :: rest, hX, hno =>
      simp only [List.length_cons] at hX
      have hno1 := no_code_tail c (d :: rest) hno
      have hno2 := no_code_tail d rest hno1
      simp only [render, literal_format]
      by_cases hc : c = 37
      · have hd := hno 0 (by simp) (by simpa using hc)
        simp only [zero_add, List.getD_cons_succ, List.getD_cons_zero, List.mem_cons,
          List.mem_singleton, List.not_mem_nil, or_false, not_or] at hd
        obtain ⟨h1, h2, h3, h4, h5, h6⟩ := hd
        rw [if_pos hc, if_pos hc, ih rest (by omega) hno2]
        unfold code_value
        simp only [h1, h2, h3, h4, h5, h6, if_false]
        split_ifs <;> rfl
      · rw [if_neg hc, if_neg hc, ih (d :: rest) (by simp; omega) hno1]

/-- Text without `%` is its own literal reading. -/
theorem literal_format_plain : ∀ (X : List Nat), 37 ∉ X → literal_format X = X := by
  intro X
  induction X with
  | nil => intro _; rfl
  | cons c rest ih =>
    intro h
    have hc : c ≠ 37 := fun e => h (by simp [e])
    have hr : 37 ∉ rest := fun e => h (List.mem_cons_of_mem _ e)
    cases rest with
    | nil => rfl
    | cons d rest2 =>
      simp only [literal_format, if_neg hc]
      rw [ih hr]

/-- Claim C32.  Literal handling in the format: for every format `fmt` (a C
string of less than `2^31` bytes) in which no `%` is followed by one of `a`,
`b`, `d`, `D`, `r`, `u`, and for all `rev`, `url`, `date`, `author`,
`keyword_printf` returns `fmt` read from left to right with every `%%` pair
replaced by one `%`, every `%` with any other byte kept with that byte, a `%`
that is the last byte kept, and every other byte unchanged; a format without
`%` gives itself. -/
theorem C32_literal_format (L : helpers) (fmt : List Nat) (rev url : Option (List Nat))
    (date : Int) (author : Option (List Nat)) (hfmt : fmt.length < 2147483648)
    (hno : no_code (c_str fmt)) :
    keyword_printf L fmt rev url date author = some (literal_format (c_str fmt))
    ∧ (37 ∉ c_str fmt → keyword_printf L fmt rev url date author = some (c_str fmt)) := by
  have h := keyword_printf_eq L fmt rev url date author hfmt
  rw [render_literal L rev url date author _ _ (le_refl _) hno] at h
  refine ⟨h, fun h37 => ?_⟩
  rw [h, literal_format_plain _ h37]

/-- C32, witness: the format "x%%y%zw%" with a revision and an author set. -/
theorem C32_literal_format_witness :
    keyword_printf example_helpers (bytes "x%%y%zw%") (some (bytes "42")) none 0
        (some (bytes "al")) = some (literal_format (c_str (bytes "x%%y%zw%")))
    ∧ literal_format (c_str (bytes "x%%y%zw%")) = bytes "x%y%zw%" :=
  ⟨(C32_literal_format example_helpers (bytes "x%%y%zw%") (some (bytes "42")) none 0
    (some (bytes "al")) (by decide) (by decide)).1, by decide⟩

/-! ## Termination of the value builder -/

/-- One pass of the loop of `keyword_printf`: when the byte at `cur` is the
terminator the loop returns; otherwise the next pass starts at least one byte
further and not beyond the terminator. -/
theorem keyword_printf_loop_step (L : helpers) (rev url : Option (List Nat)) (date : Int)
    (author : Option (List Nat)) (fuel : Nat) (fmt value : List Nat) :
    ((fmt.drop (fmt.takeWhile (fun b => decide (b ≠ 0) && decide (b ≠ 37))).length).getD 0 0 = 0 →
      ∃ v, keyword_printf_loop L rev url date author (fuel + 1) fmt value = some v)
    ∧ ((fmt.drop (fmt.takeWhile (fun b => decide (b ≠ 0) && decide (b ≠ 37))).length).getD 0 0 ≠ 0 →
      ∃ k v, (fmt.takeWhile (fun b => decide (b ≠ 0) && decide (b ≠ 37))).length + 1 ≤ k
        ∧ k ≤ fmt.length
        ∧ keyword_printf_loop L rev url date author (fuel + 1) fmt value
          = keyword_printf_loop L rev url date author fuel (fmt.drop k) v) := by
  obtain ⟨pre, cur, rfl, hpre, hcur, htw⟩ := plain_split fmt
  rw [htw]
  simp only [List.drop_left]
  constructor
  · intro h0
    unfold keyword_printf_loop
    simp only [htw, List.drop_left, h0, if_true]
    exact ⟨_, rfl⟩
  · intro h0
    simp only [keyword_printf_loop, htw, List.drop_left, if_neg h0]
    have key : ∀ (V : List Nat) (k : Nat), pre.length + 1 ≤ k → k ≤ (pre ++ cur).length →
        ∃ k1 v, pre.length + 1 ≤ k1 ∧ k1 ≤ (pre ++ cur).length
          ∧ keyword_printf_loop L rev url date author fuel ((pre ++ cur).drop k) V
            = keyword_printf_loop L rev url date author fuel ((pre ++ cur).drop k1) v :=
      fun V k h1 h2 => ⟨k, V, h1, h2, rfl⟩
    cases cur with
    | nil => simp at h0
    | cons c0 tl =>
      by_cases hc : (c0 :: tl).getD 1 0 = 0
      · have hX : (if (c0 :: tl).getD 1 0 = 0 then (c0 :: tl).drop 1 else (c0 :: tl).drop 2)
            = (pre ++ c0 :: tl).drop (pre.length + 1) := by
          rw [if_pos hc]
          simp [List.drop_append]
        rw [hX]
        apply key
        · exact le_refl _
        · simp
      · cases tl with
        | nil => simp at hc
        | cons d tl2 =>
          have hX : (if (c0 :: d :: tl2).getD 1 0 = 0 then (c0 :: d :: tl2).drop 1
              else (c0 :: d :: tl2).drop 2) = (pre ++ c0 :: d :: tl2).drop (pre.length + 2) := by
            rw [if_neg hc]
            simp [List.drop_append]
          rw [hX]
          apply key
          · omega
          · simp

/-- Claim C40.  The format renderer ends and does not read past the terminator:
in each pass of the loop of `keyword_printf`, either the byte at `cur` is the
terminator and the loop returns, or the next pass starts at least one byte
further and not beyond the terminator; for every format of less than `2^31`
bytes the function returns, within as many passes as the format has bytes plus
one; what stands after the terminator has no effect (the result is that of the
C string); a `%` that is the last byte before the terminator gives one `%` and
the loop stops at the terminator, whatever follows it. -/
theorem C40_printf_terminates (L : helpers) (rev url : Option (List Nat)) (date : Int)
    (author : Option (List Nat)) :
    (∀ (fuel : Nat) (fmt value : List Nat),
      ((fmt.drop (fmt.takeWhile (fun b => decide (b ≠ 0) && decide (b ≠ 37))).length).getD 0 0 = 0 →
        ∃ v, keyword_printf_loop L rev url date author (fuel + 1) fmt value = some v)
      ∧ ((fmt.drop (fmt.takeWhile (fun b => decide (b ≠ 0) && decide (b ≠ 37))).length).getD 0 0
          ≠ 0 →
        ∃ k v, (fmt.takeWhile (fun b => decide (b ≠ 0) && decide (b ≠ 37))).length + 1 ≤ k
          ∧ k ≤ fmt.length
          ∧ keyword_printf_loop L rev url date author (fuel + 1) fmt value
            = keyword_printf_loop L rev url date author fuel (fmt.drop k) v))
    ∧ (∀ fmt : List Nat, fmt.length < 2147483648 →
        ∃ v, keyword_printf_loop L rev url date author (fmt.length + 1) fmt [] = some v
          ∧ keyword_printf L fmt rev url date author = some v)
    ∧ (∀ fmt junk : List Nat, (fmt ++ 0 :: junk).length < 2147483648 →
        keyword_printf L (fmt ++ 0 :: junk) rev url date author
          = keyword_printf L (c_str fmt) rev url date author)
    ∧ (∀ pre junk : List Nat, (∀ b ∈ pre, b ≠ 0 ∧ b ≠ 37) →
        (pre ++ 37 :: 0 :: junk).length < 2147483648 →
        keyword_printf L (pre ++ [37]) rev url date author = some (pre ++ [37])
        ∧ keyword_printf L (pre ++ 37 :: 0 :: junk) rev url date author = some (pre ++ [37])) := by
  refine ⟨fun fuel fmt value => keyword_printf_loop_step L rev url date author fuel fmt value,
    ?_, ?_, ?_⟩
  · intro fmt hfmt
    exact ⟨_, keyword_printf_loop_eq L rev url date author (fmt.length + 1) fmt [] (by omega) hfmt,
      by rw [keyword_printf_eq L fmt rev url date author hfmt]; simp⟩
  · intro fmt junk hlen
    have hc : c_str (fmt ++ 0 :: junk) = c_str fmt := by
      obtain ⟨p, q, rfl, hp, hq, _⟩ : ∃ p q, fmt = p ++ q ∧ (∀ b ∈ p, b ≠ 0)
          ∧ (q = [] ∨ ∃ t, q = 0 :: t) ∧ True := by
        induction fmt with
        | nil => exact ⟨[], [], rfl, by simp, Or.inl rfl, trivial⟩
        | cons c rest ih =>
          by_cases h0 : c = 0
          · exact ⟨[], c :: rest, rfl, by simp, Or.inr ⟨rest, by rw [h0]⟩, trivial⟩
          · obtain ⟨p, q, hpq, hp, hq, _⟩ := ih (by
              simp only [List.length_append, List.length_cons] at hlen ⊢
              omega)
            refine ⟨c :: p, q, by rw [hpq]; rfl, ?_, hq, trivial⟩
            intro b hb
            rcases List.mem_cons.mp hb with rfl | hb
            · exact h0
            · exact hp b hb
      rw [List.append_assoc, c_str_append p _ hp, c_str_append p _ hp]
      rcases hq with rfl | ⟨t, rfl⟩
      · simp [c_str]
      · simp [c_str]
    have hl1 : (c_str fmt).length < 2147483648 := by
      have : (c_str fmt).length ≤ fmt.length := (List.takeWhile_sublist _).length_le
      simp only [List.length_append, List.length_cons] at hlen
      omega
    rw [keyword_printf_eq L _ rev url date author hlen,
      keyword_printf_eq L _ rev url date author hl1, hc,
      c_str_of_not_mem _ (c_str_no_nul fmt)]
  · intro pre junk hpre hlen
    have hl1 : (pre ++ [37]).length < 2147483648 := by
      simp only [List.length_append, List.length_cons, List.length_nil] at hlen ⊢
      omega
    have h0 : ∀ b ∈ pre, b ≠ 0 := fun b hb => (hpre b hb).1
    have h37 : ∀ b ∈ pre, b ≠ 37 := fun b hb => (hpre b hb).2
    constructor
    · rw [keyword_printf_eq L _ rev url date author hl1, c_str_append pre _ h0,
        render_append _ _ _ _ _ _ _ h37]
      simp [c_str, render]
    · rw [keyword_printf_eq L _ rev url date author hlen, c_str_append pre _ h0,
        render_append _ _ _ _ _ _ _ h37]
      simp [c_str, render]

/-- C40, witness: the format "ab%" followed by its terminator and the bytes
"%r" gives "ab%", with a revision set. -/
theorem C40_printf_terminates_witness :
    keyword_printf example_helpers (bytes "ab%") (some (bytes "42")) none 0 none
        = some (bytes "ab" ++ [37])
    ∧ keyword_printf example_helpers (bytes "ab" ++ 37 :: 0 :: bytes "%r") (some (bytes "42"))
        none 0 none = some (bytes "ab" ++ [37]) :=
  (C40_printf_terminates example_helpers (some (bytes "42")) none 0 none).2.2.2 (bytes "ab")
    (bytes "%r") (by decide) (by decide)

/-! ## The fixed-field builder -/

/-- Claim C33.  The fixed-field builder writes only the named slots: for every
keyword list and every record `kw`, `svn_subst_build_keywords` returns a
record in which the slot of each logical keyword (revision, date, author, url,
id) that no token of the list matches is what it was in `kw`, and the slot of
each keyword that a token matches holds the value that
`svn_subst_build_keywords2` stores under every alias of that keyword. -/
theorem C33_fixed_field_builder (L : helpers) (kw : svn_subst_keywords_t)
    (keywords_val : List Nat) (rev url : Option (List Nat)) (date : Int)
    (author : Option (List Nat)) :
    ∃ T kw1, svn_subst_build_keywords2 L keywords_val rev url date author = some T
      ∧ svn_subst_build_keywords L kw keywords_val rev url date author = some kw1
      ∧ ∀ k : logical_keyword,
          ((¬ ∃ tok ∈ svn_cstring_split keywords_val keyword_separators,
              token_keyword tok = some k) → keyword_field k kw1 = keyword_field k kw)
          ∧ ((∃ tok ∈ svn_cstring_split keywords_val keyword_separators,
              token_keyword tok = some k) →
            ∀ a ∈ aliases k, (apr_hash_get T a).isSome = true
              ∧ keyword_field k kw1 = apr_hash_get T a) := by
  obtain ⟨T, hT, hal, _⟩ := build_keywords2_spec L keywords_val rev url date author
  have h1 := hal logical_keyword.revision SVN_KEYWORD_REVISION_LONG (by simp [aliases])
  have h2 := hal logical_keyword.date SVN_KEYWORD_DATE_LONG (by simp [aliases])
  have h3 := hal logical_keyword.author SVN_KEYWORD_AUTHOR_LONG (by simp [aliases])
  have h4 := hal logical_keyword.url SVN_KEYWORD_URL_LONG (by simp [aliases])
  have h5 := hal logical_keyword.id SVN_KEYWORD_ID (by simp [aliases])
  have hb : svn_subst_build_keywords L kw keywords_val rev url date author
      = some (
        let kw :=
          match apr_hash_get T SVN_KEYWORD_REVISION_LONG with
          | some val => { kw with revision := some val }
          | none => kw
        let kw :=
          match apr_hash_get T SVN_KEYWORD_DATE_LONG with
          | some val => { kw with date := some val }
          | none => kw
        let kw :=
          match apr_hash_get T SVN_KEYWORD_AUTHOR_LONG with
          | some val => { kw with author := some val }
          | none => kw
        let kw :=
          match apr_hash_get T SVN_KEYWORD_URL_LONG with
          | some val => { kw with url := some val }
          | none => kw
        let kw :=
          match apr_hash_get T SVN_KEYWORD_ID with
          | some val => { kw with id := some val }
          | none => kw
        kw) := by
    unfold svn_subst_build_keywords
    rw [hT]
    try rfl
  refine ⟨T, _, hT, hb, ?_⟩
  intro k
  have hA := hal k
  clear hb hal
  revert h1 h2 h3 h4 h5
  generalize apr_hash_get T SVN_KEYWORD_REVISION_LONG = g1
  generalize apr_hash_get T SVN_KEYWORD_DATE_LONG = g2
  generalize apr_hash_get T SVN_KEYWORD_AUTHOR_LONG = g3
  generalize apr_hash_get T SVN_KEYWORD_URL_LONG = g4
  generalize apr_hash_get T SVN_KEYWORD_ID = g5
  intro h1 h2 h3 h4 h5
  constructor
  · intro hno
    cases k
    · rw [if_neg hno] at h1
      subst h1
      cases g2 <;> cases g3 <;> cases g4 <;> cases g5 <;> rfl
    · rw [if_neg hno] at h2
      subst h2
      cases g1 <;> cases g3 <;> cases g4 <;> cases g5 <;> rfl
    · rw [if_neg hno] at h3
      subst h3
      cases g1 <;> cases g2 <;> cases g4 <;> cases g5 <;> rfl
    · rw [if_neg hno] at h4
      subst h4
      cases g1 <;> cases g2 <;> cases g3 <;> cases g5 <;> rfl
    · rw [if_neg hno] at h5
      subst h5
      cases g1 <;> cases g2 <;> cases g3 <;> cases g4 <;> rfl
  · intro hyes a ha
    have hA := hA a ha
    rw [if_pos hyes] at hA
    refine ⟨by rw [hA]; rfl, ?_⟩
    rw [hA]
    cases k
    · rw [if_pos hyes] at h1
      subst h1
      cases g2 <;> cases g3 <;> cases g4 <;> cases g5 <;> rfl
    · rw [if_pos hyes] at h2
      subst h2
      cases g1 <;> cases g3 <;> cases g4 <;> cases g5 <;> rfl
    · rw [if_pos hyes] at h3
      subst h3
      cases g1 <;> cases g2 <;> cases g4 <;> cases g5 <;> rfl
    · rw [if_pos hyes] at h4
      subst h4
      cases g1 <;> cases g2 <;> cases g3 <;> cases g5 <;> rfl
    · rw [if_pos hyes] at h5
      subst h5
      cases g1 <;> cases g2 <;> cases g3 <;> cases g4 <;> rfl

/-- C33, example: with the list "Author Id", revision "42" and author "al",
the slots `author` and `id` are written and the other three are kept. -/
theorem C33_fixed_field_builder_example :
    svn_subst_build_keywords example_helpers
        (svn_subst_keywords_t.mk (some (bytes "r0")) none (some (bytes "a0")) (some (bytes "u0"))
          none)
        (bytes "Author Id") (some (bytes "42")) none 0 (some (bytes "al"))
      = some (svn_subst_keywords_t.mk (some (bytes "r0")) none (some (bytes "al"))
          (some (bytes "u0")) (some (bytes " 42  al"))) := by
  decide

/-- C33, witness: with the list "Author Id" no token matches the revision
keyword, whose slot is kept, and a token matches the author keyword, whose slot
holds what the table has under `Author`. -/
theorem C33_fixed_field_builder_witness :
    ∃ T kw1, svn_subst_build_keywords2 example_helpers (bytes "Author Id") (some (bytes "42"))
          none 0 (some (bytes "al")) = some T
      ∧ svn_subst_build_keywords example_helpers
          (svn_subst_keywords_t.mk (some (bytes "r0")) none (some (bytes "a0"))
            (some (bytes "u0")) none)
          (bytes "Author Id") (some (bytes "42")) none 0 (some (bytes "al")) = some kw1
      ∧ keyword_field logical_keyword.revision kw1 = some (bytes "r0")
      ∧ (apr_hash_get T (bytes "Author")).isSome = true
      ∧ keyword_field logical_keyword.author kw1 = apr_hash_get T (bytes "Author") := by
  obtain ⟨T, kw1, h1, h2, h3⟩ := C33_fixed_field_builder example_helpers
    (svn_subst_keywords_t.mk (some (bytes "r0")) none (some (bytes "a0")) (some (bytes "u0")) none)
    (bytes "Author Id") (some (bytes "42")) none 0 (some (bytes "al"))
  exact ⟨T, kw1, h1, h2, (h3 logical_keyword.revision).1 (by decide),
    (h3 logical_keyword.author).2 (by decide) (bytes "Author") (by decide)⟩

/-! ## Names are compared exactly by the rewriter -/

/-- Claim C39.  Token names are matched byte for byte at rewrite time: for
every table made by `svn_subst_build_keywords2` and every candidate token (2 to
255 bytes, the first and the last byte `$`) whose extracted name is not exactly
one of `LastChangedRevision`, `Revision`, `Rev`, `LastChangedDate`, `Date`,
`LastChangedBy`, `Author`, `HeadURL`, `URL`, `Id`, the rewriter returns false
in both directions and leaves the token.  With the keyword list "rev", which
matches the revision keyword without regard to case, the token `$Rev$` is
expanded and the token `$rev$` is written as it is. -/
theorem C39_case_sensitive (L : helpers) (keywords_val : List Nat)
    (rev url : Option (List Nat)) (date : Int) (author : Option (List Nat)) :
    (∃ T, svn_subst_build_keywords2 L keywords_val rev url date author = some T
      ∧ ∀ (buf : List Nat) (x : Bool), buf.length ≤ 255 → 2 ≤ buf.length →
          buf.getD 0 0 = 36 → buf.getD (buf.length - 1) 0 = 36 →
          keyword_name buf ∉ [bytes "LastChangedRevision", bytes "Revision", bytes "Rev",
            bytes "LastChangedDate", bytes "Date", bytes "LastChangedBy", bytes "Author",
            bytes "HeadURL", bytes "URL", bytes "Id"] →
          translate_keyword buf x (some T) = some (false, buf))
    ∧ svn_subst_build_keywords2 example_helpers (bytes "rev") (some (bytes "42")) none 0 none
        = some [(bytes "Rev", bytes "42"), (bytes "Revision", bytes "42"),
            (bytes "LastChangedRevision", bytes "42")]
    ∧ svn_subst_translate_stream3 16 (bytes "$Rev$ $rev$") none false
        (some [(bytes "Rev", bytes "42"), (bytes "Revision", bytes "42"),
            (bytes "LastChangedRevision", bytes "42")]) true
        = Except.ok (bytes "$Rev: 42 $ $rev$") := by
  refine ⟨?_, by decide, by decide⟩
  obtain ⟨T, hT, _, hnone⟩ := build_keywords2_spec L keywords_val rev url date author
  refine ⟨T, hT, ?_⟩
  intro buf x hlen h2 h0 hl hname
  apply translate_keyword_unknown buf x T hlen h2 h0 hl
  apply hnone
  intro k hk
  apply hname
  cases k <;> revert hk <;> simp only [aliases, SVN_KEYWORD_REVISION_LONG,
    SVN_KEYWORD_REVISION_MEDIUM, SVN_KEYWORD_REVISION_SHORT, SVN_KEYWORD_DATE_LONG,
    SVN_KEYWORD_DATE_SHORT, SVN_KEYWORD_AUTHOR_LONG, SVN_KEYWORD_AUTHOR_SHORT,
    SVN_KEYWORD_URL_LONG, SVN_KEYWORD_URL_SHORT, SVN_KEYWORD_ID, List.mem_cons,
    List.mem_singleton, List.not_mem_nil, or_false] <;> intro hk <;> tauto

/-- C39, witness: in the table of the list "rev" the token `$rev$`, whose name
is not one of the ten, is left by the rewriter. -/
theorem C39_case_sensitive_witness :
    ∃ T, svn_subst_build_keywords2 example_helpers (bytes "rev") (some (bytes "42")) none 0 none
        = some T
      ∧ translate_keyword (bytes "$rev$") true (some T) = some (false, bytes "$rev$") := by
  obtain ⟨T, hT, h⟩ := (C39_case_sensitive example_helpers (bytes "rev") (some (bytes "42"))
    none 0 none).1
  exact ⟨T, hT, h (bytes "$rev$") true (by decide) (by decide) (by decide) (by decide)
    (by decide)⟩

/-! ## The invariant of the translator -/

/-- The invariant does not depend on `repair` and `expand`. -/
theorem stream_inv_opts (e : Option (List Nat)) (kw : Option apr_hash_t) (r x r1 x1 : Bool)
    (st : xlate) (h : stream_inv (opts.mk e r kw x) st) : stream_inv (opts.mk e r1 kw x1) st := h

/-- The tail of a token after the name, in the fixed-width branch. -/
theorem shape_fixed (n rest : List Nat)
    (h0 : (rest ++ [36]).getD 0 0 = 58) (h1 : (rest ++ [36]).getD 1 0 = 58)
    (h2 : (rest ++ [36]).getD 2 0 = 32)
    (ht : (36 :: (n ++ (rest ++ [36]))).getD ((36 :: (n ++ (rest ++ [36]))).length - 2) 0 = 32
      ∨ (36 :: (n ++ (rest ++ [36]))).getD ((36 :: (n ++ (rest ++ [36]))).length - 2) 0 = 35)
    (hlen : 5 < (rest ++ [36]).length) :
    ∃ body t, rest ++ [36] = 58 :: 58 :: 32 :: (body ++ [t, 36]) ∧ body ≠ []
      ∧ (t = 32 ∨ t = 35) := by
  match rest, h0, h1, h2, ht, hlen with
  | a :: b :: c :: r3, h0, h1, h2, ht, hlen =>
    simp only [List.cons_append, List.getD_cons_zero, List.getD_cons_succ] at h0 h1 h2
    subst h0 h1 h2
    simp only [List.cons_append, List.length_cons, List.length_append, List.length_nil] at hlen
    rcases List.eq_nil_or_concat r3 with rfl | ⟨body, t, rfl⟩
    · simp at hlen
    · have hb : body ≠ [] := by
        intro hb
        subst hb
        simp at hlen
      refine ⟨body, t, by simp, hb, ?_⟩
      have := tok_last2 n (58 :: 58 :: 32 :: body) t
      simp only [List.concat_eq_append, List.cons_append, List.append_assoc, List.singleton_append, List.nil_append] at ht this ⊢
      rw [this] at ht
      exact ht
  | [], _, _, _, _, hlen => simp at hlen
  | [_], _, _, _, _, hlen => simp at hlen
  | [_, _], _, _, _, _, hlen => simp at hlen

/-- The tail of a token after the name, in the unexpanded branch. -/
theorem shape_bare (rest : List Nat) (h36 : 36 ∉ rest)
    (h : (rest ++ [36]).getD 0 0 = 36
      ∨ ((rest ++ [36]).getD 0 0 = 58 ∧ (rest ++ [36]).getD 1 0 = 36)) :
    rest ++ [36] = [36] ∨ rest ++ [36] = [58, 36] := by
  match rest, h36, h with
  | [], _, _ => exact Or.inl rfl
  | [a], h36, h =>
    simp only [List.cons_append, List.nil_append, List.getD_cons_zero, List.getD_cons_succ] at h
    rcases h with h | ⟨h, _⟩
    · exact absurd (by simp [h]) h36
    · subst h
      exact Or.inr rfl
  | a :: b :: r, h36, h =>
    simp only [List.cons_append, List.getD_cons_zero, List.getD_cons_succ] at h
    rcases h with h | ⟨_, h⟩
    · exact absurd (by simp [h]) h36
    · exact absurd (by simp [h]) h36

/-- The tail of a token after the name, in the expanded branch. -/
theorem shape_expanded (n rest : List Nat)
    (hlen : 3 ≤ (rest ++ [36]).length)
    (h0 : (rest ++ [36]).getD 0 0 = 58) (h1 : (rest ++ [36]).getD 1 0 = 32)
    (ht : (36 :: (n ++ (rest ++ [36]))).getD ((36 :: (n ++ (rest ++ [36]))).length - 2) 0 = 32) :
    ∃ m, rest ++ [36] = 58 :: (m ++ [32, 36]) ∧ (m = [] ∨ ∃ w, m = 32 :: w) := by
  match rest, hlen, h0, h1, ht with
  | [], hlen, _, _, _ => simp at hlen
  | [_], hlen, _, _, _ => simp at hlen
  | a :: b :: r3, _, h0, h1, ht =>
    simp only [List.cons_append, List.getD_cons_zero, List.getD_cons_succ] at h0 h1
    subst h0 h1
    rcases List.eq_nil_or_concat r3 with rfl | ⟨w, t, rfl⟩
    · exact ⟨[], rfl, Or.inl rfl⟩
    · have := tok_last2 n (58 :: 32 :: w) t
      simp only [List.concat_eq_append, List.cons_append, List.append_assoc, List.singleton_append, List.nil_append] at ht this ⊢
      rw [this] at ht
      subst ht
      exact ⟨32 :: w, by simp, Or.inr ⟨w, rfl⟩⟩

/-! ## The bytes that the rewriter leaves in the buffer -/

theorem write_at_all (P : Nat → Prop) (h0 : P 0) (buf bs : List Nat) (off : Nat)
    (hbuf : ∀ c ∈ buf, P c) (hbs : ∀ c ∈ bs, P c) : ∀ c ∈ write_at buf off bs, P c := by
  intro c hc
  unfold write_at at hc
  simp only [List.mem_append, List.mem_replicate] at hc
  rcases hc with ((hc | hc) | hc) | hc
  · exact hbuf c (List.mem_of_mem_take hc)
  · rw [hc.2]; exact h0
  · exact hbs c hc
  · exact hbuf c (List.mem_of_mem_drop hc)

theorem poke_all (P : Nat → Prop) (h0 : P 0) (buf : List Nat) (i b : Nat)
    (hbuf : ∀ c ∈ buf, P c) (hb : P b) : ∀ c ∈ poke buf i b, P c :=
  write_at_all P h0 buf [b] i hbuf (by simpa using hb)

theorem strncpy_bytes_all (P : Nat → Prop) (h0 : P 0) :
    ∀ (v : List Nat) (k : Nat), (∀ c ∈ v, P c) → ∀ c ∈ strncpy_bytes v k, P c := by
  intro v
  induction v with
  | nil =>
    intro k _ c hc
    cases k with
    | zero => simp [strncpy_bytes] at hc
    | succ k =>
      simp only [strncpy_bytes, List.mem_replicate] at hc
      rw [hc.2]; exact h0
  | cons a rest ih =>
    intro k hv c hc
    cases k with
    | zero => simp [strncpy_bytes] at hc
    | succ k =>
      simp only [strncpy_bytes] at hc
      by_cases ha : a = 0
      · rw [if_pos ha, List.mem_replicate] at hc
        rw [hc.2]; exact h0
      · rw [if_neg ha, List.mem_cons] at hc
        rcases hc with hc | hc
        · rw [hc]; exact hv a (List.mem_cons_self _ _)
        · exact ih k (fun d hd => hv d (List.mem_cons_of_mem _ hd)) c hc

theorem strncpy_all (P : Nat → Prop) (h0 : P 0) (buf v : List Nat) (off k : Nat)
    (hbuf : ∀ c ∈ buf, P c) (hv : ∀ c ∈ v, P c) : ∀ c ∈ strncpy buf off v k, P c :=
  write_at_all P h0 buf _ off hbuf (strncpy_bytes_all P h0 v k hv)

theorem fill_spaces_all (P : Nat → Prop) (h32 : P 32) :
    ∀ (l : List Nat), (∀ c ∈ l, P c) → ∀ c ∈ fill_spaces l, P c := by
  intro l
  induction l with
  | nil => intro _ c hc; simp [fill_spaces] at hc
  | cons a rest ih =>
    intro hl c hc
    simp only [fill_spaces] at hc
    by_cases ha : a = 36
    · rw [if_pos ha] at hc
      exact hl c hc
    · rw [if_neg ha, List.mem_cons] at hc
      rcases hc with hc | hc
      · rw [hc]; exact h32
      · exact ih (fun d hd => hl d (List.mem_cons_of_mem _ hd)) c hc

theorem expand_at_all (P : Nat → Prop) (h0 : P 0) (h32 : P 32) (h36 : P 36) (h58 : P 58)
    (buf v : List Nat) (p kl : Nat) (hbuf : ∀ c ∈ buf, P c) (hv : ∀ c ∈ v, P c) :
    ∀ c ∈ expand_at buf p kl v, P c := by
  intro c hc
  unfold expand_at at hc
  simp only [] at hc
  have h1 := poke_all P h0 _ (p + 1) 32 (poke_all P h0 buf p 58 hbuf h58) h32
  split at hc
  · exact poke_all P h0 _ _ 36 (poke_all P h0 _ _ 32 (strncpy_all P h0 _ v _ _ h1 hv) h32) h36 c
      (List.mem_of_mem_take hc)
  · exact poke_all P h0 _ _ 36 h1 h36 c (List.mem_of_mem_take hc)

/-- Every byte that `translate_keyword_subst` leaves in the buffer is a byte of
the buffer, a byte of the value, a NUL, a space, `#`, `$` or a colon. -/
theorem translate_keyword_subst_all (P : Nat → Prop) (h0 : P 0) (h32 : P 32) (h35 : P 35)
    (h36 : P 36) (h58 : P 58) (buf keyword : List Nat) (value : Option (List Nat))
    (b : Bool) (out : List Nat) (hbuf : ∀ c ∈ buf, P c)
    (hv : ∀ v, value = some v → ∀ c ∈ v, P c)
    (h : translate_keyword_subst buf keyword value = some (b, out)) : ∀ c ∈ out, P c := by
  unfold translate_keyword_subst at h
  simp only [] at h
  repeat' (split at h)
  all_goals first
    | (cases h; exact hbuf)
    | (simp at h; done)
    | (cases h
       intro c hc
       rcases List.mem_append.mp hc with hc | hc
       · first
         | exact hbuf c (List.mem_of_mem_take hc)
         | exact strncpy_all P h0 _ _ _ _ hbuf (hv _ rfl) c (List.mem_of_mem_take hc)
       · first
         | exact fill_spaces_all P h32 _ (fun d hd => hbuf d (List.mem_of_mem_drop hd)) c hc
         | exact fill_spaces_all P h32 _
             (fun d hd => strncpy_all P h0 _ _ _ _ hbuf (hv _ rfl) d (List.mem_of_mem_drop hd)) c hc)
    | (cases h
       exact poke_all P h0 _ _ 36 (poke_all P h0 _ _ 35
         (strncpy_all P h0 _ _ _ _ hbuf (hv _ rfl)) h35) h36)
    | (cases h
       exact expand_at_all P h0 h32 h36 h58 _ _ _ _ hbuf (hv _ rfl))
    | (cases h
       intro c hc
       exact poke_all P h0 _ _ 36 hbuf h36 c (List.mem_of_mem_take hc))

/-- Every byte that `translate_keyword` leaves in the buffer is a byte of the
buffer, a byte of a value of the table, a NUL, a space, `#`, `$` or a colon. -/
theorem translate_keyword_all (P : Nat → Prop) (h0 : P 0) (h32 : P 32) (h35 : P 35)
    (h36 : P 36) (h58 : P 58) (buf : List Nat) (x : Bool) (T : apr_hash_t)
    (b : Bool) (out : List Nat) (hbuf : ∀ c ∈ buf, P c)
    (hT : ∀ n v, apr_hash_get T n = some v → ∀ c ∈ v, P c)
    (h : translate_keyword buf x (some T) = some (b, out)) : ∀ c ∈ out, P c := by
  unfold translate_keyword at h
  simp only [] at h
  split at h
  · simp at h
  split at h
  · simp at h
  split at h
  · simp at h
  cases hget : apr_hash_get T (c_str (keyword_name buf)) with
  | none =>
    rw [hget] at h
    cases h
    exact hbuf
  | some value =>
    rw [hget] at h
    simp only [] at h
    refine translate_keyword_subst_all P h0 h32 h35 h36 h58 _ _ _ b out hbuf ?_ h
    intro v hv
    cases x
    · simp at hv
    · simp only [if_true, Option.some.injEq] at hv
      subst hv
      exact hT _ _ hget

/-- The extracted name of a candidate token whose inside has no `$`: the bytes
of the inside before its first colon. -/
theorem keyword_name_mid (mid : List Nat) :
    keyword_name (36 :: (mid ++ [36])) = mid.takeWhile (fun b => decide (b ≠ 58)) := by
  unfold keyword_name
  have h1 : (36 :: (mid ++ [36])).length - 2 = mid.length := by simp
  rw [h1]
  simp only [List.drop_succ_cons, List.drop_zero]
  rw [List.take_left]

/-- A token that the rewriter accepts: its name is a key of the table, without
colon or NUL, and what follows the name has one of the four shapes `$`, `:$`,
`: ... $` (a colon and a space, a space before the `$`) and `:: ... $`. -/
theorem matched_shape (T : apr_hash_t) (x : Bool) (mid out : List Nat) (h36 : 36 ∉ mid)
    (hl : mid.length ≤ 253)
    (h : translate_keyword (36 :: (mid ++ [36])) x (some T) = some (true, out)) :
    ∃ n rest v, mid = n ++ rest ∧ apr_hash_get T n = some v ∧ 58 ∉ n ∧ 0 ∉ n
      ∧ (rest ++ [36] = [36] ∨ rest ++ [36] = [58, 36]
        ∨ (∃ m, rest ++ [36] = 58 :: (m ++ [32, 36]) ∧ (m = [] ∨ ∃ w, m = 32 :: w))
        ∨ (∃ body t, rest ++ [36] = 58 :: 58 :: 32 :: (body ++ [t, 36]) ∧ body ≠ []
            ∧ (t = 32 ∨ t = 35))) := by
  have hlen : (36 :: (mid ++ [36])).length ≤ 255 := by simp; omega
  have h2 : 2 ≤ (36 :: (mid ++ [36])).length := by simp
  have hf : (36 :: (mid ++ [36])).getD 0 0 = 36 := rfl
  have hlast : (36 :: (mid ++ [36])).getD ((36 :: (mid ++ [36])).length - 1) 0 = 36 := by
    have := tok_last [] mid
    simp only [List.nil_append] at this
    exact this
  have hz : 0 ∉ keyword_name (36 :: (mid ++ [36])) := by
    intro hz
    rw [translate_keyword_nul_name _ x T hlen h2 hf hlast hz] at h
    simp at h
  rw [translate_keyword_lookup _ x T hlen h2 hf hlast, c_str_of_not_mem _ hz] at h
  rw [keyword_name_mid] at h hz
  generalize hn : mid.takeWhile (fun b => decide (b ≠ 58)) = n at h hz
  have hsplit : mid = n ++ mid.dropWhile (fun b => decide (b ≠ 58)) := by
    rw [← hn, List.takeWhile_append_dropWhile]
  generalize hr : mid.dropWhile (fun b => decide (b ≠ 58)) = rest at hsplit
  have hn58 : 58 ∉ n := by
    intro hmem
    rw [← hn] at hmem
    have := List.mem_takeWhile_imp hmem
    simp at this
  cases hget : apr_hash_get T n with
  | none =>
    rw [hget] at h
    simp at h
  | some v =>
    rw [hget] at h
    simp only [] at h
    refine ⟨n, rest, v, hsplit, hget, hn58, hz, ?_⟩
    have h36r : 36 ∉ rest := fun hmem => h36 (by rw [hsplit]; exact List.mem_append_right _ hmem)
    have e : 36 :: (mid ++ [36]) = 36 :: (n ++ (rest ++ [36])) := by
      rw [hsplit]; simp
    rw [e] at h hlen hlast
    rw [subst_pre n (rest ++ [36]) _ (by simp) hlen hlast] at h
    by_cases c1 : (rest ++ [36]).getD 0 0 = 58 ∧ (rest ++ [36]).getD 1 0 = 58
        ∧ (rest ++ [36]).getD 2 0 = 32
        ∧ ((36 :: (n ++ (rest ++ [36]))).getD ((36 :: (n ++ (rest ++ [36]))).length - 2) 0 = 32
          ∨ (36 :: (n ++ (rest ++ [36]))).getD ((36 :: (n ++ (rest ++ [36]))).length - 2) 0 = 35)
        ∧ 5 < (rest ++ [36]).length
    · exact Or.inr (Or.inr (Or.inr
        (shape_fixed n rest c1.1 c1.2.1 c1.2.2.1 c1.2.2.2.1 c1.2.2.2.2)))
    · rw [if_neg c1] at h
      by_cases c2 : (rest ++ [36]).getD 0 0 = 36
          ∨ ((rest ++ [36]).getD 0 0 = 58 ∧ (rest ++ [36]).getD 1 0 = 36)
      · rcases shape_bare rest h36r c2 with h | h
        · exact Or.inl h
        · exact Or.inr (Or.inl h)
      · rw [if_neg c2] at h
        by_cases c3 : 3 ≤ (rest ++ [36]).length ∧ (rest ++ [36]).getD 0 0 = 58
            ∧ (rest ++ [36]).getD 1 0 = 32
            ∧ (36 :: (n ++ (rest ++ [36]))).getD ((36 :: (n ++ (rest ++ [36]))).length - 2) 0 = 32
        · exact Or.inr (Or.inr (Or.inl (shape_expanded n rest c3.1 c3.2.1 c3.2.2.1 c3.2.2.2)))
        · rw [if_neg c3] at h
          simp at h

/-! ## A rewritten token is rewritten to itself -/

theorem clean_left (a b : List Nat) (h : clean (a ++ b)) : clean a :=
  fun c hc => h c (List.mem_append_left _ hc)

theorem clean_right (a b : List Nat) (h : clean (a ++ b)) : clean b :=
  fun c hc => h c (List.mem_append_right _ hc)

theorem clean_replicate (k : Nat) : clean (List.replicate k 32) := by
  intro c hc
  rw [List.mem_replicate] at hc
  rw [hc.2]
  decide

theorem clean_not_mem (a : List Nat) (h : clean a) : 36 ∉ a := fun hm => (h 36 hm).1 rfl

/-- Contraction: what the rewriter leaves of a token it accepts is a token that
it accepts and leaves as it is. -/
theorem contract_stable (T : apr_hash_t) (mid out : List Nat) (hc : clean mid)
    (hl : mid.length ≤ 253)
    (h : translate_keyword (36 :: (mid ++ [36])) false (some T) = some (true, out)) :
    ∃ mid1, out = 36 :: (mid1 ++ [36]) ∧ clean mid1 ∧ mid1.length ≤ 253
      ∧ translate_keyword (36 :: (mid1 ++ [36])) false (some T)
          = some (true, 36 :: (mid1 ++ [36])) := by
  obtain ⟨n, rest, v, hsplit, hget, hn58, hn0, hshape⟩ :=
    matched_shape T false mid out (clean_not_mem mid hc) hl h
  have e : 36 :: (mid ++ [36]) = 36 :: (n ++ (rest ++ [36])) := by
    rw [hsplit]; simp
  have hlen : (36 :: (n ++ (rest ++ [36]))).length ≤ 255 := by
    rw [← e]; simp; omega
  have hcn : clean n := clean_left n rest (hsplit ▸ hc)
  have hcr : clean rest := clean_right n rest (hsplit ▸ hc)
  rw [e] at h
  have hbare : ∀ tail, rest ++ [36] = tail → (tail = [36] ∨ tail = [58, 36]) →
      ∃ mid1, out = 36 :: (mid1 ++ [36]) ∧ clean mid1 ∧ mid1.length ≤ 253
        ∧ translate_keyword (36 :: (mid1 ++ [36])) false (some T)
            = some (true, 36 :: (mid1 ++ [36])) := by
    intro tail ht hcase
    have h1 := h
    rw [ht] at h1 hlen
    rw [bare_contract T n v tail hn58 hn0 hget hcase hlen] at h1
    have ho : out = 36 :: (mid ++ [36]) := by
      rw [e, ht]
      simp only [Option.some.injEq, Prod.mk.injEq, true_and] at h1
      exact h1.symm
    refine ⟨mid, ho, hc, hl, ?_⟩
    rw [e]
    rw [ho, e] at h
    exact h
  rcases hshape with hs | hs | ⟨m, hs, hm⟩ | ⟨body, t, hs, hb, ht⟩
  · exact hbare _ hs (Or.inl rfl)
  · exact hbare _ hs (Or.inr rfl)
  · rw [hs] at h hlen
    rw [expanded_contract T n v m hn58 hn0 hget hm hlen] at h
    simp only [Option.some.injEq, Prod.mk.injEq, true_and] at h
    refine ⟨n, by rw [← h]; rfl, hcn, ?_, ?_⟩
    · rw [hsplit] at hl
      simp only [List.length_append] at hl
      omega
    · exact bare_contract T n v [36] hn58 hn0 hget (Or.inl rfl) (by
        simp only [List.length_cons, List.length_append] at hlen ⊢
        simp only [List.length_nil] at hlen ⊢
        omega)
  · have e2 : 36 :: (n ++ 58 :: 58 :: 32 :: (body ++ [t, 36])) = tok_fixed n body t := by
      simp [tok_fixed]
    rw [hs, e2] at h hlen
    rw [fixed_rewrite T n v body t false hn58 hn0 hget ht hb hlen] at h
    have e3 : rest = 58 :: 58 :: 32 :: (body ++ [t]) :=
      List.append_cancel_right
        (show rest ++ [36] = (58 :: 58 :: 32 :: (body ++ [t])) ++ [36] by rw [hs]; simp)
    have hcb : clean body := by
      intro c hmem
      exact hcr c (by rw [e3]; simp [hmem])
    simp only [Bool.false_eq_true, if_false, Option.some.injEq, Prod.mk.injEq, true_and] at h
    have hfill := fill_spaces_tail body t 0 (clean_not_mem body hcb) ht (Nat.zero_le _)
    simp only [List.drop_zero, Nat.sub_zero] at hfill
    rw [hfill] at h
    have hlm : mid.length = n.length + body.length + 4 := by
      rw [hsplit, e3]; simp; omega
    refine ⟨n ++ 58 :: 58 :: 32 :: (List.replicate body.length 32 ++ [32]), ?_, ?_, ?_, ?_⟩
    · rw [← h]; simp
    · intro c hmem
      simp only [List.mem_append, List.mem_cons, List.mem_replicate, List.mem_singleton,
        List.not_mem_nil, or_false] at hmem
      rcases hmem with hmem | rfl | rfl | rfl | hmem | rfl
      · exact hcn c hmem
      · decide
      · decide
      · decide
      · rw [hmem.2]; decide
      · decide
    · simp; omega
    · have e4 : 36 :: ((n ++ 58 :: 58 :: 32 :: (List.replicate body.length 32 ++ [32])) ++ [36])
          = tok_fixed n (List.replicate body.length 32) 32 := by
        simp [tok_fixed]
      have hb2 : List.replicate body.length 32 ≠ [] := by
        intro hh
        have := congrArg List.length hh
        simp only [List.length_replicate, List.length_nil] at this
        exact hb (List.length_eq_zero.mp this)
      rw [e4, fixed_rewrite T n v _ 32 false hn58 hn0 hget (Or.inl rfl) hb2 (by
        rw [tok_fixed_length] at hlen ⊢
        simpa using hlen)]
      have hfill2 := fill_spaces_tail (List.replicate body.length 32) 32 0
        (clean_not_mem _ (clean_replicate _)) (Or.inl rfl) (Nat.zero_le _)
      simp only [List.drop_zero, Nat.sub_zero, List.length_replicate] at hfill2
      simp only [Bool.false_eq_true, if_false]
      rw [hfill2]
      simp [tok_fixed]

theorem clean_strncpy_bytes (v : List Nat) (k : Nat) (h : clean v) : clean (strncpy_bytes v k) :=
  strncpy_bytes_all (fun b => b ≠ 36 ∧ b ≠ 13 ∧ b ≠ 10) (by decide) v k h

/-- Expansion, with values that have no `$`, CR or LF and fit: what the
rewriter leaves of a token it accepts is a token that it accepts and leaves as
it is. -/
theorem expand_stable (T : apr_hash_t)
    (hT : ∀ n v, apr_hash_get T n = some v → clean v ∧ 5 + n.length + v.length ≤ 255)
    (mid out : List Nat) (hc : clean mid) (hl : mid.length ≤ 253)
    (h : translate_keyword (36 :: (mid ++ [36])) true (some T) = some (true, out)) :
    ∃ mid1, out = 36 :: (mid1 ++ [36]) ∧ clean mid1 ∧ mid1.length ≤ 253
      ∧ translate_keyword (36 :: (mid1 ++ [36])) true (some T)
          = some (true, 36 :: (mid1 ++ [36])) := by
  obtain ⟨n, rest, v, hsplit, hget, hn58, hn0, hshape⟩ :=
    matched_shape T true mid out (clean_not_mem mid hc) hl h
  obtain ⟨hcv, hfit⟩ := hT n v hget
  have e : 36 :: (mid ++ [36]) = 36 :: (n ++ (rest ++ [36])) := by
    rw [hsplit]; simp
  have hlen : (36 :: (n ++ (rest ++ [36]))).length ≤ 255 := by
    rw [← e]; simp; omega
  have hcn : clean n := clean_left n rest (hsplit ▸ hc)
  have hcr : clean rest := clean_right n rest (hsplit ▸ hc)
  have hk : (if v.length > 250 then 250 else v.length) = v.length := by
    rw [if_neg (by omega)]
  rw [e] at h
  -- the result of the unexpanded and of the expanded branch
  have hplain : out = (if v = [] then 36 :: n ++ [58, 32, 36]
      else 36 :: n ++ [58, 32] ++ strncpy_bytes v v.length ++ [32, 36]) →
      ∃ mid1, out = 36 :: (mid1 ++ [36]) ∧ clean mid1 ∧ mid1.length ≤ 253
        ∧ translate_keyword (36 :: (mid1 ++ [36])) true (some T)
            = some (true, 36 :: (mid1 ++ [36])) := by
    intro ho
    by_cases hv : v = []
    · rw [if_pos hv] at ho
      refine ⟨n ++ [58, 32], by rw [ho]; simp, ?_, ?_, ?_⟩
      · intro c hmem
        simp only [List.mem_append, List.mem_cons, List.mem_singleton, List.not_mem_nil,
          or_false] at hmem
        rcases hmem with hmem | rfl | rfl
        · exact hcn c hmem
        · decide
        · decide
      · simp; omega
      · have e5 : 36 :: ((n ++ [58, 32]) ++ [36]) = 36 :: (n ++ 58 :: ([] ++ [32, 36])) := by
          simp
        rw [e5, expanded_expand T n v [] hn58 hn0 hget (Or.inl rfl) (by simp; omega), if_pos hv]
        simp
    · rw [if_neg hv] at ho
      refine ⟨n ++ [58, 32] ++ strncpy_bytes v v.length ++ [32], by rw [ho]; simp, ?_, ?_, ?_⟩
      · intro c hmem
        simp only [List.mem_append, List.mem_cons, List.mem_singleton, List.not_mem_nil,
          or_false] at hmem
        rcases hmem with ((hmem | rfl | rfl) | hmem) | rfl
        · exact hcn c hmem
        · decide
        · decide
        · exact clean_strncpy_bytes v _ hcv c hmem
        · decide
      · simp [strncpy_bytes_length]; omega
      · have e5 : 36 :: ((n ++ [58, 32] ++ strncpy_bytes v v.length ++ [32]) ++ [36])
            = 36 :: (n ++ 58 :: ((32 :: strncpy_bytes v v.length) ++ [32, 36])) := by
          simp
        rw [e5, expanded_expand T n v _ hn58 hn0 hget (Or.inr ⟨_, rfl⟩) (by
          simp [strncpy_bytes_length]; omega), if_neg hv, hk]
        simp
  have hbare : ∀ tail, rest ++ [36] = tail → (tail = [36] ∨ tail = [58, 36]) →
      ∃ mid1, out = 36 :: (mid1 ++ [36]) ∧ clean mid1 ∧ mid1.length ≤ 253
        ∧ translate_keyword (36 :: (mid1 ++ [36])) true (some T)
            = some (true, 36 :: (mid1 ++ [36])) := by
    intro tail ht hcase
    have h1 := h
    rw [ht] at h1 hlen
    rw [bare_expand T n v tail hn58 hn0 hget hcase hlen, hk] at h1
    simp only [Option.some.injEq, Prod.mk.injEq, true_and] at h1
    exact hplain h1.symm
  rcases hshape with hs | hs | ⟨m, hs, hm⟩ | ⟨body, t, hs, hb, ht⟩
  · exact hbare _ hs (Or.inl rfl)
  · exact hbare _ hs (Or.inr rfl)
  · rw [hs] at h hlen
    rw [expanded_expand T n v m hn58 hn0 hget hm hlen, hk] at h
    simp only [Option.some.injEq, Prod.mk.injEq, true_and] at h
    exact hplain h.symm
  · have e2 : 36 :: (n ++ 58 :: 58 :: 32 :: (body ++ [t, 36])) = tok_fixed n body t := by
      simp [tok_fixed]
    rw [hs, e2] at h hlen
    rw [fixed_rewrite T n v body t true hn58 hn0 hget ht hb hlen] at h
    have e3 : rest = 58 :: 58 :: 32 :: (body ++ [t]) :=
      List.append_cancel_right
        (show rest ++ [36] = (58 :: 58 :: 32 :: (body ++ [t])) ++ [36] by rw [hs]; simp)
    have hcb : clean body := by
      intro c hmem
      exact hcr c (by rw [e3]; simp [hmem])
    have hlm : mid.length = n.length + body.length + 4 := by
      rw [hsplit, e3]; simp; omega
    simp only [if_true, Option.some.injEq, Prod.mk.injEq, true_and] at h
    by_cases hvb : v.length ≤ body.length
    · rw [if_pos hvb, fill_spaces_tail body t v.length (clean_not_mem body hcb) ht hvb] at h
      have hcb1 : clean (strncpy_bytes v v.length ++ List.replicate (body.length - v.length) 32) := by
        intro c hmem
        rcases List.mem_append.mp hmem with hmem | hmem
        · exact clean_strncpy_bytes v _ hcv c hmem
        · exact clean_replicate _ c hmem
      have hlb1 : (strncpy_bytes v v.length ++ List.replicate (body.length - v.length) 32).length
          = body.length := by
        simp [strncpy_bytes_length]; omega
      refine ⟨n ++ 58 :: 58 :: 32 :: ((strncpy_bytes v v.length
          ++ List.replicate (body.length - v.length) 32) ++ [32]), ?_, ?_, ?_, ?_⟩
      · rw [← h]; simp
      · intro c hmem
        simp only [List.mem_append, List.mem_cons, List.mem_singleton, List.not_mem_nil,
          or_false] at hmem
        rcases hmem with hmem | rfl | rfl | rfl | hmem | rfl
        · exact hcn c hmem
        · decide
        · decide
        · decide
        · exact hcb1 c (List.mem_append.mpr hmem)
        · decide
      · simp only [List.length_append, List.length_cons, List.length_nil] at hlb1 ⊢
        omega
      · have e4 : 36 :: ((n ++ 58 :: 58 :: 32 :: ((strncpy_bytes v v.length
            ++ List.replicate (body.length - v.length) 32) ++ [32])) ++ [36])
            = tok_fixed n (strncpy_bytes v v.length
                ++ List.replicate (body.length - v.length) 32) 32 := by
          simp [tok_fixed]
        have hb2 : strncpy_bytes v v.length ++ List.replicate (body.length - v.length) 32 ≠ [] := by
          intro hh
          have := congrArg List.length hh
          rw [hlb1] at this
          exact hb (List.length_eq_zero.mp this)
        rw [e4, fixed_rewrite T n v _ 32 true hn58 hn0 hget (Or.inl rfl) hb2 (by
          rw [tok_fixed_length] at hlen ⊢
          rw [hlb1]; exact hlen)]
        simp only [if_true]
        rw [hlb1, if_pos hvb,
          fill_spaces_tail _ 32 v.length (clean_not_mem _ hcb1) (Or.inl rfl) (by rw [hlb1]; exact hvb),
          hlb1]
        simp [tok_fixed]
    · rw [if_neg hvb] at h
      have hlb1 : (strncpy_bytes v body.length).length = body.length := strncpy_bytes_length _ _
      refine ⟨n ++ 58 :: 58 :: 32 :: (strncpy_bytes v body.length ++ [35]), ?_, ?_, ?_, ?_⟩
      · rw [← h]; simp
      · intro c hmem
        simp only [List.mem_append, List.mem_cons, List.mem_singleton, List.not_mem_nil,
          or_false] at hmem
        rcases hmem with hmem | rfl | rfl | rfl | hmem | rfl
        · exact hcn c hmem
        · decide
        · decide
        · decide
        · exact clean_strncpy_bytes v _ hcv c hmem
        · decide
      · simp only [List.length_append, List.length_cons, List.length_nil, hlb1]
        omega
      · have e4 : 36 :: ((n ++ 58 :: 58 :: 32 :: (strncpy_bytes v body.length ++ [35])) ++ [36])
            = tok_fixed n (strncpy_bytes v body.length) 35 := by
          simp [tok_fixed]
        have hb2 : strncpy_bytes v body.length ≠ [] := by
          intro hh
          have := congrArg List.length hh
          rw [hlb1] at this
          exact hb (List.length_eq_zero.mp this)
        rw [e4, fixed_rewrite T n v _ 35 true hn58 hn0 hget (Or.inr rfl) hb2 (by
          rw [tok_fixed_length] at hlen ⊢
          rw [hlb1]; exact hlen)]
        simp only [if_true]
        rw [hlb1, if_neg hvb]
        simp [tok_fixed]

/-! ## The input after a `$`, cut where the keyword buffer is closed or given up -/

/-- The bytes after a `$` are a run without `$`, CR or LF of at most `k` bytes,
followed by the end of the input, by a `$`, or by a byte at which the run
stops: a CR, a LF, or any byte when the run has `k` bytes. -/
theorem open_cases_bound : ∀ (rest : List Nat) (k : Nat), ∃ mid tail, rest = mid ++ tail
    ∧ clean mid ∧ mid.length ≤ k
    ∧ (tail = [] ∨ (∃ t, tail = 36 :: t)
      ∨ (∃ c t, tail = c :: t ∧ c ≠ 36 ∧ (mid.length = k ∨ c = 13 ∨ c = 10))) := by
  intro rest
  induction rest with
  | nil =>
    intro k
    exact ⟨[], [], rfl, by simp [clean], Nat.zero_le _, Or.inl rfl⟩
  | cons c r ih =>
    intro k
    by_cases h36 : c = 36
    · subst h36
      exact ⟨[], 36 :: r, rfl, by simp [clean], Nat.zero_le _, Or.inr (Or.inl ⟨r, rfl⟩)⟩
    · by_cases heol : c = 13 ∨ c = 10
      · exact ⟨[], c :: r, rfl, by simp [clean], Nat.zero_le _,
          Or.inr (Or.inr ⟨c, r, rfl, h36, Or.inr heol⟩)⟩
      · cases k with
        | zero =>
          exact ⟨[], c :: r, rfl, by simp [clean], Nat.zero_le _,
            Or.inr (Or.inr ⟨c, r, rfl, h36, Or.inl rfl⟩)⟩
        | succ k =>
          obtain ⟨mid, tail, hs, hc, hl, ht⟩ := ih k
          refine ⟨c :: mid, tail, by rw [hs]; rfl, ?_, by simp; omega, ?_⟩
          · intro b hb
            rcases List.mem_cons.mp hb with rfl | hb
            · exact ⟨h36, fun h => heol (Or.inl h), fun h => heol (Or.inr h)⟩
            · exact hc b hb
          · rcases ht with h | h | ⟨d, t, h1, h2, h3⟩
            · exact Or.inl h
            · exact Or.inr (Or.inl h)
            · refine Or.inr (Or.inr ⟨d, t, h1, h2, ?_⟩)
              rcases h3 with h3 | h3
              · exact Or.inl (by simp [h3])
              · exact Or.inr h3

/-- The keyword buffer after a `$` and a run without `$`, CR or LF. -/
theorem open_run (e : Option (List Nat)) (r : Bool) (T : apr_hash_t) (x : Bool)
    (dst sf mid : List Nat) (hc : clean mid) (hl : mid.length ≤ 253) :
    run_bytes (opts.mk e r (some T) x) (36 :: mid) (xlate.mk dst [] [] sf)
      = Except.ok (xlate.mk dst [] (36 :: mid) sf) := by
  conv_lhs => rw [run_bytes]
  rw [byte_step_idle _ _ 36 rfl rfl, idle_step_dollar (opts.mk e r (some T) x) _ rfl]
  simp only [List.nil_append]
  have := kw_mid (opts.mk e r (some T) x) dst sf mid [] hc (by simpa using hl)
  simpa using this

/-- The input ends inside the keyword buffer: the buffer is written as it is. -/
theorem open_end (e : Option (List Nat)) (r : Bool) (T : apr_hash_t) (x : Bool)
    (dst sf mid : List Nat) (hc : clean mid) (hl : mid.length ≤ 253) :
    run_finish (opts.mk e r (some T) x) (36 :: mid) (xlate.mk dst [] [] sf)
      = Except.ok (dst ++ 36 :: mid) := by
  unfold run_finish
  rw [open_run e r T x dst sf mid hc hl]
  exact finish_kw _ _ _ _

/-- The keyword buffer is given up at a CR, at a LF, or when it is full: it is
written as it is and the byte is read again in the boring state. -/
theorem open_abandon (e : Option (List Nat)) (r : Bool) (T : apr_hash_t) (x : Bool)
    (dst sf mid t : List Nat) (c : Nat) (hc : clean mid) (hl : mid.length ≤ 253)
    (h36 : c ≠ 36) (hf : mid.length = 253 ∨ c = 13 ∨ c = 10) :
    run_finish (opts.mk e r (some T) x) (36 :: (mid ++ c :: t)) (xlate.mk dst [] [] sf)
      = run_finish (opts.mk e r (some T) x) (c :: t) (xlate.mk (dst ++ 36 :: mid) [] [] sf) := by
  have e1 : 36 :: (mid ++ c :: t) = (36 :: mid) ++ c :: t := rfl
  rw [e1, run_finish_append _ _ _ _ _ (open_run e r T x dst sf mid hc hl)]
  unfold run_finish
  simp only [run_bytes]
  rw [byte_step_kw_abandon _ _ _ _ _ h36 hf, byte_step_idle _ _ c rfl rfl]

/-- The keyword buffer is closed by a `$` and the rewriter accepts the token:
what the rewriter leaves is written. -/
theorem open_close_true (e : Option (List Nat)) (r : Bool) (T : apr_hash_t) (x : Bool)
    (dst sf mid t out : List Nat) (hc : clean mid) (hl : mid.length ≤ 253)
    (h : translate_keyword (36 :: (mid ++ [36])) x (some T) = some (true, out)) :
    run_finish (opts.mk e r (some T) x) (36 :: (mid ++ 36 :: t)) (xlate.mk dst [] [] sf)
      = run_finish (opts.mk e r (some T) x) t (xlate.mk (dst ++ out) [] [] sf) := by
  have e1 : 36 :: (mid ++ 36 :: t) = (36 :: mid) ++ 36 :: t := rfl
  rw [e1, run_finish_append _ _ _ _ _ (open_run e r T x dst sf mid hc hl)]
  unfold run_finish
  simp only [run_bytes]
  rw [byte_step_kw_close]
  simp only [List.cons_append, h]

/-- The keyword buffer is closed by a `$` and the rewriter rejects the token:
the buffer is written without the `$`, which is read again in the boring
state. -/
theorem open_close_false (e : Option (List Nat)) (r : Bool) (T : apr_hash_t) (x : Bool)
    (dst sf mid t out : List Nat) (hc : clean mid) (hl : mid.length ≤ 253)
    (h : translate_keyword (36 :: (mid ++ [36])) x (some T) = some (false, out)) :
    run_finish (opts.mk e r (some T) x) (36 :: (mid ++ 36 :: t)) (xlate.mk dst [] [] sf)
      = run_finish (opts.mk e r (some T) x) (36 :: t) (xlate.mk (dst ++ 36 :: mid) [] [] sf) := by
  have ho := translate_keyword_false _ _ _ _ h
  subst ho
  have e1 : 36 :: (mid ++ 36 :: t) = (36 :: mid) ++ 36 :: t := rfl
  rw [e1, run_finish_append _ _ _ _ _ (open_run e r T x dst sf mid hc hl)]
  unfold run_finish
  simp only [run_bytes]
  rw [byte_step_kw_close]
  simp only [List.cons_append, h]
  have e2 : (36 :: (mid ++ [36])).take ((36 :: (mid ++ [36])).length - 1) = 36 :: mid := by
    have : (36 :: (mid ++ [36])).length - 1 = (36 :: mid).length := by simp
    rw [this]
    exact @List.take_left _ (36 :: mid) [36]
  rw [e2, byte_step_idle _ _ 36 rfl rfl]

/-! ## Translating a translation again, without `eol_str` -/

/-- A byte that is not `$`, met in the boring state without `eol_str`, is
copied. -/
theorem boring_cons (r : Bool) (T : apr_hash_t) (x : Bool) (dst sf t : List Nat) (c : Nat)
    (hc : c ≠ 36) :
    run_finish (opts.mk none r (some T) x) (c :: t) (xlate.mk dst [] [] sf)
      = run_finish (opts.mk none r (some T) x) t (xlate.mk (dst ++ [c]) [] [] sf) := by
  apply run_finish_cons
  rw [byte_step_idle _ _ c rfl rfl, idle_step_boring _ _ c (by
    rw [interesting_kw_only]
    simpa using hc)]

/-- When the rewriter leaves of every token it accepts a token that it accepts
and leaves as it is, the translation of a translation is that translation. -/
theorem idem_core (T : apr_hash_t) (x : Bool)
    (H : ∀ mid out, clean mid → mid.length ≤ 253 →
      translate_keyword (36 :: (mid ++ [36])) x (some T) = some (true, out) →
      ∃ mid1, out = 36 :: (mid1 ++ [36]) ∧ clean mid1 ∧ mid1.length ≤ 253
        ∧ translate_keyword (36 :: (mid1 ++ [36])) x (some T)
            = some (true, 36 :: (mid1 ++ [36]))) :
    ∀ (k : Nat) (S : List Nat), S.length ≤ k → ∃ W,
      (∀ r dst sf, run_finish (opts.mk none r (some T) x) S (xlate.mk dst [] [] sf)
        = Except.ok (dst ++ W))
      ∧ (∀ r dst sf, run_finish (opts.mk none r (some T) x) W (xlate.mk dst [] [] sf)
        = Except.ok (dst ++ W))
      ∧ W.head? = S.head? := by
  intro k
  induction k with
  | zero =>
    intro S hS
    have : S = [] := List.length_eq_zero.mp (Nat.le_zero.mp hS)
    subst this
    exact ⟨[], fun r dst sf => by rw [run_finish_nil, finish_idle]; simp,
      fun r dst sf => by rw [run_finish_nil, finish_idle]; simp, rfl⟩
  | succ k ih =>
    intro S hS
    cases S with
    | nil =>
      exact ⟨[], fun r dst sf => by rw [run_finish_nil, finish_idle]; simp,
        fun r dst sf => by rw [run_finish_nil, finish_idle]; simp, rfl⟩
    | cons c rest =>
      simp only [List.length_cons] at hS
      by_cases hc : c = 36
      · subst hc
        obtain ⟨mid, tail, hs, hcl, hl, hcase⟩ := open_cases_bound rest 253
        subst hs
        simp only [List.length_append] at hS
        rcases hcase with rfl | ⟨t, rfl⟩ | ⟨c, t, rfl, hc36, hf⟩
        · refine ⟨36 :: mid, fun r dst sf => ?_, fun r dst sf => ?_, by simp⟩
          · rw [List.append_nil]; exact open_end none r T x dst sf mid hcl hl
          · exact open_end none r T x dst sf mid hcl hl
        · simp only [List.length_cons] at hS
          obtain ⟨b, out, hb⟩ := translate_keyword_kb mid x (some T) hl
          simp only [List.cons_append] at hb
          cases b with
          | true =>
            obtain ⟨mid1, ho, hcl1, hl1, hst⟩ := H mid out hcl hl hb
            obtain ⟨W1, h1, h2, _⟩ := ih t (by omega)
            refine ⟨out ++ W1, fun r dst sf => ?_, fun r dst sf => ?_, by rw [ho]; simp⟩
            · rw [open_close_true none r T x dst sf mid t out hcl hl hb, h1]
              simp
            · have e : out ++ W1 = 36 :: (mid1 ++ 36 :: W1) := by rw [ho]; simp
              rw [e, open_close_true none r T x dst sf mid1 W1 _ hcl1 hl1 hst, h2]
              simp
          | false =>
            obtain ⟨W1, h1, h2, h3⟩ := ih (36 :: t) (by simp; omega)
            obtain ⟨W2, rfl⟩ : ∃ W2, W1 = 36 :: W2 := by
              cases W1 with
              | nil => simp at h3
              | cons a W2 =>
                simp only [List.head?_cons, Option.some.injEq] at h3
                exact ⟨W2, by rw [h3]⟩
            refine ⟨36 :: (mid ++ 36 :: W2), fun r dst sf => ?_, fun r dst sf => ?_, by simp⟩
            · rw [open_close_false none r T x dst sf mid t out hcl hl hb, h1]
              simp
            · rw [open_close_false none r T x dst sf mid W2 out hcl hl hb, h2]
              simp
        · simp only [List.length_cons] at hS
          obtain ⟨W1, h1, h2, h3⟩ := ih (c :: t) (by simp; omega)
          obtain ⟨W2, rfl⟩ : ∃ W2, W1 = c :: W2 := by
            cases W1 with
            | nil => simp at h3
            | cons a W2 =>
              simp only [List.head?_cons, Option.some.injEq] at h3
              exact ⟨W2, by rw [h3]⟩
          refine ⟨36 :: (mid ++ c :: W2), fun r dst sf => ?_, fun r dst sf => ?_, by simp⟩
          · rw [open_abandon none r T x dst sf mid t c hcl hl hc36 hf, h1]
            simp
          · rw [open_abandon none r T x dst sf mid W2 c hcl hl hc36 hf, h2]
            simp
      · obtain ⟨W1, h1, h2, _⟩ := ih rest (by omega)
        refine ⟨c :: W1, fun r dst sf => ?_, fun r dst sf => ?_, by simp⟩
        · rw [boring_cons r T x dst sf rest c hc, h1]
          simp
        · rw [boring_cons r T x dst sf W1 c hc, h2]
          simp

/-- Claim C36.  Contraction is idempotent on whole streams: for every input
`S` and every table `T`, with `eol_str` NULL and `expand` false (any chunk size
and either value of `repair` in each of the two translations),
`svn_subst_translate_stream3` returns an output `W`, and the translation of `W`
with the same table returns the same bytes `W`. -/
theorem C36_contract_idempotent (chunk chunk2 : Nat) (hchunk : 1 ≤ chunk) (hchunk2 : 1 ≤ chunk2)
    (S : List Nat) (T : apr_hash_t) (r r2 : Bool) :
    ∃ W, svn_subst_translate_stream3 chunk S none r (some T) false = Except.ok W
      ∧ svn_subst_translate_stream3 chunk2 W none r2 (some T) false = Except.ok W := by
  obtain ⟨W, h1, h2, _⟩ := idem_core T false (contract_stable T) S.length S (le_refl _)
  refine ⟨W, ?_, ?_⟩
  · rw [stream3_eq_bytes chunk hchunk]
    unfold translate_bytes
    simp only [Option.isSome_some, or_true, not_true_eq_false, if_false]
    rw [h1]
    simp
  · rw [stream3_eq_bytes chunk2 hchunk2]
    unfold translate_bytes
    simp only [Option.isSome_some, or_true, not_true_eq_false, if_false]
    rw [h2]
    simp

/-- C36, witness: an input with an expanded token, a fixed-width token and a
token whose name is not in the table, read in chunks of 4 and of 7 bytes. -/
theorem C36_contract_idempotent_witness :
    svn_subst_translate_stream3 4 (bytes "a $Rev: 42 $ $Id:: xy $ $No: 1 $") none false
        (some [(bytes "Rev", bytes "42"), (bytes "Id", bytes "f")]) false
      = Except.ok (bytes "a $Rev$ $Id::    $ $No: 1 $")
    ∧ ∃ W, svn_subst_translate_stream3 4 (bytes "a $Rev: 42 $ $Id:: xy $ $No: 1 $") none false
          (some [(bytes "Rev", bytes "42"), (bytes "Id", bytes "f")]) false = Except.ok W
        ∧ svn_subst_translate_stream3 7 W none true
          (some [(bytes "Rev", bytes "42"), (bytes "Id", bytes "f")]) false = Except.ok W :=
  ⟨by decide, C36_contract_idempotent 4 7 (by decide) (by decide) _ _ false true⟩

/-- Claim C37 (as the code has it).  Expansion is idempotent on whole streams
when the values have no `$`, CR or LF byte: for every input `S` and every table
`T` whose values contain no `$`, CR or LF byte and satisfy
5 + |name| + |value| ≤ 255, with `eol_str` NULL and `expand` true (any chunk
size and either value of `repair` in each of the two translations),
`svn_subst_translate_stream3` returns an output `W`, and the translation of `W`
with the same table returns the same bytes `W`. -/
theorem C37_expand_idempotent (chunk chunk2 : Nat) (hchunk : 1 ≤ chunk) (hchunk2 : 1 ≤ chunk2)
    (S : List Nat) (T : apr_hash_t) (r r2 : Bool)
    (hT : ∀ n v, apr_hash_get T n = some v →
      (∀ b ∈ v, b ≠ 36 ∧ b ≠ 13 ∧ b ≠ 10) ∧ 5 + n.length + v.length ≤ 255) :
    ∃ W, svn_subst_translate_stream3 chunk S none r (some T) true = Except.ok W
      ∧ svn_subst_translate_stream3 chunk2 W none r2 (some T) true = Except.ok W := by
  obtain ⟨W, h1, h2, _⟩ := idem_core T true (expand_stable T hT) S.length S (le_refl _)
  refine ⟨W, ?_, ?_⟩
  · rw [stream3_eq_bytes chunk hchunk]
    unfold translate_bytes
    simp only [Option.isSome_some, or_true, not_true_eq_false, if_false]
    rw [h1]
    simp
  · rw [stream3_eq_bytes chunk2 hchunk2]
    unfold translate_bytes
    simp only [Option.isSome_some, or_true, not_true_eq_false, if_false]
    rw [h2]
    simp

/-- The one entry of a table with one entry. -/
theorem hash_get_single (k v n w : List Nat) (h : apr_hash_get [(k, v)] n = some w) :
    n = k ∧ w = v := by
  simp only [apr_hash_get] at h
  split at h
  · rename_i hk
    simp only [Option.some.injEq] at h
    exact ⟨hk.symm, h.symm⟩
  · simp at h

/-- The values of a table with two entries. -/
theorem hash_get_pair (k1 v1 k2 v2 n w : List Nat)
    (h : apr_hash_get [(k1, v1), (k2, v2)] n = some w) :
    (n = k1 ∧ w = v1) ∨ (n = k2 ∧ w = v2) := by
  simp only [apr_hash_get] at h
  split at h
  · rename_i hk
    simp only [Option.some.injEq] at h
    exact Or.inl ⟨hk.symm, h.symm⟩
  · split at h
    · rename_i hk
      simp only [Option.some.injEq] at h
      exact Or.inr ⟨hk.symm, h.symm⟩
    · simp at h

/-- C37, witness: an input with a bare token, an expanded token, a fixed-width
token and a token whose name is not in the table, read in chunks of 4 and of 7
bytes. -/
theorem C37_expand_idempotent_witness :
    svn_subst_translate_stream3 4 (bytes "a $Rev$ $Rev: 1 $ $Id:: xy $ $No$") none false
        (some [(bytes "Rev", bytes "42"), (bytes "Id", bytes "f")]) true
      = Except.ok (bytes "a $Rev: 42 $ $Rev: 42 $ $Id:: f  $ $No$")
    ∧ ∃ W, svn_subst_translate_stream3 4 (bytes "a $Rev$ $Rev: 1 $ $Id:: xy $ $No$") none false
          (some [(bytes "Rev", bytes "42"), (bytes "Id", bytes "f")]) true = Except.ok W
        ∧ svn_subst_translate_stream3 7 W none true
          (some [(bytes "Rev", bytes "42"), (bytes "Id", bytes "f")]) true = Except.ok W :=
  ⟨by decide, C37_expand_idempotent 4 7 (by decide) (by decide) _ _ false true (by
    intro n v h
    rcases hash_get_pair _ _ _ _ n v h with ⟨rfl, rfl⟩ | ⟨rfl, rfl⟩ <;> decide)⟩

/-- C37, counterexample: the value of `Rev` has no `$` and fits, but it has a
LF.  The first translation of `$Rev$Rev$` expands the first token and leaves
`Rev$`; in the second translation the LF of the value ends the token that the
first has written, and the `$` after the value opens the token `$Rev$`, which
is expanded: the second translation is not the first. -/
theorem C37_expand_idempotent_counterexample :
    (∀ n v, apr_hash_get [(bytes "Rev", bytes "a\nb")] n = some v →
      36 ∉ v ∧ 5 + n.length + v.length ≤ 255)
    ∧ svn_subst_translate_stream3 16 (bytes "$Rev$Rev$") none false
        (some [(bytes "Rev", bytes "a\nb")]) true = Except.ok (bytes "$Rev: a\nb $Rev$")
    ∧ svn_subst_translate_stream3 16 (bytes "$Rev: a\nb $Rev$") none false
        (some [(bytes "Rev", bytes "a\nb")]) true
      = Except.ok (bytes "$Rev: a\nb $Rev: a\nb $")
    ∧ bytes "$Rev: a\nb $Rev: a\nb $" ≠ bytes "$Rev: a\nb $Rev$" := by
  refine ⟨?_, by decide, by decide, by decide⟩
  intro n v h
  obtain ⟨rfl, rfl⟩ := hash_get_single _ _ _ _ h
  decide

/-! ## The boring state with `eol_str` set, byte by byte -/

/-- A byte that is neither CR nor LF, and is not `$` when there is a table, is
copied. -/
theorem eol_other (E : List Nat) (r : Bool) (kw : Option apr_hash_t) (x : Bool)
    (dst sf t : List Nat) (c : Nat)
    (hsf : sf = [] ∨ sf = [10] ∨ sf = [13] ∨ sf = [13, 10])
    (h13 : c ≠ 13) (h10 : c ≠ 10) (h36 : c ≠ 36 ∨ kw.isSome = false) :
    run_finish (opts.mk (some E) r kw x) (c :: t) (xlate.mk dst [] [] sf)
      = run_finish (opts.mk (some E) r kw x) t (xlate.mk (dst ++ [c]) [] [] sf) := by
  apply run_finish_cons
  rw [byte_step_idle _ _ c rfl rfl]
  rcases idle_step_cases (some E) kw x dst sf c (Or.inl rfl) hsf with
    ⟨h, hk, _⟩ | ⟨h, _⟩ | ⟨h, _⟩ | ⟨_, _, _, h⟩ | ⟨_, _, h⟩ | ⟨_, h, _⟩
  · rcases h36 with h36 | h36
    · exact absurd h h36
    · rw [hk] at h36; cases h36
  · exact absurd h h13
  · exact absurd h h10
  · exact h r
  · exact h r
  · cases h

/-- A LF met in the boring state. -/
theorem eol_lf (E : List Nat) (r : Bool) (kw : Option apr_hash_t) (x : Bool)
    (dst sf t : List Nat) (hsf : sf = [] ∨ sf = [10] ∨ sf = [13] ∨ sf = [13, 10]) :
    run_finish (opts.mk (some E) r kw x) (10 :: t) (xlate.mk dst [] [] sf)
      = if r = false ∧ sf ≠ [] ∧ sf ≠ [10] then Except.error (stop.inconsistent_eol dst)
        else run_finish (opts.mk (some E) r kw x) t
          (xlate.mk (dst ++ eol_out (some E)) [] [] (if sf = [] then [10] else sf)) := by
  have hstep : byte_step (opts.mk (some E) r kw x) (xlate.mk dst [] [] sf) 10
      = if r = false ∧ sf ≠ [] ∧ sf ≠ [10] then Except.error (stop.inconsistent_eol dst)
        else Except.ok (xlate.mk (dst ++ eol_out (some E)) [] [] (if sf = [] then [10] else sf)) := by
    rw [byte_step_idle _ _ 10 rfl rfl]
    rcases idle_step_cases (some E) kw x dst sf 10 (Or.inl rfl) hsf with
      ⟨h, _⟩ | ⟨h, _⟩ | ⟨_, _, h⟩ | ⟨_, _, h, _⟩ | ⟨h, _⟩ | ⟨_, h, _⟩
    · exact absurd h (by decide)
    · exact absurd h (by decide)
    · exact h r
    · exact absurd rfl h
    · exact absurd h (by decide)
    · cases h
  by_cases hbad : r = false ∧ sf ≠ [] ∧ sf ≠ [10]
  · rw [if_pos hbad] at hstep ⊢
    exact run_finish_cons_error _ _ _ _ _ hstep
  · rw [if_neg hbad] at hstep ⊢
    exact run_finish_cons _ _ _ _ _ hstep

/-- A CR met in the boring state is kept pending. -/
theorem eol_cr_pending (E : List Nat) (r : Bool) (kw : Option apr_hash_t) (x : Bool)
    (dst sf t : List Nat) (hsf : sf = [] ∨ sf = [10] ∨ sf = [13] ∨ sf = [13, 10]) :
    run_finish (opts.mk (some E) r kw x) (13 :: t) (xlate.mk dst [] [] sf)
      = run_finish (opts.mk (some E) r kw x) t (xlate.mk dst [13] [] sf) := by
  apply run_finish_cons
  rw [byte_step_idle _ _ 13 rfl rfl]
  rcases idle_step_cases (some E) kw x dst sf 13 (Or.inl rfl) hsf with
    ⟨h, _⟩ | ⟨_, _, h⟩ | ⟨h, _⟩ | ⟨_, h, _⟩ | ⟨h, _⟩ | ⟨_, h, _⟩
  · exact absurd h (by decide)
  · exact h r
  · exact absurd h (by decide)
  · exact absurd rfl h
  · exact absurd h (by decide)
  · cases h

/-- A CR at the end of the input. -/
theorem eol_cr_end (E : List Nat) (r : Bool) (kw : Option apr_hash_t) (x : Bool)
    (dst sf : List Nat) (hsf : sf = [] ∨ sf = [10] ∨ sf = [13] ∨ sf = [13, 10]) :
    run_finish (opts.mk (some E) r kw x) [13] (xlate.mk dst [] [] sf)
      = if r = false ∧ sf ≠ [] ∧ sf ≠ [13] then Except.error (stop.inconsistent_eol dst)
        else Except.ok (dst ++ eol_out (some E)) := by
  rw [eol_cr_pending E r kw x dst sf [] hsf, run_finish_nil, finish_pending _ _ _ _ _ _ hsf]

/-- A CR LF pair met in the boring state. -/
theorem eol_crlf (E : List Nat) (r : Bool) (kw : Option apr_hash_t) (x : Bool)
    (dst sf t : List Nat) (hsf : sf = [] ∨ sf = [10] ∨ sf = [13] ∨ sf = [13, 10]) :
    run_finish (opts.mk (some E) r kw x) (13 :: 10 :: t) (xlate.mk dst [] [] sf)
      = if r = false ∧ sf ≠ [] ∧ sf ≠ [13, 10] then Except.error (stop.inconsistent_eol dst)
        else run_finish (opts.mk (some E) r kw x) t
          (xlate.mk (dst ++ eol_out (some E)) [] [] (if sf = [] then [13, 10] else sf)) := by
  rw [eol_cr_pending E r kw x dst sf _ hsf]
  have hstep := byte_step_pending (some E) r kw x dst sf 10 hsf
  rw [if_pos rfl] at hstep
  by_cases hbad : r = false ∧ sf ≠ [] ∧ sf ≠ [13, 10]
  · rw [if_pos hbad] at hstep ⊢
    exact run_finish_cons_error _ _ _ _ _ hstep
  · rw [if_neg hbad] at hstep ⊢
    exact run_finish_cons _ _ _ _ _ hstep

/-- A CR followed by a byte that is not LF: the CR is a line terminator and the
byte is read in the boring state. -/
theorem eol_cr (E : List Nat) (r : Bool) (kw : Option apr_hash_t) (x : Bool)
    (dst sf t : List Nat) (c : Nat) (hc : c ≠ 10)
    (hsf : sf = [] ∨ sf = [10] ∨ sf = [13] ∨ sf = [13, 10]) :
    run_finish (opts.mk (some E) r kw x) (13 :: c :: t) (xlate.mk dst [] [] sf)
      = if r = false ∧ sf ≠ [] ∧ sf ≠ [13] then Except.error (stop.inconsistent_eol dst)
        else run_finish (opts.mk (some E) r kw x) (c :: t)
          (xlate.mk (dst ++ eol_out (some E)) [] [] (if sf = [] then [13] else sf)) := by
  rw [eol_cr_pending E r kw x dst sf _ hsf]
  have hstep := byte_step_pending (some E) r kw x dst sf c hsf
  rw [if_neg hc] at hstep
  by_cases hbad : r = false ∧ sf ≠ [] ∧ sf ≠ [13]
  · rw [if_pos hbad] at hstep ⊢
    exact run_finish_cons_error _ _ _ _ _ hstep
  · rw [if_neg hbad] at hstep ⊢
    unfold run_finish
    simp only [run_bytes]
    rw [hstep, byte_step_idle _ _ c rfl rfl]

theorem normalize_eol_clean_append (E : List Nat) :
    ∀ (A B : List Nat), (∀ b ∈ A, b ≠ 13 ∧ b ≠ 10) →
      normalize_eol E (A ++ B) = A ++ normalize_eol E B := by
  intro A
  induction A with
  | nil => intro B _; rfl
  | cons a rest ih =>
    intro B h
    have ha := h a (List.mem_cons_self _ _)
    rw [List.cons_append, normalize_eol_other E _ a ha.1 ha.2,
      ih B (fun b hb => h b (List.mem_cons_of_mem _ hb))]
    rfl

theorem eol_out_some (E : List Nat) (h0 : 0 ∉ E) : eol_out (some E) = E := by
  unfold eol_out
  simp only [Option.getD_some]
  exact take_strlen E h0

theorem valid_lf (sf : List Nat) (hsf : sf = [] ∨ sf = [10] ∨ sf = [13] ∨ sf = [13, 10]) :
    (if sf = [] then [10] else sf) = [] ∨ (if sf = [] then [10] else sf) = [10]
      ∨ (if sf = [] then [10] else sf) = [13] ∨ (if sf = [] then [10] else sf) = [13, 10] :=
  kind_bytes_valid eol_kind.LF sf hsf

theorem valid_cr (sf : List Nat) (hsf : sf = [] ∨ sf = [10] ∨ sf = [13] ∨ sf = [13, 10]) :
    (if sf = [] then [13] else sf) = [] ∨ (if sf = [] then [13] else sf) = [10]
      ∨ (if sf = [] then [13] else sf) = [13] ∨ (if sf = [] then [13] else sf) = [13, 10] :=
  kind_bytes_valid eol_kind.CR sf hsf

theorem valid_crlf (sf : List Nat) (hsf : sf = [] ∨ sf = [10] ∨ sf = [13] ∨ sf = [13, 10]) :
    (if sf = [] then [13, 10] else sf) = [] ∨ (if sf = [] then [13, 10] else sf) = [10]
      ∨ (if sf = [] then [13, 10] else sf) = [13]
      ∨ (if sf = [] then [13, 10] else sf) = [13, 10] :=
  kind_bytes_valid eol_kind.CRLF sf hsf

/-! ## The first byte that the rewriter leaves -/

theorem starts_take (a : Nat) (l : List Nat) (k : Nat) (h : ∃ r, l = a :: r) (hk : 1 ≤ k) :
    ∃ r, l.take k = a :: r := by
  obtain ⟨r, rfl⟩ := h
  obtain ⟨j, rfl⟩ : ∃ j, k = j + 1 := ⟨k - 1, by omega⟩
  exact ⟨r.take j, rfl⟩

theorem starts_append (a : Nat) (l m : List Nat) (h : ∃ r, l = a :: r) :
    ∃ r, l ++ m = a :: r := by
  obtain ⟨r, rfl⟩ := h
  exact ⟨r ++ m, rfl⟩

theorem starts_write_at (a : Nat) (buf bs : List Nat) (off : Nat) (h : ∃ r, buf = a :: r)
    (hk : 1 ≤ off) : ∃ r, write_at buf off bs = a :: r := by
  unfold write_at
  exact starts_append a _ _ (starts_append a _ _ (starts_append a _ _ (starts_take a buf off h hk)))

theorem starts_expand_at (a : Nat) (buf v : List Nat) (p kl : Nat) (h : ∃ r, buf = a :: r)
    (hp : 1 ≤ p) : ∃ r, expand_at buf p kl v = a :: r := by
  unfold expand_at
  simp only []
  have h1 := starts_write_at a _ [32] (p + 1) (starts_write_at a buf [58] p h hp) (by omega)
  split
  · exact starts_take a _ _ (starts_write_at a _ [36] _ (starts_write_at a _ [32] _
      (starts_write_at a _ _ (p + 2) h1 (by omega)) (by omega)) (by omega)) (by omega)
  · exact starts_take a _ _ (starts_write_at a _ [36] _ h1 (by omega)) (by omega)

/-- What `translate_keyword_subst` leaves in the buffer starts with the `$` of
the token. -/
theorem translate_keyword_subst_head (buf keyword : List Nat) (value : Option (List Nat))
    (b : Bool) (out : List Nat) (hbuf : ∃ r, buf = 36 :: r)
    (h : translate_keyword_subst buf keyword value = some (b, out)) : ∃ r, out = 36 :: r := by
  unfold translate_keyword_subst at h
  simp only [] at h
  repeat' (split at h)
  all_goals first
    | (cases h; exact hbuf)
    | (simp at h; done)
    | (cases h
       exact starts_append 36 _ _ (starts_take 36 _ _ hbuf (by omega)))
    | (cases h
       exact starts_append 36 _ _ (starts_take 36 _ _
         (starts_write_at 36 _ _ _ hbuf (by omega)) (by omega)))
    | (cases h
       exact starts_write_at 36 _ _ _ (starts_write_at 36 _ _ _
         (starts_write_at 36 _ _ _ hbuf (by omega)) (by omega)) (by omega))
    | (cases h
       exact starts_expand_at 36 _ _ _ _ hbuf (by omega))
    | (cases h
       exact starts_take 36 _ _ (starts_write_at 36 _ _ _ hbuf (by omega)) (by omega))

/-- What `translate_keyword` leaves in the buffer starts with the `$` of the
token. -/
theorem translate_keyword_head (buf : List Nat) (x : Bool) (kw : Option apr_hash_t)
    (b : Bool) (out : List Nat) (hbuf : ∃ r, buf = 36 :: r)
    (h : translate_keyword buf x kw = some (b, out)) : ∃ r, out = 36 :: r := by
  unfold translate_keyword at h
  simp only [] at h
  repeat' (split at h)
  all_goals first
    | (cases h; exact hbuf)
    | (simp at h)
    | exact translate_keyword_subst_head _ _ _ b out hbuf h

/-! ## One pass with `eol_str` and a table, and two passes -/

theorem head_cons_of (W : List Nat) (c : Nat) (h : W.head? = some c) : ∃ W2, W = c :: W2 := by
  cases W with
  | nil => simp at h
  | cons a W2 =>
    simp only [List.head?_cons, Option.some.injEq] at h
    exact ⟨W2, by rw [h]⟩

/-- With values that have no CR or LF: the translation `W` of an input with
the table alone, and the translation of the input with the table and `eol_str`,
which is the reference replacement on `W`. -/
theorem two_pass_core (T : apr_hash_t) (x : Bool) (E : List Nat) (h0 : 0 ∉ E)
    (hT : ∀ n v, apr_hash_get T n = some v → ∀ b ∈ v, b ≠ 13 ∧ b ≠ 10) :
    ∀ (k : Nat) (S : List Nat), S.length ≤ k → ∃ W,
      (∀ r dst sf, run_finish (opts.mk none r (some T) x) S (xlate.mk dst [] [] sf)
        = Except.ok (dst ++ W))
      ∧ (∀ dst sf, (sf = [] ∨ sf = [10] ∨ sf = [13] ∨ sf = [13, 10]) →
          run_finish (opts.mk (some E) true (some T) x) S (xlate.mk dst [] [] sf)
            = Except.ok (dst ++ normalize_eol E W))
      ∧ W.head? = S.head? := by
  have hnb : ∀ sf : List Nat, ¬ (true = false ∧ sf ≠ [] ∧ sf ≠ [10]) := fun _ h => by simp at h
  have hnc : ∀ sf : List Nat, ¬ (true = false ∧ sf ≠ [] ∧ sf ≠ [13]) := fun _ h => by simp at h
  have hncl : ∀ sf : List Nat, ¬ (true = false ∧ sf ≠ [] ∧ sf ≠ [13, 10]) :=
    fun _ h => by simp at h
  have hnil : ∃ W : List Nat,
      (∀ r dst sf, run_finish (opts.mk none r (some T) x) [] (xlate.mk dst [] [] sf)
        = Except.ok (dst ++ W))
      ∧ (∀ dst sf, (sf = [] ∨ sf = [10] ∨ sf = [13] ∨ sf = [13, 10]) →
          run_finish (opts.mk (some E) true (some T) x) [] (xlate.mk dst [] [] sf)
            = Except.ok (dst ++ normalize_eol E W))
      ∧ W.head? = ([] : List Nat).head? :=
    ⟨[], fun r dst sf => by rw [run_finish_nil, finish_idle]; simp,
      fun dst sf _ => by rw [run_finish_nil, finish_idle]; simp [normalize_eol], rfl⟩
  intro k
  induction k with
  | zero =>
    intro S hS
    have : S = [] := List.length_eq_zero.mp (Nat.le_zero.mp hS)
    subst this
    exact hnil
  | succ k ih =>
    intro S hS
    cases S with
    | nil => exact hnil
    | cons c rest =>
      simp only [List.length_cons] at hS
      by_cases hc : c = 36
      · subst hc
        obtain ⟨mid, tail, hs, hcl, hl, hcase⟩ := open_cases_bound rest 253
        subst hs
        simp only [List.length_append] at hS
        have hmid : ∀ b ∈ 36 :: mid, b ≠ 13 ∧ b ≠ 10 := by
          intro b hb
          rcases List.mem_cons.mp hb with rfl | hb
          · decide
          · exact (hcl b hb).2
        rcases hcase with rfl | ⟨t, rfl⟩ | ⟨c, t, rfl, hc36, hf⟩
        · refine ⟨36 :: mid, fun r dst sf => ?_, fun dst sf _ => ?_, by simp⟩
          · rw [List.append_nil]; exact open_end none r T x dst sf mid hcl hl
          · rw [List.append_nil, open_end (some E) true T x dst sf mid hcl hl]
            have := normalize_eol_clean_append E (36 :: mid) [] hmid
            simp only [List.append_nil] at this
            rw [this]
            simp [normalize_eol]
        · simp only [List.length_cons] at hS
          obtain ⟨b, out, hb⟩ := translate_keyword_kb mid x (some T) hl
          simp only [List.cons_append] at hb
          cases b with
          | true =>
            have hout : ∀ b ∈ out, b ≠ 13 ∧ b ≠ 10 :=
              translate_keyword_all (fun b => b ≠ 13 ∧ b ≠ 10) (by decide) (by decide)
                (by decide) (by decide) (by decide) _ x T true out (by
                  intro b hb
                  rcases List.mem_cons.mp hb with rfl | hb
                  · decide
                  · rcases List.mem_append.mp hb with hb | hb
                    · exact (hcl b hb).2
                    · simp only [List.mem_singleton] at hb
                      subst hb
                      decide) hT hb
            obtain ⟨W1, h1, h2, _⟩ := ih t (by omega)
            obtain ⟨o2, ho⟩ := translate_keyword_head _ x (some T) true out ⟨_, rfl⟩ hb
            refine ⟨out ++ W1, fun r dst sf => ?_, fun dst sf hsf => ?_, ?_⟩
            · rw [open_close_true none r T x dst sf mid t out hcl hl hb, h1]
              simp
            · rw [open_close_true (some E) true T x dst sf mid t out hcl hl hb, h2 _ _ hsf,
                normalize_eol_clean_append E out W1 hout]
              simp
            · rw [ho]
              simp
          | false =>
            obtain ⟨W1, h1, h2, _⟩ := ih (36 :: t) (by simp; omega)
            refine ⟨36 :: (mid ++ W1), fun r dst sf => ?_, fun dst sf hsf => ?_, by simp⟩
            · rw [open_close_false none r T x dst sf mid t out hcl hl hb, h1]
              simp
            · rw [open_close_false (some E) true T x dst sf mid t out hcl hl hb, h2 _ _ hsf]
              have := normalize_eol_clean_append E (36 :: mid) W1 hmid
              simp only [List.cons_append] at this
              rw [this]
              simp
        · simp only [List.length_cons] at hS
          obtain ⟨W1, h1, h2, _⟩ := ih (c :: t) (by simp; omega)
          refine ⟨36 :: (mid ++ W1), fun r dst sf => ?_, fun dst sf hsf => ?_, by simp⟩
          · rw [open_abandon none r T x dst sf mid t c hcl hl hc36 hf, h1]
            simp
          · rw [open_abandon (some E) true T x dst sf mid t c hcl hl hc36 hf, h2 _ _ hsf]
            have := normalize_eol_clean_append E (36 :: mid) W1 hmid
            simp only [List.cons_append] at this
            rw [this]
            simp
      · by_cases h10 : c = 10
        · subst h10
          obtain ⟨W1, h1, h2, _⟩ := ih rest (by omega)
          refine ⟨10 :: W1, fun r dst sf => ?_, fun dst sf hsf => ?_, by simp⟩
          · rw [boring_cons r T x dst sf rest 10 hc, h1]
            simp
          · rw [eol_lf E true (some T) x dst sf rest hsf, if_neg (hnb sf),
              h2 _ _ (valid_lf sf hsf), eol_out_some E h0,
              normalize_eol_lf]
            simp
        · by_cases h13 : c = 13
          · subst h13
            cases rest with
            | nil =>
              refine ⟨[13], fun r dst sf => ?_, fun dst sf hsf => ?_, by simp⟩
              · rw [boring_cons r T x dst sf [] 13 hc, run_finish_nil, finish_idle]
              · rw [eol_cr_end E true (some T) x dst sf hsf, if_neg (hnc sf),
                  eol_out_some E h0, normalize_eol_cr_end]
            | cons d rest2 =>
              simp only [List.length_cons] at hS
              by_cases hd : d = 10
              · subst hd
                obtain ⟨W1, h1, h2, _⟩ := ih rest2 (by omega)
                refine ⟨13 :: 10 :: W1, fun r dst sf => ?_, fun dst sf hsf => ?_, by simp⟩
                · rw [boring_cons r T x dst sf _ 13 hc,
                    boring_cons r T x _ sf rest2 10 (by decide), h1]
                  simp
                · rw [eol_crlf E true (some T) x dst sf rest2 hsf, if_neg (hncl sf),
                    h2 _ _ (valid_crlf sf hsf), eol_out_some E h0,
                    normalize_eol_crlf]
                  simp
              · obtain ⟨W1, h1, h2, h3⟩ := ih (d :: rest2) (by simp; omega)
                obtain ⟨W2, rfl⟩ := head_cons_of W1 d (by simpa using h3)
                refine ⟨13 :: d :: W2, fun r dst sf => ?_, fun dst sf hsf => ?_, by simp⟩
                · rw [boring_cons r T x dst sf _ 13 hc, h1]
                  simp
                · rw [eol_cr E true (some T) x dst sf rest2 d hd hsf, if_neg (hnc sf),
                    h2 _ _ (valid_cr sf hsf), eol_out_some E h0,
                    normalize_eol_cr E W2 d hd]
                  simp
          · obtain ⟨W1, h1, h2, _⟩ := ih rest (by omega)
            refine ⟨c :: W1, fun r dst sf => ?_, fun dst sf hsf => ?_, by simp⟩
            · rw [boring_cons r T x dst sf rest c hc, h1]
              simp
            · rw [eol_other E true (some T) x dst sf rest c hsf h13 h10 (Or.inl hc),
                h2 _ _ hsf, normalize_eol_other E W1 c h13 h10]
              simp

/-- Claim C35.  The single pass equals two separate passes: for every input
`S`, either direction, every `eol_str` `E` among LF, CR and CR LF, `repair`
set, and every table `T` whose values contain no CR or LF and satisfy
5 + |name| + |value| ≤ 255 (chunks of any size in each translation), the
translation of `S` with the table alone (`eol_str` NULL) returns an output `W`,
the translation of `W` with `E` alone (no table) returns an output, and the
translation of `S` with both `E` and `T` returns that same output. -/
theorem C35_single_pass (chunk chunk2 chunk3 : Nat) (hchunk : 1 ≤ chunk) (hchunk2 : 1 ≤ chunk2)
    (hchunk3 : 1 ≤ chunk3) (S E : List Nat) (T : apr_hash_t) (x x2 r : Bool)
    (hE : E = [10] ∨ E = [13] ∨ E = [13, 10])
    (hT : ∀ n v, apr_hash_get T n = some v →
      (∀ b ∈ v, b ≠ 13 ∧ b ≠ 10) ∧ 5 + n.length + v.length ≤ 255) :
    ∃ W out, svn_subst_translate_stream3 chunk S none r (some T) x = Except.ok W
      ∧ svn_subst_translate_stream3 chunk2 W (some E) true none x2 = Except.ok out
      ∧ svn_subst_translate_stream3 chunk3 S (some E) true (some T) x = Except.ok out := by
  have h0 : 0 ∉ E := by
    rcases hE with rfl | rfl | rfl <;> decide
  obtain ⟨W, h1, h2, _⟩ := two_pass_core T x E h0 (fun n v h => (hT n v h).1) S.length S (le_refl _)
  refine ⟨W, normalize_eol E W, ?_, ?_, ?_⟩
  · rw [stream3_eq_bytes chunk hchunk]
    unfold translate_bytes
    simp only [Option.isSome_some, or_true, not_true_eq_false, if_false]
    rw [h1]
    simp
  · rw [stream3_eq_bytes chunk2 hchunk2]
    unfold translate_bytes
    simp only [Option.isSome_some, true_or, not_true_eq_false, if_false]
    have := eol_run E h0 x2 W [] [] [] (Or.inl rfl)
    simpa using this
  · rw [stream3_eq_bytes chunk3 hchunk3]
    unfold translate_bytes
    simp only [Option.isSome_some, true_or, not_true_eq_false, if_false]
    rw [h2 [] [] (Or.inl rfl)]
    simp

/-- C35, witness: an input with a CR LF pair, a lone CR, a lone LF, a bare
token, a fixed-width token and a token cut by a line end, CR LF as `eol_str`,
read in chunks of 4, 5 and 3 bytes. -/
theorem C35_single_pass_witness :
    svn_subst_translate_stream3 3 (bytes "a\r\n$Rev$\rb\n$Id:: x $ $Re\nv$") (some (bytes "\r\n"))
        true (some [(bytes "Rev", bytes "42"), (bytes "Id", bytes "f g")]) true
      = Except.ok (bytes "a\r\n$Rev: 42 $\r\nb\r\n$Id:: f#$ $Re\r\nv$")
    ∧ ∃ W out, svn_subst_translate_stream3 4 (bytes "a\r\n$Rev$\rb\n$Id:: x $ $Re\nv$") none
          true (some [(bytes "Rev", bytes "42"), (bytes "Id", bytes "f g")]) true = Except.ok W
        ∧ svn_subst_translate_stream3 5 W (some (bytes "\r\n")) true none false = Except.ok out
        ∧ svn_subst_translate_stream3 3 (bytes "a\r\n$Rev$\rb\n$Id:: x $ $Re\nv$")
            (some (bytes "\r\n")) true
            (some [(bytes "Rev", bytes "42"), (bytes "Id", bytes "f g")]) true = Except.ok out :=
  ⟨by decide, C35_single_pass 4 5 3 (by decide) (by decide) (by decide) _ _ _ true false true
    (by decide) (by
      intro n v h
      rcases hash_get_pair _ _ _ _ n v h with ⟨rfl, rfl⟩ | ⟨rfl, rfl⟩ <;> decide)⟩

/-! ## The input before the first line terminator of another kind -/

end SvnSubst
